import Mathlib

/-!
# CAMUS: hitting-set engine (MUSbuilder) and MCS enumerator (MCSfinder)

A shallow embedding of `src/camus/mus/MUSbuilder.{h,cpp}` and
`src/camus/mcs/{mcsfinder,parser}.{h,cpp}`, followed by the properties proved about it.

Conventions of the embedding.

* A `Cover` (`std::set<Num>`) is a `Finset Nat`; a `std::list<Cover>` is a `List Cover`
  (the order of the list is kept, the order inside a set is the order of the numbers).
* `ClauseAssign` is the `vector<char>` together with its two cached counters.
* The mutable members of `MUSbuilder` that the search reads or writes (`doBB`, `bbUpper`,
  `beenHere`) are threaded through the recursion as a record; the record also logs every
  argument of `outputMUS`, oldest first.
* `assert` is compiled in (`<cassert>`, no `NDEBUG` in the sources): a failed assertion ends
  the run, which the search reports as `Outcome.abort`.
* `int` counters are modelled by `Int`.  They are bounded by the number of selector positions
  and the number of covers, so no 32-bit wrap-around is modelled.
-/

namespace Camus

/-! ## Data model (MUSbuilder.h) -/

/-- A cover, `typedef std::set<Num> Cover`. -/
abbrev Cover := Finset Nat

/-- The class `ClauseAssign`: a `vector<char>` with entries `0`, `1`, `-1` and the
counters `numPos`, `numNeg`. -/
structure ClauseAssign where
  vals : List Int
  numPos : Int
  numNeg : Int
deriving DecidableEq, Repr

/-- The element `curAssign[i]`. -/
def ClauseAssign.get (a : ClauseAssign) (i : Nat) : Int := a.vals.getD i 0

/-- The assignment after `curAssign[i] = v`. -/
def ClauseAssign.put (a : ClauseAssign) (i : Nat) (v : Int) : ClauseAssign :=
  { a with vals := a.vals.set i v }

/-- The all-zero assignment made by `clauseAssignment.resize(K, 0)` in `main`. -/
def ClauseAssign.zero (K : Nat) : ClauseAssign :=
  { vals := List.replicate K 0, numPos := 0, numNeg := 0 }

/-- The element `*(cover.begin())`: the smallest number of a non-empty cover. -/
def Cover.first (c : Cover) : Nat := if h : c.Nonempty then c.min' h else 0

/-- The members of `MUSbuilder` used by the search, and the log of `outputMUS` calls. -/
structure MUSbuilder where
  doBB : Bool
  bbUpper : Int
  beenHere : List (List Int)
  out : List ClauseAssign

/-- The value of `std::numeric_limits<int>::max()`. -/
def INT_MAX : Int := 2147483647

/-- The builder as the constructor leaves it, after `setDoBB(bb)`. -/
def MUSbuilder.init (bb : Bool) : MUSbuilder :=
  { doBB := bb, bbUpper := INT_MAX, beenHere := [], out := [] }

/-- How a call of `constructMUS` ends. -/
inductive Outcome
  /-- The call returned the given value (`true` asks the caller to skip the sibling covers). -/
  | ret (skipRemaining : Bool)
  /-- An `assert` failed. -/
  | abort
  /-- The loop of `mis_quick` makes no progress and never ends. -/
  | hang
  /-- The recursion budget of the model ran out. -/
  | fuel
deriving DecidableEq, Repr

/-! ## The helpers of MUSbuilder.cpp -/

/-- The function `maintainNoSubsets`: erase every cover that is larger than `modCover` and
includes it. -/
def maintainNoSubsets (covers : List Cover) (modCover : Cover) : List Cover :=
  covers.filter (fun c => !(decide (modCover.card < c.card) && decide (modCover ⊆ c)))

/-- The first loop of `removeClauseAndCover`: erase every cover containing `clause`. -/
def eraseContaining (covers : List Cover) (clause : Nat) : List Cover :=
  covers.filter (fun c => !decide (clause ∈ c))

/-- The second loop of `removeClauseAndCover`.  `done` are the covers the iterator has passed,
the third list those still ahead of it; `maintainNoSubsets` erases on both sides.  Each step
moves the iterator past one cover, so the counter (set to the length of the list by the
caller) only bounds the recursion.  `none` is the failed `assert(!newCover.empty())`. -/
def subtractLoop (removeClauses : Cover) : Nat → List Cover → List Cover → Option (List Cover)
  | 0, done, todo => some (done ++ todo)
  | _ + 1, done, [] => some done
  | n + 1, done, c :: rest =>
    if (c \ removeClauses).card ≠ c.card then
      if c \ removeClauses = ∅ then none
      else
        subtractLoop removeClauses n
          (maintainNoSubsets done (c \ removeClauses) ++ [c \ removeClauses])
          (maintainNoSubsets rest (c \ removeClauses))
    else subtractLoop removeClauses n (done ++ [c]) rest

/-- The vector `remainingClauses` of `removeClauseAndCover`, read at position `i`. -/
def remaining (covers : List Cover) (i : Nat) : Bool := covers.any (fun c => decide (i ∈ c))

/-- The last loop of `removeClauseAndCover` on the entries from position `i` on: an undecided
position that is in no surviving cover becomes `-1`. -/
def markRemoved (covers : List Cover) : Nat → List Int → List Int
  | _, [] => []
  | i, v :: vs =>
    (if v = 0 ∧ remaining covers i = false then -1 else v) :: markRemoved covers (i + 1) vs

/-- The number of `numNeg++` executed by the last loop of `removeClauseAndCover`. -/
def countRemoved (covers : List Cover) : Nat → List Int → Int
  | _, [] => 0
  | i, v :: vs =>
    (if v = 0 ∧ remaining covers i = false then 1 else 0) + countRemoved covers (i + 1) vs

/-- The function `removeClauseAndCover(covers, curAssign, clause, cover)`; `none` when one of
its assertions fails. -/
def removeClauseAndCover (covers : List Cover) (curAssign : ClauseAssign) (clause : Nat)
    (cover : Cover) : Option (List Cover × ClauseAssign) :=
  match subtractLoop (cover.erase clause) (eraseContaining covers clause).length []
      (eraseContaining covers clause) with
  | none => none
  | some covers' =>
    if ∅ ∈ covers' then none
    else
      some (covers',
        { vals := markRemoved covers' 0 curAssign.vals
          numPos := curAssign.numPos
          numNeg := curAssign.numNeg + countRemoved covers' 0 curAssign.vals })

/-- The function `propagateSingletons`; `none` when `assert(curAssign[...] == 0)` fails. -/
def propagateSingletons : List Cover → ClauseAssign → Option (List Cover × ClauseAssign)
  | [], a => some ([], a)
  | c :: rest, a =>
    if c.card = 1 then
      if a.get c.first = 0 then
        propagateSingletons rest { a.put c.first 1 with numPos := a.numPos + 1 }
      else none
    else
      match propagateSingletons rest a with
      | none => none
      | some (cs, a') => some (c :: cs, a')

/-- The loop of `removeClause`, in the style of `subtractLoop`; `none` is `return false`. -/
def removeClauseLoop (clause : Nat) : Nat → List Cover → List Cover → Option (List Cover)
  | 0, done, todo => some (done ++ todo)
  | _ + 1, done, [] => some done
  | n + 1, done, c :: rest =>
    if clause ∈ c then
      if c.erase clause = ∅ then none
      else
        removeClauseLoop clause n
          (maintainNoSubsets done (c.erase clause) ++ [c.erase clause])
          (maintainNoSubsets rest (c.erase clause))
    else removeClauseLoop clause n (done ++ [c]) rest

/-- The function `removeClause(covers, clause, assign)`: `none` when it returns `false`,
otherwise the covers it leaves.  The assignment is not touched by the C++ body. -/
def removeClause (covers : List Cover) (clause : Nat) : Option (List Cover) :=
  removeClauseLoop clause covers.length [] covers

/-- The first loop in the body of `mis_quick`: the first cover of least size below `1<<30`
(`removeMCS` stays empty when there is none). -/
def shortest : List Cover → Nat → Cover → Cover
  | [], _, removeMCS => removeMCS
  | c :: rest, minLength, removeMCS =>
    if c.card < minLength then shortest rest c.card c else shortest rest minLength removeMCS

/-- The `while` loop of `mis_quick`, run for at most the given number of passes. -/
def misLoop : Nat → List Cover → Int → Option Int
  | 0, covers, result => if covers = [] then some result else none
  | n + 1, covers, result =>
    if covers = [] then some result
    else
      misLoop n (covers.filter (fun c => decide (c ∩ shortest covers (2 ^ 30) ∅ = ∅)))
        (result + 1)

/-- The function `mis_quick`.  A pass erases at least the cover it selected unless that cover
is empty, and then no later pass erases anything either; so `covers.length` passes decide the
loop, and `none` stands for the loop that never ends. -/
def mis_quick (covers : List Cover) : Option Int := misLoop covers.length covers 0

/-! ## constructMUS -/

/-- The loop `for (itCover ...)` inside `constructMUS`, from the iterator position given by
the fourth list on.  `rec` is the recursive call. -/
def tryCovers (rec : List Cover → ClauseAssign → MUSbuilder → Outcome × MUSbuilder)
    (covers : List Cover) (curAssign : ClauseAssign) (curClause : Nat) :
    List Cover → MUSbuilder → Outcome × MUSbuilder
  | [], b => (.ret false, b)
  | c :: rest, b =>
    if c = ∅ then (.abort, b)
    else if curClause ∈ c then
      match removeClauseAndCover covers curAssign curClause c with
      | none => (.abort, b)
      | some (newcovers, newcurAssign) =>
        match rec newcovers newcurAssign b with
        | (.ret true, b') => (.ret false, b')
        | (.ret false, b') => tryCovers rec covers curAssign curClause rest b'
        | (o, b') => (o, b')
    else tryCovers rec covers curAssign curClause rest b

/-- The loop `for (curClause ...)` of `constructMUS`: `k` positions are left, the next one is
`curClause`. -/
def splitLoop (rec : List Cover → ClauseAssign → MUSbuilder → Outcome × MUSbuilder) :
    Nat → Nat → List Cover → ClauseAssign → MUSbuilder → Outcome × MUSbuilder
  | 0, _, _, _, b => (.ret false, b)
  | k + 1, curClause, covers, curAssign, b =>
    if curAssign.get curClause ≠ 0 then splitLoop rec k (curClause + 1) covers curAssign b
    else
      match tryCovers rec covers { curAssign.put curClause 1 with numPos := curAssign.numPos + 1 }
          curClause covers b with
      | (.ret _, b') =>
        match removeClause covers curClause with
        | none => (.ret false, b')
        | some covers' =>
          splitLoop rec k (curClause + 1) covers'
            { curAssign.put curClause (-1) with numNeg := curAssign.numNeg + 1 } b'
      | (o, b') => (o, b')

/-- The test `curAssign.numPos + mis_quick(covers) >= bbUpper` under `if (doBB)`:
`some true` when the bound is hit, `none` when `mis_quick` does not return. -/
def boundHit (b : MUSbuilder) (covers : List Cover) (curAssign : ClauseAssign) : Option Bool :=
  if b.doBB then
    match mis_quick covers with
    | none => none
    | some m => some (decide (curAssign.numPos + m ≥ b.bbUpper))
  else some false

/-- The method `constructMUS(covers, curAssign)`.  The first argument bounds the depth of the
recursion; every call passes fewer covers than it received, so a budget above the number of
covers is never used up (`constructMUS_end`). -/
def constructMUS : Nat → List Cover → ClauseAssign → MUSbuilder → Outcome × MUSbuilder
  | 0, _, _, b => (.fuel, b)
  | n + 1, covers, curAssign, b =>
    match propagateSingletons covers curAssign with
    | none => (.abort, b)
    | some (covers, curAssign) =>
      match boundHit b covers curAssign with
      | none => (.hang, b)
      | some true => (.ret true, b)
      | some false =>
        if curAssign.vals ∈ b.beenHere then (.ret false, b)
        else if covers = [] then
          (.ret false,
            { b with
              beenHere := curAssign.vals :: b.beenHere
              out := b.out ++ [curAssign]
              bbUpper := curAssign.numPos })
        else
          splitLoop (constructMUS n) curAssign.vals.length 0 covers curAssign
            { b with beenHere := curAssign.vals :: b.beenHere }

/-- The set `{ y : a[y] = +1 }` of an assignment, the positions `outputMUS` prints. -/
def ClauseAssign.pos (a : ClauseAssign) : Finset Nat :=
  (Finset.range a.vals.length).filter (fun i => a.get i = 1)

/-- The run of `main`: `constructMUS` on the all-zero assignment of length `K`, with a fresh
builder. -/
def runMUS (bb : Bool) (covers : List Cover) (K : Nat) : Outcome × MUSbuilder :=
  constructMUS (covers.length + 1) covers (ClauseAssign.zero K) (MUSbuilder.init bb)

/-- The sets emitted by a run, in order of emission. -/
def emitted (r : Outcome × MUSbuilder) : List (Finset Nat) := r.2.out.map ClauseAssign.pos

/-! ## constructMUS with a record of its working covers -/

/-- The builder together with the record of working covers: the covers passed to each
recursive call of `constructMUS` and the covers left by each `removeClause` that returned
`true`, in the order of the run. -/
abbrev Traced := MUSbuilder × List (List Cover)

/-- The loop `tryCovers`, recording the covers passed to each recursive call. -/
def tryCoversT (rec : List Cover → ClauseAssign → Traced → Outcome × Traced)
    (covers : List Cover) (curAssign : ClauseAssign) (curClause : Nat) :
    List Cover → Traced → Outcome × Traced
  | [], s => (.ret false, s)
  | c :: rest, s =>
    if c = ∅ then (.abort, s)
    else if curClause ∈ c then
      match removeClauseAndCover covers curAssign curClause c with
      | none => (.abort, s)
      | some (newcovers, newcurAssign) =>
        match rec newcovers newcurAssign (s.1, s.2 ++ [newcovers]) with
        | (.ret true, s') => (.ret false, s')
        | (.ret false, s') => tryCoversT rec covers curAssign curClause rest s'
        | (o, s') => (o, s')
    else tryCoversT rec covers curAssign curClause rest s

/-- The loop `splitLoop`, recording the covers left by each `removeClause` that returned
`true`. -/
def splitLoopT (rec : List Cover → ClauseAssign → Traced → Outcome × Traced) :
    Nat → Nat → List Cover → ClauseAssign → Traced → Outcome × Traced
  | 0, _, _, _, s => (.ret false, s)
  | k + 1, curClause, covers, curAssign, s =>
    if curAssign.get curClause ≠ 0 then splitLoopT rec k (curClause + 1) covers curAssign s
    else
      match tryCoversT rec covers
          { curAssign.put curClause 1 with numPos := curAssign.numPos + 1 }
          curClause covers s with
      | (.ret _, s') =>
        match removeClause covers curClause with
        | none => (.ret false, s')
        | some covers' =>
          splitLoopT rec k (curClause + 1) covers'
            { curAssign.put curClause (-1) with numNeg := curAssign.numNeg + 1 }
            (s'.1, s'.2 ++ [covers'])
      | (o, s') => (o, s')

/-- The method `constructMUS` with the record of its working covers; without the record it
is `constructMUS` (`constructMUST_eq`). -/
def constructMUST : Nat → List Cover → ClauseAssign → Traced → Outcome × Traced
  | 0, _, _, s => (.fuel, s)
  | n + 1, covers, curAssign, s =>
    match propagateSingletons covers curAssign with
    | none => (.abort, s)
    | some (covers, curAssign) =>
      match boundHit s.1 covers curAssign with
      | none => (.hang, s)
      | some true => (.ret true, s)
      | some false =>
        if curAssign.vals ∈ s.1.beenHere then (.ret false, s)
        else if covers = [] then
          (.ret false,
            ({ s.1 with
              beenHere := curAssign.vals :: s.1.beenHere
              out := s.1.out ++ [curAssign]
              bbUpper := curAssign.numPos }, s.2))
        else
          splitLoopT (constructMUST n) curAssign.vals.length 0 covers curAssign
            ({ s.1 with beenHere := curAssign.vals :: s.1.beenHere }, s.2)

/-! ## constructMUS with a record of its assignments -/

/-- The cached counters of the assignment agree with its vector: `numPos` is the number of
entries equal to `+1` and `numNeg` the number of entries equal to `-1`. -/
def ClauseAssign.Agrees (a : ClauseAssign) : Prop :=
  a.numPos = a.vals.count 1 ∧ a.numNeg = a.vals.count (-1)

/-- The builder together with the record of assignments: the assignment of each call after
`propagateSingletons`, the assignment after each inclusion (`curAssign[curClause] = 1;
numPos++`), the assignment passed to each recursive call, and the assignment after each
exclusion (`curAssign[curClause] = -1; numPos--; numNeg++`), in the order of the run. -/
abbrev Logged := MUSbuilder × List ClauseAssign

/-- The loop `tryCovers`, recording the assignment passed to each recursive call. -/
def tryCoversL (rec : List Cover → ClauseAssign → Logged → Outcome × Logged)
    (covers : List Cover) (curAssign : ClauseAssign) (curClause : Nat) :
    List Cover → Logged → Outcome × Logged
  | [], s => (.ret false, s)
  | c :: rest, s =>
    if c = ∅ then (.abort, s)
    else if curClause ∈ c then
      match removeClauseAndCover covers curAssign curClause c with
      | none => (.abort, s)
      | some (newcovers, newcurAssign) =>
        match rec newcovers newcurAssign (s.1, s.2 ++ [newcurAssign]) with
        | (.ret true, s') => (.ret false, s')
        | (.ret false, s') => tryCoversL rec covers curAssign curClause rest s'
        | (o, s') => (o, s')
    else tryCoversL rec covers curAssign curClause rest s

/-- The loop `splitLoop`, recording the assignment after each inclusion and after each
exclusion (the exclusion is made before `removeClause` is called). -/
def splitLoopL (rec : List Cover → ClauseAssign → Logged → Outcome × Logged) :
    Nat → Nat → List Cover → ClauseAssign → Logged → Outcome × Logged
  | 0, _, _, _, s => (.ret false, s)
  | k + 1, curClause, covers, curAssign, s =>
    if curAssign.get curClause ≠ 0 then splitLoopL rec k (curClause + 1) covers curAssign s
    else
      match tryCoversL rec covers
          { curAssign.put curClause 1 with numPos := curAssign.numPos + 1 }
          curClause covers
          (s.1, s.2 ++ [{ curAssign.put curClause 1 with numPos := curAssign.numPos + 1 }])
          with
      | (.ret _, s') =>
        match removeClause covers curClause with
        | none =>
          (.ret false,
            (s'.1,
              s'.2 ++ [{ curAssign.put curClause (-1) with numNeg := curAssign.numNeg + 1 }]))
        | some covers' =>
          splitLoopL rec k (curClause + 1) covers'
            { curAssign.put curClause (-1) with numNeg := curAssign.numNeg + 1 }
            (s'.1,
              s'.2 ++ [{ curAssign.put curClause (-1) with numNeg := curAssign.numNeg + 1 }])
      | (o, s') => (o, s')

/-- The method `constructMUS` with the record of its assignments; without the record it is
`constructMUS` (`constructMUSL_eq`). -/
def constructMUSL : Nat → List Cover → ClauseAssign → Logged → Outcome × Logged
  | 0, _, _, s => (.fuel, s)
  | n + 1, covers, curAssign, s =>
    match propagateSingletons covers curAssign with
    | none => (.abort, s)
    | some (covers, curAssign) =>
      match boundHit s.1 covers curAssign with
      | none => (.hang, (s.1, s.2 ++ [curAssign]))
      | some true => (.ret true, (s.1, s.2 ++ [curAssign]))
      | some false =>
        if curAssign.vals ∈ s.1.beenHere then (.ret false, (s.1, s.2 ++ [curAssign]))
        else if covers = [] then
          (.ret false,
            ({ s.1 with
              beenHere := curAssign.vals :: s.1.beenHere
              out := s.1.out ++ [curAssign]
              bbUpper := curAssign.numPos }, s.2 ++ [curAssign]))
        else
          splitLoopL (constructMUSL n) curAssign.vals.length 0 covers curAssign
            ({ s.1 with beenHere := curAssign.vals :: s.1.beenHere }, s.2 ++ [curAssign])

/-! ## The MUS tool (camus_mus.cpp) and the mapping helpers of MUSbuilder -/

/-- The function `parseCovers`, on the lines of the input as lists of the numbers read from
them: an empty line is skipped, a line with one distinct number adds the last number read to
`singletons`, every other line adds its set of numbers to `MUSCovers`. -/
def parseCovers : List (List Nat) → List Cover × List Nat
  | [] => ([], [])
  | line :: rest =>
    match parseCovers rest with
    | (MUSCovers, singletons) =>
      if line.toFinset.card < 1 then (MUSCovers, singletons)
      else if line.toFinset.card = 1 then (MUSCovers, line.getLastD 0 :: singletons)
      else (line.toFinset :: MUSCovers, singletons)

/-- A `ClauseMap` (`hash_map<Num,int>`) as the list of its entries. -/
abbrev ClauseMap := List (Nat × Nat)

/-- The access `map[key]` (0 for a key that is not in the map). -/
def ClauseMap.at (m : ClauseMap) (key : Nat) : Nat :=
  match m.find? (fun e => e.1 = key) with
  | some e => e.2
  | none => 0

/-- The value `clauseFrequency[x]` after the first loop of `generateMappingSorted`: the
number of covers that contain `x`. -/
def clauseFrequency (MUSCovers : List Cover) (x : Nat) : Nat :=
  (MUSCovers.filter (fun c => decide (x ∈ c))).length

/-- The keys of the `std::map` `clauseFrequency`, in the order of iteration (ascending). -/
def frequencyKeys (MUSCovers : List Cover) : List Nat :=
  (List.range (MUSCovers.foldl (fun b c => max b (c.sup id + 1)) 0)).filter
    (fun x => MUSCovers.any (fun c => decide (x ∈ c)))

/-- The call `multimap.insert(pair(k, v))`: the new entry goes after the entries whose key
is at most `k`. -/
def multimapInsert (k v : Nat) : List (Nat × Nat) → List (Nat × Nat)
  | [] => [(k, v)]
  | e :: rest => if k < e.1 then (k, v) :: e :: rest else e :: multimapInsert k v rest

/-- The multimap `frequencyToClause` of `generateMappingSorted`. -/
def frequencyToClause (MUSCovers : List Cover) : List (Nat × Nat) :=
  (frequencyKeys MUSCovers).foldl
    (fun mm x => multimapInsert (clauseFrequency MUSCovers x) x mm) []

/-- The function `generateMappingSorted`: the maps `clauseMapping` and `clauseMappingRev`. -/
def generateMappingSorted (MUSCovers : List Cover) : ClauseMap × ClauseMap :=
  (((frequencyToClause MUSCovers).map Prod.snd).zip
      (List.range (frequencyToClause MUSCovers).length),
    (List.range (frequencyToClause MUSCovers).length).zip
      ((frequencyToClause MUSCovers).map Prod.snd))

/-- The function `translateClauses`. -/
def translateClauses (MUSCovers : List Cover) (clauseMapping : ClauseMap) : List Cover :=
  MUSCovers.map (fun c => c.image clauseMapping.at)

/-- The numbers printed by `outputMUS` on one line: the singletons, then the original number
of every selected position. -/
def outputMUS (singletons : List Nat) (clauseMappingRev : ClauseMap) (curAssign : ClauseAssign) :
    List Nat :=
  singletons ++
    ((List.range curAssign.vals.length).filter (fun i => curAssign.get i = 1)).map
      clauseMappingRev.at

/-- The function `main` of the MUS tool on the lines of its input, with or without `-b`: how
the search ends and the lines printed. -/
def musMain (bb : Bool) (lines : List (List Nat)) : Outcome × List (List Nat) :=
  let MUSCovers := (parseCovers lines).1
  let singletons := (parseCovers lines).2
  let clauseMapping := (generateMappingSorted MUSCovers).1
  let clauseMappingRev := (generateMappingSorted MUSCovers).2
  let covers := translateClauses MUSCovers clauseMapping
  let r := constructMUS (covers.length + 1) covers (ClauseAssign.zero clauseMapping.length)
    (MUSbuilder.init bb)
  (r.1, r.2.out.map (outputMUS singletons clauseMappingRev))

/-! ## The SAT collaborator (Solver.h is not part of the sources; contract of spec §4.1) -/

/-- A literal: `Lit(var)` has `sign = false`, `~Lit(var)` has `sign = true`. -/
structure Lit where
  var : Nat
  sign : Bool
deriving DecidableEq, Repr

/-- The literal `Lit(v)`. -/
def Lit.mk' (v : Nat) : Lit := { var := v, sign := false }

/-- The literal `~p`. -/
def Lit.not (p : Lit) : Lit := { var := p.var, sign := !p.sign }

/-- A constraint installed in a solver: a clause (`addClause`, `addUnit`) with the origin tag
it was given, if any, or a cardinality constraint (`addAtMost`). -/
inductive Constr
  | clause (lits : List Lit) (tag : Option Nat)
  | atMost (ps : List Lit) (k : Nat)
deriving DecidableEq, Repr

/-- The type `lbool`. -/
inductive LBool
  | lTrue
  | lFalse
  | lUndef
deriving DecidableEq, Repr

/-- The calls made on a solver object, as recorded in its history. -/
inductive Call
  | newVar
  | enableDeriv
  | add (c : Constr)
  | simplifyDB
  | assume (p : Lit)
  | propagate
  | clearPropQ
  | cancel
  | cancelUntil (level : Nat)
  | search
deriving DecidableEq, Repr

/-- Modelled from the spec: the solver object of the SAT collaborator (§4.1), reduced to what
the contract speaks about.  `constrs` are the constraints added so far, `trail` holds the
literal of every pending `assume` (most recent first), `model` is the model of the last
successful search, `refuted` tells whether the solver has reported an inconsistency at
decision level 0 (an `add` or `simplifyDB` that failed, a search without assumptions that
returned false), `hist` is every call made on the object so far. -/
structure Solver where
  nVars : Nat
  constrs : List Constr
  ok : Bool
  trail : List Lit
  model : Nat → Bool
  root_level : Nat
  derivOn : Bool
  refuted : Bool
  hist : List Call

/-- Modelled from the spec: the answers of the SAT collaborator.  Each answer may depend on
the whole state of the solver object, its history included. -/
structure Collab where
  /-- The value returned by `addClause`, `addUnit` or `addAtMost` for the given constraint. -/
  addRet : Solver → Constr → Bool
  /-- Whether the solver is still consistent after `simplifyDB`. -/
  simplifyRet : Solver → Bool
  /-- The value returned by `assume`. -/
  assumeRet : Solver → Lit → Bool
  /-- Whether `propagate` returns `NULL` (no conflict). -/
  propagateRet : Solver → Bool
  /-- The result of one bounded `search` and the model it leaves when the result is true. -/
  searchRet : Solver → LBool × (Nat → Bool)
  /-- The set written by `finalDeriv->getAncestorsSum`. -/
  ancestors : Solver → Finset Nat

/-- A fresh solver object (`Solver s;`). -/
def Solver.fresh : Solver :=
  { nVars := 0, constrs := [], ok := true, trail := [], model := fun _ => false,
    root_level := 0, derivOn := false, refuted := false, hist := [] }

/-- The call `newVar()`. -/
def Solver.newVar (s : Solver) : Solver :=
  { s with nVars := s.nVars + 1, hist := s.hist ++ [Call.newVar] }

/-- The call `enableDeriv()`. -/
def Solver.enableDeriv (s : Solver) : Solver :=
  { s with derivOn := true, hist := s.hist ++ [Call.enableDeriv] }

/-- Installing a constraint: common part of `addClause`, `addUnit` and `addAtMost`. -/
def Solver.add (o : Collab) (s : Solver) (c : Constr) : Bool × Solver :=
  (o.addRet s c,
    { s with constrs := s.constrs ++ [c], ok := s.ok && o.addRet s c,
             refuted := s.refuted || !o.addRet s c, hist := s.hist ++ [Call.add c] })

/-- The call `addClause(lits, tag)`. -/
def Solver.addClause (o : Collab) (s : Solver) (lits : List Lit) (tag : Option Nat) :
    Bool × Solver := s.add o (Constr.clause lits tag)

/-- The call `addUnit(p, tag)`: the unit clause `p`. -/
def Solver.addUnit (o : Collab) (s : Solver) (p : Lit) (tag : Option Nat) : Bool × Solver :=
  s.add o (Constr.clause [p] tag)

/-- The call `addAtMost(ps, k)`: at most `k` literals of `ps` are true. -/
def Solver.addAtMost (o : Collab) (s : Solver) (ps : List Lit) (k : Nat) : Bool × Solver :=
  s.add o (Constr.atMost ps k)

/-- The call `simplifyDB()`. -/
def Solver.simplifyDB (o : Collab) (s : Solver) : Solver :=
  { s with ok := s.ok && o.simplifyRet s, refuted := s.refuted || !o.simplifyRet s,
           hist := s.hist ++ [Call.simplifyDB] }

/-- The call `assume(p)`: a new decision level with the assumption `p`. -/
def Solver.assume (o : Collab) (s : Solver) (p : Lit) : Bool × Solver :=
  (o.assumeRet s p, { s with trail := p :: s.trail, hist := s.hist ++ [Call.assume p] })

/-- The call `propagate()`; the value is `true` when it returns `NULL`. -/
def Solver.propagate (o : Collab) (s : Solver) : Bool × Solver :=
  (o.propagateRet s, { s with hist := s.hist ++ [Call.propagate] })

/-- The statement `propQ.clear()`. -/
def Solver.clearPropQ (s : Solver) : Solver :=
  { s with hist := s.hist ++ [Call.clearPropQ] }

/-- The call `cancel()`: the last decision level is undone. -/
def Solver.cancel (s : Solver) : Solver :=
  { s with trail := s.trail.tail, hist := s.hist ++ [Call.cancel] }

/-- The call `cancelUntil(0)`. -/
def Solver.cancelUntil0 (s : Solver) : Solver :=
  { s with trail := [], hist := s.hist ++ [Call.cancelUntil 0] }

/-- The member `decisionLevel`. -/
def Solver.decisionLevel (s : Solver) : Nat := s.trail.length

/-- One call `search(nof_conflicts, nof_learnts, params)`.  The budgets are floating-point
numbers that only the collaborator reads; the history tells it how often it was restarted. -/
def Solver.search (o : Collab) (s : Solver) : LBool × Solver :=
  ((o.searchRet s).1,
    { s with model := if (o.searchRet s).1 = LBool.lTrue then (o.searchRet s).2 else s.model,
             refuted := s.refuted ||
               (decide ((o.searchRet s).1 = LBool.lFalse) && s.trail.isEmpty),
             hist := s.hist ++ [Call.search] })

/-- The loop `while (status == l_Undef) status = sat.search(...)` with growing budgets, run
for at most the given number of restarts; `none` when no definite answer was reached. -/
def searchLoop (o : Collab) : Nat → Solver → Option (Bool × Solver)
  | 0, _ => none
  | n + 1, s =>
    match s.search o with
    | (LBool.lUndef, s') => searchLoop o n s'
    | (LBool.lTrue, s') => some (true, s')
    | (LBool.lFalse, s') => some (false, s')

/-- The call `solve()`: repeated bounded search until a definite answer, then back to level
0. -/
def Solver.solve (o : Collab) (fuel : Nat) (s : Solver) : Option (Bool × Solver) :=
  match searchLoop o fuel { s with root_level := s.decisionLevel } with
  | none => none
  | some (r, s') => some (r, s'.cancelUntil0)

/-! ## Data model of the MCS finder (defs.h, parser.h, mcsfinder.h) -/

/-- The class `Parser` after the input files have been read. -/
structure Parser where
  CNFvars : Nat
  CNFclauses : Nat
  Yvars : Nat
  haveGroupMap : Bool
  clauseGroupMap : List Nat
  origCNF : List (List Lit)
  origYClauses : List (List Int)

/-- The members of `MCSfinder` used by the search, and the log of the MCSes written to
standard output (each as the list of its selectors, which are printed incremented by one). -/
structure MCSfinder where
  p : Parser
  MCSes : List (List Nat)
  boundinc : Nat
  initialBound : Nat
  sizeLimit : Nat
  reportThreshold : Nat
  useCores : Bool
  maxSAT : Bool
  nvars : Nat
  nclauses : Nat
  nYvars : Nat
  ignored : List Nat
  cannotIgnore : List Nat
  out : List (List Nat)

/-- Insertion into a `Bag` (`std::set<Num>`) kept as a strictly increasing list. -/
def Bag.insert (x : Nat) : List Nat → List Nat
  | [] => [x]
  | y :: ys => if x < y then x :: y :: ys else if x = y then y :: ys else y :: Bag.insert x ys

/-- The call `bag.insert(first, last)`. -/
def Bag.insertAll (xs : List Nat) (bag : List Nat) : List Nat :=
  xs.foldl (fun acc x => Bag.insert x acc) bag

/-- The finder as the constructor and `setCNF` leave it. -/
def MCSfinder.init (p : Parser) : MCSfinder :=
  { p := p, MCSes := [], boundinc := 1, initialBound := 1, sizeLimit := 0,
    reportThreshold := 0, useCores := true, maxSAT := false, nvars := p.CNFvars,
    nclauses := p.CNFclauses, nYvars := p.Yvars, ignored := [], cannotIgnore := [], out := [] }

/-! ## Formula assembly (parser.cpp) -/

/-- The loop `while (n > sat.nVars) sat.newVar()`. -/
def newVarsUpTo (n : Nat) (s : Solver) : Solver :=
  (List.range (n - s.nVars)).foldl (fun acc _ => acc.newVar) s

/-- The clause loop of `Parser::get_CNF_Y` from clause `i` on, with the running selector
`curY`; the Boolean is `false` when the function returns `false` inside the loop. -/
def get_CNF_Y_loop (o : Collab) (p : Parser) (instrument_set : Option (Finset Nat)) :
    List (List Lit) → Nat → Nat → Solver → Bool × Solver
  | [], _, _, sat => (true, sat)
  | cl :: rest, i, curY0, sat =>
    let curY := if p.haveGroupMap then p.clauseGroupMap.getD i 0 else curY0
    let next := if p.haveGroupMap then curY else curY + 1
    if instrument_set = none ∨ ∃ set, instrument_set = some set ∧ curY + 1 ∈ set then
      match sat.addClause o (cl ++ [(Lit.mk' (p.CNFvars + curY)).not]) none with
      | (false, sat') => (false, sat')
      | (true, sat') => get_CNF_Y_loop o p instrument_set rest (i + 1) next sat'
    else
      match
        (if cl.length = 1 then
          (sat.addUnit o (Lit.mk' (p.CNFvars + curY)) none).2.addUnit o (cl.headD (Lit.mk' 0))
            (some (curY + 1))
        else
          (sat.addUnit o (Lit.mk' (p.CNFvars + curY)) none).2.addClause o cl (some (curY + 1)))
      with
      | (false, sat') => (false, sat')
      | (true, sat') => get_CNF_Y_loop o p instrument_set rest (i + 1) next sat'

/-- The literal list built from a clause over the y-variables in `Parser::get_CNF_Y`. -/
def yClauseLits (p : Parser) (cl : List Int) : List Lit :=
  cl.map (fun x =>
    if x > 0 then Lit.mk' (p.CNFvars + x.natAbs - 1) else (Lit.mk' (p.CNFvars + x.natAbs - 1)).not)

/-- The loop of `Parser::get_CNF_Y` over the extra clauses on the y-variables. -/
def addYClauses (o : Collab) (p : Parser) : List (List Int) → Solver → Bool × Solver
  | [], sat => (true, sat)
  | cl :: rest, sat =>
    match sat.addClause o (yClauseLits p cl) none with
    | (false, sat') => (false, sat')
    | (true, sat') => addYClauses o p rest sat'

/-- The function `Parser::get_CNF_Y(sat, instrument_set)`. -/
def Parser.get_CNF_Y (o : Collab) (p : Parser) (sat : Solver)
    (instrument_set : Option (Finset Nat)) : Bool × Solver :=
  match get_CNF_Y_loop o p instrument_set p.origCNF 0 0 (newVarsUpTo (p.CNFvars + p.Yvars) sat)
    with
  | (false, sat') => (false, sat')
  | (true, sat') =>
    match addYClauses o p p.origYClauses sat' with
    | (false, sat'') => (false, sat'')
    | (true, sat'') => ((sat''.simplifyDB o).ok, sat''.simplifyDB o)

/-- The clause loop of `Parser::get_CNF` for `way = 0`, from clause `i` on. -/
def get_CNF_loop (o : Collab) (p : Parser) (exclude : Option (Finset Nat)) :
    List (List Lit) → Nat → Nat → Solver → Bool × Solver
  | [], _, _, sat => (true, sat)
  | cl :: rest, i, curY0, sat =>
    let curY := if p.haveGroupMap then p.clauseGroupMap.getD i 0 else curY0
    let next := if p.haveGroupMap then curY else curY + 1
    if exclude = none ∨ ∃ set, exclude = some set ∧ curY + 1 ∉ set then
      match
        (if cl.length = 1 then sat.addUnit o (cl.headD (Lit.mk' 0)) (some (curY + 1))
        else sat.addClause o cl (some (curY + 1)))
      with
      | (false, sat') => (false, sat')
      | (true, sat') => get_CNF_loop o p exclude rest (i + 1) next sat'
    else get_CNF_loop o p exclude rest (i + 1) next sat

/-- The function `Parser::get_CNF(sat, exclude, 0)` (clauses in file order). -/
def Parser.get_CNF (o : Collab) (p : Parser) (sat : Solver) (exclude : Option (Finset Nat)) :
    Bool × Solver :=
  match get_CNF_loop o p exclude p.origCNF 0 0 (newVarsUpTo p.CNFvars sat) with
  | (false, sat') => (false, sat')
  | (true, sat') => ((sat'.simplifyDB o).ok, sat'.simplifyDB o)

/-! ## The MCS enumerator (mcsfinder.cpp) -/

/-- The function `MCSfinder::getCore()`: the ancestor set of `solveRaw(&ret)`; `none` when
`solve()` reaches no definite answer within the budget. -/
def MCSfinder.getCore (o : Collab) (fuel : Nat) (m : MCSfinder) : Option (Finset Nat) :=
  match m.p.get_CNF o Solver.fresh.enableDeriv none with
  | (false, s) => some (o.ancestors s)
  | (true, s) =>
    match s.solve o fuel with
    | none => none
    | some (_, s') => some (o.ancestors s')

/-- The inner loop of `addBlockingClauses`: `while (*it2 >= sat.nVars) sat.newVar()` for each
selector of the MCS. -/
def blockingVars : List Nat → Solver → Solver
  | [], sat => sat
  | y :: ys, sat => blockingVars ys (newVarsUpTo (y + 1) sat)

/-- The function `MCSfinder::addBlockingClauses(sat)` over the given list of MCSes, with the
running value of `st`. -/
def addBlockingLoop (o : Collab) (nvars : Nat) : List (List Nat) → Bool → Solver → Bool × Solver
  | [], st, sat => (st, sat)
  | mcs :: rest, st, sat =>
    if st then
      match
        (if mcs.length = 1 then
          (blockingVars mcs sat).addUnit o (Lit.mk' (mcs.headD 0 + nvars)) none
        else (blockingVars mcs sat).addClause o (mcs.map (fun y => Lit.mk' (y + nvars))) none)
      with
      | (st', sat') => addBlockingLoop o nvars rest st' sat'
    else addBlockingLoop o nvars rest st (blockingVars mcs sat)

/-- The function `MCSfinder::addBlockingClauses`. -/
def MCSfinder.addBlockingClauses (o : Collab) (m : MCSfinder) (sat : Solver) : Bool × Solver :=
  addBlockingLoop o m.nvars m.MCSes true sat

/-- The loop `foreach(Bag, it, ignored) sat.addUnit(~Lit(*it + nvars))`. -/
def addIgnored (o : Collab) (nvars : Nat) : List Nat → Solver → Solver
  | [], sat => sat
  | y :: ys, sat => addIgnored o nvars ys (sat.addUnit o (Lit.mk' (y + nvars)).not none).2

/-- The function `MCSfinder::itsolve`; `none` when no definite answer is reached. -/
def itsolve (o : Collab) (fuel : Nat) (sat : Solver) : Option (Bool × Solver) :=
  searchLoop o fuel { sat with root_level := sat.decisionLevel }

/-- The loop of `grow` that injects the seed: `assume` and `propagate` for each member of
`MSS`. -/
def growSeed (o : Collab) (nvars : Nat) : List Nat → Solver → Solver
  | [], sat => sat
  | y :: ys, sat =>
    growSeed o nvars ys ((sat.assume o (Lit.mk' (y + nvars))).2.propagate o).2

/-- The inner loop of `grow` over the members `j` of `MCS` after the current one: a member
whose y-variable is true in the model is erased and assumed; the loop is left when `curSize`
reaches a non-zero `lowbound`.  The result is the list of the members that stay, the solver
and the new `curSize`. -/
def growCollateral (o : Collab) (nvars lowbound : Nat) :
    List Nat → Solver → Nat → List Nat × Solver × Nat
  | [], sat, curSize => ([], sat, curSize)
  | j :: rest, sat, curSize =>
    if sat.model (nvars + j) = true then
      if lowbound ≠ 0 ∧ curSize - 1 = lowbound then
        (rest, ((sat.assume o (Lit.mk' (j + nvars))).2.propagate o).2, curSize - 1)
      else
        growCollateral o nvars lowbound rest
          ((sat.assume o (Lit.mk' (j + nvars))).2.propagate o).2 (curSize - 1)
    else
      match growCollateral o nvars lowbound rest sat curSize with
      | (kept, sat', curSize') => (j :: kept, sat', curSize')

/-- The outer loop of `grow`.  `kept` are the members of `MCS` before the iterator, the next
list those from the iterator on; every pass moves the iterator past at least one member, so
the counter (set to the size of `MCS` by the caller) only bounds the recursion.  `none` when
`itsolve` reaches no definite answer. -/
def growLoop (o : Collab) (fuel nvars lowbound : Nat) :
    Nat → List Nat → List Nat → Solver → Nat → Option (List Nat × Solver)
  | 0, kept, todo, sat, _ => some (kept ++ todo, sat)
  | _ + 1, kept, [], sat, _ => some (kept, sat)
  | n + 1, kept, i :: rest, sat, curSize =>
    match sat.assume o (Lit.mk' (i + nvars)) with
    | (false, sat1) =>
      growLoop o fuel nvars lowbound n (kept ++ [i]) rest sat1.clearPropQ.cancel curSize
    | (true, sat1) =>
      match sat1.propagate o with
      | (false, sat2) =>
        growLoop o fuel nvars lowbound n (kept ++ [i]) rest sat2.clearPropQ.cancel curSize
      | (true, sat2) =>
        match itsolve o fuel sat2 with
        | none => none
        | some (false, sat3) =>
          growLoop o fuel nvars lowbound n (kept ++ [i]) rest sat3.clearPropQ.cancel curSize
        | some (true, sat3) =>
          match growCollateral o nvars lowbound rest sat3 (curSize - 1) with
          | (rest', sat4, curSize') =>
            if lowbound ≠ 0 ∧ curSize' = lowbound then some (kept ++ rest', sat4)
            else growLoop o fuel nvars lowbound n kept rest' sat4 curSize'

/-- The function `MCSfinder::grow(growsat, MSS, MCS, lowbound, highbound)`: the grown `MCS`
and the solver. -/
def grow (o : Collab) (fuel nvars : Nat) (growsat : Solver) (MSS MCS : List Nat)
    (lowbound : Nat) : Option (List Nat × Solver) :=
  match growLoop o fuel nvars lowbound MCS.length [] MCS
      (growSeed o nvars MSS growsat.cancelUntil0) MCS.length with
  | none => none
  | some (MCS', sat) =>
    some (MCS', { sat.cancelUntil0 with root_level := sat.cancelUntil0.decisionLevel })

/-- The outer loop of `grow` with a flag for the one way in which its counter passes a
non-zero `lowbound` unseen by the two tests `curSize == lowbound`: the flag is set in a
pass in which the tried selector brings the counter to `lowbound` (by `curSize--`) and the
model of that pass makes the y-variable of a later member of the set true, so that the
collateral loop decrements the counter again before it is tested.  Without the flag the
loop is `growLoop` (`growLoopJ_eq`). -/
def growLoopJ (o : Collab) (fuel nvars lowbound : Nat) :
    Nat → List Nat → List Nat → Solver → Nat → Bool → Option (List Nat × Solver × Bool)
  | 0, kept, todo, sat, _, jumped => some (kept ++ todo, sat, jumped)
  | _ + 1, kept, [], sat, _, jumped => some (kept, sat, jumped)
  | n + 1, kept, i :: rest, sat, curSize, jumped =>
    match sat.assume o (Lit.mk' (i + nvars)) with
    | (false, sat1) =>
      growLoopJ o fuel nvars lowbound n (kept ++ [i]) rest sat1.clearPropQ.cancel curSize
        jumped
    | (true, sat1) =>
      match sat1.propagate o with
      | (false, sat2) =>
        growLoopJ o fuel nvars lowbound n (kept ++ [i]) rest sat2.clearPropQ.cancel curSize
          jumped
      | (true, sat2) =>
        match itsolve o fuel sat2 with
        | none => none
        | some (false, sat3) =>
          growLoopJ o fuel nvars lowbound n (kept ++ [i]) rest sat3.clearPropQ.cancel curSize
            jumped
        | some (true, sat3) =>
          match growCollateral o nvars lowbound rest sat3 (curSize - 1) with
          | (rest', sat4, curSize') =>
            if lowbound ≠ 0 ∧ curSize' = lowbound then some (kept ++ rest', sat4, jumped)
            else
              growLoopJ o fuel nvars lowbound n kept rest' sat4 curSize'
                (jumped ||
                  (decide (lowbound ≠ 0 ∧ curSize - 1 = lowbound) &&
                    rest.any (fun j => sat3.model (nvars + j))))

/-- The function `grow` with the flag of `growLoopJ`. -/
def growJ (o : Collab) (fuel nvars : Nat) (growsat : Solver) (MSS MCS : List Nat)
    (lowbound : Nat) : Option (List Nat × Solver × Bool) :=
  match growLoopJ o fuel nvars lowbound MCS.length [] MCS
      (growSeed o nvars MSS growsat.cancelUntil0) MCS.length false with
  | none => none
  | some (MCS', sat, jumped) =>
    some (MCS', { sat.cancelUntil0 with root_level := sat.cancelUntil0.decisionLevel },
      jumped)

/-- The MCS read from the model: the selectors whose y-variable is false, in ascending
order. -/
def readMCS (nvars nYvars : Nat) (model : Nat → Bool) : List Nat :=
  (List.range nYvars).filter (fun i => model (i + nvars) = false)

/-- The MSS read from the model: the selectors whose y-variable is true. -/
def readMSS (nvars nYvars : Nat) (model : Nat → Bool) : List Nat :=
  (List.range nYvars).filter (fun i => model (i + nvars) = true)

/-- The loop "just take the first k elements" of the truncation in `solve`,
`foreach(Bag, it, testMCS) { if (++counter > sizeLimit) break; newMCS.push_back(*it);
testMCS.erase(it); }`, entered with `counter` members already kept.  The result is `some` of
the members moved to `newMCS` and of those left in `testMCS` when the loop takes no member:
the set is empty, or the first `++counter` already exceeds the limit.  In every other case
the body runs `testMCS.erase(it)` and the `foreach` macro then evaluates `it++` on the erased
iterator, which is undefined behaviour: `none`. -/
def takeFirst (sizeLimit counter : Nat) : List Nat → Option (List Nat × List Nat)
  | [] => some ([], [])
  | y :: ys => if counter + 1 > sizeLimit then some ([], y :: ys) else none

/-- The part of `solve` between reading (and growing) the MCS and printing it: the exclusion
of ignored selectors and the truncation to `sizeLimit`.  The result is `newMCS`, the solver
and the finder with `ignored` and `cannotIgnore` updated; `none` when the loop that takes the
first elements leaves defined behaviour (`takeFirst`). -/
def truncate (o : Collab) (m : MCSfinder) (sat : Solver) (testMCS0 : List Nat) :
    Option (List Nat × Solver × MCSfinder) :=
  let testMCS := if m.sizeLimit ≠ 0 then testMCS0.filter (fun y => y ∉ m.ignored) else testMCS0
  if m.sizeLimit ≠ 0 ∧ m.sizeLimit < testMCS.length then
    let mustKeep := testMCS.filter (fun y => y ∈ m.cannotIgnore)
    let rest := testMCS.filter (fun y => y ∉ m.cannotIgnore)
    match takeFirst m.sizeLimit mustKeep.length rest with
    | none => none
    | some (taken, left) =>
      some (mustKeep ++ taken,
        addIgnored o m.nvars left sat,
        { m with ignored := Bag.insertAll left m.ignored
                 cannotIgnore := Bag.insertAll (mustKeep ++ taken) m.cannotIgnore })
  else
    some (testMCS, sat,
      if m.sizeLimit ≠ 0 then { m with cannotIgnore := Bag.insertAll testMCS m.cannotIgnore }
      else m)

/-- The loop `while (status == l_True)` of `MCSfinder::solve`, run for at most the given
number of passes.  The first component is the value returned by `solve`, or `none` when the
call comes to no return: a search reached no definite answer, the passes ran out, or the
truncation to the size limit left defined behaviour (`truncate`). -/
def solveLoop (o : Collab) (fuel lowbound highbound : Nat) :
    Nat → Solver → MCSfinder → Bool → Option Bool × Solver × MCSfinder
  | 0, sat, m, _ => (none, sat, m)
  | n + 1, sat, m, foundAny =>
    match searchLoop o fuel sat with
    | none => (none, sat, m)
    | some (false, sat1) => (some foundAny, sat1, m)
    | some (true, sat1) =>
      match
        (if lowbound ≠ highbound ∧ (readMCS m.nvars m.nYvars sat1.model).length ≠ lowbound then
          grow o fuel m.nvars sat1 (readMSS m.nvars m.nYvars sat1.model)
            (readMCS m.nvars m.nYvars sat1.model) lowbound
        else some (readMCS m.nvars m.nYvars sat1.model, sat1))
      with
      | none => (none, sat1, m)
      | some (testMCS, sat2) =>
        match truncate o m sat2 testMCS with
        | none => (none, sat2, m)
        | some (newMCS, sat3, m3) =>
          if m.maxSAT then
            (some true, sat3,
              if m.sizeLimit = 0 then { m3 with out := m3.out ++ [newMCS] } else m3)
          else
            match
              (if newMCS.length = 1 then
                sat3.addUnit o (Lit.mk' (newMCS.headD 0 + m.nvars)) none
              else sat3.addClause o (newMCS.map (fun y => Lit.mk' (y + m.nvars))) none)
            with
            | (true, sat4) =>
              solveLoop o fuel lowbound highbound n sat4
                { (if m.sizeLimit = 0 then { m3 with out := m3.out ++ [newMCS] } else m3) with
                  MCSes := m3.MCSes ++ [newMCS] } true
            | (false, sat4) =>
              (some true, sat4,
                { (if m.sizeLimit = 0 then { m3 with out := m3.out ++ [newMCS] } else m3) with
                  MCSes := m3.MCSes ++ [newMCS] })

/-- The function `MCSfinder::solve(sat, lowbound, highbound)`. -/
def MCSfinder.solve (o : Collab) (fuel : Nat) (m : MCSfinder) (sat : Solver)
    (lowbound highbound : Nat) : Option Bool × Solver × MCSfinder :=
  solveLoop o fuel lowbound highbound fuel { sat with root_level := sat.decisionLevel } m false

/-- The algorithm `std::includes(a.begin(), a.end(), b.begin(), b.end())` on two vectors. -/
def stdIncludes : List Nat → List Nat → Bool
  | _, [] => true
  | [], _ :: _ => false
  | x :: xs, y :: ys =>
    if y < x then false else if x < y then stdIncludes xs (y :: ys) else stdIncludes xs ys

/-- The inner loop of `removeSubsumed` for the index `i`: `pre` are the entries before the
iterator `it2`, the other list those from it on.  `MCSes[i]` is read in the vector as it is
at that moment; `none` when the index is past the end of the vector then. -/
def removeSubsumedInner (i : Nat) : List (List Nat) → List (List Nat) → Option (List (List Nat))
  | pre, [] => some pre
  | pre, x :: post =>
    match (pre ++ x :: post).get? i with
    | none => none
    | some ref =>
      if ref.length < x.length ∧ stdIncludes x ref = true then removeSubsumedInner i pre post
      else removeSubsumedInner i (pre ++ [x]) post

/-- The outer loop of `removeSubsumed` from index `i` on, for at most the given number of
passes (the size of the vector at the start suffices). -/
def removeSubsumedOuter : Nat → Nat → List (List Nat) → Option (List (List Nat))
  | 0, _, MCSes => some MCSes
  | n + 1, i, MCSes =>
    if i < MCSes.length then
      match removeSubsumedInner i [] MCSes with
      | none => none
      | some MCSes' => removeSubsumedOuter n (i + 1) MCSes'
    else some MCSes

/-- The function `MCSfinder::removeSubsumed`. -/
def MCSfinder.removeSubsumed (m : MCSfinder) : Option MCSfinder :=
  match removeSubsumedOuter m.MCSes.length 0 m.MCSes with
  | none => none
  | some MCSes' => some { m with MCSes := MCSes' }

/-- The function `MCSfinder::checkForMore`; `none` when `solve()` reaches no definite
answer.  (When `st` is already false the units for the ignored selectors are still added,
to a solver that is not used again.) -/
def MCSfinder.checkForMore (o : Collab) (fuel : Nat) (m : MCSfinder) : Option Bool :=
  match m.p.get_CNF_Y o Solver.fresh none with
  | (false, _) => some false
  | (true, s1) =>
    match m.addBlockingClauses o s1 with
    | (false, _) => some false
    | (true, s2) =>
      match (addIgnored o m.nvars m.ignored s2).solve o fuel with
      | none => none
      | some (st, _) => some st

/-- The literals of the `AtMost` constraint built in `findMCSes`. -/
def boundLits (m : MCSfinder) (included : Finset Nat) : List Lit :=
  ((List.range m.nYvars).filter (fun i => !m.useCores || decide (i + 1 ∈ included))).map
    (fun i => (Lit.mk' (m.nvars + i)).not)

/-- The solver set up at the start of a round of `findMCSes`: the instrumented formula, the
blocking clauses, the units for ignored selectors and the bound; with the value of `st`. -/
def MCSfinder.setupRound (o : Collab) (m : MCSfinder) (bound : Nat) (included : Finset Nat) :
    Bool × Solver :=
  match m.p.get_CNF_Y o (if m.useCores then Solver.fresh.enableDeriv else Solver.fresh)
      (if m.useCores then some included else none) with
  | (false, s1) => (false, addIgnored o m.nvars m.ignored s1)
  | (true, s1) =>
    match m.addBlockingClauses o s1 with
    | (false, s2) => (false, addIgnored o m.nvars m.ignored s2)
    | (true, s2) => (addIgnored o m.nvars m.ignored s2).addAtMost o (boundLits m included) bound

/-- How a run of `findMCSes` ends. -/
inductive Ending
  /-- The loop was left by `break`. -/
  | finished
  /-- The run comes to no end: a search reached no definite answer within the budget, the
  rounds ran out, or the truncation in `solve` left defined behaviour. -/
  | running
  /-- The function `removeSubsumed` read past the end of the vector. -/
  | outOfBounds
deriving DecidableEq, Repr

/-- The loop `while (true)` of `findMCSes`, run for at most the given number of rounds. -/
def findLoop (o : Collab) (fuel : Nat) :
    Nat → MCSfinder → Nat → Finset Nat → Ending × MCSfinder
  | 0, m, _, _ => (Ending.running, m)
  | n + 1, m, bound, included =>
    match
      (match m.setupRound o bound included with
      | (false, sat) => (some false, sat, m)
      | (true, sat) => m.solve o fuel sat (bound - m.boundinc + 1) bound)
    with
    | (none, _, m1) => (Ending.running, m1)
    | (some foundAny, sat, m1) =>
      if foundAny = true ∧ m1.maxSAT = true then (Ending.finished, m1)
      else
        match (if m1.sizeLimit > 0 then m1.removeSubsumed else some m1) with
        | none => (Ending.outOfBounds, m1)
        | some m2 =>
          if foundAny = true ∧ m2.reportThreshold > 0 ∧ bound ≥ m2.reportThreshold then
            (Ending.finished, m2)
          else
            match (if foundAny = true then m2.checkForMore o fuel else some true) with
            | none => (Ending.running, m2)
            | some false => (Ending.finished, m2)
            | some true =>
              findLoop o fuel n m2 (bound + m2.boundinc)
                (if m2.useCores then included ∪ o.ancestors sat else included)

/-- The function `MCSfinder::findMCSes`.  The single budget bounds the number of rounds, the
number of passes of each `solve` and the number of restarts of each search. -/
def MCSfinder.findMCSes (o : Collab) (fuel : Nat) (m : MCSfinder) : Ending × MCSfinder :=
  match (if m.useCores then m.getCore o fuel else some ∅) with
  | none => (Ending.running, m)
  | some included =>
    match findLoop o fuel fuel m m.initialBound included with
    | (e, m') =>
      (e, if m'.sizeLimit > 0 ∧ e = Ending.finished then { m' with out := m'.out ++ m'.MCSes }
          else m')

/-! ## Semantics of constraints, and a reference collaborator -/

/-- The literal is true under the assignment. -/
def Lit.holds (μ : Nat → Bool) (p : Lit) : Bool := μ p.var != p.sign

/-- The constraint is satisfied by the assignment. -/
def Constr.holds (μ : Nat → Bool) : Constr → Bool
  | Constr.clause lits _ => lits.any (Lit.holds μ)
  | Constr.atMost ps k => decide ((ps.filter (Lit.holds μ)).length ≤ k)

/-- The assignment satisfies every constraint of the list. -/
def Models (μ : Nat → Bool) (cs : List Constr) : Prop := ∀ c ∈ cs, c.holds μ = true

/-- The assignment satisfies the constraints and the pending assumptions of the solver. -/
def Solver.Sat (μ : Nat → Bool) (s : Solver) : Prop :=
  Models μ s.constrs ∧ ∀ p ∈ s.trail, p.holds μ = true

/-- The constraint is untagged or tagged with a member of `T`. -/
def Constr.inCore (T : Finset Nat) : Constr → Bool
  | Constr.clause _ (some t) => decide (t ∈ T)
  | _ => true

/-- Contract, models: every model the collaborator returns satisfies all installed clauses,
unit clauses, cardinality constraints and assumptions. -/
def Collab.ModelsSound (o : Collab) : Prop :=
  ∀ s μ, o.searchRet s = (LBool.lTrue, μ) → s.Sat μ

/-- Contract, refutations: the collaborator reports an inconsistency (a search that returns
false, an `add` or `simplifyDB` that fails) only when there is no satisfying assignment. -/
structure Collab.RefutationsSound (o : Collab) : Prop where
  search_false : ∀ s, (o.searchRet s).1 = LBool.lFalse → ¬ ∃ μ, s.Sat μ
  add_false : ∀ s c, o.addRet s c = false → ¬ ∃ μ, Models μ (s.constrs ++ [c])
  simplify_false : ∀ s, o.simplifyRet s = false → ¬ ∃ μ, Models μ s.constrs

/-- Contract, termination: some number of restarts suffices for a definite answer to every
query. -/
def Collab.Terminates (o : Collab) : Prop := ∃ R, ∀ s, (searchLoop o R s).isSome = true

/-- Contract, cores: once the solver has reported an inconsistency of its constraints, the
ancestor set of the final derivation is an unsatisfiable core: the untagged constraints
together with the clauses whose tag is in the set have no satisfying assignment. -/
def Collab.CoresValid (o : Collab) : Prop :=
  ∀ s : Solver, s.refuted = true → (¬ ∃ μ, Models μ s.constrs) →
    ¬ ∃ μ, Models μ (s.constrs.filter (Constr.inCore (o.ancestors s)))

/-- One more than the largest variable of the literals. -/
def litsBound : List Lit → Nat
  | [] => 0
  | p :: ps => max (p.var + 1) (litsBound ps)

/-- One more than the largest variable of the constraints. -/
def constrsBound : List Constr → Nat
  | [] => 0
  | Constr.clause lits _ :: cs => max (litsBound lits) (constrsBound cs)
  | Constr.atMost ps _ :: cs => max (litsBound ps) (constrsBound cs)

/-- All assignments to the first `n` variables, as lists of values. -/
def allAssign : Nat → List (List Bool)
  | 0 => [[]]
  | n + 1 => (allAssign n).map (fun l => false :: l) ++ (allAssign n).map (fun l => true :: l)

/-- The assignment given by a list of values (false beyond the list). -/
def asModel (l : List Bool) : Nat → Bool := fun v => l.getD v false

/-- Exhaustive search for an assignment satisfying the constraints and assumptions of the
solver. -/
def bruteFind (s : Solver) : Option (List Bool) :=
  (allAssign (max (constrsBound s.constrs) (litsBound s.trail))).find?
    (fun l => s.constrs.all (Constr.holds (asModel l)) && s.trail.all (Lit.holds (asModel l)))

/-- All tags of the constraints. -/
def tagsOf : List Constr → Finset Nat
  | [] => ∅
  | Constr.clause _ (some t) :: cs => insert t (tagsOf cs)
  | _ :: cs => tagsOf cs

/-- A reference collaborator: every search is decided by exhaustive enumeration, an `add`
fails only for the empty clause, and the reported core is the set of all tags. -/
def brute : Collab :=
  { addRet := fun _ c => match c with
      | Constr.clause [] _ => false
      | _ => true
    simplifyRet := fun _ => true
    assumeRet := fun _ _ => true
    propagateRet := fun _ => true
    searchRet := fun s => match bruteFind s with
      | none => (LBool.lFalse, fun _ => false)
      | some l => (LBool.lTrue, asModel l)
    ancestors := fun s => tagsOf s.constrs }

/-- The literal read from a DIMACS number. -/
def dimacsLit (x : Int) : Lit :=
  if x > 0 then Lit.mk' (x.natAbs - 1) else (Lit.mk' (x.natAbs - 1)).not

/-- The parser state after `parseCNF` on a DIMACS file with `nv` variables and the given
clauses (header count equal to the number of clauses, no group or partition file). -/
def cnf (nv : Nat) (cls : List (List Int)) : Parser :=
  { CNFvars := nv, CNFclauses := cls.length, Yvars := cls.length, haveGroupMap := false,
    clauseGroupMap := [], origYClauses := [], origCNF := cls.map (fun cl => cl.map dimacsLit) }

/-! ## Specification vocabulary for the MCS enumerator -/

/-- The selector `σ(i)` of clause `i`. -/
def Parser.sigma (p : Parser) (i : Nat) : Nat :=
  if p.haveGroupMap then p.clauseGroupMap.getD i 0 else i

/-- The set `M` of selectors is a correction set: the original clauses whose selector is not
in `M` are simultaneously satisfiable. -/
def Parser.Corr (p : Parser) (M : Finset Nat) : Prop :=
  ∃ α : Nat → Bool, ∀ i, i < p.origCNF.length → p.sigma i ∉ M →
    (p.origCNF.getD i []).any (Lit.holds α) = true

/-- The set `M` is a minimal correction set (MCS): a correction set over the selectors such
that removing any one selector from it leaves the remaining clauses unsatisfiable. -/
def Parser.IsMCS (p : Parser) (M : Finset Nat) : Prop :=
  (∀ y ∈ M, y < p.Yvars) ∧ p.Corr M ∧ ∀ y ∈ M, ¬ p.Corr (M.erase y)

/-- Well-formed parser state: every clause has a selector below `Yvars`, and every selector
below `Yvars` is the selector of some clause. -/
def Parser.WF (p : Parser) : Prop :=
  (∀ i, i < p.origCNF.length → p.sigma i < p.Yvars) ∧
  (∀ y, y < p.Yvars → ∃ i, i < p.origCNF.length ∧ p.sigma i = y)

/-- The finder agrees with its parser (`setCNF`). -/
def MCSfinder.Agrees (m : MCSfinder) : Prop :=
  m.nvars = m.p.CNFvars ∧ m.nYvars = m.p.Yvars

/-- The constraints say that every original clause whose y-variable is true holds. -/
def HasCNF (p : Parser) (cs : List Constr) : Prop :=
  ∀ μ, Models μ cs → ∀ i, i < p.origCNF.length → μ (p.CNFvars + p.sigma i) = true →
    (p.origCNF.getD i []).any (Lit.holds μ) = true

/-- A solver whose `okay()` is false has reported an inconsistency, and a solver that has
reported an inconsistency has unsatisfiable constraints when the refutations of the
collaborator are sound. -/
def OkInv (o : Collab) (s : Solver) : Prop :=
  (s.ok = false → s.refuted = true) ∧
  (o.RefutationsSound → s.refuted = true → ¬ ∃ μ, Models μ s.constrs)

/-- The blocking clause of an MCS: the disjunction of its y-variables. -/
def blockingClause (nvars : Nat) (B : List Nat) : Constr :=
  Constr.clause (B.map (fun y => Lit.mk' (y + nvars))) none

/-- The second finder has the options, the parser and the bookkeeping of ignored selectors
of the first; only the list of MCSes and the output log may differ. -/
def MCSfinder.SameSetup (m m' : MCSfinder) : Prop :=
  m' = { m with MCSes := m'.MCSes, out := m'.out }

/-- Every literal of the original clauses is over the variables of the CNF (the parser
rejects any other). -/
def Parser.VarsBelow (p : Parser) : Prop := ∀ cl ∈ p.origCNF, ∀ l ∈ cl, l.var < p.CNFvars

/-- The clause `i` is instrumented with its y-variable under the given instrument set. -/
def Parser.instr (p : Parser) (iset : Option (Finset Nat)) (i : Nat) : Prop :=
  iset = none ∨ ∃ set, iset = some set ∧ p.sigma i + 1 ∈ set

instance (p : Parser) (iset : Option (Finset Nat)) (i : Nat) : Decidable (p.instr iset i) := by
  unfold Parser.instr
  infer_instance

/-- The constraints that `get_CNF_Y` installs for clause `i`. -/
def clauseConstrs (p : Parser) (iset : Option (Finset Nat)) (i : Nat) (cl : List Lit) :
    List Constr :=
  if p.instr iset i then [Constr.clause (cl ++ [(Lit.mk' (p.CNFvars + p.sigma i)).not]) none]
  else [Constr.clause [Lit.mk' (p.CNFvars + p.sigma i)] none,
    Constr.clause cl (some (p.sigma i + 1))]

/-- The constraints of a round of `findMCSes`: those of the clauses, the blocking clauses of
the MCSes of the list, and the bound. -/
def RoundForm (p : Parser) (iset : Option (Finset Nat)) (L : List (List Nat))
    (bnd : Option Constr) (c : Constr) : Prop :=
  (∃ i, i < p.origCNF.length ∧ c ∈ clauseConstrs p iset i (p.origCNF.getD i [])) ∨
  (∃ B ∈ L, c = blockingClause p.CNFvars B) ∨ bnd = some c

/-- The assignment that follows `α` on the variables of the CNF and makes false exactly the
y-variables of the selectors in `Z`. -/
def ymodel (nv : Nat) (α : Nat → Bool) (Z : Finset Nat) : Nat → Bool :=
  fun v => if v < nv then α v else decide (v - nv ∉ Z)

/-- The state of the enumeration at bound `k` with the instrument set `I` (a set of tags,
selector plus one) and the list `L` of sets found so far: every found set is an MCS, the
sets come without repetition and in non-decreasing size up to `k`, every MCS with fewer than
`k` selectors has been found, and every MCS not yet found has at least `k` selectors
instrumented. -/
structure Found (p : Parser) (k : Nat) (I : Finset Nat) (L : List (List Nat)) : Prop where
  sound : ∀ M ∈ L, p.IsMCS M.toFinset ∧ M.Nodup
  complete : ∀ S, p.IsMCS S → S.card < k → ∃ M ∈ L, M.toFinset = S
  core : ∀ S, p.IsMCS S → (¬ ∃ M ∈ L, M.toFinset = S) →
    k ≤ (S.filter (fun y => y + 1 ∈ I)).card
  sized : ∀ M ∈ L, M.length ≤ k
  sorted : L.Pairwise (fun a b => a.length ≤ b.length)
  distinct : (L.map List.toFinset).Nodup

/-- The finder runs with the default options for the parser `p`: core guidance, bound
increment 1, no size limit, no ignored selectors. -/
def MCSfinder.Default (m : MCSfinder) (p : Parser) : Prop :=
  m.p = p ∧ m.nvars = p.CNFvars ∧ m.nYvars = p.Yvars ∧ m.sizeLimit = 0 ∧ m.useCores = true ∧
  m.boundinc = 1 ∧ m.ignored = []

/-- A valid input without extra clauses on the y-variables: every clause has a selector, every
selector has a clause, and the clauses are over the variables of the CNF. -/
def Parser.Plain (p : Parser) : Prop := p.WF ∧ p.VarsBelow ∧ p.origYClauses = []

/-- The finder before `findMCSes` is called, with the default options for its parser (core
guidance, bound increment and initial bound 1, no size limit) and no MCS read or found. -/
def MCSfinder.Fresh (m : MCSfinder) : Prop :=
  m.Default m.p ∧ m.initialBound = 1 ∧ m.MCSes = [] ∧ m.out = []

/-- The formula of scenario S4: the clauses `x1`, `x2`, `¬x1 ∨ ¬x2`. -/
def scenarioS4 : Parser := cnf 2 [[1], [2], [-1, -2]]

/-! ## Input files and options of the MCS tool (parser.cpp, mcsfinder.h) -/

/-- The loop of `Parser::parseMCSes` over the lines of the file, each given as the list of
the numbers on it; `size` is the length of the last line kept and `ret` the result so far.
`none` is `exit(1)`: a line without a number, or a clause index 0. -/
def parseMCSesLoop : List (List Nat) → Nat → List (List Nat) → Option (List (List Nat))
  | [], _, ret => some ret
  | line :: rest, size, ret =>
    if line = [] ∨ 0 ∈ line then none
    else if line.length < size then some ret
    else parseMCSesLoop rest line.length (ret ++ [line.map (fun clauseNum => clauseNum - 1)])

/-- The function `Parser::parseMCSes`. -/
def parseMCSes (lines : List (List Nat)) : Option (List (List Nat)) :=
  parseMCSesLoop lines 0 []

/-- The parser as its constructor leaves it. -/
def Parser.new : Parser :=
  { CNFvars := 0, CNFclauses := 0, Yvars := 0, haveGroupMap := false, clauseGroupMap := [],
    origCNF := [], origYClauses := [] }

/-- The statements `if (clauseNum > clauseGroupMap.size()) clauseGroupMap.resize(clauseNum);
clauseGroupMap[clauseNum-1] = Yvars;`. -/
def setGroup (clauseGroupMap : List Nat) (clauseNum Yvars : Nat) : List Nat :=
  (if clauseNum > clauseGroupMap.length then
      clauseGroupMap ++ List.replicate (clauseNum - clauseGroupMap.length) 0
    else clauseGroupMap).set (clauseNum - 1) Yvars

/-- The inner loop of `Parser::parseClauseMap` over the numbers of one line; `none` is
`exit(1)` for a clause index 0. -/
def parseClauseMapLine : List Nat → Nat → List Nat → Option (List Nat)
  | [], _, clauseGroupMap => some clauseGroupMap
  | clauseNum :: rest, Yvars, clauseGroupMap =>
    if clauseNum = 0 then none
    else parseClauseMapLine rest Yvars (setGroup clauseGroupMap clauseNum Yvars)

/-- The function `Parser::parseClauseMap` on the lines of the group file, each given as the
list of the numbers on it; `none` is `exit(1)` (a line without a number, a clause index
0). -/
def Parser.parseClauseMap (p : Parser) : List (List Nat) → Option Parser
  | [] => some { p with haveGroupMap := true }
  | line :: rest =>
    if line = [] then none
    else
      match parseClauseMapLine line p.Yvars p.clauseGroupMap with
      | none => none
      | some clauseGroupMap =>
        Parser.parseClauseMap { p with clauseGroupMap := clauseGroupMap, Yvars := p.Yvars + 1 }
          rest

/-- The function `Parser::parseCNF` on a file with the header `p cnf nv nc` followed by the
given clauses (the numbers of each clause line before its closing 0); `none` is `exit(1)` for
a variable above `nv`. -/
def Parser.parseCNF (p : Parser) (nv nc : Nat) (cls : List (List Int)) : Option Parser :=
  if cls.all (fun cl => cl.all (fun x => decide (x.natAbs ≤ nv))) then
    some { p with
      CNFvars := nv, CNFclauses := nc,
      origCNF := p.origCNF ++ cls.map (fun cl => cl.map dimacsLit),
      Yvars := if p.Yvars = 0 then nc else p.Yvars }
  else none

/-- The setter `MCSfinder::setBoundInc(int i)`; the `int` is stored in `unsigned int`
members. -/
def MCSfinder.setBoundInc (m : MCSfinder) (i : Int) : MCSfinder :=
  { m with
    boundinc := (i % 2 ^ 32).toNat, initialBound := (i % 2 ^ 32).toNat,
    useCores := if m.useCores then false else m.useCores }

/-- The clause loop of `Parser::get_CNF` for `way ≠ 0`: the clauses are added from the last
one down to the first; the list holds the clauses still to add, in that order, so that the
index `i` of its head is the length of its tail.  The counter `curY` is decremented past 0
only after its last use. -/
def get_CNF_rev_loop (o : Collab) (p : Parser) (exclude : Option (Finset Nat)) :
    List (List Lit) → Nat → Solver → Bool × Solver
  | [], _, sat => (true, sat)
  | cl :: rest, curY0, sat =>
    let curY := if p.haveGroupMap then p.clauseGroupMap.getD rest.length 0 else curY0
    let next := if p.haveGroupMap then curY else curY - 1
    if exclude = none ∨ ∃ set, exclude = some set ∧ curY + 1 ∉ set then
      match
        (if cl.length = 1 then sat.addUnit o (cl.headD (Lit.mk' 0)) (some (curY + 1))
        else sat.addClause o cl (some (curY + 1)))
      with
      | (false, sat') => (false, sat')
      | (true, sat') => get_CNF_rev_loop o p exclude rest next sat'
    else get_CNF_rev_loop o p exclude rest next sat

/-- The function `Parser::get_CNF(sat, exclude, way)` for `way ≠ 0` (clauses in reverse file
order). -/
def Parser.get_CNF_rev (o : Collab) (p : Parser) (sat : Solver)
    (exclude : Option (Finset Nat)) : Bool × Solver :=
  match get_CNF_rev_loop o p exclude p.origCNF.reverse (p.origCNF.length - 1)
    (newVarsUpTo p.CNFvars sat) with
  | (false, sat') => (false, sat')
  | (true, sat') => ((sat'.simplifyDB o).ok, sat'.simplifyDB o)

/-- The statements `clauseGroupMap.resize(current); clauseGroupMap[current-1] = Yvars;`. -/
def resizeSet (clauseGroupMap : List Nat) (current Yvars : Nat) : List Nat :=
  (clauseGroupMap.take current ++ List.replicate (current - clauseGroupMap.length) 0).set
    (current - 1) Yvars

/-- The loop `while (current <= split)` of `Parser::parsePartition`, run for at most the
given number of passes (the callers give `split + 1 - current`, the number of passes the
loop makes); it returns `current` and the map. -/
def partitionFill : Nat → Nat → Nat → Nat → List Nat → Nat × List Nat
  | 0, current, _, _, clauseGroupMap => (current, clauseGroupMap)
  | n + 1, current, split, Yvars, clauseGroupMap =>
    if current ≤ split then
      partitionFill n (current + 1) split Yvars (resizeSet clauseGroupMap current Yvars)
    else (current, clauseGroupMap)

/-- The loop `while (!partIn.eof())` of `Parser::parsePartition` on a file that holds the
given numbers (below `2^32`) separated by white space; `trailing` tells whether white space,
such as a final newline, follows the last number.  Reading the last number sets `eof` only
when nothing follows it; otherwise one more pass is made, in which the read fails at the end
of the file (no error, as `eof` is set) and leaves `split` as it was. -/
def parsePartitionLoop (trailing : Bool) : List Nat → Nat → Nat → Parser → Parser
  | [], current, split, p =>
    { p with
      clauseGroupMap :=
        (partitionFill (split + 1 - current) current split p.Yvars p.clauseGroupMap).2
      Yvars := p.Yvars + 1 }
  | x :: rest, current, _, p =>
    if rest = [] ∧ trailing = false then
      { p with
        clauseGroupMap := (partitionFill (x + 1 - current) current x p.Yvars p.clauseGroupMap).2
        Yvars := p.Yvars + 1 }
    else
      parsePartitionLoop trailing rest
        (partitionFill (x + 1 - current) current x p.Yvars p.clauseGroupMap).1 x
        { p with
          clauseGroupMap :=
            (partitionFill (x + 1 - current) current x p.Yvars p.clauseGroupMap).2
          Yvars := p.Yvars + 1 }

/-- The function `Parser::parsePartition`; `none` for a file without a number, on which the
variable `split` is read before it is set. -/
def Parser.parsePartition (p : Parser) (numbers : List Nat) (trailing : Bool) :
    Option Parser :=
  if numbers = [] then none
  else some { parsePartitionLoop trailing numbers 1 0 p with haveGroupMap := true }

/-- The `(clause, tag)` pairs of the clauses of a list whose first clause has position `i`:
clause `j` with the tag `j + 1`, without the clauses whose tag is in the exclude set. -/
def taggedFrom (exclude : Option (Finset Nat)) : List (List Lit) → Nat → List Constr
  | [], _ => []
  | cl :: rest, i =>
    if exclude = none ∨ ∃ set, exclude = some set ∧ i + 1 ∉ set then
      Constr.clause cl (some (i + 1)) :: taggedFrom exclude rest (i + 1)
    else taggedFrom exclude rest (i + 1)

/-- No selector is both in `ignored` and in `cannotIgnore`. -/
def MCSfinder.Apart (m : MCSfinder) : Prop := ∀ y, y ∈ m.ignored → y ∉ m.cannotIgnore

/-- Proof device for statements about how a call of `constructMUS` ends.  `G` is a property
of outcomes that every return has; `Inv` is an invariant of the working covers and assignment
that the helpers keep, and under which a failed assertion or a `mis_quick` that does not
return either cannot happen or has `G`; `d` is the setting of `doBB`. -/
structure EndSpec (G : Outcome → Prop) (Inv : List Cover → ClauseAssign → Prop) (d : Bool) :
    Prop where
  ret : ∀ s, G (Outcome.ret s)
  propNone : ∀ covers a, Inv covers a → propagateSingletons covers a = none → G Outcome.abort
  propSome : ∀ covers a cs a0, Inv covers a → propagateSingletons covers a = some (cs, a0) →
    Inv cs a0
  hang : ∀ covers a b, Inv covers a → b.doBB = d → boundHit b covers a = none →
    G Outcome.hang
  empty : ∀ covers a, Inv covers a → ∅ ∈ covers → G Outcome.abort
  rccNone : ∀ covers a cur c, Inv covers a → a.get cur = 0 → cur < a.vals.length →
    c ∈ covers → cur ∈ c →
    removeClauseAndCover covers { a.put cur 1 with numPos := a.numPos + 1 } cur c = none →
    G Outcome.abort
  rccSome : ∀ covers a cur c nc na, Inv covers a → a.get cur = 0 → cur < a.vals.length →
    c ∈ covers → cur ∈ c →
    removeClauseAndCover covers { a.put cur 1 with numPos := a.numPos + 1 } cur c
      = some (nc, na) → Inv nc na
  excl : ∀ covers a cur cs, Inv covers a → a.get cur = 0 → cur < a.vals.length →
    removeClause covers cur = some cs →
    Inv cs { a.put cur (-1) with numNeg := a.numNeg + 1 }

/-! ## Specification vocabulary for the hitting-set engine -/

/-- The set `T` intersects every cover of the list. -/
def Hits (T : Finset Nat) (covers : List Cover) : Prop := ∀ c ∈ covers, (T ∩ c).Nonempty

/-- The set `T` is a minimal hitting set: it hits every cover and removing any single element
leaves some cover unhit. -/
def IsMHS (T : Finset Nat) (covers : List Cover) : Prop :=
  Hits T covers ∧ ∀ t ∈ T, ¬ Hits (T.erase t) covers

/-- Two covers of which neither is a subset of the other. -/
def Incomparable (c d : Cover) : Prop := ¬ c ⊆ d ∧ ¬ d ⊆ c

/-- No cover is a subset of another cover of the list (so the list has no duplicates). -/
def NoSubset (covers : List Cover) : Prop := covers.Pairwise Incomparable

/-- Every cover of the list is over the dense indices `[0, K)`. -/
def InRange (K : Nat) (covers : List Cover) : Prop := ∀ c ∈ covers, ∀ x ∈ c, x < K

/-- No cover of the list is empty and no cover is a subset of another. -/
def Tidy (covers : List Cover) : Prop := NoSubset covers ∧ ∀ c ∈ covers, c ≠ ∅

/-- The traced result `r` is the result `r0` with a record added, and every list of covers
in the record is tidy. -/
def TracedOf (r : Outcome × Traced) (r0 : Outcome × MUSbuilder) : Prop :=
  r.1 = r0.1 ∧ r.2.1 = r0.2 ∧ ∀ x ∈ r.2.2, Tidy x

/-- The loop shared by `subtractLoop` and `removeClauseLoop`, for an arbitrary shrinking
function `f` (proof device: both loops are instances, see `subtractLoop_eq`,
`removeClauseLoop_eq`). -/
def shrinkLoop (f : Cover → Cover) : Nat → List Cover → List Cover → Option (List Cover)
  | 0, done, todo => some (done ++ todo)
  | _ + 1, done, [] => some done
  | n + 1, done, c :: rest =>
    if f c ≠ c then
      if f c = ∅ then none
      else
        shrinkLoop f n (maintainNoSubsets done (f c) ++ [f c]) (maintainNoSubsets rest (f c))
    else shrinkLoop f n (done ++ [c]) rest

/-- The invariant of a search node with `K` selector positions: the covers are free of
inclusions and non-empty, and every selector of a cover is in range and undecided. -/
structure Node (K : Nat) (covers : List Cover) (a : ClauseAssign) : Prop where
  len : a.vals.length = K
  noSub : NoSubset covers
  nonempty : ∀ c ∈ covers, c ≠ ∅
  zero : ∀ c ∈ covers, ∀ x ∈ c, x < K ∧ a.get x = 0
  tern : ∀ i, a.get i = 0 ∨ a.get i = 1 ∨ a.get i = -1

/-- How the covers of a search node relate to the family `F` the run started from: they are
the covers of `F` not yet hit by a selected position, with the excluded positions removed,
up to covers that include another one; and every selected position has a cover of `F` in
which all other positions are excluded. -/
structure Rel (F covers : List Cover) (a : ClauseAssign) : Prop where
  r1 : ∀ Y ∈ covers, ∃ X ∈ F, (∀ x ∈ X, a.get x ≠ 1) ∧ Y = X.filter (fun x => a.get x ≠ -1)
  r2 : ∀ X ∈ F, (∀ x ∈ X, a.get x ≠ 1) → ∃ Y ∈ covers, Y ⊆ X.filter (fun x => a.get x ≠ -1)
  crit : ∀ p, a.get p = 1 → ∃ X ∈ F, p ∈ X ∧ ∀ x ∈ X, x ≠ p → a.get x = -1

/-- The set `H` agrees with the decided entries of the vector `v`: it contains the selected
positions and none of the excluded ones. -/
def Compat (H : Finset Nat) (v : List Int) : Prop :=
  (∀ i, v.getD i 0 = 1 → i ∈ H) ∧ (∀ i ∈ H, v.getD i 0 ≠ -1)

/-- Every minimal hitting set of `F` that agrees with `v` is among the emitted sets. -/
def Done (F : List Cover) (v : List Int) (out : List ClauseAssign) : Prop :=
  ∀ H, IsMHS H F → Compat H v → ∃ e ∈ out, e.pos = H

/-- The invariant of the builder during a run without branch-and-bound on the family `F`:
every emitted set is a minimal hitting set of `F`, and every visited vector is either one of
the calls still open (`pend`) or has all of its minimal hitting sets emitted. -/
structure StInv (F : List Cover) (pend : List (List Int)) (b : MUSbuilder) : Prop where
  bb : b.doBB = false
  sound : ∀ e ∈ b.out, IsMHS e.pos F
  seen : ∀ v ∈ b.beenHere, v ∈ pend ∨ Done F v b.out

/-- Every vector of an open call has an undecided position that `a` has decided. -/
def NotPend (pend : List (List Int)) (a : ClauseAssign) : Prop :=
  ∀ p ∈ pend, ∃ i, p.getD i 0 = 0 ∧ a.get i ≠ 0

/-- Every vector of an open call either has an undecided position that `a` has decided, or
is undecided wherever `a` is (the call that owns `a` itself). -/
def LoopPend (pend : List (List Int)) (a : ClauseAssign) : Prop :=
  ∀ p ∈ pend, (∃ i, p.getD i 0 = 0 ∧ a.get i ≠ 0) ∨ (∀ i, a.get i = 0 → p.getD i 0 = 0)

/-- The contract of a call of `constructMUS` without branch-and-bound on a node with fewer
than `m` covers: it returns `false`, keeps the builder invariant, only appends to the output,
and afterwards every minimal hitting set of `F` that agrees with the assignment of the node
has been emitted. -/
def RecSpec (F : List Cover) (K m : Nat)
    (rec : List Cover → ClauseAssign → MUSbuilder → Outcome × MUSbuilder) : Prop :=
  ∀ covers a b pend, covers.length < m → Node K covers a → Rel F covers a → StInv F pend b →
    NotPend pend a →
    ∃ b', rec covers a b = (.ret false, b') ∧ StInv F pend b' ∧
      (∀ e ∈ b.out, e ∈ b'.out) ∧
      (∀ H, IsMHS H F → Compat H a.vals → ∃ e ∈ b'.out, e.pos = H)

/-- The invariant of the output log used for uniqueness: every logged assignment is in the
visited set, no two logged assignments have the same vector, and every logged assignment has
length `K` and no undecided position. -/
structure OutInv (K : Nat) (b : MUSbuilder) : Prop where
  keys : ∀ e ∈ b.out, e.vals ∈ b.beenHere
  nodup : (b.out.map ClauseAssign.vals).Nodup
  full : ∀ e ∈ b.out, e.vals.length = K ∧ ∀ i < K, e.get i = 1 ∨ e.get i = -1

/-- An assignment of length `K` with entries `0`, `1`, `-1`. -/
def TernLen (K : Nat) (a : ClauseAssign) : Prop :=
  a.vals.length = K ∧ ∀ i, a.get i = 0 ∨ a.get i = 1 ∨ a.get i = -1

/-- Every undecided position of the assignment is in some cover. -/
def Covered (K : Nat) (covers : List Cover) (a : ClauseAssign) : Prop :=
  ∀ i < K, a.get i = 0 → ∃ c ∈ covers, i ∈ c

/-- The invariant of the output log under branch-and-bound: the logged counters `numPos`
strictly decrease, `bbUpper` is at most each of them, and each counter is the number of
selected positions of its assignment. -/
structure DecInv (b : MUSbuilder) : Prop where
  bb : b.doBB = true
  dec : b.out.Pairwise (fun e1 e2 => e2.numPos < e1.numPos)
  upper : ∀ e ∈ b.out, b.bbUpper ≤ e.numPos
  count : ∀ e ∈ b.out, e.numPos = e.pos.card

/-- The invariant of the assignment used for counting: covers in range, length `K` and the
cached `numPos` equal to the number of entries `+1`. -/
def CountInv (K : Nat) (covers : List Cover) (a : ClauseAssign) : Prop :=
  InRange K covers ∧ a.vals.length = K ∧ a.numPos = a.pos.card

/-- The logged result `r` is the result `r0` with a record added, and the counters of every
assignment in the record agree with its vector. -/
def LoggedOf (r : Outcome × Logged) (r0 : Outcome × MUSbuilder) : Prop :=
  r.1 = r0.1 ∧ r.2.1 = r0.2 ∧ ∀ x ∈ r.2.2, x.Agrees

/-- The invariant of the working state used for the counters: covers in range, length `K`
and counters that agree with the vector. -/
def Counted (K : Nat) (covers : List Cover) (a : ClauseAssign) : Prop :=
  InRange K covers ∧ a.vals.length = K ∧ a.Agrees

/-! ## Lemmas: assignments -/

theorem getD_set_int (l : List Int) (i j : Nat) (v : Int) :
    (l.set i v).getD j 0 = if i = j ∧ i < l.length then v else l.getD j 0 := by
  simp only [List.getD_eq_getElem?_getD, List.getElem?_set]
  by_cases hij : i = j
  · subst hij
    by_cases hlt : i < l.length
    · simp [hlt]
    · simp [hlt, List.getElem?_eq_none (not_lt.mp hlt)]
  · simp [hij]

theorem get_put (a : ClauseAssign) (i j : Nat) (v : Int) :
    (a.put i v).get j = if i = j ∧ i < a.vals.length then v else a.get j := by
  unfold ClauseAssign.put ClauseAssign.get
  exact getD_set_int a.vals i j v

theorem get_of_ge (a : ClauseAssign) (i : Nat) (h : a.vals.length ≤ i) : a.get i = 0 := by
  unfold ClauseAssign.get
  simp [List.getElem?_eq_none h]

theorem mem_pos (a : ClauseAssign) (i : Nat) : i ∈ a.pos ↔ a.get i = 1 := by
  simp only [ClauseAssign.pos, Finset.mem_filter, Finset.mem_range]
  constructor
  · exact fun h => h.2
  · intro h
    refine ⟨?_, h⟩
    by_contra hlt
    rw [get_of_ge a i (by omega)] at h
    exact absurd h (by decide)

/-! ## Lemmas: the list helpers -/

theorem mem_maintainNoSubsets (covers : List Cover) (m c : Cover) :
    c ∈ maintainNoSubsets covers m ↔ c ∈ covers ∧ ¬ (m.card < c.card ∧ m ⊆ c) := by
  unfold maintainNoSubsets
  rw [List.mem_filter]
  simp only [Bool.not_eq_true', Bool.and_eq_false_imp, decide_eq_true_eq, decide_eq_false_iff_not,
    not_and]

theorem maintainNoSubsets_append (l₁ l₂ : List Cover) (m : Cover) :
    maintainNoSubsets (l₁ ++ l₂) m = maintainNoSubsets l₁ m ++ maintainNoSubsets l₂ m := by
  simp [maintainNoSubsets]

theorem maintainNoSubsets_length (l : List Cover) (m : Cover) :
    (maintainNoSubsets l m).length ≤ l.length := by
  simp only [maintainNoSubsets]
  exact List.length_filter_le _ _

theorem incomparable_symm {c d : Cover} (h : Incomparable c d) : Incomparable d c := ⟨h.2, h.1⟩

/-- Replacing one cover by a subset of it and erasing the covers that now strictly include
the replacement keeps the list free of inclusions. -/
theorem noSubset_shrink_step (done rest : List Cover) (c c' : Cover) (hc : c' ⊆ c)
    (h : NoSubset (done ++ c :: rest)) :
    NoSubset (maintainNoSubsets done c' ++ c' :: maintainNoSubsets rest c') := by
  unfold NoSubset at *
  rw [List.pairwise_middle incomparable_symm, List.pairwise_cons] at h ⊢
  obtain ⟨h1, h2⟩ := h
  refine ⟨?_, ?_⟩
  · intro x hx
    rw [← maintainNoSubsets_append, mem_maintainNoSubsets] at hx
    obtain ⟨hx1, hx2⟩ := hx
    have hcx := h1 x hx1
    refine ⟨fun hsub => ?_, fun hsub => hcx.2 (hsub.trans hc)⟩
    have hle : x.card ≤ c'.card := by
      by_contra hlt
      exact hx2 ⟨by omega, hsub⟩
    have heq : c' = x := Finset.eq_of_subset_of_card_le hsub hle
    exact hcx.2 (heq ▸ hc)
  · rw [← maintainNoSubsets_append]
    exact h2.sublist (List.filter_sublist _)

theorem subtractLoop_eq (R : Cover) (n : Nat) (done todo : List Cover) :
    subtractLoop R n done todo = shrinkLoop (fun c => c \ R) n done todo := by
  induction n generalizing done todo with
  | zero => rfl
  | succ n ih =>
    cases todo with
    | nil => rfl
    | cons c rest =>
      have hiff : (c \ R).card ≠ c.card ↔ c \ R ≠ c := by
        constructor
        · intro h heq
          exact h (by rw [heq])
        · intro h heq
          exact h (Finset.eq_of_subset_of_card_le Finset.sdiff_subset (le_of_eq heq.symm))
      simp only [subtractLoop, shrinkLoop, ih]
      by_cases h : c \ R = c
      · have h' : ¬ (c \ R).card ≠ c.card := fun hh => (hiff.mp hh) h
        rw [if_neg h', if_neg (not_not.mpr h)]
      · rw [if_pos (hiff.mpr h), if_pos h]

theorem removeClauseLoop_eq (clause : Nat) (n : Nat) (done todo : List Cover) :
    removeClauseLoop clause n done todo = shrinkLoop (fun c => c.erase clause) n done todo := by
  induction n generalizing done todo with
  | zero => rfl
  | succ n ih =>
    cases todo with
    | nil => rfl
    | cons c rest =>
      simp only [removeClauseLoop, shrinkLoop, ih]
      by_cases h : clause ∈ c
      · have h' : c.erase clause ≠ c := fun heq => by
          have := Finset.not_mem_erase clause c
          rw [heq] at this
          exact this h
        rw [if_pos h, if_pos h']
      · rw [if_neg h, if_neg (not_not.mpr (Finset.erase_eq_of_not_mem h))]

/-- The shrinking loop keeps the whole list (passed and pending covers) free of inclusions. -/
theorem shrinkLoop_noSubset (f : Cover → Cover) (hf : ∀ c, f c ⊆ c) (n : Nat)
    (done todo res : List Cover) (h : NoSubset (done ++ todo))
    (hr : shrinkLoop f n done todo = some res) : NoSubset res := by
  induction n generalizing done todo with
  | zero =>
    simp only [shrinkLoop, Option.some.injEq] at hr
    exact hr ▸ h
  | succ n ih =>
    cases todo with
    | nil =>
      simp only [shrinkLoop, Option.some.injEq] at hr
      simpa [hr] using h
    | cons c rest =>
      simp only [shrinkLoop] at hr
      by_cases h1 : f c = c
      · rw [if_neg (not_not.mpr h1)] at hr
        exact ih _ _ (by simpa using h) hr
      · rw [if_pos h1] at hr
        by_cases h2 : f c = ∅
        · rw [if_pos h2] at hr
          exact absurd hr (by simp)
        · rw [if_neg h2] at hr
          refine ih _ _ ?_ hr
          have := noSubset_shrink_step done rest c (f c) (hf c) h
          simpa using this

/-- Every cover left by the shrinking loop is a passed cover or the image of a pending one. -/
theorem shrinkLoop_mem (f : Cover → Cover) (n : Nat) (done todo res : List Cover)
    (hn : todo.length ≤ n) (hr : shrinkLoop f n done todo = some res) :
    ∀ r ∈ res, r ∈ done ∨ ∃ t ∈ todo, r = f t := by
  induction n generalizing done todo with
  | zero =>
    have : todo = [] := List.length_eq_zero.mp (Nat.le_zero.mp hn)
    subst this
    simp only [shrinkLoop, List.append_nil, Option.some.injEq] at hr
    intro r hr'
    exact Or.inl (hr ▸ hr')
  | succ n ih =>
    cases todo with
    | nil =>
      simp only [shrinkLoop, Option.some.injEq] at hr
      intro r hr'
      exact Or.inl (hr ▸ hr')
    | cons c rest =>
      simp only [shrinkLoop] at hr
      simp only [List.length_cons, Nat.add_le_add_iff_right] at hn
      intro r hr'
      by_cases h1 : f c = c
      · rw [if_neg (not_not.mpr h1)] at hr
        rcases ih _ _ hn hr r hr' with h | ⟨t, ht, rfl⟩
        · rcases List.mem_append.mp h with h | h
          · exact Or.inl h
          · rw [List.mem_singleton] at h
            exact Or.inr ⟨c, List.mem_cons_self _ _, by rw [h, h1]⟩
        · exact Or.inr ⟨t, List.mem_cons_of_mem _ ht, rfl⟩
      · rw [if_pos h1] at hr
        by_cases h2 : f c = ∅
        · rw [if_pos h2] at hr
          exact absurd hr (by simp)
        · rw [if_neg h2] at hr
          have hn' : (maintainNoSubsets rest (f c)).length ≤ n :=
            le_trans (maintainNoSubsets_length _ _) hn
          rcases ih _ _ hn' hr r hr' with h | ⟨t, ht, rfl⟩
          · rcases List.mem_append.mp h with h | h
            · exact Or.inl ((mem_maintainNoSubsets _ _ _).mp h).1
            · rw [List.mem_singleton] at h
              exact Or.inr ⟨c, List.mem_cons_self _ _, h⟩
          · exact Or.inr ⟨t, List.mem_cons_of_mem _ ((mem_maintainNoSubsets _ _ _).mp ht).1, rfl⟩

/-- Every passed cover and the image of every pending cover includes a cover left by the
shrinking loop. -/
theorem shrinkLoop_cover (f : Cover → Cover)
    (hf2 : ∀ c t, f c ⊆ t → f c ⊆ f t) (n : Nat) (done todo res : List Cover)
    (hn : todo.length ≤ n) (hr : shrinkLoop f n done todo = some res) :
    (∀ d ∈ done, ∃ r ∈ res, r ⊆ d) ∧ (∀ t ∈ todo, ∃ r ∈ res, r ⊆ f t) := by
  induction n generalizing done todo with
  | zero =>
    have : todo = [] := List.length_eq_zero.mp (Nat.le_zero.mp hn)
    subst this
    simp only [shrinkLoop, List.append_nil, Option.some.injEq] at hr
    subst hr
    exact ⟨fun d hd => ⟨d, hd, subset_rfl⟩, fun t ht => absurd ht (List.not_mem_nil t)⟩
  | succ n ih =>
    cases todo with
    | nil =>
      simp only [shrinkLoop, Option.some.injEq] at hr
      subst hr
      exact ⟨fun d hd => ⟨d, hd, subset_rfl⟩, fun t ht => absurd ht (List.not_mem_nil t)⟩
    | cons c rest =>
      simp only [shrinkLoop] at hr
      simp only [List.length_cons, Nat.add_le_add_iff_right] at hn
      by_cases h1 : f c = c
      · rw [if_neg (not_not.mpr h1)] at hr
        obtain ⟨ihd, iht⟩ := ih _ _ hn hr
        refine ⟨fun d hd => ihd d (List.mem_append_left _ hd), fun t ht => ?_⟩
        rcases List.mem_cons.mp ht with rfl | ht
        · rw [h1]
          exact ihd t (List.mem_append_right _ (List.mem_singleton_self _))
        · exact iht t ht
      · rw [if_pos h1] at hr
        by_cases h2 : f c = ∅
        · rw [if_pos h2] at hr
          exact absurd hr (by simp)
        · rw [if_neg h2] at hr
          have hn' : (maintainNoSubsets rest (f c)).length ≤ n :=
            le_trans (maintainNoSubsets_length _ _) hn
          obtain ⟨ihd, iht⟩ := ih _ _ hn' hr
          obtain ⟨r0, hr0, hr0sub⟩ :=
            ihd (f c) (List.mem_append_right _ (List.mem_singleton_self _))
          refine ⟨fun d hd => ?_, fun t ht => ?_⟩
          · by_cases hkeep : d ∈ maintainNoSubsets done (f c)
            · exact ihd d (List.mem_append_left _ hkeep)
            · have : (f c).card < d.card ∧ f c ⊆ d := by
                by_contra hcon
                exact hkeep ((mem_maintainNoSubsets _ _ _).mpr ⟨hd, hcon⟩)
              exact ⟨r0, hr0, hr0sub.trans this.2⟩
          · rcases List.mem_cons.mp ht with rfl | ht
            · exact ⟨r0, hr0, hr0sub⟩
            · by_cases hkeep : t ∈ maintainNoSubsets rest (f c)
              · exact iht t hkeep
              · have : (f c).card < t.card ∧ f c ⊆ t := by
                  by_contra hcon
                  exact hkeep ((mem_maintainNoSubsets _ _ _).mpr ⟨ht, hcon⟩)
                exact ⟨r0, hr0, hr0sub.trans (hf2 c t this.2)⟩

/-- The shrinking loop never lengthens the list. -/
theorem shrinkLoop_length (f : Cover → Cover) (n : Nat) (done todo res : List Cover)
    (hr : shrinkLoop f n done todo = some res) : res.length ≤ done.length + todo.length := by
  induction n generalizing done todo with
  | zero =>
    simp only [shrinkLoop, Option.some.injEq] at hr
    subst hr
    simp
  | succ n ih =>
    cases todo with
    | nil =>
      simp only [shrinkLoop, Option.some.injEq] at hr
      subst hr
      simp
    | cons c rest =>
      simp only [shrinkLoop] at hr
      by_cases h1 : f c = c
      · rw [if_neg (not_not.mpr h1)] at hr
        have := ih _ _ hr
        simp only [List.length_append, List.length_singleton, List.length_cons, List.length_nil] at this ⊢
        omega
      · rw [if_pos h1] at hr
        by_cases h2 : f c = ∅
        · rw [if_pos h2] at hr
          exact absurd hr (by simp)
        · rw [if_neg h2] at hr
          have := ih _ _ hr
          have h3 := maintainNoSubsets_length done (f c)
          have h4 := maintainNoSubsets_length rest (f c)
          simp only [List.length_append, List.length_singleton, List.length_cons, List.length_nil] at this ⊢
          omega

/-- The shrinking loop fails only on a pending cover whose image is empty. -/
theorem shrinkLoop_none (f : Cover → Cover) (n : Nat) (done todo : List Cover)
    (hr : shrinkLoop f n done todo = none) : ∃ t ∈ todo, f t = ∅ ∧ f t ≠ t := by
  induction n generalizing done todo with
  | zero => simp [shrinkLoop] at hr
  | succ n ih =>
    cases todo with
    | nil => simp [shrinkLoop] at hr
    | cons c rest =>
      simp only [shrinkLoop] at hr
      by_cases h1 : f c = c
      · rw [if_neg (not_not.mpr h1)] at hr
        obtain ⟨t, ht, h⟩ := ih _ _ hr
        exact ⟨t, List.mem_cons_of_mem _ ht, h⟩
      · rw [if_pos h1] at hr
        by_cases h2 : f c = ∅
        · exact ⟨c, List.mem_cons_self _ _, h2, h1⟩
        · rw [if_neg h2] at hr
          obtain ⟨t, ht, h⟩ := ih _ _ hr
          exact ⟨t, List.mem_cons_of_mem _ ((mem_maintainNoSubsets _ _ _).mp ht).1, h⟩

theorem mem_eraseContaining (covers : List Cover) (clause : Nat) (c : Cover) :
    c ∈ eraseContaining covers clause ↔ c ∈ covers ∧ clause ∉ c := by
  unfold eraseContaining
  rw [List.mem_filter]
  simp

theorem remaining_iff (covers : List Cover) (i : Nat) :
    remaining covers i = true ↔ ∃ c ∈ covers, i ∈ c := by
  unfold remaining
  simp [List.any_eq_true]

theorem remaining_false_iff (covers : List Cover) (i : Nat) :
    remaining covers i = false ↔ ∀ c ∈ covers, i ∉ c := by
  rw [← Bool.not_eq_true, remaining_iff]
  push_neg
  rfl

theorem markRemoved_length (covers : List Cover) (i : Nat) (vs : List Int) :
    (markRemoved covers i vs).length = vs.length := by
  induction vs generalizing i with
  | nil => rfl
  | cons v vs ih => simp [markRemoved, ih]

theorem markRemoved_getD (covers : List Cover) (i j : Nat) (vs : List Int) :
    (markRemoved covers i vs).getD j 0 =
      if vs.getD j 0 = 0 ∧ j < vs.length ∧ remaining covers (i + j) = false then -1
      else vs.getD j 0 := by
  induction vs generalizing i j with
  | nil => simp [markRemoved]
  | cons v vs ih =>
    cases j with
    | zero => simp [markRemoved]
    | succ j =>
      have := ih (i + 1) j
      simp only [List.getD_eq_getElem?_getD] at this
      simp only [markRemoved, List.getD_eq_getElem?_getD, List.getElem?_cons_succ, this,
        List.length_cons, Nat.add_lt_add_iff_right]
      have e : i + 1 + j = i + (j + 1) := by omega
      rw [e]

/-- In a list free of inclusions, a cover included in another cover of the list is that
cover. -/
theorem NoSubset.eq_of_subset {covers : List Cover} (h : NoSubset covers) {c d : Cover}
    (hc : c ∈ covers) (hd : d ∈ covers) (hsub : c ⊆ d) : c = d := by
  by_contra hne
  exact (List.Pairwise.forall (fun _ _ hxy => incomparable_symm hxy) h hc hd hne).1 hsub

/-- What `removeClauseAndCover` leaves, when no assertion fails. -/
theorem removeClauseAndCover_spec (covers : List Cover) (a : ClauseAssign) (cur : Nat)
    (M : Cover) (nc : List Cover) (na : ClauseAssign)
    (h : removeClauseAndCover covers a cur M = some (nc, na)) :
    nc.length ≤ (eraseContaining covers cur).length ∧
    (∀ Y ∈ nc, Y ≠ ∅ ∧ ∃ Y0 ∈ covers, cur ∉ Y0 ∧ Y = Y0 \ M.erase cur) ∧
    (∀ Y0 ∈ covers, cur ∉ Y0 → ∃ Y ∈ nc, Y ⊆ Y0 \ M.erase cur) ∧
    (NoSubset covers → NoSubset nc) ∧
    na.vals.length = a.vals.length ∧ na.numPos = a.numPos ∧
    (∀ i, na.get i =
      if a.get i = 0 ∧ i < a.vals.length ∧ (∀ Y ∈ nc, i ∉ Y) then -1 else a.get i) := by
  unfold removeClauseAndCover at h
  rw [subtractLoop_eq] at h
  cases hs : shrinkLoop (fun c => c \ M.erase cur) (eraseContaining covers cur).length []
      (eraseContaining covers cur) with
  | none => rw [hs] at h; exact absurd h (by simp)
  | some res =>
    rw [hs] at h
    simp only at h
    by_cases hemp : ∅ ∈ res
    · rw [if_pos hemp] at h; exact absurd h (by simp)
    · rw [if_neg hemp] at h
      simp only [Option.some.injEq, Prod.mk.injEq] at h
      obtain ⟨h1, h2⟩ := h
      subst h1
      refine ⟨?_, ?_, ?_, ?_, ?_, ?_, ?_⟩
      · simpa using shrinkLoop_length _ _ _ _ _ hs
      · intro Y hY
        refine ⟨fun he => hemp (he ▸ hY), ?_⟩
        rcases shrinkLoop_mem _ _ _ _ _ (le_refl _) hs Y hY with hd | ⟨t, ht, rfl⟩
        · exact absurd hd (List.not_mem_nil _)
        · rw [mem_eraseContaining] at ht
          exact ⟨t, ht.1, ht.2, rfl⟩
      · intro Y0 hY0 hcur
        exact (shrinkLoop_cover _
          (fun c t hct => Finset.subset_sdiff.mpr
            ⟨hct, (Finset.subset_sdiff.mp (subset_refl (c \ M.erase cur))).2⟩)
          _ _ _ _ (le_refl _) hs).2 Y0 ((mem_eraseContaining _ _ _).mpr ⟨hY0, hcur⟩)
      · intro hns
        refine shrinkLoop_noSubset _ (fun c => Finset.sdiff_subset) _ _ _ _ ?_ hs
        simp only [List.nil_append]
        exact List.Pairwise.sublist (List.filter_sublist _) hns
      · rw [← h2]
        exact markRemoved_length _ _ _
      · rw [← h2]
      · intro i
        rw [← h2]
        simp only [ClauseAssign.get]
        rw [markRemoved_getD]
        simp only [Nat.zero_add, remaining_false_iff]

/-- On a list free of inclusions, no assertion of `removeClauseAndCover` fails when it is
called for a cover of the list and a selector of that cover. -/
theorem removeClauseAndCover_some (covers : List Cover) (a : ClauseAssign) (cur : Nat)
    (M : Cover) (hns : NoSubset covers) (hM : M ∈ covers) (hcur : cur ∈ M) :
    ∃ r, removeClauseAndCover covers a cur M = some r := by
  have key : ∀ t ∈ eraseContaining covers cur, t \ M.erase cur ≠ ∅ := by
    intro t ht hemp
    rw [mem_eraseContaining] at ht
    have hsub : t ⊆ M := (Finset.sdiff_eq_empty_iff_subset.mp hemp).trans (Finset.erase_subset _ _)
    have := hns.eq_of_subset ht.1 hM hsub
    exact ht.2 (this ▸ hcur)
  unfold removeClauseAndCover
  rw [subtractLoop_eq]
  cases hs : shrinkLoop (fun c => c \ M.erase cur) (eraseContaining covers cur).length []
      (eraseContaining covers cur) with
  | none =>
    obtain ⟨t, ht, h1, _⟩ := shrinkLoop_none _ _ _ _ hs
    exact absurd h1 (key t ht)
  | some res =>
    simp only
    have hemp : ∅ ∉ res := by
      intro hmem
      rcases shrinkLoop_mem _ _ _ _ _ (le_refl _) hs ∅ hmem with hd | ⟨t, ht, he⟩
      · exact absurd hd (List.not_mem_nil _)
      · exact key t ht he.symm
    rw [if_neg hemp]
    exact ⟨_, rfl⟩

theorem shrinkLoop_nonempty (f : Cover → Cover) (n : Nat) (done todo res : List Cover)
    (hd : ∀ d ∈ done, d ≠ ∅) (ht : ∀ t ∈ todo, t ≠ ∅)
    (hr : shrinkLoop f n done todo = some res) : ∀ r ∈ res, r ≠ ∅ := by
  induction n generalizing done todo with
  | zero =>
    simp only [shrinkLoop, Option.some.injEq] at hr
    subst hr
    intro r hr'
    rcases List.mem_append.mp hr' with h | h
    · exact hd r h
    · exact ht r h
  | succ n ih =>
    cases todo with
    | nil =>
      simp only [shrinkLoop, Option.some.injEq] at hr
      subst hr
      exact hd
    | cons c rest =>
      simp only [shrinkLoop] at hr
      by_cases h1 : f c = c
      · rw [if_neg (not_not.mpr h1)] at hr
        refine ih _ _ ?_ (fun t h => ht t (List.mem_cons_of_mem _ h)) hr
        intro d hd'
        rcases List.mem_append.mp hd' with h | h
        · exact hd d h
        · rw [List.mem_singleton] at h
          exact h ▸ ht c (List.mem_cons_self _ _)
      · rw [if_pos h1] at hr
        by_cases h2 : f c = ∅
        · rw [if_pos h2] at hr
          exact absurd hr (by simp)
        · rw [if_neg h2] at hr
          refine ih _ _ ?_ ?_ hr
          · intro d hd'
            rcases List.mem_append.mp hd' with h | h
            · exact hd d ((mem_maintainNoSubsets _ _ _).mp h).1
            · rw [List.mem_singleton] at h
              exact h ▸ h2
          · intro t h
            exact ht t (List.mem_cons_of_mem _ ((mem_maintainNoSubsets _ _ _).mp h).1)

/-- What `removeClause` leaves when it returns `true`. -/
theorem removeClause_spec (covers res : List Cover) (cur : Nat)
    (h : removeClause covers cur = some res) :
    (∀ r ∈ res, ∃ t ∈ covers, r = t.erase cur) ∧
    (∀ t ∈ covers, ∃ r ∈ res, r ⊆ t.erase cur) ∧
    (NoSubset covers → NoSubset res) ∧
    res.length ≤ covers.length ∧
    ((∀ c ∈ covers, c ≠ ∅) → ∀ r ∈ res, r ≠ ∅) := by
  unfold removeClause at h
  rw [removeClauseLoop_eq] at h
  refine ⟨?_, ?_, ?_, ?_, ?_⟩
  · intro r hr
    rcases shrinkLoop_mem _ _ _ _ _ (le_refl _) h r hr with hd | ⟨t, ht, rfl⟩
    · exact absurd hd (List.not_mem_nil _)
    · exact ⟨t, ht, rfl⟩
  · refine (shrinkLoop_cover _ (fun c t hct => ?_) _ _ _ _ (le_refl _) h).2
    intro x hx
    have hx' := Finset.mem_erase.mp hx
    exact Finset.mem_erase.mpr ⟨hx'.1, hct hx⟩
  · intro hns
    exact shrinkLoop_noSubset _ (fun c => Finset.erase_subset _ _) _ _ _ _ (by simpa using hns) h
  · simpa using shrinkLoop_length _ _ _ _ _ h
  · intro hne
    exact shrinkLoop_nonempty _ _ _ _ _ (fun d hd => absurd hd (List.not_mem_nil _)) hne h

/-- The function `removeClause` returns `false` only if some cover is exactly `{clause}`. -/
theorem removeClause_none (covers : List Cover) (cur : Nat)
    (h : removeClause covers cur = none) : ({cur} : Cover) ∈ covers := by
  unfold removeClause at h
  rw [removeClauseLoop_eq] at h
  obtain ⟨t, ht, h1, h2⟩ := shrinkLoop_none _ _ _ _ h
  have hmem : cur ∈ t := by
    by_contra hn
    exact h2 (Finset.erase_eq_of_not_mem hn)
  have : t = {cur} := by
    ext x
    simp only [Finset.mem_singleton]
    constructor
    · intro hx
      by_contra hne
      have : x ∈ t.erase cur := Finset.mem_erase.mpr ⟨hne, hx⟩
      rw [h1] at this
      exact absurd this (Finset.not_mem_empty x)
    · rintro rfl
      exact hmem
  exact this ▸ ht

theorem first_singleton (y : Nat) : Cover.first ({y} : Cover) = y := by
  unfold Cover.first
  rw [dif_pos (Finset.singleton_nonempty y)]
  exact Finset.min'_singleton y

theorem eq_singleton_first {c : Cover} (h : c.card = 1) : c = {c.first} := by
  obtain ⟨y, rfl⟩ := Finset.card_eq_one.mp h
  rw [first_singleton]

/-- What `propagateSingletons` leaves, when its assertion does not fail. -/
theorem propagateSingletons_spec (covers cs : List Cover) (a a' : ClauseAssign)
    (h : propagateSingletons covers a = some (cs, a')) :
    cs = covers.filter (fun c => decide (c.card ≠ 1)) ∧
    a'.vals.length = a.vals.length ∧
    a'.numNeg = a.numNeg ∧
    (∀ i, a'.get i =
      if (∃ c ∈ covers, c.card = 1 ∧ c.first = i) ∧ i < a.vals.length then 1 else a.get i) := by
  induction covers generalizing a cs with
  | nil =>
    simp only [propagateSingletons, Option.some.injEq, Prod.mk.injEq] at h
    obtain ⟨rfl, rfl⟩ := h
    simp
  | cons c rest ih =>
    simp only [propagateSingletons] at h
    by_cases h1 : c.card = 1
    · rw [if_pos h1] at h
      by_cases h2 : a.get c.first = 0
      · rw [if_pos h2] at h
        obtain ⟨e1, e2, e3, e4⟩ := ih _ _ h
        refine ⟨?_, ?_, ?_, ?_⟩
        · rw [e1, List.filter_cons_of_neg (by simpa using h1)]
        · rw [e2]
          simp [ClauseAssign.put]
        · rw [e3]
          simp [ClauseAssign.put]
        · intro i
          rw [e4]
          have hlen : ({ a.put c.first 1 with numPos := a.numPos + 1 } : ClauseAssign).vals.length
              = a.vals.length := by simp [ClauseAssign.put]
          have hget : ({ a.put c.first 1 with numPos := a.numPos + 1 } : ClauseAssign).get i
              = if c.first = i ∧ c.first < a.vals.length then 1 else a.get i := get_put a _ _ _
          rw [hlen, hget]
          by_cases hi : i < a.vals.length
          · by_cases hc : c.first = i
            · subst hc
              simp [h1, hi]
            · by_cases hr : ∃ c' ∈ rest, c'.card = 1 ∧ c'.first = i
              · have : ∃ c' ∈ c :: rest, c'.card = 1 ∧ c'.first = i := by
                  obtain ⟨c', hc', h'⟩ := hr
                  exact ⟨c', List.mem_cons_of_mem _ hc', h'⟩
                simp [hr, this, hi]
              · have : ¬ ∃ c' ∈ c :: rest, c'.card = 1 ∧ c'.first = i := by
                  rintro ⟨c', hc', h'⟩
                  rcases List.mem_cons.mp hc' with rfl | hc'
                  · exact hc h'.2
                  · exact hr ⟨c', hc', h'⟩
                simp [hr, this, hc]
          · have hc : ¬ (c.first = i ∧ c.first < a.vals.length) := by
              rintro ⟨rfl, hlt⟩
              exact hi hlt
            simp [hi, hc]
      · rw [if_neg h2] at h
        exact absurd h (by simp)
    · rw [if_neg h1] at h
      cases hp : propagateSingletons rest a with
      | none => rw [hp] at h; exact absurd h (by simp)
      | some r =>
        obtain ⟨cs', a''⟩ := r
        rw [hp] at h
        simp only [Option.some.injEq, Prod.mk.injEq] at h
        obtain ⟨rfl, rfl⟩ := h
        obtain ⟨e1, e2, e3, e4⟩ := ih _ _ hp
        refine ⟨?_, e2, e3, ?_⟩
        · rw [e1, List.filter_cons_of_pos (by simpa using h1)]
        · intro i
          rw [e4]
          have : (∃ c' ∈ c :: rest, c'.card = 1 ∧ c'.first = i) ↔
              ∃ c' ∈ rest, c'.card = 1 ∧ c'.first = i := by
            constructor
            · rintro ⟨c', hc', h'⟩
              rcases List.mem_cons.mp hc' with rfl | hc'
              · exact absurd h'.1 h1
              · exact ⟨c', hc', h'⟩
            · rintro ⟨c', hc', h'⟩
              exact ⟨c', List.mem_cons_of_mem _ hc', h'⟩
          simp only [this]

/-- The assertion of `propagateSingletons` holds when the singleton covers are pairwise
distinct and their selectors are undecided. -/
theorem propagateSingletons_some (covers : List Cover) (a : ClauseAssign)
    (hd : covers.Pairwise (fun c d => c ≠ d))
    (hz : ∀ c ∈ covers, c.card = 1 → a.get c.first = 0) :
    ∃ r, propagateSingletons covers a = some r := by
  induction covers generalizing a with
  | nil => exact ⟨_, rfl⟩
  | cons c rest ih =>
    rw [List.pairwise_cons] at hd
    simp only [propagateSingletons]
    by_cases h1 : c.card = 1
    · rw [if_pos h1, if_pos (hz c (List.mem_cons_self _ _) h1)]
      apply ih _ hd.2
      intro c' hc' hcard
      have hget : ({ a.put c.first 1 with numPos := a.numPos + 1 } : ClauseAssign).get c'.first
          = if c.first = c'.first ∧ c.first < a.vals.length then 1 else a.get c'.first :=
        get_put a _ _ _
      rw [hget]
      have hne : c.first ≠ c'.first := by
        intro he
        apply hd.1 c' hc'
        rw [eq_singleton_first h1, eq_singleton_first hcard, he]
      rw [if_neg (fun hh => hne hh.1)]
      exact hz c' (List.mem_cons_of_mem _ hc') hcard
    · rw [if_neg h1]
      obtain ⟨r, hr⟩ := ih a hd.2 (fun c' hc' => hz c' (List.mem_cons_of_mem _ hc'))
      rw [hr]
      exact ⟨_, rfl⟩

/-! ## Lemmas: the node invariant along the search -/

theorem Node.pairwise_ne {K : Nat} {covers : List Cover} {a : ClauseAssign}
    (hN : Node K covers a) : covers.Pairwise (fun c d => c ≠ d) :=
  List.Pairwise.imp (fun {c d} (h : Incomparable c d) (he : c = d) => h.1 (he ▸ subset_refl c))
    hN.noSub

theorem Node.not_singleton {K : Nat} {covers : List Cover} {a : ClauseAssign}
    (hN : Node K covers a) {c : Cover} (hc : c ∈ covers) (hcard : c.card ≠ 1) {x : Nat}
    (hx : x ∈ c) : ({x} : Cover) ∉ covers := by
  intro hmem
  have := hN.noSub.eq_of_subset hmem hc (Finset.singleton_subset_iff.mpr hx)
  rw [← this] at hcard
  exact hcard (Finset.card_singleton x)

/-- The entries after `propagateSingletons` at a node satisfying the invariant. -/
theorem propagate_get {K : Nat} {covers cs : List Cover} {a a' : ClauseAssign}
    (hN : Node K covers a) (h : propagateSingletons covers a = some (cs, a')) (i : Nat) :
    a'.get i = if ({i} : Cover) ∈ covers then 1 else a.get i := by
  rw [(propagateSingletons_spec _ _ _ _ h).2.2.2 i]
  by_cases hi : ({i} : Cover) ∈ covers
  · have h1 : ∃ c ∈ covers, c.card = 1 ∧ c.first = i :=
      ⟨{i}, hi, Finset.card_singleton i, first_singleton i⟩
    have h2 : i < a.vals.length := by
      rw [hN.len]
      exact (hN.zero _ hi i (Finset.mem_singleton_self i)).1
    rw [if_pos ⟨h1, h2⟩, if_pos hi]
  · have h1 : ¬ ∃ c ∈ covers, c.card = 1 ∧ c.first = i := by
      rintro ⟨c, hc, hcard, rfl⟩
      exact hi (eq_singleton_first hcard ▸ hc)
    rw [if_neg (fun hh => h1 hh.1), if_neg hi]

/-- The step `propagateSingletons` keeps the node invariant and the relation to the initial
family, decides no position twice, and keeps every minimal hitting set of the initial family
that agreed with the assignment. -/
theorem node_propagate {F covers : List Cover} {K : Nat} {a : ClauseAssign}
    (hN : Node K covers a) (hR : Rel F covers a) :
    ∃ a', propagateSingletons covers a
        = some (covers.filter (fun c => decide (c.card ≠ 1)), a') ∧
      Node K (covers.filter (fun c => decide (c.card ≠ 1))) a' ∧
      Rel F (covers.filter (fun c => decide (c.card ≠ 1))) a' ∧
      (∀ i, a.get i ≠ 0 → a'.get i = a.get i) ∧
      (∀ H, IsMHS H F → Compat H a.vals → Compat H a'.vals) := by
  obtain ⟨⟨cs, a'⟩, hp⟩ := propagateSingletons_some covers a hN.pairwise_ne (by
    intro c hc hcard
    have hmem : c.first ∈ c := by
      have := eq_singleton_first hcard
      rw [this, first_singleton]
      exact Finset.mem_singleton_self _
    exact (hN.zero c hc _ hmem).2)
  obtain ⟨hcs, hlen, -, -⟩ := propagateSingletons_spec _ _ _ _ hp
  have hget := propagate_get hN hp
  subst hcs
  have hsing : ∀ i, ({i} : Cover) ∈ covers → a.get i = 0 := fun i hi =>
    (hN.zero _ hi i (Finset.mem_singleton_self i)).2
  have hneg : ∀ x, a'.get x = -1 ↔ a.get x = -1 := by
    intro x
    rw [hget x]
    by_cases hx : ({x} : Cover) ∈ covers
    · rw [if_pos hx, hsing x hx]
      constructor <;> intro hh <;> exact absurd hh (by decide)
    · rw [if_neg hx]
  have hmemf : ∀ c, c ∈ covers.filter (fun c => decide (c.card ≠ 1)) ↔
      c ∈ covers ∧ c.card ≠ 1 := by
    intro c
    rw [List.mem_filter]
    simp
  refine ⟨a', hp, ?_, ?_, ?_, ?_⟩
  · refine ⟨hlen.trans hN.len, ?_, ?_, ?_, ?_⟩
    · exact List.Pairwise.sublist (List.filter_sublist _) hN.noSub
    · intro c hc
      exact hN.nonempty c ((hmemf c).mp hc).1
    · intro c hc x hx
      obtain ⟨hc1, hc2⟩ := (hmemf c).mp hc
      refine ⟨(hN.zero c hc1 x hx).1, ?_⟩
      rw [hget x, if_neg (hN.not_singleton hc1 hc2 hx)]
      exact (hN.zero c hc1 x hx).2
    · intro i
      rw [hget i]
      by_cases hi : ({i} : Cover) ∈ covers
      · rw [if_pos hi]; exact Or.inr (Or.inl rfl)
      · rw [if_neg hi]; exact hN.tern i
  · refine ⟨?_, ?_, ?_⟩
    · intro Y hY
      obtain ⟨hY1, hY2⟩ := (hmemf Y).mp hY
      obtain ⟨X, hX, hun, hYX⟩ := hR.r1 Y hY1
      refine ⟨X, hX, ?_, ?_⟩
      · intro x hx h1
        rw [hget x] at h1
        by_cases hs : ({x} : Cover) ∈ covers
        · have hxY : x ∈ Y := by
            rw [hYX, Finset.mem_filter]
            exact ⟨hx, by rw [hsing x hs]; decide⟩
          exact hN.not_singleton hY1 hY2 hxY hs
        · rw [if_neg hs] at h1
          exact hun x hx h1
      · rw [hYX]
        apply Finset.filter_congr
        intro x _
        rw [not_iff_not]
        exact (hneg x).symm
    · intro X hX hun
      have hun' : ∀ x ∈ X, a.get x ≠ 1 := by
        intro x hx h1
        apply hun x hx
        rw [hget x]
        by_cases hs : ({x} : Cover) ∈ covers
        · rw [if_pos hs]
        · rw [if_neg hs]; exact h1
      obtain ⟨Y, hY, hsub⟩ := hR.r2 X hX hun'
      have hcard : Y.card ≠ 1 := by
        intro hc
        have hYe := eq_singleton_first hc
        have hmem : Y.first ∈ X := by
          have : Y.first ∈ Y := by
            rw [hYe, first_singleton]; exact Finset.mem_singleton_self _
          exact (Finset.mem_filter.mp (hsub this)).1
        apply hun _ hmem
        rw [hget, if_pos (hYe ▸ hY)]
      refine ⟨Y, (hmemf Y).mpr ⟨hY, hcard⟩, ?_⟩
      intro x hx
      have := Finset.mem_filter.mp (hsub hx)
      rw [Finset.mem_filter]
      exact ⟨this.1, fun hh => this.2 ((hneg x).mp hh)⟩
    · intro p hp1
      rw [hget p] at hp1
      by_cases hs : ({p} : Cover) ∈ covers
      · obtain ⟨X, hX, -, hYX⟩ := hR.r1 _ hs
        have hpX : p ∈ X := by
          have : p ∈ X.filter (fun x => a.get x ≠ -1) := hYX ▸ Finset.mem_singleton_self p
          exact (Finset.mem_filter.mp this).1
        refine ⟨X, hX, hpX, ?_⟩
        intro x hx hne
        rw [hneg x]
        by_contra hcon
        have : x ∈ X.filter (fun x => a.get x ≠ -1) := Finset.mem_filter.mpr ⟨hx, hcon⟩
        rw [← hYX, Finset.mem_singleton] at this
        exact hne this
      · rw [if_neg hs] at hp1
        obtain ⟨X, hX, hpX, hall⟩ := hR.crit p hp1
        exact ⟨X, hX, hpX, fun x hx hne => (hneg x).mpr (hall x hx hne)⟩
  · intro i hi
    rw [hget i]
    by_cases hs : ({i} : Cover) ∈ covers
    · exact absurd (hsing i hs) hi
    · rw [if_neg hs]
  · intro H hH hC
    refine ⟨?_, ?_⟩
    · intro i hi
      change a'.get i = 1 at hi
      rw [hget i] at hi
      by_cases hs : ({i} : Cover) ∈ covers
      · obtain ⟨X, hX, -, hYX⟩ := hR.r1 _ hs
        obtain ⟨h, hh⟩ := hH.1 X hX
        rw [Finset.mem_inter] at hh
        have : h ∈ X.filter (fun x => a.get x ≠ -1) :=
          Finset.mem_filter.mpr ⟨hh.2, hC.2 h hh.1⟩
        rw [← hYX, Finset.mem_singleton] at this
        exact this ▸ hh.1
      · rw [if_neg hs] at hi
        exact hC.1 i hi
    · intro i hi hcon
      change a'.get i = -1 at hcon
      exact hC.2 i hi ((hneg i).mp hcon)

/-- A minimal hitting set of the initial family that agrees with the assignment of a node
hits every cover of the node. -/
theorem hits_node {F covers : List Cover} {a : ClauseAssign} (hR : Rel F covers a)
    {H : Finset Nat} (hH : IsMHS H F) (hC : Compat H a.vals) :
    ∀ Y ∈ covers, ∃ h ∈ H, h ∈ Y := by
  intro Y hY
  obtain ⟨X, hX, -, hYX⟩ := hR.r1 Y hY
  obtain ⟨h, hh⟩ := hH.1 X hX
  rw [Finset.mem_inter] at hh
  refine ⟨h, hh.1, ?_⟩
  rw [hYX, Finset.mem_filter]
  exact ⟨hh.2, hC.2 h hh.1⟩

/-- An undecided position of such a minimal hitting set has a cover of the node that the set
meets in that position only. -/
theorem crit_cover {F covers : List Cover} {a : ClauseAssign} (hR : Rel F covers a)
    {H : Finset Nat} (hH : IsMHS H F) (hC : Compat H a.vals) {cur : Nat} (hcur : cur ∈ H)
    (h0 : a.get cur = 0) : ∃ M ∈ covers, cur ∈ M ∧ ∀ h ∈ H, h ∈ M → h = cur := by
  have hnot := hH.2 cur hcur
  unfold Hits at hnot
  push_neg at hnot
  obtain ⟨X, hX, hXe⟩ := hnot
  rw [Finset.not_nonempty_iff_eq_empty] at hXe
  have hone : ∀ h ∈ H, h ∈ X → h = cur := by
    intro h hh hhX
    by_contra hne
    have : h ∈ H.erase cur ∩ X := Finset.mem_inter.mpr ⟨Finset.mem_erase.mpr ⟨hne, hh⟩, hhX⟩
    rw [hXe] at this
    exact absurd this (Finset.not_mem_empty h)
  have hun : ∀ x ∈ X, a.get x ≠ 1 := by
    intro x hx h1
    have := hone x (hC.1 x h1) hx
    rw [this, h0] at h1
    exact absurd h1 (by decide)
  obtain ⟨Y, hY, hsub⟩ := hR.r2 X hX hun
  obtain ⟨h, hh, hhY⟩ := hits_node hR hH hC Y hY
  have hhX : h ∈ X := (Finset.mem_filter.mp (hsub hhY)).1
  have := hone h hh hhX
  subst this
  exact ⟨Y, hY, hhY, fun h' hh' hh'Y => hone h' hh' (Finset.mem_filter.mp (hsub hh'Y)).1⟩

/-- A node without covers has selected a minimal hitting set of the initial family. -/
theorem emit_sound {F : List Cover} {a : ClauseAssign} (hR : Rel F [] a) : IsMHS a.pos F := by
  refine ⟨?_, ?_⟩
  · intro X hX
    by_contra hcon
    have hun : ∀ x ∈ X, a.get x ≠ 1 := by
      intro x hx h1
      exact hcon ⟨x, Finset.mem_inter.mpr ⟨(mem_pos a x).mpr h1, hx⟩⟩
    obtain ⟨Y, hY, -⟩ := hR.r2 X hX hun
    exact absurd hY (List.not_mem_nil _)
  · intro t ht hhit
    rw [mem_pos] at ht
    obtain ⟨X, hX, -, hall⟩ := hR.crit t ht
    obtain ⟨h, hh⟩ := hhit X hX
    rw [Finset.mem_inter, Finset.mem_erase, mem_pos] at hh
    have := hall h hh.2 hh.1.1
    rw [this] at hh
    exact absurd hh.1.2 (by decide)

/-- At a node without covers the only minimal hitting set of the initial family that agrees
with the assignment is the selected one. -/
theorem emit_compat {F : List Cover} {a : ClauseAssign} (hR : Rel F [] a) {H : Finset Nat}
    (hH : IsMHS H F) (hC : Compat H a.vals) : a.pos = H := by
  have hsub : a.pos ⊆ H := fun i hi => hC.1 i ((mem_pos a i).mp hi)
  by_contra hne
  have hss : a.pos ⊂ H := Finset.ssubset_iff_subset_ne.mpr ⟨hsub, hne⟩
  obtain ⟨h, hh, hnot⟩ := Finset.exists_of_ssubset hss
  apply hH.2 h hh
  intro X hX
  obtain ⟨x, hx⟩ := (emit_sound hR).1 X hX
  rw [Finset.mem_inter] at hx
  refine ⟨x, Finset.mem_inter.mpr ⟨Finset.mem_erase.mpr ⟨?_, hsub hx.1⟩, hx.2⟩⟩
  rintro rfl
  exact hnot hx.1

/-- The step "select `cur` for the cover `M`" (`removeClauseAndCover` on the assignment with
`cur` set to `+1`) at a node satisfying the invariant. -/
theorem node_rcc {F covers : List Cover} {K : Nat} {a : ClauseAssign}
    (hN : Node K covers a) (hR : Rel F covers a) {cur : Nat} (h0 : a.get cur = 0)
    (hK : cur < K) {M : Cover} (hM : M ∈ covers) (hcur : cur ∈ M) :
    ∃ nc na, removeClauseAndCover covers
        { a.put cur 1 with numPos := a.numPos + 1 } cur M = some (nc, na) ∧
      Node K nc na ∧ Rel F nc na ∧ nc.length < covers.length ∧
      (∀ i, a.get i ≠ 0 → na.get i = a.get i) ∧ na.get cur = 1 ∧
      (∀ H, IsMHS H F → Compat H a.vals → cur ∈ H → (∀ h ∈ H, h ∈ M → h = cur) →
        Compat H na.vals) := by
  obtain ⟨⟨nc, na⟩, hrcc⟩ := removeClauseAndCover_some covers
    { a.put cur 1 with numPos := a.numPos + 1 } cur M hN.noSub hM hcur
  obtain ⟨hlen, hmem, hcov, hns, hvl, -, hget⟩ := removeClauseAndCover_spec _ _ _ _ _ _ hrcc
  have hl1 : ({ a.put cur 1 with numPos := a.numPos + 1 } : ClauseAssign).vals.length = K := by
    simp [ClauseAssign.put, hN.len]
  have hg1 : ∀ i, ({ a.put cur 1 with numPos := a.numPos + 1 } : ClauseAssign).get i
      = if cur = i then 1 else a.get i := by
    intro i
    have := get_put a cur i 1
    rw [hN.len] at this
    simp only [hK, and_true] at this
    exact this
  have hna : ∀ i, na.get i = if cur = i then 1
      else if a.get i = 0 ∧ i < K ∧ (∀ Y ∈ nc, i ∉ Y) then -1 else a.get i := by
    intro i
    rw [hget i, hg1 i, hl1]
    by_cases hi : cur = i
    · simp [hi]
    · simp [hi]
  -- facts about the members of the surviving covers
  have hin : ∀ Y ∈ nc, ∀ x ∈ Y, x ≠ cur ∧ x ∉ M.erase cur ∧ x < K ∧ a.get x = 0 ∧
      na.get x = 0 := by
    intro Y hY x hx
    obtain ⟨-, Y0, hY0, hc0, rfl⟩ := hmem Y hY
    rw [Finset.mem_sdiff] at hx
    have hne : x ≠ cur := fun he => hc0 (he ▸ hx.1)
    obtain ⟨hxK, hx0⟩ := hN.zero Y0 hY0 x hx.1
    refine ⟨hne, hx.2, hxK, hx0, ?_⟩
    rw [hna x, if_neg (Ne.symm hne), if_neg]
    · exact hx0
    · rintro ⟨-, -, horph⟩
      exact horph _ hY (Finset.mem_sdiff.mpr hx)
  have hout : ∀ x ∈ M, x ≠ cur → na.get x = -1 := by
    intro x hx hne
    rw [hna x, if_neg (Ne.symm hne), if_pos]
    refine ⟨(hN.zero M hM x hx).2, (hN.zero M hM x hx).1, ?_⟩
    intro Y hY hxY
    exact (hin Y hY x hxY).2.1 (Finset.mem_erase.mpr ⟨hne, hx⟩)
  have hkeep : ∀ i, a.get i ≠ 0 → na.get i = a.get i := by
    intro i hi
    have hne : cur ≠ i := fun he => hi (he ▸ h0)
    rw [hna i, if_neg hne, if_neg (fun hh => hi hh.1)]
  have hcur1 : na.get cur = 1 := by rw [hna cur, if_pos rfl]
  have hpos : ∀ i, na.get i = 1 → i = cur ∨ a.get i = 1 := by
    intro i hi
    rw [hna i] at hi
    by_cases hc : cur = i
    · exact Or.inl hc.symm
    · rw [if_neg hc] at hi
      by_cases hc2 : a.get i = 0 ∧ i < K ∧ ∀ Y ∈ nc, i ∉ Y
      · rw [if_pos hc2] at hi
        exact absurd hi (by decide)
      · rw [if_neg hc2] at hi
        exact Or.inr hi
  refine ⟨nc, na, hrcc, ?_, ?_, ?_, hkeep, hcur1, ?_⟩
  · refine ⟨hvl.trans hl1, hns hN.noSub, fun c hc => (hmem c hc).1, ?_, ?_⟩
    · intro c hc x hx
      exact ⟨(hin c hc x hx).2.2.1, (hin c hc x hx).2.2.2.2⟩
    · intro i
      rw [hna i]
      by_cases hc : cur = i
      · rw [if_pos hc]; exact Or.inr (Or.inl rfl)
      · rw [if_neg hc]
        by_cases hc2 : a.get i = 0 ∧ i < K ∧ ∀ Y ∈ nc, i ∉ Y
        · rw [if_pos hc2]; exact Or.inr (Or.inr rfl)
        · rw [if_neg hc2]; exact hN.tern i
  · refine ⟨?_, ?_, ?_⟩
    · intro Y hY
      obtain ⟨-, Y0, hY0, hc0, hYe⟩ := hmem Y hY
      obtain ⟨X, hX, hun, hYX⟩ := hR.r1 Y0 hY0
      have hcX : cur ∉ X := by
        intro hcX
        apply hc0
        rw [hYX, Finset.mem_filter]
        exact ⟨hcX, by rw [h0]; decide⟩
      refine ⟨X, hX, ?_, ?_⟩
      · intro x hx h1
        rcases hpos x h1 with he | he
        · exact hcX (he ▸ hx)
        · exact hun x hx he
      · ext x
        rw [Finset.mem_filter]
        constructor
        · intro hxY
          have hxY0 : x ∈ Y0 := by
            rw [hYe] at hxY
            exact (Finset.mem_sdiff.mp hxY).1
          rw [hYX] at hxY0
          refine ⟨(Finset.mem_filter.mp hxY0).1, ?_⟩
          rw [(hin Y hY x hxY).2.2.2.2]
          decide
        · rintro ⟨hxX, hxn⟩
          have hne : x ≠ cur := fun he => hcX (he ▸ hxX)
          have hxa : a.get x ≠ -1 := by
            intro hh
            apply hxn
            rw [hkeep x (by rw [hh]; decide), hh]
          have hxY0 : x ∈ Y0 := by
            rw [hYX, Finset.mem_filter]
            exact ⟨hxX, hxa⟩
          obtain ⟨hxK, hx0⟩ := hN.zero Y0 hY0 x hxY0
          have : ¬ ∀ Y' ∈ nc, x ∉ Y' := by
            intro horph
            apply hxn
            rw [hna x, if_neg (Ne.symm hne), if_pos ⟨hx0, hxK, horph⟩]
          push_neg at this
          obtain ⟨Y', hY', hxY'⟩ := this
          rw [hYe, Finset.mem_sdiff]
          exact ⟨hxY0, (hin Y' hY' x hxY').2.1⟩
    · intro X hX hun
      have hcX : cur ∉ X := fun hcX => hun cur hcX hcur1
      have hun' : ∀ x ∈ X, a.get x ≠ 1 := by
        intro x hx h1
        apply hun x hx
        rw [hkeep x (by rw [h1]; decide), h1]
      obtain ⟨Y0, hY0, hsub⟩ := hR.r2 X hX hun'
      have hc0 : cur ∉ Y0 := fun hh => hcX (Finset.mem_filter.mp (hsub hh)).1
      obtain ⟨Y, hY, hYsub⟩ := hcov Y0 hY0 hc0
      refine ⟨Y, hY, ?_⟩
      intro x hx
      rw [Finset.mem_filter]
      refine ⟨(Finset.mem_filter.mp (hsub (Finset.mem_sdiff.mp (hYsub hx)).1)).1, ?_⟩
      rw [(hin Y hY x hx).2.2.2.2]
      decide
    · intro p hp
      rcases hpos p hp with he | he
      · subst he
        obtain ⟨X, hX, -, hMX⟩ := hR.r1 M hM
        have hpX : p ∈ X := by
          rw [hMX] at hcur
          exact (Finset.mem_filter.mp hcur).1
        refine ⟨X, hX, hpX, ?_⟩
        intro x hx hne
        by_cases hxa : a.get x = -1
        · rw [hkeep x (by rw [hxa]; decide), hxa]
        · apply hout x _ hne
          rw [hMX, Finset.mem_filter]
          exact ⟨hx, hxa⟩
      · obtain ⟨X, hX, hpX, hall⟩ := hR.crit p he
        refine ⟨X, hX, hpX, ?_⟩
        intro x hx hne
        have := hall x hx hne
        rw [hkeep x (by rw [this]; decide), this]
  · calc nc.length ≤ (eraseContaining covers cur).length := hlen
      _ < covers.length := by
        unfold eraseContaining
        apply List.length_filter_lt_length_iff_exists.mpr
        exact ⟨M, hM, by simpa using hcur⟩
  · intro H hH hC hcH honly
    refine ⟨?_, ?_⟩
    · intro i hi
      rcases hpos i hi with he | he
      · exact he ▸ hcH
      · exact hC.1 i he
    · intro i hi hcon
      change na.get i = -1 at hcon
      have hne : cur ≠ i := by
        rintro rfl
        rw [hcur1] at hcon
        exact absurd hcon (by decide)
      rw [hna i, if_neg hne] at hcon
      by_cases hc2 : a.get i = 0 ∧ i < K ∧ ∀ Y ∈ nc, i ∉ Y
      · obtain ⟨hi0, -, horph⟩ := hc2
        obtain ⟨Mi, hMi, hiMi, honly'⟩ := crit_cover hR hH hC hi hi0
        have hcMi : cur ∉ Mi := fun hh => hne (honly' cur hcH hh)
        obtain ⟨Y, hY, hYsub⟩ := hcov Mi hMi hcMi
        obtain ⟨-, Y0, hY0, hc0, hYe⟩ := hmem Y hY
        obtain ⟨h, hh, hhY0⟩ := hits_node hR hH hC Y0 hY0
        have hhM : h ∉ M.erase cur := by
          intro hhM
          have := honly h hh (Finset.mem_of_mem_erase hhM)
          exact hc0 (this ▸ hhY0)
        have hhY : h ∈ Y := by
          rw [hYe, Finset.mem_sdiff]
          exact ⟨hhY0, hhM⟩
        have := honly' h hh (Finset.mem_sdiff.mp (hYsub hhY)).1
        exact horph Y hY (this ▸ hhY)
      · rw [if_neg hc2] at hcon
        exact hC.2 i hi hcon

/-- The step "exclude `cur`" when `removeClause` returns `false`: every minimal hitting set
of the initial family that agrees with the assignment contains `cur`. -/
theorem node_exclude_none {F covers : List Cover} {a : ClauseAssign}
    (hR : Rel F covers a) {cur : Nat} (hnone : removeClause covers cur = none)
    {H : Finset Nat} (hH : IsMHS H F) (hC : Compat H a.vals) : cur ∈ H := by
  have hs := removeClause_none covers cur hnone
  obtain ⟨h, hh, hhY⟩ := hits_node hR hH hC _ hs
  rw [Finset.mem_singleton] at hhY
  exact hhY ▸ hh

/-- The step "exclude `cur`" (`removeClause` on the assignment with `cur` set to `-1`) at a
node satisfying the invariant. -/
theorem node_exclude {F covers cs : List Cover} {K : Nat} {a : ClauseAssign}
    (hN : Node K covers a) (hR : Rel F covers a) {cur : Nat} (h0 : a.get cur = 0)
    (hK : cur < K) (hrc : removeClause covers cur = some cs) :
    Node K cs { a.put cur (-1) with numNeg := a.numNeg + 1 } ∧
    Rel F cs { a.put cur (-1) with numNeg := a.numNeg + 1 } ∧
    cs.length ≤ covers.length ∧ (covers ≠ [] → cs ≠ []) ∧
    (∀ i, a.get i ≠ 0 →
      ({ a.put cur (-1) with numNeg := a.numNeg + 1 } : ClauseAssign).get i = a.get i) ∧
    ({ a.put cur (-1) with numNeg := a.numNeg + 1 } : ClauseAssign).get cur = -1 ∧
    (∀ H, IsMHS H F → Compat H a.vals → cur ∉ H →
      Compat H ({ a.put cur (-1) with numNeg := a.numNeg + 1 } : ClauseAssign).vals) := by
  obtain ⟨hmem, hcov, hns, hlen, hne⟩ := removeClause_spec _ _ _ hrc
  have hg : ∀ i, ({ a.put cur (-1) with numNeg := a.numNeg + 1 } : ClauseAssign).get i
      = if cur = i then -1 else a.get i := by
    intro i
    have := get_put a cur i (-1)
    rw [hN.len] at this
    simp only [hK, and_true] at this
    exact this
  have hl : ({ a.put cur (-1) with numNeg := a.numNeg + 1 } : ClauseAssign).vals.length = K := by
    simp [ClauseAssign.put, hN.len]
  generalize ({ a.put cur (-1) with numNeg := a.numNeg + 1 } : ClauseAssign) = a2 at hg hl ⊢
  have hkeep : ∀ i, a.get i ≠ 0 → a2.get i = a.get i := by
    intro i hi
    have hne : cur ≠ i := fun he => hi (he ▸ h0)
    rw [hg i, if_neg hne]
  have hneg : ∀ x, a2.get x ≠ -1 ↔ x ≠ cur ∧ a.get x ≠ -1 := by
    intro x
    rw [hg x]
    by_cases hc : cur = x
    · rw [if_pos hc]
      simp [hc]
    · rw [if_neg hc]
      simp [Ne.symm hc]
  have hpos : ∀ x, a2.get x = 1 ↔ a.get x = 1 := by
    intro x
    rw [hg x]
    by_cases hc : cur = x
    · rw [if_pos hc, ← hc, h0]
      constructor <;> intro hh <;> exact absurd hh (by decide)
    · rw [if_neg hc]
  refine ⟨?_, ?_, hlen, ?_, hkeep, by rw [hg cur, if_pos rfl], ?_⟩
  · refine ⟨hl, hns hN.noSub, hne hN.nonempty, ?_, ?_⟩
    · intro c hc x hx
      obtain ⟨t, ht, rfl⟩ := hmem c hc
      rw [Finset.mem_erase] at hx
      obtain ⟨hxK, hx0⟩ := hN.zero t ht x hx.2
      refine ⟨hxK, ?_⟩
      rw [hg x, if_neg (Ne.symm hx.1)]
      exact hx0
    · intro i
      rw [hg i]
      by_cases hc : cur = i
      · rw [if_pos hc]; exact Or.inr (Or.inr rfl)
      · rw [if_neg hc]; exact hN.tern i
  · refine ⟨?_, ?_, ?_⟩
    · intro Y hY
      obtain ⟨t, ht, rfl⟩ := hmem Y hY
      obtain ⟨X, hX, hun, htX⟩ := hR.r1 t ht
      refine ⟨X, hX, fun x hx h1 => hun x hx ((hpos x).mp h1), ?_⟩
      ext x
      rw [Finset.mem_erase, Finset.mem_filter, hneg x, htX, Finset.mem_filter]
      tauto
    · intro X hX hun
      obtain ⟨Y, hY, hsub⟩ := hR.r2 X hX (fun x hx h1 => hun x hx ((hpos x).mpr h1))
      obtain ⟨r, hr, hrsub⟩ := hcov Y hY
      refine ⟨r, hr, ?_⟩
      intro x hx
      have hx' := Finset.mem_erase.mp (hrsub hx)
      have hx'' := Finset.mem_filter.mp (hsub hx'.2)
      rw [Finset.mem_filter, hneg x]
      exact ⟨hx''.1, hx'.1, hx''.2⟩
    · intro p hp
      obtain ⟨X, hX, hpX, hall⟩ := hR.crit p ((hpos p).mp hp)
      refine ⟨X, hX, hpX, ?_⟩
      intro x hx hne'
      have := hall x hx hne'
      rw [hkeep x (by rw [this]; decide), this]
  · intro hcne hcs
    obtain ⟨t, ht⟩ := List.exists_mem_of_ne_nil _ hcne
    obtain ⟨r, hr, -⟩ := hcov t ht
    rw [hcs] at hr
    exact absurd hr (List.not_mem_nil _)
  · intro H _ hC hcH
    refine ⟨?_, ?_⟩
    · intro i hi
      exact hC.1 i ((hpos i).mp hi)
    · intro i hi
      change a2.get i ≠ -1
      rw [hneg i]
      exact ⟨fun he => hcH (he ▸ hi), hC.2 i hi⟩

/-! ## The search without branch-and-bound -/

theorem StInv.mono_out {F : List Cover} {v : List Int} {out out' : List ClauseAssign}
    (h : Done F v out) (hsub : ∀ e ∈ out, e ∈ out') : Done F v out' := by
  intro H hH hC
  obtain ⟨e, he, hpos⟩ := h H hH hC
  exact ⟨e, hsub e he, hpos⟩

/-- The loop over the covers containing `cur`, under the contract of the recursive call. -/
theorem tryCovers_spec {F : List Cover} {K m : Nat}
    {rec : List Cover → ClauseAssign → MUSbuilder → Outcome × MUSbuilder}
    (hrec : RecSpec F K m rec) {covers : List Cover} {a : ClauseAssign} {cur : Nat}
    (hN : Node K covers a) (hR : Rel F covers a) (h0 : a.get cur = 0) (hK : cur < K)
    (hm : covers.length ≤ m) {pend : List (List Int)} (hlp : LoopPend pend a)
    (todo : List Cover) (b : MUSbuilder) (htodo : ∀ c ∈ todo, c ∈ covers)
    (hb : StInv F pend b) :
    ∃ o b', tryCovers rec covers { a.put cur 1 with numPos := a.numPos + 1 } cur todo b
        = (.ret o, b') ∧ StInv F pend b' ∧ (∀ e ∈ b.out, e ∈ b'.out) ∧
      (∀ H, IsMHS H F → Compat H a.vals → cur ∈ H →
        (∃ M ∈ todo, cur ∈ M ∧ ∀ h ∈ H, h ∈ M → h = cur) → ∃ e ∈ b'.out, e.pos = H) := by
  induction todo generalizing b with
  | nil =>
    refine ⟨false, b, rfl, hb, fun e he => he, ?_⟩
    rintro H - - - ⟨M, hM, -⟩
    exact absurd hM (List.not_mem_nil _)
  | cons c rest ih =>
    have hc : c ∈ covers := htodo c (List.mem_cons_self _ _)
    have hrest : ∀ c' ∈ rest, c' ∈ covers := fun c' h => htodo c' (List.mem_cons_of_mem _ h)
    simp only [tryCovers]
    rw [if_neg (hN.nonempty c hc)]
    by_cases hcur : cur ∈ c
    · rw [if_pos hcur]
      obtain ⟨nc, na, hrcc, hNn, hRn, hlen, hkeep, hcur1, hcompat⟩ :=
        node_rcc hN hR h0 hK hc hcur
      rw [hrcc]
      have hnp : NotPend pend na := by
        intro p hp
        rcases hlp p hp with ⟨i, hi1, hi2⟩ | hall
        · exact ⟨i, hi1, by rw [hkeep i hi2]; exact hi2⟩
        · exact ⟨cur, hall cur h0, by rw [hcur1]; decide⟩
      obtain ⟨b1, hrun, hb1, hmono1, hdone1⟩ :=
        hrec nc na b pend (lt_of_lt_of_le hlen hm) hNn hRn hb hnp
      simp only [hrun]
      obtain ⟨o, b', hrun', hb', hmono', hdone'⟩ := ih b1 hrest hb1
      refine ⟨o, b', hrun', hb', fun e he => hmono' e (hmono1 e he), ?_⟩
      rintro H hH hC hcH ⟨M, hM, hcM, honly⟩
      rcases List.mem_cons.mp hM with rfl | hM
      · obtain ⟨e, he, hpos⟩ := hdone1 H hH (hcompat H hH hC hcH honly)
        exact ⟨e, hmono' e he, hpos⟩
      · exact hdone' H hH hC hcH ⟨M, hM, hcM, honly⟩
    · rw [if_neg hcur]
      obtain ⟨o, b', hrun', hb', hmono', hdone'⟩ := ih b hrest hb
      refine ⟨o, b', hrun', hb', hmono', ?_⟩
      rintro H hH hC hcH ⟨M, hM, hcM, honly⟩
      rcases List.mem_cons.mp hM with rfl | hM
      · exact absurd hcM hcur
      · exact hdone' H hH hC hcH ⟨M, hM, hcM, honly⟩

/-- The loop over the selector positions, under the contract of the recursive call. -/
theorem splitLoop_spec {F : List Cover} {K m : Nat}
    {rec : List Cover → ClauseAssign → MUSbuilder → Outcome × MUSbuilder}
    (hrec : RecSpec F K m rec) {pend : List (List Int)} (k cur : Nat) (covers : List Cover)
    (a : ClauseAssign) (b : MUSbuilder) (hk : cur + k = K) (hlow : ∀ i < cur, a.get i ≠ 0)
    (hN : Node K covers a) (hR : Rel F covers a) (hne : covers ≠ [])
    (hm : covers.length ≤ m) (hb : StInv F pend b) (hlp : LoopPend pend a) :
    ∃ b', splitLoop rec k cur covers a b = (.ret false, b') ∧ StInv F pend b' ∧
      (∀ e ∈ b.out, e ∈ b'.out) ∧
      (∀ H, IsMHS H F → Compat H a.vals → ∃ e ∈ b'.out, e.pos = H) := by
  induction k generalizing cur covers a b with
  | zero =>
    exfalso
    obtain ⟨Y, hY⟩ := List.exists_mem_of_ne_nil _ hne
    obtain ⟨x, hx⟩ := Finset.nonempty_iff_ne_empty.mpr (hN.nonempty Y hY)
    obtain ⟨hxK, hx0⟩ := hN.zero Y hY x hx
    exact hlow x (by omega) hx0
  | succ k ih =>
    simp only [splitLoop]
    by_cases h0 : a.get cur = 0
    · rw [if_neg (not_not.mpr h0)]
      have hK : cur < K := by omega
      obtain ⟨o, b1, hrun, hb1, hmono1, hdone1⟩ :=
        tryCovers_spec hrec hN hR h0 hK hm hlp covers b (fun c hc => hc) hb
      rw [hrun]
      simp only
      have hcrit : ∀ H, IsMHS H F → Compat H a.vals → cur ∈ H → ∃ e ∈ b1.out, e.pos = H :=
        fun H hH hC hcH => hdone1 H hH hC hcH (crit_cover hR hH hC hcH h0)
      cases hrc : removeClause covers cur with
      | none =>
        simp only
        refine ⟨b1, rfl, hb1, hmono1, ?_⟩
        intro H hH hC
        exact hcrit H hH hC (node_exclude_none hR hrc hH hC)
      | some cs =>
        simp only
        obtain ⟨hN2, hR2, hlen2, hne2, hkeep2, hcur2, hcompat2⟩ :=
          node_exclude hN hR h0 hK hrc
        have hlow2 : ∀ i < cur + 1,
            ({ a.put cur (-1) with numNeg := a.numNeg + 1 } : ClauseAssign).get i ≠ 0 := by
          intro i hi
          by_cases hic : i = cur
          · rw [hic, hcur2]; decide
          · rw [hkeep2 i (hlow i (by omega))]
            exact hlow i (by omega)
        have hlp2 : LoopPend pend { a.put cur (-1) with numNeg := a.numNeg + 1 } := by
          intro p hp
          rcases hlp p hp with ⟨i, hi1, hi2⟩ | hall
          · exact Or.inl ⟨i, hi1, by rw [hkeep2 i hi2]; exact hi2⟩
          · refine Or.inr (fun i hi => hall i ?_)
            by_contra hcon
            rw [hkeep2 i hcon] at hi
            exact hcon hi
        obtain ⟨b', hrun', hb', hmono', hdone'⟩ :=
          ih (cur + 1) cs _ b1 (by omega) hlow2 hN2 hR2 (hne2 hne) (le_trans hlen2 hm) hb1 hlp2
        refine ⟨b', hrun', hb', fun e he => hmono' e (hmono1 e he), ?_⟩
        intro H hH hC
        by_cases hcH : cur ∈ H
        · obtain ⟨e, he, hpos⟩ := hcrit H hH hC hcH
          exact ⟨e, hmono' e he, hpos⟩
        · exact hdone' H hH (hcompat2 H hH hC hcH)
    · rw [if_pos h0]
      refine ih (cur + 1) covers a b (by omega) ?_ hN hR hne hm hb hlp
      intro i hi
      by_cases hic : i = cur
      · exact hic ▸ h0
      · exact hlow i (by omega)

/-- The contract of `constructMUS` without branch-and-bound, for every recursion budget. -/
theorem constructMUS_spec (F : List Cover) (K n : Nat) : RecSpec F K n (constructMUS n) := by
  induction n with
  | zero =>
    intro covers a b pend hlt
    exact absurd hlt (Nat.not_lt_zero _)
  | succ n ih =>
    intro covers a b pend hlt hN hR hb hnp
    obtain ⟨a0, hprop, hN0, hR0, hkeep, hcompat⟩ := node_propagate hN hR
    have hnp0 : NotPend pend a0 := by
      intro p hp
      obtain ⟨i, hi1, hi2⟩ := hnp p hp
      exact ⟨i, hi1, by rw [hkeep i hi2]; exact hi2⟩
    have hnotin : a0.vals ∉ pend := by
      intro hin
      obtain ⟨i, hi1, hi2⟩ := hnp0 _ hin
      exact hi2 hi1
    have hbh : boundHit b (covers.filter (fun c => decide (c.card ≠ 1))) a0 = some false := by
      simp [boundHit, hb.bb]
    simp only [constructMUS, hprop, hbh]
    by_cases hvis : a0.vals ∈ b.beenHere
    · rw [if_pos hvis]
      refine ⟨b, rfl, hb, fun e he => he, ?_⟩
      intro H hH hC
      rcases hb.seen _ hvis with hin | hdone
      · exact absurd hin hnotin
      · exact hdone H hH (hcompat H hH hC)
    · rw [if_neg hvis]
      by_cases hemp : covers.filter (fun c => decide (c.card ≠ 1)) = []
      · rw [if_pos hemp]
        rw [hemp] at hR0
        refine ⟨_, rfl, ⟨hb.bb, ?_, ?_⟩, ?_, ?_⟩
        · intro e he
          rcases List.mem_append.mp he with h | h
          · exact hb.sound e h
          · rw [List.mem_singleton] at h
            exact h ▸ emit_sound hR0
        · intro v hv
          rcases List.mem_cons.mp hv with rfl | hv
          · right
            intro H hH hC
            exact ⟨a0, List.mem_append_right _ (List.mem_singleton_self _),
              emit_compat hR0 hH hC⟩
          · rcases hb.seen v hv with h | h
            · exact Or.inl h
            · exact Or.inr (StInv.mono_out h (fun e he => List.mem_append_left _ he))
        · intro e he
          exact List.mem_append_left _ he
        · intro H hH hC
          exact ⟨a0, List.mem_append_right _ (List.mem_singleton_self _),
            emit_compat hR0 hH (hcompat H hH hC)⟩
      · rw [if_neg hemp]
        have hb1 : StInv F (a0.vals :: pend) { b with beenHere := a0.vals :: b.beenHere } := by
          refine ⟨hb.bb, hb.sound, ?_⟩
          intro v hv
          rcases List.mem_cons.mp hv with rfl | hv
          · exact Or.inl (List.mem_cons_self _ _)
          · rcases hb.seen v hv with h | h
            · exact Or.inl (List.mem_cons_of_mem _ h)
            · exact Or.inr h
        have hlp : LoopPend (a0.vals :: pend) a0 := by
          intro p hp
          rcases List.mem_cons.mp hp with rfl | hp
          · exact Or.inr (fun i hi => hi)
          · exact Or.inl (hnp0 p hp)
        have hlen : (covers.filter (fun c => decide (c.card ≠ 1))).length ≤ n :=
          le_trans (List.length_filter_le _ _) (by omega)
        obtain ⟨b', hrun, hb', hmono, hdone⟩ :=
          splitLoop_spec ih a0.vals.length 0 _ a0 _ (by rw [hN0.len]; omega)
            (fun i hi => absurd hi (Nat.not_lt_zero _)) hN0 hR0 hemp hlen hb1 hlp
        refine ⟨b', hrun, ⟨hb'.bb, hb'.sound, ?_⟩, hmono, ?_⟩
        · intro v hv
          rcases hb'.seen v hv with h | h
          · rcases List.mem_cons.mp h with rfl | h
            · exact Or.inr hdone
            · exact Or.inl h
          · exact Or.inr h
        · intro H hH hC
          exact hdone H hH (hcompat H hH hC)

theorem zero_get (K i : Nat) : (ClauseAssign.zero K).get i = 0 := by
  unfold ClauseAssign.zero ClauseAssign.get
  simp only [List.getD_eq_getElem?_getD, List.getElem?_replicate]
  by_cases h : i < K <;> simp [h]

theorem node_root {covers : List Cover} {K : Nat} (hne : ∀ c ∈ covers, c ≠ ∅)
    (hns : NoSubset covers) (hr : InRange K covers) : Node K covers (ClauseAssign.zero K) :=
  ⟨by simp [ClauseAssign.zero], hns, hne, fun c hc x hx => ⟨hr c hc x hx, zero_get K x⟩,
    fun i => Or.inl (zero_get K i)⟩

theorem rel_root (covers : List Cover) (K : Nat) : Rel covers covers (ClauseAssign.zero K) := by
  have hf : ∀ Y : Cover, Y.filter (fun x => (ClauseAssign.zero K).get x ≠ -1) = Y := by
    intro Y
    apply Finset.filter_true_of_mem
    intro x _
    rw [zero_get]
    decide
  refine ⟨?_, ?_, ?_⟩
  · intro Y hY
    exact ⟨Y, hY, fun x _ => by rw [zero_get]; decide, (hf Y).symm⟩
  · intro X hX _
    exact ⟨X, hX, by rw [hf X]⟩
  · intro p hp
    rw [zero_get] at hp
    exact absurd hp (by decide)

/-- The whole run without branch-and-bound from the all-zero assignment: it returns, every
emitted set is a minimal hitting set of the family, and every minimal hitting set of the
family is emitted. -/
theorem run_spec (covers : List Cover) (K n : Nat) (hne : ∀ c ∈ covers, c ≠ ∅)
    (hns : NoSubset covers) (hr : InRange K covers) (hn : covers.length < n) :
    ∃ b', constructMUS n covers (ClauseAssign.zero K) (MUSbuilder.init false)
        = (.ret false, b') ∧
      (∀ e ∈ b'.out, IsMHS e.pos covers) ∧
      (∀ H, IsMHS H covers → ∃ e ∈ b'.out, e.pos = H) := by
  have hb : StInv covers [] (MUSbuilder.init false) :=
    ⟨rfl, fun e he => absurd he (List.not_mem_nil _), fun v hv => absurd hv (List.not_mem_nil _)⟩
  obtain ⟨b', hrun, hb', -, hdone⟩ :=
    constructMUS_spec covers K n covers (ClauseAssign.zero K) (MUSbuilder.init false) [] hn
      (node_root hne hns hr) (rel_root covers K) hb
      (fun p hp => absurd hp (List.not_mem_nil _))
  refine ⟨b', hrun, hb'.sound, ?_⟩
  intro H hH
  refine hdone H hH ⟨?_, ?_⟩
  · intro i hi
    change (ClauseAssign.zero K).get i = 1 at hi
    rw [zero_get] at hi
    exact absurd hi (by decide)
  · intro i _
    change (ClauseAssign.zero K).get i ≠ -1
    rw [zero_get]
    decide

theorem nonempty_of_two_le {covers : List Cover} (h2 : ∀ c ∈ covers, 2 ≤ c.card) :
    ∀ c ∈ covers, c ≠ ∅ := by
  intro c hc he
  have := h2 c hc
  rw [he, Finset.card_empty] at this
  omega

/-! ## Invariants of the search for every setting of branch-and-bound -/

/-- A property `P` of the builder that every recursive call keeps is kept by the loop over
the covers containing `curClause`; `C` is what is known of the arguments of the recursive
calls. -/
theorem tryCovers_inv {rec : List Cover → ClauseAssign → MUSbuilder → Outcome × MUSbuilder}
    {P : MUSbuilder → Prop} {C : List Cover → ClauseAssign → Prop}
    (hrec : ∀ nc na b, C nc na → P b → P (rec nc na b).2)
    (covers : List Cover) (a1 : ClauseAssign) (cur : Nat)
    (hchild : ∀ c nc na, removeClauseAndCover covers a1 cur c = some (nc, na) → C nc na)
    (todo : List Cover) (b : MUSbuilder) (hb : P b) :
    P (tryCovers rec covers a1 cur todo b).2 := by
  induction todo generalizing b with
  | nil => exact hb
  | cons c rest ih =>
    simp only [tryCovers]
    by_cases hc : c = ∅
    · rw [if_pos hc]; exact hb
    · rw [if_neg hc]
      by_cases hcur : cur ∈ c
      · rw [if_pos hcur]
        cases hrcc : removeClauseAndCover covers a1 cur c with
        | none => exact hb
        | some r =>
          obtain ⟨nc, na⟩ := r
          have hP := hrec nc na b (hchild c nc na hrcc) hb
          simp only
          rcases hres : rec nc na b with ⟨o, b1⟩
          rw [hres] at hP
          cases o with
          | ret sk =>
            cases sk with
            | true => exact hP
            | false => exact ih b1 hP
          | abort => exact hP
          | hang => exact hP
          | fuel => exact hP
      · rw [if_neg hcur]
        exact ih b hb

/-- A property `P` of the builder that every recursive call keeps is kept by the loop over
the selector positions; `Q` is an invariant of the loop state. -/
theorem splitLoop_inv {rec : List Cover → ClauseAssign → MUSbuilder → Outcome × MUSbuilder}
    {P : MUSbuilder → Prop} {C Q : List Cover → ClauseAssign → Prop} {K : Nat}
    (hrec : ∀ nc na b, C nc na → P b → P (rec nc na b).2)
    (hchild : ∀ covers a cur c nc na, Q covers a → a.get cur = 0 → cur < K →
      removeClauseAndCover covers { a.put cur 1 with numPos := a.numPos + 1 } cur c
        = some (nc, na) → C nc na)
    (hexcl : ∀ covers a cur cs, Q covers a → a.get cur = 0 → cur < K →
      removeClause covers cur = some cs →
      Q cs { a.put cur (-1) with numNeg := a.numNeg + 1 })
    (k cur : Nat) (covers : List Cover) (a : ClauseAssign) (b : MUSbuilder)
    (hk : cur + k = K) (hQ : Q covers a) (hb : P b) :
    P (splitLoop rec k cur covers a b).2 := by
  induction k generalizing cur covers a b with
  | zero => exact hb
  | succ k ih =>
    simp only [splitLoop]
    by_cases h0 : a.get cur = 0
    · rw [if_neg (not_not.mpr h0)]
      have hK : cur < K := by omega
      have hP := tryCovers_inv hrec covers { a.put cur 1 with numPos := a.numPos + 1 } cur
        (fun c nc na h => hchild covers a cur c nc na hQ h0 hK h) covers b hb
      rcases hres : tryCovers rec covers { a.put cur 1 with numPos := a.numPos + 1 } cur
        covers b with ⟨o, b1⟩
      rw [hres] at hP
      cases o with
      | ret sk =>
        simp only
        cases hrc : removeClause covers cur with
        | none => exact hP
        | some cs => exact ih (cur + 1) cs _ b1 (by omega) (hexcl covers a cur cs hQ h0 hK hrc) hP
      | abort => exact hP
      | hang => exact hP
      | fuel => exact hP
    · rw [if_pos h0]
      exact ih (cur + 1) covers a b (by omega) hQ hb

/-- A property `P` of the builder is kept by `constructMUS` when it is kept by the insertion
into the visited set and by the emission at a node without covers. -/
theorem constructMUS_inv {P : MUSbuilder → Prop} {C E Q : List Cover → ClauseAssign → Prop}
    {K : Nat}
    (hlen : ∀ covers a, Q covers a → a.vals.length = K)
    (hprop : ∀ covers a cs a0, C covers a → propagateSingletons covers a = some (cs, a0) →
      E cs a0)
    (hEQ : ∀ covers a, E covers a → Q covers a)
    (hchild : ∀ covers a cur c nc na, Q covers a → a.get cur = 0 → cur < K →
      removeClauseAndCover covers { a.put cur 1 with numPos := a.numPos + 1 } cur c
        = some (nc, na) → C nc na)
    (hexcl : ∀ covers a cur cs, Q covers a → a.get cur = 0 → cur < K →
      removeClause covers cur = some cs →
      Q cs { a.put cur (-1) with numNeg := a.numNeg + 1 })
    (hvisit : ∀ (a0 : ClauseAssign) b, P b → P { b with beenHere := a0.vals :: b.beenHere })
    (hemit : ∀ a0 b, E [] a0 → P b → boundHit b [] a0 = some false → a0.vals ∉ b.beenHere →
      P { b with beenHere := a0.vals :: b.beenHere, out := b.out ++ [a0],
                 bbUpper := a0.numPos })
    (n : Nat) (covers : List Cover) (a : ClauseAssign) (b : MUSbuilder)
    (hC : C covers a) (hb : P b) : P (constructMUS n covers a b).2 := by
  induction n generalizing covers a b with
  | zero => exact hb
  | succ n ih =>
    simp only [constructMUS]
    cases hp : propagateSingletons covers a with
    | none => exact hb
    | some r =>
      obtain ⟨cs, a0⟩ := r
      have hE := hprop covers a cs a0 hC hp
      have hQ := hEQ cs a0 hE
      simp only
      cases hbh : boundHit b cs a0 with
      | none => exact hb
      | some hit =>
        cases hit with
        | true => exact hb
        | false =>
          simp only
          by_cases hvis : a0.vals ∈ b.beenHere
          · rw [if_pos hvis]; exact hb
          · rw [if_neg hvis]
            by_cases hemp : cs = []
            · rw [if_pos hemp]
              subst hemp
              exact hemit a0 b hE hb hbh hvis
            · rw [if_neg hemp]
              exact splitLoop_inv (fun nc na b' hC' hb' => ih nc na b' hC' hb') hchild hexcl
                a0.vals.length 0 cs a0 _ (by rw [hlen cs a0 hQ]; omega) hQ (hvisit a0 b hb)

/-! ## Uniqueness of the emitted sets -/

theorem ternLen_put {K : Nat} {a : ClauseAssign} (h : TernLen K a) (cur : Nat) (v np nn : Int)
    (hv : v = 0 ∨ v = 1 ∨ v = -1) :
    TernLen K { vals := (a.put cur v).vals, numPos := np, numNeg := nn } := by
  refine ⟨by simp [ClauseAssign.put, h.1], ?_⟩
  intro i
  have : ({ vals := (a.put cur v).vals, numPos := np, numNeg := nn } : ClauseAssign).get i
      = (a.put cur v).get i := rfl
  rw [this, get_put]
  by_cases hc : cur = i ∧ cur < a.vals.length
  · rw [if_pos hc]; exact hv
  · rw [if_neg hc]; exact h.2 i

theorem ternLen_propagate {K : Nat} {covers cs : List Cover} {a a0 : ClauseAssign}
    (h : TernLen K a) (hp : propagateSingletons covers a = some (cs, a0)) : TernLen K a0 := by
  obtain ⟨-, hl, -, hg⟩ := propagateSingletons_spec _ _ _ _ hp
  refine ⟨hl.trans h.1, ?_⟩
  intro i
  rw [hg i]
  by_cases hc : (∃ c ∈ covers, c.card = 1 ∧ c.first = i) ∧ i < a.vals.length
  · rw [if_pos hc]; exact Or.inr (Or.inl rfl)
  · rw [if_neg hc]; exact h.2 i

theorem covered_propagate {K : Nat} {covers cs : List Cover} {a a0 : ClauseAssign}
    (hl : a.vals.length = K) (h : Covered K covers a)
    (hp : propagateSingletons covers a = some (cs, a0)) : Covered K cs a0 := by
  obtain ⟨hcs, -, -, hg⟩ := propagateSingletons_spec _ _ _ _ hp
  intro i hi h0
  rw [hg i] at h0
  by_cases hc : (∃ c ∈ covers, c.card = 1 ∧ c.first = i) ∧ i < a.vals.length
  · rw [if_pos hc] at h0
    exact absurd h0 (by decide)
  · rw [if_neg hc] at h0
    obtain ⟨c, hcm, hic⟩ := h i hi h0
    refine ⟨c, ?_, hic⟩
    rw [hcs, List.mem_filter]
    refine ⟨hcm, ?_⟩
    simp only [ne_eq, decide_not, Bool.not_eq_true', decide_eq_false_iff_not]
    intro hcard
    apply hc
    refine ⟨⟨c, hcm, hcard, ?_⟩, by rw [hl]; exact hi⟩
    have := eq_singleton_first hcard
    rw [this, Finset.mem_singleton] at hic
    exact hic.symm

theorem ternLen_covered_rcc {K : Nat} {covers nc : List Cover} {a1 na : ClauseAssign}
    {cur : Nat} {c : Cover} (h : TernLen K a1)
    (hr : removeClauseAndCover covers a1 cur c = some (nc, na)) :
    TernLen K na ∧ Covered K nc na := by
  obtain ⟨-, -, -, -, hl, -, hg⟩ := removeClauseAndCover_spec _ _ _ _ _ _ hr
  refine ⟨⟨hl.trans h.1, ?_⟩, ?_⟩
  · intro i
    rw [hg i]
    by_cases hc : a1.get i = 0 ∧ i < a1.vals.length ∧ ∀ Y ∈ nc, i ∉ Y
    · rw [if_pos hc]; exact Or.inr (Or.inr rfl)
    · rw [if_neg hc]; exact h.2 i
  · intro i hi h0
    rw [hg i] at h0
    by_cases hc : a1.get i = 0 ∧ i < a1.vals.length ∧ ∀ Y ∈ nc, i ∉ Y
    · rw [if_pos hc] at h0
      exact absurd h0 (by decide)
    · rw [if_neg hc] at h0
      by_contra hcon
      push_neg at hcon
      exact hc ⟨h0, by rw [h.1]; exact hi, hcon⟩

/-- Two assignments of length `K` without undecided positions that select the same set are
the same vector. -/
theorem vals_eq_of_pos_eq {K : Nat} {e1 e2 : ClauseAssign}
    (h1 : e1.vals.length = K ∧ ∀ i < K, e1.get i = 1 ∨ e1.get i = -1)
    (h2 : e2.vals.length = K ∧ ∀ i < K, e2.get i = 1 ∨ e2.get i = -1)
    (hpos : e1.pos = e2.pos) : e1.vals = e2.vals := by
  apply List.ext_getElem (h1.1.trans h2.1.symm)
  intro i hi1 hi2
  have hiK : i < K := h1.1 ▸ hi1
  have hg1 : e1.get i = e1.vals[i] := by
    unfold ClauseAssign.get
    rw [List.getD_eq_getElem _ _ hi1]
  have hg2 : e2.get i = e2.vals[i] := by
    unfold ClauseAssign.get
    rw [List.getD_eq_getElem _ _ hi2]
  rw [← hg1, ← hg2]
  have hiff : e1.get i = 1 ↔ e2.get i = 1 := by
    rw [← mem_pos, ← mem_pos, hpos]
  rcases h1.2 i hiK with h | h
  · rw [h, hiff.mp h]
  · rcases h2.2 i hiK with h' | h'
    · rw [hiff.mpr h'] at h
      exact absurd h (by decide)
    · rw [h, h']

/-- Under `OutInv` no set is logged twice. -/
theorem OutInv.nodup_pos {K : Nat} {b : MUSbuilder} (h : OutInv K b) :
    (b.out.map ClauseAssign.pos).Nodup := by
  have hn := h.nodup
  unfold List.Nodup at hn ⊢
  rw [List.pairwise_map] at hn ⊢
  refine List.Pairwise.imp_of_mem ?_ hn
  intro e1 e2 he1 he2 hne hpos
  exact hne (vals_eq_of_pos_eq (h.full e1 he1) (h.full e2 he2) hpos)

/-- The invariant `OutInv` is kept by every call of `constructMUS` on a node whose undecided
positions are all in some cover, whatever the setting of branch-and-bound and the budget. -/
theorem constructMUS_outInv (K n : Nat) (covers : List Cover) (a : ClauseAssign)
    (b : MUSbuilder) (hC : TernLen K a ∧ Covered K covers a) (hb : OutInv K b) :
    OutInv K (constructMUS n covers a b).2 := by
  refine constructMUS_inv (P := OutInv K) (C := fun cs a => TernLen K a ∧ Covered K cs a)
    (E := fun cs a => TernLen K a ∧ Covered K cs a) (Q := fun _ a => TernLen K a) (K := K)
    (fun _ a h => h.1) ?_ (fun _ _ h => h.1) ?_ ?_ ?_ ?_ n covers a b hC hb
  · intro covers a cs a0 hC hp
    exact ⟨ternLen_propagate hC.1 hp, covered_propagate hC.1.1 hC.2 hp⟩
  · intro covers a cur c nc na hQ _ _ hr
    exact ternLen_covered_rcc (ternLen_put hQ cur 1 _ _ (Or.inr (Or.inl rfl))) hr
  · intro covers a cur cs hQ _ _ _
    exact ternLen_put hQ cur (-1) _ _ (Or.inr (Or.inr rfl))
  · intro a0 b hb
    exact ⟨fun e he => List.mem_cons_of_mem _ (hb.keys e he), hb.nodup, hb.full⟩
  · intro a0 b hE hb _ hvis
    refine ⟨?_, ?_, ?_⟩
    · intro e he
      rcases List.mem_append.mp he with h | h
      · exact List.mem_cons_of_mem _ (hb.keys e h)
      · rw [List.mem_singleton] at h
        rw [h]
        exact List.mem_cons_self _ _
    · simp only [List.map_append, List.map_cons, List.map_nil]
      apply List.Nodup.append hb.nodup (List.nodup_singleton _)
      intro v hv1 hv2
      rw [List.mem_singleton] at hv2
      subst hv2
      obtain ⟨e, he, hev⟩ := List.mem_map.mp hv1
      exact hvis (hev ▸ hb.keys e he)
    · intro e he
      rcases List.mem_append.mp he with h | h
      · exact hb.full e h
      · rw [List.mem_singleton] at h
        subst h
        refine ⟨hE.1.1, ?_⟩
        intro i hi
        rcases hE.1.2 i with h0 | h1
        · obtain ⟨c, hc, -⟩ := hE.2 i hi h0
          exact absurd hc (List.not_mem_nil _)
        · exact h1

/-- From a builder with an empty log, a call of `constructMUS` on any assignment of length `K`
logs no set twice. -/
theorem constructMUS_nodup (K n : Nat) (covers : List Cover) (a : ClauseAssign)
    (b : MUSbuilder) (ha : TernLen K a) (hout : b.out = []) :
    ((constructMUS n covers a b).2.out.map ClauseAssign.pos).Nodup := by
  have hb : OutInv K b := by
    refine ⟨?_, ?_, ?_⟩ <;> simp [hout]
  cases n with
  | zero => simp [constructMUS, hout]
  | succ n =>
    simp only [constructMUS]
    cases hp : propagateSingletons covers a with
    | none => simp [hout]
    | some r =>
      obtain ⟨cs, a0⟩ := r
      simp only
      cases hbh : boundHit b cs a0 with
      | none => simp [hout]
      | some hit =>
        cases hit with
        | true => simp [hout]
        | false =>
          simp only
          by_cases hvis : a0.vals ∈ b.beenHere
          · rw [if_pos hvis]; simp [hout]
          · rw [if_neg hvis]
            by_cases hemp : cs = []
            · rw [if_pos hemp]
              simp [hout]
            · rw [if_neg hemp]
              have h0 := ternLen_propagate ha hp
              apply OutInv.nodup_pos (K := K)
              exact splitLoop_inv (P := OutInv K) (K := K)
                (C := fun cs a => TernLen K a ∧ Covered K cs a) (Q := fun _ a => TernLen K a)
                (fun nc na b' hC' hb' => constructMUS_outInv K n nc na b' hC' hb')
                (fun covers a cur c nc na hQ _ _ hr =>
                  ternLen_covered_rcc (ternLen_put hQ cur 1 _ _ (Or.inr (Or.inl rfl))) hr)
                (fun covers a cur cs hQ _ _ _ =>
                  ternLen_put hQ cur (-1) _ _ (Or.inr (Or.inr rfl)))
                a0.vals.length 0 cs a0 _ (by have := h0.1; omega) h0
                ⟨fun e he => List.mem_cons_of_mem _ (hb.keys e he), hb.nodup, hb.full⟩

/-! ## The cached counter `numPos` and the order of emission under branch-and-bound -/

theorem pos_put_one (a : ClauseAssign) (i : Nat) (np : Int) (hi : i < a.vals.length) :
    ({ a.put i 1 with numPos := np } : ClauseAssign).pos = insert i a.pos := by
  ext x
  rw [Finset.mem_insert, mem_pos, mem_pos]
  have : ({ a.put i 1 with numPos := np } : ClauseAssign).get x = (a.put i 1).get x := rfl
  rw [this, get_put]
  by_cases hx : i = x
  · subst hx
    simp [hi]
  · rw [if_neg (fun hh => hx hh.1)]
    constructor
    · exact fun h => Or.inr h
    · rintro (h | h)
      · exact absurd h.symm hx
      · exact h

theorem pos_put_neg (a : ClauseAssign) (i : Nat) (nn : Int) (h0 : a.get i = 0) :
    ({ a.put i (-1) with numNeg := nn } : ClauseAssign).pos = a.pos := by
  ext x
  rw [mem_pos, mem_pos]
  have : ({ a.put i (-1) with numNeg := nn } : ClauseAssign).get x = (a.put i (-1)).get x := rfl
  rw [this, get_put]
  by_cases hx : i = x ∧ i < a.vals.length
  · rw [if_pos hx, ← hx.1, h0]
    constructor <;> intro hh <;> exact absurd hh (by decide)
  · rw [if_neg hx]

theorem count_put_one {K : Nat} {covers : List Cover} {a : ClauseAssign} {cur : Nat}
    (h : CountInv K covers a) (h0 : a.get cur = 0) (hK : cur < K) :
    CountInv K covers { a.put cur 1 with numPos := a.numPos + 1 } := by
  obtain ⟨hr, hl, hc⟩ := h
  refine ⟨hr, by simp [ClauseAssign.put, hl], ?_⟩
  rw [pos_put_one a cur _ (hl ▸ hK)]
  have hnot : cur ∉ a.pos := by
    rw [mem_pos, h0]; decide
  rw [Finset.card_insert_of_not_mem hnot]
  simp only [hc]
  push_cast
  ring

theorem count_propagate {K : Nat} {covers cs : List Cover} {a a0 : ClauseAssign}
    (h : CountInv K covers a) (hp : propagateSingletons covers a = some (cs, a0)) :
    CountInv K cs a0 := by
  induction covers generalizing a cs with
  | nil =>
    simp only [propagateSingletons, Option.some.injEq, Prod.mk.injEq] at hp
    obtain ⟨rfl, rfl⟩ := hp
    exact h
  | cons c rest ih =>
    have hrest : InRange K rest := fun c' hc' => h.1 c' (List.mem_cons_of_mem _ hc')
    simp only [propagateSingletons] at hp
    by_cases h1 : c.card = 1
    · rw [if_pos h1] at hp
      by_cases h2 : a.get c.first = 0
      · rw [if_pos h2] at hp
        have hmem : c.first ∈ c := by
          have := eq_singleton_first h1
          rw [this, first_singleton]
          exact Finset.mem_singleton_self _
        have hK : c.first < K := h.1 c (List.mem_cons_self _ _) _ hmem
        have hrestInv : CountInv K rest a := ⟨hrest, h.2.1, h.2.2⟩
        have := count_put_one hrestInv h2 hK
        exact ih this hp
      · rw [if_neg h2] at hp
        exact absurd hp (by simp)
    · rw [if_neg h1] at hp
      cases hq : propagateSingletons rest a with
      | none => rw [hq] at hp; exact absurd hp (by simp)
      | some r =>
        obtain ⟨cs', a''⟩ := r
        rw [hq] at hp
        simp only [Option.some.injEq, Prod.mk.injEq] at hp
        obtain ⟨rfl, rfl⟩ := hp
        obtain ⟨hr', hl', hc'⟩ := ih ⟨hrest, h.2.1, h.2.2⟩ hq
        refine ⟨?_, hl', hc'⟩
        intro c' hc'
        rcases List.mem_cons.mp hc' with rfl | hc'
        · exact h.1 _ (List.mem_cons_self _ _)
        · exact hr' c' hc'

theorem count_rcc {K : Nat} {covers nc : List Cover} {a1 na : ClauseAssign} {cur : Nat}
    {c : Cover} (h : CountInv K covers a1)
    (hr : removeClauseAndCover covers a1 cur c = some (nc, na)) : CountInv K nc na := by
  obtain ⟨-, hmem, -, -, hl, hnp, hg⟩ := removeClauseAndCover_spec _ _ _ _ _ _ hr
  refine ⟨?_, hl.trans h.2.1, ?_⟩
  · intro Y hY x hx
    obtain ⟨-, Y0, hY0, -, rfl⟩ := hmem Y hY
    exact h.1 Y0 hY0 x (Finset.mem_sdiff.mp hx).1
  · have hpos : na.pos = a1.pos := by
      ext x
      rw [mem_pos, mem_pos, hg x]
      by_cases hc : a1.get x = 0 ∧ x < a1.vals.length ∧ ∀ Y ∈ nc, x ∉ Y
      · rw [if_pos hc, hc.1]
        constructor <;> intro hh <;> exact absurd hh (by decide)
      · rw [if_neg hc]
    rw [hnp, hpos]
    exact h.2.2

theorem count_exclude {K : Nat} {covers cs : List Cover} {a : ClauseAssign} {cur : Nat}
    (h : CountInv K covers a) (h0 : a.get cur = 0)
    (hrc : removeClause covers cur = some cs) :
    CountInv K cs { a.put cur (-1) with numNeg := a.numNeg + 1 } := by
  obtain ⟨hmem, -, -, -, -⟩ := removeClause_spec _ _ _ hrc
  refine ⟨?_, by simp [ClauseAssign.put, h.2.1], ?_⟩
  · intro Y hY x hx
    obtain ⟨t, ht, rfl⟩ := hmem Y hY
    exact h.1 t ht x (Finset.mem_of_mem_erase hx)
  · rw [pos_put_neg a cur _ h0]
    exact h.2.2

theorem mis_quick_nil : mis_quick [] = some 0 := rfl

/-- Under branch-and-bound the invariant `DecInv` is kept by every call of `constructMUS` on
covers in range, for every budget. -/
theorem constructMUS_decInv (K n : Nat) (covers : List Cover) (a : ClauseAssign)
    (b : MUSbuilder) (hC : CountInv K covers a) (hb : DecInv b) :
    DecInv (constructMUS n covers a b).2 := by
  refine constructMUS_inv (P := DecInv) (C := CountInv K) (E := CountInv K) (Q := CountInv K)
    (K := K) (fun _ a h => h.2.1) ?_ (fun _ _ h => h) ?_ ?_ ?_ ?_ n covers a b hC hb
  · intro covers a cs a0 hC hp
    exact count_propagate hC hp
  · intro covers a cur c nc na hQ h0 hK hr
    exact count_rcc (count_put_one hQ h0 hK) hr
  · intro covers a cur cs hQ h0 _ hrc
    exact count_exclude hQ h0 hrc
  · intro a0 b hb
    exact ⟨hb.bb, hb.dec, hb.upper, hb.count⟩
  · intro a0 b hE hb hbh _
    have hlt : a0.numPos < b.bbUpper := by
      simp only [boundHit, hb.bb, if_true, mis_quick_nil, Option.some.injEq,
        decide_eq_false_iff_not, add_zero, ge_iff_le, not_le] at hbh
      exact hbh
    refine ⟨hb.bb, ?_, ?_, ?_⟩
    · apply List.pairwise_append.mpr
      refine ⟨hb.dec, List.pairwise_singleton _ _, ?_⟩
      intro e he e' he'
      rw [List.mem_singleton] at he'
      subst he'
      exact lt_of_lt_of_le hlt (hb.upper e he)
    · intro e he
      rcases List.mem_append.mp he with h | h
      · exact le_of_lt (lt_of_lt_of_le hlt (hb.upper e h))
      · rw [List.mem_singleton] at h
        rw [h]
    · intro e he
      rcases List.mem_append.mp he with h | h
      · exact hb.count e h
      · rw [List.mem_singleton] at h
        rw [h]
        exact hE.2.2

/-! ## Claims about the hitting-set engine -/

/-- **C1.** For every family of covers over the dense indices `[0, K)` in which every cover
has at least two elements and no cover is a subset of another cover of the list,
`constructMUS` with branch-and-bound disabled, an empty visited set and the all-zero
assignment of length `K` emits only minimal hitting sets: each emitted set `{ y : a[y] = +1 }`
intersects every cover of the family, and removing any single element from it leaves some
cover unhit.  (Any recursion budget above the number of covers.) -/
theorem constructMUS_emits_only_minimal_hitting_sets (covers : List Cover) (K n : Nat)
    (h2 : ∀ c ∈ covers, 2 ≤ c.card) (hns : NoSubset covers) (hr : InRange K covers)
    (hn : covers.length < n) :
    ∀ H ∈ emitted (constructMUS n covers (ClauseAssign.zero K) (MUSbuilder.init false)),
      (∀ c ∈ covers, (H ∩ c).Nonempty) ∧
      ∀ y ∈ H, ∃ c ∈ covers, H.erase y ∩ c = ∅ := by
  obtain ⟨b', hrun, hsound, -⟩ := run_spec covers K n (nonempty_of_two_le h2) hns hr hn
  intro H hH
  unfold emitted at hH
  rw [hrun, List.mem_map] at hH
  obtain ⟨e, he, rfl⟩ := hH
  obtain ⟨h1, h2'⟩ := hsound e he
  refine ⟨h1, ?_⟩
  intro y hy
  have := h2' y hy
  unfold Hits at this
  push_neg at this
  obtain ⟨c, hc, hce⟩ := this
  exact ⟨c, hc, Finset.not_nonempty_iff_eq_empty.mp hce⟩

/-- Witness of **C1**: the three covers `{0,1}`, `{0,2}`, `{1,2}` over `[0, 3)`. -/
theorem constructMUS_emits_only_minimal_hitting_sets_witness :
    (∀ c ∈ ([{0, 1}, {0, 2}, {1, 2}] : List Cover), 2 ≤ c.card) ∧
    NoSubset [{0, 1}, {0, 2}, {1, 2}] ∧ InRange 3 [{0, 1}, {0, 2}, {1, 2}] ∧
    ∀ H ∈ emitted (constructMUS 4 [{0, 1}, {0, 2}, {1, 2}] (ClauseAssign.zero 3)
        (MUSbuilder.init false)),
      (∀ c ∈ ([{0, 1}, {0, 2}, {1, 2}] : List Cover), (H ∩ c).Nonempty) ∧
      ∀ y ∈ H, ∃ c ∈ ([{0, 1}, {0, 2}, {1, 2}] : List Cover), H.erase y ∩ c = ∅ :=
  ⟨by decide, by unfold NoSubset Incomparable; decide, by unfold InRange; decide,
    constructMUS_emits_only_minimal_hitting_sets [{0, 1}, {0, 2}, {1, 2}] 3 4 (by decide)
      (by unfold NoSubset Incomparable; decide) (by unfold InRange; decide) (by decide)⟩

/-- **C2.** For every family of covers over `[0, K)` in which every cover has at least two
elements and no cover is a subset of another cover of the list, `constructMUS` with
branch-and-bound disabled, an empty visited set and the all-zero assignment returns and has
emitted every minimal hitting set of the family at least once: neither the visited set nor
the permanent exclusion of a selector after its branch loses one. -/
theorem constructMUS_emits_every_minimal_hitting_set (covers : List Cover) (K n : Nat)
    (h2 : ∀ c ∈ covers, 2 ≤ c.card) (hns : NoSubset covers) (hr : InRange K covers)
    (hn : covers.length < n) :
    (constructMUS n covers (ClauseAssign.zero K) (MUSbuilder.init false)).1 = .ret false ∧
    ∀ H : Finset Nat, IsMHS H covers →
      H ∈ emitted (constructMUS n covers (ClauseAssign.zero K) (MUSbuilder.init false)) := by
  obtain ⟨b', hrun, -, hdone⟩ := run_spec covers K n (nonempty_of_two_le h2) hns hr hn
  refine ⟨by rw [hrun], ?_⟩
  intro H hH
  obtain ⟨e, he, hpos⟩ := hdone H hH
  unfold emitted
  rw [hrun, List.mem_map]
  exact ⟨e, he, hpos⟩

/-- Witness of **C2**: the three covers `{0,1}`, `{0,2}`, `{1,2}` over `[0, 3)`. -/
theorem constructMUS_emits_every_minimal_hitting_set_witness :
    (∀ c ∈ ([{0, 1}, {0, 2}, {1, 2}] : List Cover), 2 ≤ c.card) ∧
    NoSubset [{0, 1}, {0, 2}, {1, 2}] ∧ InRange 3 [{0, 1}, {0, 2}, {1, 2}] ∧
    (constructMUS 4 [{0, 1}, {0, 2}, {1, 2}] (ClauseAssign.zero 3)
      (MUSbuilder.init false)).1 = .ret false ∧
    ∀ H : Finset Nat, IsMHS H [{0, 1}, {0, 2}, {1, 2}] →
      H ∈ emitted (constructMUS 4 [{0, 1}, {0, 2}, {1, 2}] (ClauseAssign.zero 3)
        (MUSbuilder.init false)) :=
  ⟨by decide, by unfold NoSubset Incomparable; decide, by unfold InRange; decide,
    constructMUS_emits_every_minimal_hitting_set [{0, 1}, {0, 2}, {1, 2}] 3 4 (by decide)
      (by unfold NoSubset Incomparable; decide) (by unfold InRange; decide) (by decide)⟩

/-- **C3.** For every family of covers over `[0, K)` with no empty cover and no cover that
is a subset of another, a single run of `constructMUS` (branch-and-bound on or off, starting
from the all-zero assignment and an empty visited set) never emits the same set of selected
selectors twice.  (Every recursion budget.) -/
theorem constructMUS_never_emits_twice (bb : Bool) (covers : List Cover) (K n : Nat)
    (_hne : ∀ c ∈ covers, c ≠ ∅) (_hns : NoSubset covers) (_hr : InRange K covers) :
    (emitted (constructMUS n covers (ClauseAssign.zero K) (MUSbuilder.init bb))).Nodup :=
  constructMUS_nodup K n covers (ClauseAssign.zero K) (MUSbuilder.init bb)
    ⟨by simp [ClauseAssign.zero], fun i => Or.inl (zero_get K i)⟩ rfl

/-- Witness of **C3**: the covers `{0,2}`, `{1,2}` over `[0, 3)` with branch-and-bound. -/
theorem constructMUS_never_emits_twice_witness :
    (∀ c ∈ ([{0, 2}, {1, 2}] : List Cover), c ≠ ∅) ∧ NoSubset [{0, 2}, {1, 2}] ∧
    InRange 3 [{0, 2}, {1, 2}] ∧
    (emitted (constructMUS 3 [{0, 2}, {1, 2}] (ClauseAssign.zero 3)
      (MUSbuilder.init true))).Nodup :=
  ⟨by decide, by unfold NoSubset Incomparable; decide, by unfold InRange; decide,
    constructMUS_never_emits_twice true [{0, 2}, {1, 2}] 3 3 (by decide)
      (by unfold NoSubset Incomparable; decide) (by unfold InRange; decide)⟩

/-- **C9** (the code at the failing input).  With branch-and-bound, on the six covers
`{1,4}`, `{1,2}`, `{1,3}`, `{0,2,4}`, `{0,3,4}`, `{2,3,4}` over `[0, 5)` the run returns after
emitting the single set `{0,1,3}` of three selectors, although `{1,4}` is a minimal hitting
set of the family with two selectors: the last emitted set is not of minimum cardinality. -/
theorem constructMUS_bb_misses_minimum :
    (runMUS true [{1, 4}, {1, 2}, {1, 3}, {0, 2, 4}, {0, 3, 4}, {2, 3, 4}] 5).1
        = .ret false ∧
    emitted (runMUS true [{1, 4}, {1, 2}, {1, 3}, {0, 2, 4}, {0, 3, 4}, {2, 3, 4}] 5)
        = [{0, 1, 3}] ∧
    IsMHS {1, 4} [{1, 4}, {1, 2}, {1, 3}, {0, 2, 4}, {0, 3, 4}, {2, 3, 4}] ∧
    ({1, 4} : Finset Nat).card < ({0, 1, 3} : Finset Nat).card := by
  refine ⟨by decide, by decide, ?_, by decide⟩
  unfold IsMHS Hits
  decide

/-- **C10** (counterexample).  With branch-and-bound, on the covers `{0,2}`, `{1,2}` over
`[0, 3)` (the dense form of the input lines `1 2` and `2 3`) the first emitted set is `{0,1}`
with two selectors, while `{2}` is a minimal hitting set with one selector: the first emitted
MUS is not of minimum cardinality. -/
theorem first_emitted_not_minimum :
    (emitted (runMUS true [{0, 2}, {1, 2}] 3)).head? = some {0, 1} ∧
    IsMHS {2} [{0, 2}, {1, 2}] ∧
    ({2} : Finset Nat).card < ({0, 1} : Finset Nat).card := by
  refine ⟨by decide, ?_, by decide⟩
  unfold IsMHS Hits
  decide

/-- **C10** (amended).  With branch-and-bound, for every family of covers over `[0, K)`,
every set emitted by `constructMUS` has strictly fewer selectors than every set emitted
before it in the run; so the smallest emitted set is the last one, and the first emitted set
is the largest.  (Every recursion budget.) -/
theorem bb_emits_strictly_smaller (covers : List Cover) (K n : Nat) (hr : InRange K covers) :
    (emitted (constructMUS n covers (ClauseAssign.zero K) (MUSbuilder.init true))).Pairwise
      (fun s t => t.card < s.card) := by
  have hC : CountInv K covers (ClauseAssign.zero K) := by
    refine ⟨hr, by simp [ClauseAssign.zero], ?_⟩
    have : (ClauseAssign.zero K).pos = ∅ := by
      ext x
      rw [mem_pos, zero_get]
      simp
    rw [this]
    rfl
  have hb : DecInv (MUSbuilder.init true) :=
    ⟨rfl, List.Pairwise.nil, fun e he => absurd he (List.not_mem_nil _),
      fun e he => absurd he (List.not_mem_nil _)⟩
  have h := constructMUS_decInv K n covers _ _ hC hb
  unfold emitted
  rw [List.pairwise_map]
  refine List.Pairwise.imp_of_mem ?_ h.dec
  intro e1 e2 he1 he2 hlt
  have h1 := h.count e1 he1
  have h2 := h.count e2 he2
  rw [h1, h2] at hlt
  exact_mod_cast hlt

/-- Witness of the amended **C10**: the covers `{0,2}`, `{1,2}` over `[0, 3)`. -/
theorem bb_emits_strictly_smaller_witness :
    InRange 3 [{0, 2}, {1, 2}] ∧
    (emitted (constructMUS 3 [{0, 2}, {1, 2}] (ClauseAssign.zero 3)
      (MUSbuilder.init true))).Pairwise (fun s t => t.card < s.card) :=
  ⟨by unfold InRange; decide,
    bb_emits_strictly_smaller [{0, 2}, {1, 2}] 3 3 (by unfold InRange; decide)⟩

/-! ## Lemmas: the solver object -/

@[simp] theorem add_constrs (o : Collab) (s : Solver) (c : Constr) :
    (s.add o c).2.constrs = s.constrs ++ [c] := rfl

@[simp] theorem add_trail (o : Collab) (s : Solver) (c : Constr) :
    (s.add o c).2.trail = s.trail := rfl

@[simp] theorem addClause_constrs (o : Collab) (s : Solver) (l : List Lit) (t : Option Nat) :
    (s.addClause o l t).2.constrs = s.constrs ++ [Constr.clause l t] := rfl

@[simp] theorem addUnit_constrs (o : Collab) (s : Solver) (l : Lit) (t : Option Nat) :
    (s.addUnit o l t).2.constrs = s.constrs ++ [Constr.clause [l] t] := rfl

@[simp] theorem addAtMost_constrs (o : Collab) (s : Solver) (l : List Lit) (k : Nat) :
    (s.addAtMost o l k).2.constrs = s.constrs ++ [Constr.atMost l k] := rfl

@[simp] theorem simplifyDB_constrs (o : Collab) (s : Solver) :
    (s.simplifyDB o).constrs = s.constrs := rfl

@[simp] theorem newVar_constrs (s : Solver) : s.newVar.constrs = s.constrs := rfl

@[simp] theorem assume_constrs (o : Collab) (s : Solver) (l : Lit) :
    (s.assume o l).2.constrs = s.constrs := rfl

@[simp] theorem assume_trail (o : Collab) (s : Solver) (l : Lit) :
    (s.assume o l).2.trail = l :: s.trail := rfl

@[simp] theorem assume_model (o : Collab) (s : Solver) (l : Lit) :
    (s.assume o l).2.model = s.model := rfl

@[simp] theorem propagate_constrs (o : Collab) (s : Solver) :
    (s.propagate o).2.constrs = s.constrs := rfl

@[simp] theorem propagate_trail (o : Collab) (s : Solver) :
    (s.propagate o).2.trail = s.trail := rfl

@[simp] theorem propagate_model (o : Collab) (s : Solver) :
    (s.propagate o).2.model = s.model := rfl

@[simp] theorem cancel_constrs (s : Solver) : s.cancel.constrs = s.constrs := rfl

@[simp] theorem cancel_trail (s : Solver) : s.cancel.trail = s.trail.tail := rfl

@[simp] theorem clearPropQ_constrs (s : Solver) : s.clearPropQ.constrs = s.constrs := rfl

@[simp] theorem clearPropQ_trail (s : Solver) : s.clearPropQ.trail = s.trail := rfl

@[simp] theorem cancelUntil0_constrs (s : Solver) : s.cancelUntil0.constrs = s.constrs := rfl

@[simp] theorem cancelUntil0_trail (s : Solver) : s.cancelUntil0.trail = [] := rfl

@[simp] theorem cancelUntil0_model (s : Solver) : s.cancelUntil0.model = s.model := rfl

@[simp] theorem search_constrs (o : Collab) (s : Solver) :
    (s.search o).2.constrs = s.constrs := rfl

@[simp] theorem search_trail (o : Collab) (s : Solver) : (s.search o).2.trail = s.trail := rfl

theorem newVarsUpTo_constrs (n : Nat) (s : Solver) :
    (newVarsUpTo n s).constrs = s.constrs ∧ (newVarsUpTo n s).trail = s.trail ∧
      (newVarsUpTo n s).refuted = s.refuted ∧ (newVarsUpTo n s).ok = s.ok := by
  unfold newVarsUpTo
  generalize List.range (n - s.nVars) = l
  induction l generalizing s with
  | nil => exact ⟨rfl, rfl, rfl, rfl⟩
  | cons x xs ih =>
    simp only [List.foldl_cons]
    obtain ⟨h1, h2, h3, h4⟩ := ih s.newVar
    exact ⟨h1, h2, h3, h4⟩

theorem okInv_newVarsUpTo {o : Collab} {n : Nat} {s : Solver} (h : OkInv o s) :
    OkInv o (newVarsUpTo n s) := by
  obtain ⟨h1, -, h3, h4⟩ := newVarsUpTo_constrs n s
  unfold OkInv
  rw [h1, h3, h4]
  exact h

theorem okInv_fresh (o : Collab) : OkInv o Solver.fresh :=
  ⟨fun h => absurd h (by decide), fun _ h => absurd h (by decide)⟩

theorem okInv_enableDeriv {o : Collab} {s : Solver} (h : OkInv o s) : OkInv o s.enableDeriv := h

theorem Models.mono {μ : Nat → Bool} {cs cs' : List Constr} (h : Models μ cs')
    (hsub : cs ⊆ cs') : Models μ cs := fun c hc => h c (hsub hc)

theorem HasCNF.of_subset {p : Parser} {cs cs' : List Constr} (h : HasCNF p cs) (hsub : cs ⊆ cs') :
    HasCNF p cs' := fun μ hμ => h μ (hμ.mono hsub)

theorem holds_mk' (μ : Nat → Bool) (v : Nat) : (Lit.mk' v).holds μ = μ v := by
  simp [Lit.holds, Lit.mk']

theorem holds_not_mk' (μ : Nat → Bool) (v : Nat) : (Lit.mk' v).not.holds μ = !μ v := by
  cases h : μ v <;> simp [Lit.holds, Lit.mk', Lit.not, h]

/-- The restart loop changes neither the constraints nor the assumptions; a true answer
leaves a model of both when the models of the collaborator are sound, and a false answer
without assumptions marks the solver as refuted. -/
theorem searchLoop_spec (o : Collab) (n : Nat) (s s' : Solver) (r : Bool)
    (h : searchLoop o n s = some (r, s')) :
    s'.constrs = s.constrs ∧ s'.trail = s.trail ∧
    (r = true → o.ModelsSound → s'.Sat s'.model) ∧
    (r = false → ∃ s0 : Solver, s0.constrs = s.constrs ∧ s0.trail = s.trail ∧
      (o.searchRet s0).1 = LBool.lFalse) ∧
    (r = false → s.trail = [] → s'.refuted = true) ∧
    (s.refuted = true → s'.refuted = true) := by
  induction n generalizing s with
  | zero => simp [searchLoop] at h
  | succ n ih =>
    simp only [searchLoop] at h
    rcases hres : o.searchRet s with ⟨res, μ⟩
    have hs1 : (s.search o).1 = res := by simp [Solver.search, hres]
    have hsplit : s.search o = ((s.search o).1, (s.search o).2) := rfl
    rw [hsplit, hs1] at h
    have hkeep : s.refuted = true → (s.search o).2.refuted = true := by
      intro hr
      simp [Solver.search, hr]
    cases res with
    | lUndef =>
      simp only at h
      obtain ⟨h1, h2, h3, h4, h5, h6⟩ := ih _ h
      refine ⟨h1, h2, h3, h4, ?_, fun hr => h6 (hkeep hr)⟩
      intro hr ht
      exact h5 hr (by simpa using ht)
    | lTrue =>
      simp only [Option.some.injEq, Prod.mk.injEq] at h
      obtain ⟨rfl, rfl⟩ := h
      refine ⟨rfl, rfl, ?_, fun hr => absurd hr (by decide), fun hr => absurd hr (by decide),
        hkeep⟩
      intro _ ho
      have hm : (s.search o).2.model = μ := by simp [Solver.search, hres]
      rw [hm]
      exact ho s μ hres
    | lFalse =>
      simp only [Option.some.injEq, Prod.mk.injEq] at h
      obtain ⟨rfl, rfl⟩ := h
      refine ⟨rfl, rfl, fun hr => absurd hr (by decide), fun _ => ⟨s, rfl, rfl, by rw [hres]⟩,
        ?_, hkeep⟩
      intro _ ht
      simp [Solver.search, hres, ht]

/-! ## Lemmas: formula assembly -/

theorem add_spec (o : Collab) (s s' : Solver) (c : Constr) (r : Bool)
    (h : s.add o c = (r, s')) :
    s'.constrs = s.constrs ++ [c] ∧ s'.trail = s.trail ∧
    (s.refuted = true → s'.refuted = true) ∧ (r = false → s'.refuted = true) ∧
    r = o.addRet s c ∧ (OkInv o s → OkInv o s') := by
  simp only [Solver.add, Prod.mk.injEq] at h
  obtain ⟨h1, h2⟩ := h
  subst h2
  refine ⟨rfl, rfl, ?_, ?_, h1.symm, ?_⟩
  · intro hr
    simp [hr]
  · intro hr
    simp [h1, hr]
  · intro hk
    obtain ⟨hok, href⟩ := hk
    refine ⟨?_, ?_⟩
    · intro hfalse
      simp only [Bool.and_eq_false_imp] at hfalse
      simp only [Bool.or_eq_true, Bool.not_eq_true']
      by_cases hk : s.ok = true
      · exact Or.inr (hfalse hk)
      · exact Or.inl (hok (by simpa using hk))
    · intro hR hr hex
      obtain ⟨μ, hμ⟩ := hex
      simp only [Bool.or_eq_true, Bool.not_eq_true'] at hr
      rcases hr with hr | hr
      · exact href hR hr ⟨μ, hμ.mono (List.subset_append_left _ _)⟩
      · exact hR.add_false s c hr ⟨μ, hμ⟩

theorem sigma_eq (p : Parser) (i curY0 : Nat) (h : p.haveGroupMap = false → curY0 = i) :
    (if p.haveGroupMap then p.clauseGroupMap.getD i 0 else curY0) = p.sigma i := by
  unfold Parser.sigma
  cases hg : p.haveGroupMap
  · simp [h hg]
  · simp

/-- The clause loop of `get_CNF_Y`: it only adds constraints, a `false` result marks the
solver as refuted, and after a `true` result every clause of the loop holds in every model of
the constraints that makes its y-variable true. -/
theorem get_CNF_Y_loop_spec (o : Collab) (p : Parser) (iset : Option (Finset Nat))
    (cls : List (List Lit)) (i curY0 : Nat) (sat sat' : Solver) (r : Bool)
    (hY : p.haveGroupMap = false → curY0 = i)
    (h : get_CNF_Y_loop o p iset cls i curY0 sat = (r, sat')) :
    sat.constrs ⊆ sat'.constrs ∧ sat'.trail = sat.trail ∧
    (sat.refuted = true → sat'.refuted = true) ∧ (r = false → sat'.refuted = true) ∧
    (OkInv o sat → OkInv o sat') ∧
    (r = true → ∀ μ, Models μ sat'.constrs → ∀ j, j < cls.length →
      μ (p.CNFvars + p.sigma (i + j)) = true → (cls.getD j []).any (Lit.holds μ) = true) := by
  induction cls generalizing i curY0 sat with
  | nil =>
    simp only [get_CNF_Y_loop, Prod.mk.injEq] at h
    obtain ⟨rfl, rfl⟩ := h
    refine ⟨fun c hc => hc, rfl, fun hr => hr, fun hr => absurd hr (by decide), fun hk => hk,
      ?_⟩
    intro _ μ _ j hj
    exact absurd hj (Nat.not_lt_zero _)
  | cons cl rest ih =>
    have hnext : p.haveGroupMap = false →
        (if p.haveGroupMap then p.sigma i else p.sigma i + 1) = i + 1 := by
      intro hg
      simp [hg, Parser.sigma]
    simp only [get_CNF_Y_loop, sigma_eq p i curY0 hY] at h
    -- the constraint(s) added for this clause, and what they say
    have key : ∀ (sat1 : Solver) (r1 : Bool),
        sat.constrs ⊆ sat1.constrs → sat1.trail = sat.trail →
        (sat.refuted = true → sat1.refuted = true) → (r1 = false → sat1.refuted = true) →
        (OkInv o sat → OkInv o sat1) →
        (∀ μ, Models μ sat1.constrs → μ (p.CNFvars + p.sigma i) = true →
          cl.any (Lit.holds μ) = true) →
        (match (r1, sat1) with
          | (false, sat') => (false, sat')
          | (true, sat') => get_CNF_Y_loop o p iset rest (i + 1)
              (if p.haveGroupMap then p.sigma i else p.sigma i + 1) sat') = (r, sat') →
        sat.constrs ⊆ sat'.constrs ∧ sat'.trail = sat.trail ∧
        (sat.refuted = true → sat'.refuted = true) ∧ (r = false → sat'.refuted = true) ∧
        (OkInv o sat → OkInv o sat') ∧
        (r = true → ∀ μ, Models μ sat'.constrs → ∀ j, j < (cl :: rest).length →
          μ (p.CNFvars + p.sigma (i + j)) = true →
          ((cl :: rest).getD j []).any (Lit.holds μ) = true) := by
      intro sat1 r1 hsub htr href hfalse hokinv hcl hrun
      cases r1 with
      | false =>
        simp only [Prod.mk.injEq] at hrun
        obtain ⟨rfl, rfl⟩ := hrun
        exact ⟨hsub, htr, href, fun _ => hfalse rfl, hokinv, fun hr => absurd hr (by decide)⟩
      | true =>
        simp only at hrun
        obtain ⟨h1, h2, h3, h4, h4', h5⟩ := ih (i + 1) _ sat1 hnext hrun
        refine ⟨hsub.trans h1, h2.trans htr, fun hr => h3 (href hr), h4,
          fun hk => h4' (hokinv hk), ?_⟩
        intro hr μ hμ j hj hYj
        cases j with
        | zero =>
          simp only [List.getD_cons_zero]
          exact hcl μ (hμ.mono h1) hYj
        | succ j =>
          simp only [List.getD_cons_succ]
          have hj' : j < rest.length := by simpa using hj
          have e : i + (j + 1) = i + 1 + j := by omega
          rw [e] at hYj
          exact h5 hr μ hμ j hj' hYj
    by_cases hins : iset = none ∨ ∃ set, iset = some set ∧ p.sigma i + 1 ∈ set
    · rw [if_pos hins] at h
      rcases hadd : sat.addClause o (cl ++ [(Lit.mk' (p.CNFvars + p.sigma i)).not]) none
        with ⟨r1, sat1⟩
      rw [hadd] at h
      obtain ⟨e1, e2, e3, e4, -, e5⟩ := add_spec o sat sat1 _ r1 hadd
      refine key sat1 r1 (by rw [e1]; exact List.subset_append_left _ _) e2 e3 e4 e5 ?_ h
      intro μ hμ hYt
      have := hμ (Constr.clause (cl ++ [(Lit.mk' (p.CNFvars + p.sigma i)).not]) none)
        (by rw [e1]; simp)
      simp only [Constr.holds, List.any_append, List.any_cons, List.any_nil, Bool.or_false,
        holds_not_mk', hYt, Bool.not_true] at this
      simpa using this
    · rw [if_neg hins] at h
      by_cases hlen : cl.length = 1
      · rw [if_pos hlen] at h
        rcases hadd : (sat.addUnit o (Lit.mk' (p.CNFvars + p.sigma i)) none).2.addUnit o
          (cl.headD (Lit.mk' 0)) (some (p.sigma i + 1)) with ⟨r1, sat1⟩
        rw [hadd] at h
        obtain ⟨e1, e2, e3, e4, -, e5⟩ := add_spec o _ sat1 _ r1 hadd
        obtain ⟨f1, f2, f3, -, -, f5⟩ := add_spec o sat _ _ _ (rfl :
          sat.add o (Constr.clause [Lit.mk' (p.CNFvars + p.sigma i)] none) = (_, _))
        refine key sat1 r1 ?_ ?_ ?_ e4 (fun hk => e5 (f5 hk)) ?_ h
        · rw [e1]
          exact (List.subset_append_left _ _).trans (List.subset_append_left _ _)
        · rw [e2]; rfl
        · intro hr
          exact e3 (f3 hr)
        · intro μ hμ _
          have := hμ (Constr.clause [cl.headD (Lit.mk' 0)] (some (p.sigma i + 1)))
            (by rw [e1]; simp)
          obtain ⟨x, rfl⟩ := List.length_eq_one.mp hlen
          simpa [Constr.holds] using this
      · rw [if_neg hlen] at h
        rcases hadd : (sat.addUnit o (Lit.mk' (p.CNFvars + p.sigma i)) none).2.addClause o
          cl (some (p.sigma i + 1)) with ⟨r1, sat1⟩
        rw [hadd] at h
        obtain ⟨e1, e2, e3, e4, -, e5⟩ := add_spec o _ sat1 _ r1 hadd
        obtain ⟨f1, f2, f3, -, -, f5⟩ := add_spec o sat _ _ _ (rfl :
          sat.add o (Constr.clause [Lit.mk' (p.CNFvars + p.sigma i)] none) = (_, _))
        refine key sat1 r1 ?_ ?_ ?_ e4 (fun hk => e5 (f5 hk)) ?_ h
        · rw [e1]
          exact (List.subset_append_left _ _).trans (List.subset_append_left _ _)
        · rw [e2]; rfl
        · intro hr
          exact e3 (f3 hr)
        · intro μ hμ _
          have := hμ (Constr.clause cl (some (p.sigma i + 1))) (by rw [e1]; simp)
          simpa [Constr.holds] using this

theorem addYClauses_spec (o : Collab) (p : Parser) (ycls : List (List Int))
    (sat sat' : Solver) (r : Bool) (h : addYClauses o p ycls sat = (r, sat')) :
    sat.constrs ⊆ sat'.constrs ∧ sat'.trail = sat.trail ∧
    (sat.refuted = true → sat'.refuted = true) ∧ (r = false → sat'.refuted = true) ∧
    (OkInv o sat → OkInv o sat') := by
  induction ycls generalizing sat with
  | nil =>
    simp only [addYClauses, Prod.mk.injEq] at h
    obtain ⟨rfl, rfl⟩ := h
    exact ⟨fun c hc => hc, rfl, fun hr => hr, fun hr => absurd hr (by decide), fun hk => hk⟩
  | cons cl rest ih =>
    simp only [addYClauses] at h
    rcases hadd : sat.addClause o (yClauseLits p cl) none with ⟨r1, sat1⟩
    rw [hadd] at h
    obtain ⟨e1, e2, e3, e4, -, e5⟩ := add_spec o sat sat1 _ r1 hadd
    have hsub : sat.constrs ⊆ sat1.constrs := by rw [e1]; exact List.subset_append_left _ _
    cases r1 with
    | false =>
      simp only [Prod.mk.injEq] at h
      obtain ⟨rfl, rfl⟩ := h
      exact ⟨hsub, e2, e3, fun _ => e4 rfl, e5⟩
    | true =>
      simp only at h
      obtain ⟨h1, h2, h3, h4, h5⟩ := ih sat1 h
      exact ⟨hsub.trans h1, h2.trans e2, fun hr => h3 (e3 hr), h4, fun hk => h5 (e5 hk)⟩

theorem simplifyDB_spec (o : Collab) (s : Solver) (hk : OkInv o s) :
    OkInv o (s.simplifyDB o) ∧ (s.refuted = true → (s.simplifyDB o).refuted = true) := by
  obtain ⟨hok, href⟩ := hk
  refine ⟨⟨?_, ?_⟩, ?_⟩
  · intro hfalse
    simp only [Solver.simplifyDB, Bool.and_eq_false_imp] at hfalse
    simp only [Solver.simplifyDB, Bool.or_eq_true, Bool.not_eq_true']
    by_cases hk : s.ok = true
    · exact Or.inr (hfalse hk)
    · exact Or.inl (hok (by simpa using hk))
  · intro hR hr hex
    simp only [Solver.simplifyDB, Bool.or_eq_true, Bool.not_eq_true'] at hr
    rcases hr with hr | hr
    · exact href hR hr hex
    · exact hR.simplify_false s hr hex
  · intro hr
    simp [Solver.simplifyDB, hr]

/-- The function `get_CNF_Y`: it only adds constraints; a `false` result marks the solver as
refuted; after a `true` result the constraints say that every original clause whose
y-variable is true holds. -/
theorem get_CNF_Y_spec (o : Collab) (p : Parser) (iset : Option (Finset Nat))
    (sat sat' : Solver) (r : Bool) (hk : OkInv o sat)
    (h : p.get_CNF_Y o sat iset = (r, sat')) :
    sat.constrs ⊆ sat'.constrs ∧ sat'.trail = sat.trail ∧
    (r = false → sat'.refuted = true) ∧ OkInv o sat' ∧ (r = true → HasCNF p sat'.constrs) := by
  unfold Parser.get_CNF_Y at h
  obtain ⟨n1, n2, n3, n4⟩ := newVarsUpTo_constrs (p.CNFvars + p.Yvars) sat
  have hk0 : OkInv o (newVarsUpTo (p.CNFvars + p.Yvars) sat) := okInv_newVarsUpTo hk
  rcases h1 : get_CNF_Y_loop o p iset p.origCNF 0 0 (newVarsUpTo (p.CNFvars + p.Yvars) sat)
    with ⟨r1, sat1⟩
  rw [h1] at h
  obtain ⟨a1, a2, -, a4, a5, a6⟩ :=
    get_CNF_Y_loop_spec o p iset p.origCNF 0 0 _ sat1 r1 (fun _ => rfl) h1
  rw [n1] at a1
  rw [n2] at a2
  cases r1 with
  | false =>
    simp only [Prod.mk.injEq] at h
    obtain ⟨rfl, rfl⟩ := h
    exact ⟨a1, a2, fun _ => a4 rfl, a5 hk0, fun hr => absurd hr (by decide)⟩
  | true =>
    simp only at h
    rcases h2 : addYClauses o p p.origYClauses sat1 with ⟨r2, sat2⟩
    rw [h2] at h
    obtain ⟨b1, b2, -, b4, b5⟩ := addYClauses_spec o p _ sat1 sat2 r2 h2
    cases r2 with
    | false =>
      simp only [Prod.mk.injEq] at h
      obtain ⟨rfl, rfl⟩ := h
      exact ⟨a1.trans b1, b2.trans a2, fun _ => b4 rfl, b5 (a5 hk0),
        fun hr => absurd hr (by decide)⟩
    | true =>
      simp only [Prod.mk.injEq] at h
      obtain ⟨rfl, rfl⟩ := h
      obtain ⟨c1, c2⟩ := simplifyDB_spec o sat2 (b5 (a5 hk0))
      refine ⟨a1.trans b1, b2.trans a2, c1.1, c1, ?_⟩
      intro _
      intro μ hμ i hi hY
      have := a6 rfl μ (hμ.mono b1) i hi (by simpa using hY)
      simpa using this

/-! ## Lemmas: blocking clauses and the growth of an MSS -/

theorem blockingVars_spec (B : List Nat) (s : Solver) :
    (blockingVars B s).constrs = s.constrs ∧ (blockingVars B s).trail = s.trail ∧
    (blockingVars B s).refuted = s.refuted ∧ (blockingVars B s).ok = s.ok := by
  induction B generalizing s with
  | nil => exact ⟨rfl, rfl, rfl, rfl⟩
  | cons y ys ih =>
    simp only [blockingVars]
    obtain ⟨h1, h2, h3, h4⟩ := ih (newVarsUpTo (y + 1) s)
    obtain ⟨n1, n2, n3, n4⟩ := newVarsUpTo_constrs (y + 1) s
    exact ⟨h1.trans n1, h2.trans n2, h3.trans n3, h4.trans n4⟩

theorem okInv_blockingVars {o : Collab} {B : List Nat} {s : Solver} (h : OkInv o s) :
    OkInv o (blockingVars B s) := by
  obtain ⟨h1, -, h3, h4⟩ := blockingVars_spec B s
  unfold OkInv
  rw [h1, h3, h4]
  exact h

/-- The function `addBlockingClauses`: it adds only blocking clauses of the listed MCSes, all
of them when it returns `true`; a `false` result marks the solver as refuted. -/
theorem addBlockingLoop_spec (o : Collab) (nvars : Nat) (L : List (List Nat)) (st : Bool)
    (sat sat' : Solver) (r : Bool) (h : addBlockingLoop o nvars L st sat = (r, sat')) :
    sat.constrs ⊆ sat'.constrs ∧ sat'.trail = sat.trail ∧
    (sat.refuted = true → sat'.refuted = true) ∧
    (st = true → r = false → sat'.refuted = true) ∧ (OkInv o sat → OkInv o sat') ∧
    (∀ c ∈ sat'.constrs, c ∈ sat.constrs ∨ ∃ B ∈ L, c = blockingClause nvars B) ∧
    (r = true → st = true ∧ ∀ B ∈ L, blockingClause nvars B ∈ sat'.constrs) := by
  induction L generalizing st sat with
  | nil =>
    simp only [addBlockingLoop, Prod.mk.injEq] at h
    obtain ⟨rfl, rfl⟩ := h
    refine ⟨fun c hc => hc, rfl, fun hr => hr, ?_, fun hk => hk, fun c hc => Or.inl hc, ?_⟩
    · intro h1 h2
      rw [h1] at h2
      exact absurd h2 (by decide)
    · intro hr
      exact ⟨hr, fun B hB => absurd hB (List.not_mem_nil _)⟩
  | cons B rest ih =>
    obtain ⟨v1, v2, v3, v4⟩ := blockingVars_spec B sat
    simp only [addBlockingLoop] at h
    cases st with
    | false =>
      simp only [Bool.false_eq_true, if_false] at h
      obtain ⟨h1, h2, h3, -, h5, h6, h7⟩ := ih false _ h
      rw [v1] at h1 h6
      rw [v2] at h2
      rw [v3] at h3
      refine ⟨h1, h2, h3, fun hh => absurd hh (by decide), fun hk => h5 (okInv_blockingVars hk),
        ?_, ?_⟩
      · intro c hc
        rcases h6 c hc with h | ⟨B', hB', he⟩
        · exact Or.inl h
        · exact Or.inr ⟨B', List.mem_cons_of_mem _ hB', he⟩
      · intro hr
        exact absurd (h7 hr).1 (by decide)
    | true =>
      simp only [if_true] at h
      have hform : (if B.length = 1 then
            (blockingVars B sat).addUnit o (Lit.mk' (B.headD 0 + nvars)) none
          else (blockingVars B sat).addClause o (B.map (fun y => Lit.mk' (y + nvars))) none)
          = (blockingVars B sat).add o (blockingClause nvars B) := by
        by_cases hl : B.length = 1
        · rw [if_pos hl]
          obtain ⟨y, rfl⟩ := List.length_eq_one.mp hl
          rfl
        · rw [if_neg hl]
          rfl
      rw [hform] at h
      rcases hadd : (blockingVars B sat).add o (blockingClause nvars B) with ⟨r1, sat1⟩
      rw [hadd] at h
      simp only at h
      obtain ⟨e1, e2, e3, e4, -, e5⟩ := add_spec o _ sat1 _ r1 hadd
      obtain ⟨h1, h2, h3, h4, h5, h6, h7⟩ := ih r1 sat1 h
      rw [v1] at e1
      rw [v2] at e2
      rw [v3] at e3
      have hsub : sat.constrs ⊆ sat1.constrs := by rw [e1]; exact List.subset_append_left _ _
      refine ⟨hsub.trans h1, h2.trans e2, fun hr => h3 (e3 hr), ?_,
        fun hk => h5 (e5 (okInv_blockingVars hk)), ?_, ?_⟩
      · intro _ hr
        cases r1 with
        | false => exact h3 (e4 rfl)
        | true => exact h4 rfl hr
      · intro c hc
        rcases h6 c hc with h | ⟨B', hB', he⟩
        · rw [e1] at h
          rcases List.mem_append.mp h with h | h
          · exact Or.inl h
          · rw [List.mem_singleton] at h
            exact Or.inr ⟨B, List.mem_cons_self _ _, h⟩
        · exact Or.inr ⟨B', List.mem_cons_of_mem _ hB', he⟩
      · intro hr
        obtain ⟨hr1, hall⟩ := h7 hr
        refine ⟨rfl, ?_⟩
        intro B' hB'
        rcases List.mem_cons.mp hB' with rfl | hB'
        · apply h1
          rw [e1]
          simp
        · exact hall B' hB'

theorem growSeed_spec (o : Collab) (nvars : Nat) (MSS : List Nat) (sat : Solver) :
    (growSeed o nvars MSS sat).constrs = sat.constrs ∧
    (growSeed o nvars MSS sat).model = sat.model ∧
    (∀ p ∈ sat.trail, p ∈ (growSeed o nvars MSS sat).trail) ∧
    (∀ y ∈ MSS, Lit.mk' (y + nvars) ∈ (growSeed o nvars MSS sat).trail) := by
  induction MSS generalizing sat with
  | nil => exact ⟨rfl, rfl, fun p hp => hp, fun y hy => absurd hy (List.not_mem_nil _)⟩
  | cons y ys ih =>
    simp only [growSeed]
    obtain ⟨h1, h2, h3, h4⟩ := ih ((sat.assume o (Lit.mk' (y + nvars))).2.propagate o).2
    refine ⟨h1, h2, ?_, ?_⟩
    · intro p hp
      apply h3
      simp [hp]
    · intro y' hy'
      rcases List.mem_cons.mp hy' with rfl | hy'
      · apply h3
        simp
      · exact h4 y' hy'

/-- The inner loop of `grow`: the constraints and the model stay, assumptions are only
added, and every member it erases has its y-variable true in the model and assumed. -/
theorem growCollateral_spec (o : Collab) (nvars lowbound : Nat) (rest : List Nat)
    (sat : Solver) (curSize : Nat) (rest' : List Nat) (sat' : Solver) (curSize' : Nat)
    (h : growCollateral o nvars lowbound rest sat curSize = (rest', sat', curSize')) :
    sat'.constrs = sat.constrs ∧ sat'.model = sat.model ∧
    (∀ p ∈ sat.trail, p ∈ sat'.trail) ∧ (∀ j ∈ rest', j ∈ rest) ∧ rest'.length ≤ rest.length ∧
    (∀ j ∈ rest, j ∉ rest' →
      sat.model (nvars + j) = true ∧ Lit.mk' (j + nvars) ∈ sat'.trail) := by
  induction rest generalizing sat curSize rest' with
  | nil =>
    simp only [growCollateral, Prod.mk.injEq] at h
    obtain ⟨rfl, rfl, rfl⟩ := h
    exact ⟨rfl, rfl, fun p hp => hp, fun j hj => hj, le_refl _,
      fun j hj => absurd hj (List.not_mem_nil _)⟩
  | cons j rest ih =>
    simp only [growCollateral] at h
    by_cases hm : sat.model (nvars + j) = true
    · rw [if_pos hm] at h
      by_cases hb : lowbound ≠ 0 ∧ curSize - 1 = lowbound
      · rw [if_pos hb] at h
        simp only [Prod.mk.injEq] at h
        obtain ⟨rfl, rfl, rfl⟩ := h
        refine ⟨rfl, rfl, ?_, fun x hx => List.mem_cons_of_mem _ hx, by simp, ?_⟩
        · intro p hp
          simp [hp]
        · intro x hx hnot
          rcases List.mem_cons.mp hx with rfl | hx
          · exact ⟨hm, by simp⟩
          · exact absurd hx hnot
      · rw [if_neg hb] at h
        obtain ⟨h1, h2, h3, h4, h5, h6⟩ := ih _ _ _ h
        refine ⟨h1, h2, ?_, fun x hx => List.mem_cons_of_mem _ (h4 x hx), ?_, ?_⟩
        · intro p hp
          apply h3
          simp [hp]
        · simp only [List.length_cons]; omega
        · intro x hx hnot
          rcases List.mem_cons.mp hx with rfl | hx
          · refine ⟨hm, ?_⟩
            apply h3
            simp
          · exact h6 x hx hnot
    · rw [if_neg hm] at h
      rcases hrec : growCollateral o nvars lowbound rest sat curSize with ⟨k, s1, c1⟩
      rw [hrec] at h
      simp only [Prod.mk.injEq] at h
      obtain ⟨rfl, rfl, rfl⟩ := h
      obtain ⟨h1, h2, h3, h4, h5, h6⟩ := ih _ _ _ hrec
      refine ⟨h1, h2, h3, ?_, by simp only [List.length_cons]; omega, ?_⟩
      · intro x hx
        rcases List.mem_cons.mp hx with rfl | hx
        · exact List.mem_cons_self _ _
        · exact List.mem_cons_of_mem _ (h4 x hx)
      · intro x hx hnot
        rcases List.mem_cons.mp hx with rfl | hx
        · exact absurd (List.mem_cons_self _ _) hnot
        · exact h6 x hx (fun hh => hnot (List.mem_cons_of_mem _ hh))

/-- The outer loop of `grow` keeps a witness: an assignment that satisfies the constraints
and makes true the y-variable of every selector (of the domain `D`) that is not in the
shrinking set. -/
theorem growLoop_sound (o : Collab) (ho : o.ModelsSound) (fuel nvars lowbound : Nat)
    (C : List Constr) (D : Nat → Prop) (n : Nat) (kept todo : List Nat) (sat : Solver)
    (curSize : Nat) (MCS' : List Nat) (sat' : Solver)
    (hC : sat.constrs = C)
    (hw : ∃ μ, Models μ C ∧ ∀ y, D y → y ∉ kept → y ∉ todo → μ (y + nvars) = true)
    (ht : ∀ y, D y → y ∉ kept → y ∉ todo → Lit.mk' (y + nvars) ∈ sat.trail)
    (h : growLoop o fuel nvars lowbound n kept todo sat curSize = some (MCS', sat')) :
    sat'.constrs = C ∧ (∃ μ, Models μ C ∧ ∀ y, D y → y ∉ MCS' → μ (y + nvars) = true) ∧
    (∀ y ∈ MCS', y ∈ kept ∨ y ∈ todo) := by
  induction n generalizing kept todo sat curSize with
  | zero =>
    simp only [growLoop, Option.some.injEq, Prod.mk.injEq] at h
    obtain ⟨rfl, rfl⟩ := h
    obtain ⟨μ, hμ, hall⟩ := hw
    refine ⟨hC, ⟨μ, hμ, ?_⟩, fun y hy => List.mem_append.mp hy⟩
    intro y hD hy
    rw [List.mem_append, not_or] at hy
    exact hall y hD hy.1 hy.2
  | succ n ih =>
    cases todo with
    | nil =>
      simp only [growLoop, Option.some.injEq, Prod.mk.injEq] at h
      obtain ⟨rfl, rfl⟩ := h
      obtain ⟨μ, hμ, hall⟩ := hw
      exact ⟨hC, ⟨μ, hμ, fun y hD hy => hall y hD hy (List.not_mem_nil _)⟩,
        fun y hy => Or.inl hy⟩
    | cons i rest =>
      -- the branch that keeps `i`: the assumption is cancelled
      have keep : ∀ s2 : Solver, s2.constrs = C → s2.trail = Lit.mk' (i + nvars) :: sat.trail →
          growLoop o fuel nvars lowbound n (kept ++ [i]) rest s2.clearPropQ.cancel curSize
            = some (MCS', sat') →
          sat'.constrs = C ∧
          (∃ μ, Models μ C ∧ ∀ y, D y → y ∉ MCS' → μ (y + nvars) = true) ∧
          (∀ y ∈ MCS', y ∈ kept ∨ y ∈ i :: rest) := by
        intro s2 hc2 ht2 hrun
        have hnot : ∀ y, y ∉ kept ++ [i] → y ∉ rest → y ∉ kept ∧ y ∉ i :: rest := by
          intro y h1 h2
          rw [List.mem_append, not_or, List.mem_singleton] at h1
          refine ⟨h1.1, ?_⟩
          rw [List.mem_cons, not_or]
          exact ⟨h1.2, h2⟩
        obtain ⟨μ, hμ, hall⟩ := hw
        obtain ⟨r1, r2, r3⟩ := ih (kept ++ [i]) rest s2.clearPropQ.cancel curSize
          (by simpa using hc2)
          ⟨μ, hμ, fun y hD h1 h2 => hall y hD (hnot y h1 h2).1 (hnot y h1 h2).2⟩
          (by
            intro y hD h1 h2
            simp only [cancel_trail, clearPropQ_trail, ht2, List.tail_cons]
            exact ht y hD (hnot y h1 h2).1 (hnot y h1 h2).2)
          hrun
        refine ⟨r1, r2, ?_⟩
        intro y hy
        rcases r3 y hy with h | h
        · rcases List.mem_append.mp h with h | h
          · exact Or.inl h
          · rw [List.mem_singleton] at h
            exact Or.inr (h ▸ List.mem_cons_self _ _)
        · exact Or.inr (List.mem_cons_of_mem _ h)
      simp only [growLoop] at h
      rcases hA : sat.assume o (Lit.mk' (i + nvars)) with ⟨b1, sat1⟩
      have e1 : sat1 = (sat.assume o (Lit.mk' (i + nvars))).2 := by rw [hA]
      rw [hA] at h
      cases b1 with
      | false =>
        simp only at h
        exact keep sat1 (by rw [e1]; exact hC) (by rw [e1]; rfl) h
      | true =>
        simp only at h
        rcases hP : sat1.propagate o with ⟨b2, sat2⟩
        have e2 : sat2 = (sat1.propagate o).2 := by rw [hP]
        rw [hP] at h
        have hc2 : sat2.constrs = C := by rw [e2, e1]; exact hC
        have ht2 : sat2.trail = Lit.mk' (i + nvars) :: sat.trail := by rw [e2, e1]; rfl
        cases b2 with
        | false =>
          simp only at h
          exact keep sat2 hc2 ht2 h
        | true =>
          simp only at h
          cases hI : itsolve o fuel sat2 with
          | none => rw [hI] at h; exact absurd h (by simp)
          | some res =>
            obtain ⟨b3, sat3⟩ := res
            rw [hI] at h
            unfold itsolve at hI
            obtain ⟨s1, s2, s3, -, -, -⟩ := searchLoop_spec o fuel _ sat3 b3 hI
            have hc3 : sat3.constrs = C := by rw [s1]; exact hc2
            have ht3 : sat3.trail = Lit.mk' (i + nvars) :: sat.trail := by rw [s2]; exact ht2
            cases b3 with
            | false =>
              simp only at h
              exact keep sat3 hc3 ht3 h
            | true =>
              simp only at h
              obtain ⟨hm1, hm2⟩ := s3 rfl ho
              rw [hc3] at hm1
              rcases hG : growCollateral o nvars lowbound rest sat3 (curSize - 1)
                with ⟨rest', sat4, cs'⟩
              rw [hG] at h
              simp only at h
              obtain ⟨g1, -, g3, g4, -, g6⟩ := growCollateral_spec _ _ _ _ _ _ _ _ _ hG
              -- the new witness is the model of the successful search
              have hwit : ∀ y, D y → y ∉ kept → y ∉ rest' →
                  sat3.model (y + nvars) = true ∧ Lit.mk' (y + nvars) ∈ sat4.trail := by
                intro y hD hk hr
                by_cases hyi : y = i
                · subst hyi
                  have hin : Lit.mk' (y + nvars) ∈ sat3.trail := by rw [ht3]; simp
                  refine ⟨?_, g3 _ hin⟩
                  have := hm2 _ hin
                  rwa [holds_mk'] at this
                · by_cases hyr : y ∈ rest
                  · obtain ⟨q1, q2⟩ := g6 y hyr hr
                    rw [Nat.add_comm] at q1
                    exact ⟨q1, q2⟩
                  · have hin0 : Lit.mk' (y + nvars) ∈ sat.trail := by
                      apply ht y hD hk
                      rw [List.mem_cons, not_or]
                      exact ⟨hyi, hyr⟩
                    have hin : Lit.mk' (y + nvars) ∈ sat3.trail := by
                      rw [ht3]; exact List.mem_cons_of_mem _ hin0
                    refine ⟨?_, g3 _ hin⟩
                    have := hm2 _ hin
                    rwa [holds_mk'] at this
              by_cases hb : lowbound ≠ 0 ∧ cs' = lowbound
              · rw [if_pos hb] at h
                simp only [Option.some.injEq, Prod.mk.injEq] at h
                obtain ⟨rfl, rfl⟩ := h
                refine ⟨g1.trans hc3, ⟨sat3.model, hm1, ?_⟩, ?_⟩
                · intro y hD hy
                  rw [List.mem_append, not_or] at hy
                  exact (hwit y hD hy.1 hy.2).1
                · intro y hy
                  rcases List.mem_append.mp hy with h | h
                  · exact Or.inl h
                  · exact Or.inr (List.mem_cons_of_mem _ (g4 y h))
              · rw [if_neg hb] at h
                obtain ⟨r1, r2, r3⟩ := ih kept rest' sat4 cs' (g1.trans hc3)
                  ⟨sat3.model, hm1, fun y hD hk hr => (hwit y hD hk hr).1⟩
                  (fun y hD hk hr => (hwit y hD hk hr).2) h
                refine ⟨r1, r2, ?_⟩
                intro y hy
                rcases r3 y hy with h | h
                · exact Or.inl h
                · exact Or.inr (List.mem_cons_of_mem _ (g4 y h))

/-- The function `grow`: the constraints stay, the set only shrinks, and there is an
assignment that satisfies the constraints and makes true the y-variable of every selector
outside the grown set. -/
theorem grow_sound (o : Collab) (ho : o.ModelsSound) (fuel nvars lowbound : Nat)
    (growsat : Solver) (MSS MCS MCS' : List Nat) (sat' : Solver) (D : Nat → Prop)
    (μ0 : Nat → Bool) (hμ0 : Models μ0 growsat.constrs)
    (hpart : ∀ y, D y → y ∉ MCS → y ∈ MSS ∧ μ0 (y + nvars) = true)
    (h : grow o fuel nvars growsat MSS MCS lowbound = some (MCS', sat')) :
    sat'.constrs = growsat.constrs ∧
    (∃ μ, Models μ growsat.constrs ∧ ∀ y, D y → y ∉ MCS' → μ (y + nvars) = true) ∧
    (∀ y ∈ MCS', y ∈ MCS) := by
  unfold grow at h
  cases hL : growLoop o fuel nvars lowbound MCS.length [] MCS
      (growSeed o nvars MSS growsat.cancelUntil0) MCS.length with
  | none => rw [hL] at h; exact absurd h (by simp)
  | some res =>
    obtain ⟨M1, s1⟩ := res
    rw [hL] at h
    simp only [Option.some.injEq, Prod.mk.injEq] at h
    obtain ⟨rfl, rfl⟩ := h
    obtain ⟨k1, -, -, k4⟩ := growSeed_spec o nvars MSS growsat.cancelUntil0
    obtain ⟨r1, r2, r3⟩ := growLoop_sound o ho fuel nvars lowbound growsat.constrs D
      MCS.length [] MCS _ MCS.length M1 s1 (by rw [k1]; rfl)
      ⟨μ0, hμ0, fun y hD _ hy => (hpart y hD hy).2⟩
      (fun y hD _ hy => k4 y (hpart y hD hy).1) hL
    refine ⟨by simpa using r1, r2, ?_⟩
    intro y hy
    rcases r3 y hy with h | h
    · exact absurd h (List.not_mem_nil _)
    · exact h

theorem mem_readMCS (nvars nYvars : Nat) (μ : Nat → Bool) (y : Nat) :
    y ∈ readMCS nvars nYvars μ ↔ y < nYvars ∧ μ (y + nvars) = false := by
  simp [readMCS]

theorem mem_readMSS (nvars nYvars : Nat) (μ : Nat → Bool) (y : Nat) :
    y ∈ readMSS nvars nYvars μ ↔ y < nYvars ∧ μ (y + nvars) = true := by
  simp [readMSS]

theorem truncate_zero (o : Collab) (m : MCSfinder) (sat : Solver) (M : List Nat)
    (h : m.sizeLimit = 0) : truncate o m sat M = some (M, sat, m) := by
  simp [truncate, h]

theorem addIgnored_spec (o : Collab) (nvars : Nat) (ign : List Nat) (sat : Solver) :
    sat.constrs ⊆ (addIgnored o nvars ign sat).constrs ∧
    (addIgnored o nvars ign sat).trail = sat.trail ∧
    (sat.refuted = true → (addIgnored o nvars ign sat).refuted = true) ∧
    (OkInv o sat → OkInv o (addIgnored o nvars ign sat)) := by
  induction ign generalizing sat with
  | nil => exact ⟨fun c hc => hc, rfl, fun h => h, fun h => h⟩
  | cons y ys ih =>
    have hform : addIgnored o nvars (y :: ys) sat = addIgnored o nvars ys
        (sat.add o (Constr.clause [(Lit.mk' (y + nvars)).not] none)).2 := rfl
    rw [hform]
    rcases hadd : sat.add o (Constr.clause [(Lit.mk' (y + nvars)).not] none) with ⟨r1, sat1⟩
    obtain ⟨e1, e2, e3, -, -, e5⟩ := add_spec o sat sat1 _ r1 hadd
    obtain ⟨h1, h2, h3, h4⟩ := ih sat1
    refine ⟨?_, h2.trans e2, fun hr => h3 (e3 hr), fun hk => h4 (e5 hk)⟩
    intro c hc
    apply h1
    rw [e1]
    exact List.mem_append_left _ hc

/-! ## Lemmas: the loop of `solve` emits correction sets -/

theorem searchLoop_okInv (o : Collab) (n : Nat) (s s' : Solver) (r : Bool)
    (h : searchLoop o n s = some (r, s')) (hk : OkInv o s) : OkInv o s' := by
  have step : ∀ s : Solver, OkInv o s → OkInv o (s.search o).2 := by
    intro s hk
    obtain ⟨hok, href⟩ := hk
    refine ⟨?_, ?_⟩
    · intro hf
      have : s.refuted = true := hok hf
      simp [Solver.search, this]
    · intro hR hr hex
      simp only [Solver.search, Bool.or_eq_true, Bool.and_eq_true, decide_eq_true_eq,
        List.isEmpty_iff] at hr
      rcases hr with hr | ⟨hr1, hr2⟩
      · exact href hR hr hex
      · obtain ⟨μ, hμ⟩ := hex
        refine hR.search_false s hr1 ⟨μ, hμ, ?_⟩
        rw [hr2]
        intro p hp
        exact absurd hp (List.not_mem_nil _)
  induction n generalizing s with
  | zero => simp [searchLoop] at h
  | succ n ih =>
    simp only [searchLoop] at h
    have hsplit : s.search o = ((s.search o).1, (s.search o).2) := rfl
    rw [hsplit] at h
    cases hres : (s.search o).1 with
    | lUndef =>
      rw [hres] at h
      exact ih _ h (step s hk)
    | lTrue =>
      rw [hres] at h
      simp only [Option.some.injEq, Prod.mk.injEq] at h
      obtain ⟨-, rfl⟩ := h
      exact step s hk
    | lFalse =>
      rw [hres] at h
      simp only [Option.some.injEq, Prod.mk.injEq] at h
      obtain ⟨-, rfl⟩ := h
      exact step s hk

theorem MCSfinder.SameSetup.refl (m : MCSfinder) : m.SameSetup m := rfl

theorem MCSfinder.SameSetup.trans {m m' m'' : MCSfinder} (h1 : m.SameSetup m') (h2 : m'.SameSetup m'') :
    m.SameSetup m'' := by
  unfold MCSfinder.SameSetup at *
  rw [h2, h1]

theorem MCSfinder.SameSetup.fields {m m' : MCSfinder} (h : m.SameSetup m') :
    m'.p = m.p ∧ m'.boundinc = m.boundinc ∧ m'.initialBound = m.initialBound ∧
    m'.sizeLimit = m.sizeLimit ∧ m'.reportThreshold = m.reportThreshold ∧
    m'.useCores = m.useCores ∧ m'.maxSAT = m.maxSAT ∧ m'.nvars = m.nvars ∧
    m'.nYvars = m.nYvars ∧ m'.ignored = m.ignored := by
  have h' : m' = { m with MCSes := m'.MCSes, out := m'.out } := h
  refine ⟨?_, ?_, ?_, ?_, ?_, ?_, ?_, ?_, ?_, ?_⟩ <;> rw [h']

theorem MCSfinder.SameSetup.agrees {m m' : MCSfinder} (h : m.SameSetup m') (ha : m.Agrees) :
    m'.Agrees := by
  obtain ⟨h1, -, -, -, -, -, -, h8, h9, -⟩ := h.fields
  unfold MCSfinder.Agrees at *
  rw [h1, h8, h9]
  exact ha

/-- A model of constraints that contain the instrumented formula shows that the selectors
whose y-variable it makes false form a correction set. -/
theorem corr_of_model (p : Parser) (nvars nYvars : Nat) (hv : nvars = p.CNFvars)
    (hy : nYvars = p.Yvars) (hwf : ∀ i, i < p.origCNF.length → p.sigma i < p.Yvars)
    (cs : List Constr) (hcnf : HasCNF p cs) (μ : Nat → Bool) (hμ : Models μ cs)
    (M : List Nat) (hM : ∀ y, y < nYvars → y ∉ M → μ (y + nvars) = true) :
    p.Corr M.toFinset := by
  refine ⟨μ, ?_⟩
  intro i hi hnot
  apply hcnf μ hμ i hi
  have := hM (p.sigma i) (hy ▸ hwf i hi) (by simpa using hnot)
  rw [hv, Nat.add_comm] at this
  exact this

theorem sameSetup_update (m : MCSfinder) (L O : List (List Nat)) :
    m.SameSetup { m with MCSes := L, out := O } := rfl

/-- The blocking step of `solve` installs the blocking clause of the new MCS. -/
theorem blocking_step_eq (o : Collab) (nvars : Nat) (B : List Nat) (sat : Solver) :
    (if B.length = 1 then sat.addUnit o (Lit.mk' (B.headD 0 + nvars)) none
      else sat.addClause o (B.map (fun y => Lit.mk' (y + nvars))) none)
    = sat.add o (blockingClause nvars B) := by
  by_cases hl : B.length = 1
  · rw [if_pos hl]
    obtain ⟨y, rfl⟩ := List.length_eq_one.mp hl
    rfl
  · rw [if_neg hl]
    rfl

/-- Every set that the loop of `solve` writes without a size limit is a correction set. -/
theorem solveLoop_corr (o : Collab) (ho : o.ModelsSound) (fuel lowbound highbound : Nat)
    (p0 : Parser) (hwf : ∀ i, i < p0.origCNF.length → p0.sigma i < p0.Yvars)
    (n : Nat) (sat : Solver) (m : MCSfinder) (found : Bool)
    (r : Option Bool) (sat' : Solver) (m' : MCSfinder)
    (hp : m.p = p0) (hsz : m.sizeLimit = 0) (hA : m.Agrees) (hcnf : HasCNF p0 sat.constrs)
    (hout : ∀ M ∈ m.out, p0.Corr M.toFinset)
    (h : solveLoop o fuel lowbound highbound n sat m found = (r, sat', m')) :
    (∀ M ∈ m'.out, p0.Corr M.toFinset) ∧ m.SameSetup m' := by
  induction n generalizing sat m found with
  | zero =>
    simp only [solveLoop, Prod.mk.injEq] at h
    obtain ⟨-, -, rfl⟩ := h
    exact ⟨hout, MCSfinder.SameSetup.refl _⟩
  | succ n ih =>
    simp only [solveLoop] at h
    cases hS : searchLoop o fuel sat with
    | none =>
      rw [hS] at h
      simp only [Prod.mk.injEq] at h
      obtain ⟨-, -, rfl⟩ := h
      exact ⟨hout, MCSfinder.SameSetup.refl _⟩
    | some res =>
      obtain ⟨b, sat1⟩ := res
      rw [hS] at h
      obtain ⟨s1, -, s3, -, -, -⟩ := searchLoop_spec o fuel sat sat1 b hS
      cases b with
      | false =>
        simp only [Prod.mk.injEq] at h
        obtain ⟨-, -, rfl⟩ := h
        exact ⟨hout, MCSfinder.SameSetup.refl _⟩
      | true =>
        simp only at h
        obtain ⟨hm1, -⟩ := s3 rfl ho
        cases hG : (if lowbound ≠ highbound ∧
              (readMCS m.nvars m.nYvars sat1.model).length ≠ lowbound then
            grow o fuel m.nvars sat1 (readMSS m.nvars m.nYvars sat1.model)
              (readMCS m.nvars m.nYvars sat1.model) lowbound
          else some (readMCS m.nvars m.nYvars sat1.model, sat1)) with
        | none =>
          rw [hG] at h
          simp only [Prod.mk.injEq] at h
          obtain ⟨-, -, rfl⟩ := h
          exact ⟨hout, MCSfinder.SameSetup.refl _⟩
        | some res2 =>
          obtain ⟨testMCS, sat2⟩ := res2
          rw [hG] at h
          simp only [truncate_zero o m sat2 testMCS hsz, if_pos hsz] at h
          -- the set read (and grown) is a correction set
          have hgrown : sat2.constrs = sat1.constrs ∧ ∃ μ, Models μ sat1.constrs ∧
              ∀ y, y < m.nYvars → y ∉ testMCS → μ (y + m.nvars) = true := by
            by_cases hc : lowbound ≠ highbound ∧
                (readMCS m.nvars m.nYvars sat1.model).length ≠ lowbound
            · rw [if_pos hc] at hG
              obtain ⟨g1, g2, -⟩ := grow_sound o ho fuel m.nvars lowbound sat1 _ _ testMCS sat2
                (fun y => y < m.nYvars) sat1.model hm1
                (by
                  intro y hy hnot
                  have hval : sat1.model (y + m.nvars) = true := by
                    by_contra hcon
                    exact hnot ((mem_readMCS _ _ _ _).mpr ⟨hy, by simpa using hcon⟩)
                  exact ⟨(mem_readMSS _ _ _ _).mpr ⟨hy, hval⟩, hval⟩)
                hG
              exact ⟨g1, g2⟩
            · rw [if_neg hc] at hG
              simp only [Option.some.injEq, Prod.mk.injEq] at hG
              obtain ⟨rfl, rfl⟩ := hG
              refine ⟨rfl, sat1.model, hm1, ?_⟩
              intro y hy hnot
              by_contra hcon
              exact hnot ((mem_readMCS _ _ _ _).mpr ⟨hy, by simpa using hcon⟩)
          obtain ⟨hc2, μ, hμ, hall⟩ := hgrown
          have hcorr : p0.Corr testMCS.toFinset := by
            refine corr_of_model p0 m.nvars m.nYvars (hp ▸ hA.1) (hp ▸ hA.2) hwf sat1.constrs
              ?_ μ hμ testMCS hall
            rw [s1]
            exact hcnf
          have hout' : ∀ M ∈ m.out ++ [testMCS], p0.Corr M.toFinset := by
            intro M hM
            rcases List.mem_append.mp hM with hM | hM
            · exact hout M hM
            · rw [List.mem_singleton] at hM
              rw [hM]
              exact hcorr
          cases hmx : m.maxSAT with
          | true =>
            simp only [if_pos hmx, Prod.mk.injEq] at h
            obtain ⟨-, -, rfl⟩ := h
            exact ⟨hout', sameSetup_update m _ _⟩
          | false =>
            have hmx' : ¬ m.maxSAT = true := by rw [hmx]; decide
            simp only [if_neg hmx', blocking_step_eq] at h
            rcases hadd : sat2.add o (blockingClause m.nvars testMCS) with ⟨r1, sat4⟩
            rw [hadd] at h
            obtain ⟨e1, -, -, -, -, -⟩ := add_spec o sat2 sat4 _ r1 hadd
            cases r1 with
            | false =>
              simp only [Prod.mk.injEq] at h
              obtain ⟨-, -, rfl⟩ := h
              exact ⟨hout', sameSetup_update m _ _⟩
            | true =>
              simp only at h
              have hsame := sameSetup_update m (m.MCSes ++ [testMCS]) (m.out ++ [testMCS])
              obtain ⟨r1, r2⟩ := ih sat4
                { m with MCSes := m.MCSes ++ [testMCS], out := m.out ++ [testMCS] }
                true hp hsz (hsame.agrees hA)
                (by
                  apply HasCNF.of_subset hcnf
                  rw [e1, hc2, s1]
                  exact List.subset_append_left _ _)
                hout' h
              exact ⟨r1, hsame.trans r2⟩

/-- The solver at the start of a round, when it was set up without inconsistency, contains
the instrumented formula. -/
theorem setupRound_hasCNF (o : Collab) (m : MCSfinder) (bound : Nat) (included : Finset Nat)
    (sat : Solver) (h : m.setupRound o bound included = (true, sat)) :
    HasCNF m.p sat.constrs := by
  unfold MCSfinder.setupRound at h
  have hk0 : OkInv o (if m.useCores then Solver.fresh.enableDeriv else Solver.fresh) := by
    split
    · exact okInv_enableDeriv (okInv_fresh o)
    · exact okInv_fresh o
  rcases h1 : m.p.get_CNF_Y o (if m.useCores then Solver.fresh.enableDeriv else Solver.fresh)
      (if m.useCores then some included else none) with ⟨r1, s1⟩
  rw [h1] at h
  obtain ⟨-, -, -, -, a5⟩ := get_CNF_Y_spec o m.p _ _ s1 r1 hk0 h1
  cases r1 with
  | false => simp at h
  | true =>
    simp only at h
    rcases h2 : m.addBlockingClauses o s1 with ⟨r2, s2⟩
    rw [h2] at h
    obtain ⟨b1, -⟩ := addBlockingLoop_spec o m.nvars m.MCSes true s1 s2 r2 h2
    cases r2 with
    | false => simp at h
    | true =>
      simp only at h
      obtain ⟨c1, -⟩ := addIgnored_spec o m.nvars m.ignored s2
      obtain ⟨e1, -⟩ := add_spec o _ sat _ true h
      apply HasCNF.of_subset (a5 rfl)
      rw [e1]
      exact (b1.trans c1).trans (List.subset_append_left _ _)

/-- Every set that the loop of `findMCSes` writes without a size limit is a correction
set. -/
theorem findLoop_corr (o : Collab) (ho : o.ModelsSound) (fuel : Nat) (p0 : Parser)
    (hwf : ∀ i, i < p0.origCNF.length → p0.sigma i < p0.Yvars)
    (n : Nat) (m : MCSfinder) (bound : Nat) (included : Finset Nat)
    (hp : m.p = p0) (hsz : m.sizeLimit = 0) (hA : m.Agrees)
    (hout : ∀ M ∈ m.out, p0.Corr M.toFinset) :
    (∀ M ∈ (findLoop o fuel n m bound included).2.out, p0.Corr M.toFinset) ∧
    (findLoop o fuel n m bound included).2.sizeLimit = 0 := by
  induction n generalizing m bound included with
  | zero => exact ⟨hout, hsz⟩
  | succ n ih =>
    simp only [findLoop]
    -- the round
    have hround : ∀ (r : Option Bool) (sat : Solver) (m1 : MCSfinder),
        (match m.setupRound o bound included with
          | (false, sat) => (some false, sat, m)
          | (true, sat) => m.solve o fuel sat (bound - m.boundinc + 1) bound) = (r, sat, m1) →
        (∀ M ∈ m1.out, p0.Corr M.toFinset) ∧ m.SameSetup m1 := by
      intro r sat m1 hr
      rcases hs : m.setupRound o bound included with ⟨st, sat0⟩
      rw [hs] at hr
      cases st with
      | false =>
        simp only [Prod.mk.injEq] at hr
        obtain ⟨-, -, rfl⟩ := hr
        exact ⟨hout, MCSfinder.SameSetup.refl _⟩
      | true =>
        simp only [MCSfinder.solve] at hr
        exact solveLoop_corr o ho fuel _ _ p0 hwf fuel _ m false r sat m1 hp hsz hA
          (hp ▸ setupRound_hasCNF o m bound included sat0 hs) hout hr
    have hfin : ∀ m1 : MCSfinder, m.SameSetup m1 → m1.sizeLimit = 0 := by
      intro m1 h2
      rw [h2.fields.2.2.2.1]
      exact hsz
    split
    · rename_i sat m1 heq
      obtain ⟨h1, h2⟩ := hround _ _ _ heq
      exact ⟨h1, hfin m1 h2⟩
    · rename_i foundAny sat m1 heq
      obtain ⟨h1, h2⟩ := hround _ _ _ heq
      have hsz1 := hfin m1 h2
      split
      · exact ⟨h1, hsz1⟩
      · have hrs : (if m1.sizeLimit > 0 then m1.removeSubsumed else some m1) = some m1 := by
          rw [hsz1]; simp
        rw [hrs]
        simp only
        split
        · exact ⟨h1, hsz1⟩
        · split
          · exact ⟨h1, hsz1⟩
          · exact ⟨h1, hsz1⟩
          · exact ih m1 _ _ (h2.fields.1.trans hp) hsz1 (h2.agrees hA) h1

/-! ## Lemmas: the reference collaborator meets the contract -/

theorem bruteFind_some {s : Solver} {l : List Bool} (h : bruteFind s = some l) :
    s.Sat (asModel l) := by
  unfold bruteFind at h
  have := List.find?_some h
  simp only [Bool.and_eq_true, List.all_eq_true] at this
  exact ⟨this.1, this.2⟩

theorem brute_modelsSound : brute.ModelsSound := by
  intro s μ h
  simp only [brute] at h
  cases hb : bruteFind s with
  | none =>
    rw [hb] at h
    simp at h
  | some l =>
    rw [hb] at h
    simp only [Prod.mk.injEq, true_and] at h
    rw [← h]
    exact bruteFind_some hb

/-! ## Claims about the MCS enumerator -/

/-- **C4** (MCS soundness).  When every model returned by the SAT collaborator satisfies the
installed constraints and assumptions, every set that `findMCSes` writes with no size limit
is a correction set: the original clauses whose selector is not in it are simultaneously
satisfiable.  This holds for every budget, for every setting of the other options, and both
for a set read directly from the model and for one shrunk by `grow`.  The finder is the one
set up for its parser (`nvars`, `nYvars` as `setCNF` leaves them), and every clause has a
selector below `Yvars`, as the parser guarantees. -/
theorem findMCSes_emits_correction_sets (o : Collab) (ho : o.ModelsSound) (fuel : Nat)
    (m : MCSfinder) (hA : m.Agrees)
    (hwf : ∀ i, i < m.p.origCNF.length → m.p.sigma i < m.p.Yvars)
    (hsz : m.sizeLimit = 0) (hout : m.out = []) :
    ∀ M ∈ (m.findMCSes o fuel).2.out, m.p.Corr M.toFinset := by
  unfold MCSfinder.findMCSes
  cases hc : (if m.useCores then m.getCore o fuel else some ∅) with
  | none =>
    simp only [hout]
    intro M hM
    exact absurd hM (List.not_mem_nil _)
  | some included =>
    simp only
    obtain ⟨h1, h2⟩ := findLoop_corr o ho fuel m.p hwf fuel m m.initialBound included rfl hsz hA
      (by rw [hout]; intro M hM; exact absurd hM (List.not_mem_nil _))
    have hno : ¬ ((findLoop o fuel fuel m m.initialBound included).2.sizeLimit > 0 ∧
        (findLoop o fuel fuel m m.initialBound included).1 = Ending.finished) := by
      rw [h2]
      intro hcon
      exact absurd hcon.1 (by decide)
    rw [if_neg hno]
    exact h1

/-- Witness of **C4**: the formula `x1`, `x2`, `¬x1 ∨ ¬x2` with the reference collaborator. -/
theorem findMCSes_emits_correction_sets_witness :
    brute.ModelsSound ∧ (MCSfinder.init (cnf 2 [[1], [2], [-1, -2]])).Agrees ∧
    (∀ M ∈ ((MCSfinder.init (cnf 2 [[1], [2], [-1, -2]])).findMCSes brute 6).2.out,
      (cnf 2 [[1], [2], [-1, -2]]).Corr M.toFinset) :=
  ⟨brute_modelsSound, ⟨rfl, rfl⟩,
    findMCSes_emits_correction_sets brute brute_modelsSound 6
      (MCSfinder.init (cnf 2 [[1], [2], [-1, -2]])) ⟨rfl, rfl⟩ (by decide) rfl rfl⟩

/-! ## Lemmas: correction sets -/

theorem Parser.Corr.superset {p : Parser} {S T : Finset Nat} (h : p.Corr S) (hST : S ⊆ T) :
    p.Corr T := by
  obtain ⟨α, hα⟩ := h
  exact ⟨α, fun i hi hnot => hα i hi (fun hin => hnot (hST hin))⟩

/-- Every correction set over the selectors contains an MCS. -/
theorem exists_mcs_subset (p : Parser) (T : Finset Nat) (hT : ∀ y ∈ T, y < p.Yvars)
    (h : p.Corr T) : ∃ S, S ⊆ T ∧ p.IsMCS S := by
  induction T using Finset.strongInduction with
  | H T ih =>
    by_cases hmin : ∀ y ∈ T, ¬ p.Corr (T.erase y)
    · exact ⟨T, Finset.Subset.refl _, hT, h, hmin⟩
    · push_neg at hmin
      obtain ⟨y, hy, hc⟩ := hmin
      obtain ⟨S, hS, hmcs⟩ := ih (T.erase y) (Finset.erase_ssubset hy)
        (fun z hz => hT z (Finset.mem_of_mem_erase hz)) hc
      exact ⟨S, hS.trans (Finset.erase_subset _ _), hmcs⟩

/-- A correction set inside an MCS is the MCS. -/
theorem Parser.IsMCS.eq_of_corr_subset {p : Parser} {S B : Finset Nat} (hS : p.IsMCS S)
    (hB : p.Corr B) (hsub : B ⊆ S) : B = S := by
  by_contra hne
  have hss : B ⊂ S := Finset.ssubset_iff_subset_ne.mpr ⟨hsub, hne⟩
  obtain ⟨y, hyS, hyB⟩ := Finset.exists_of_ssubset hss
  refine hS.2.2 y hyS (hB.superset ?_)
  intro z hz
  exact Finset.mem_erase.mpr ⟨fun he => hyB (he ▸ hz), hsub hz⟩

theorem ymodel_y (nv : Nat) (α : Nat → Bool) (Z : Finset Nat) (y : Nat) :
    ymodel nv α Z (nv + y) = decide (y ∉ Z) := by
  simp [ymodel]

theorem ymodel_any (nv : Nat) (α : Nat → Bool) (Z : Finset Nat) (cl : List Lit)
    (h : ∀ l ∈ cl, l.var < nv) :
    cl.any (Lit.holds (ymodel nv α Z)) = cl.any (Lit.holds α) := by
  induction cl with
  | nil => rfl
  | cons l ls ih =>
    have hl : l.var < nv := h l (List.mem_cons_self _ _)
    have e : Lit.holds (ymodel nv α Z) l = Lit.holds α l := by
      simp [Lit.holds, ymodel, hl]
    simp only [List.any_cons, e, ih (fun l' hl' => h l' (List.mem_cons_of_mem _ hl'))]

theorem instr_none (p : Parser) (i : Nat) : p.instr none i := Or.inl rfl

theorem instr_some (p : Parser) (I : Finset Nat) (i : Nat) :
    p.instr (some I) i ↔ p.sigma i + 1 ∈ I := by
  unfold Parser.instr
  simp

/-! ## Lemmas: the constraints installed by `get_CNF_Y` -/

/-- One pass of the clause loop of `get_CNF_Y` installs the constraints of the clause. -/
theorem get_CNF_Y_step (o : Collab) (p : Parser) (iset : Option (Finset Nat))
    (cl : List Lit) (rest : List (List Lit)) (i curY0 : Nat) (sat : Solver)
    (hY : p.haveGroupMap = false → curY0 = i) :
    ∃ (r1 : Bool) (sat1 : Solver), sat1.constrs = sat.constrs ++ clauseConstrs p iset i cl ∧
      (OkInv o sat → OkInv o sat1) ∧ sat1.trail = sat.trail ∧
      (r1 = false → sat1.refuted = true) ∧
      get_CNF_Y_loop o p iset (cl :: rest) i curY0 sat =
        if r1 = true then get_CNF_Y_loop o p iset rest (i + 1)
          (if p.haveGroupMap then p.sigma i else p.sigma i + 1) sat1
        else (false, sat1) := by
  simp only [get_CNF_Y_loop, sigma_eq p i curY0 hY]
  by_cases hins : p.instr iset i
  · have hins' : iset = none ∨ ∃ set, iset = some set ∧ p.sigma i + 1 ∈ set := hins
    rw [if_pos hins']
    rcases hadd : sat.addClause o (cl ++ [(Lit.mk' (p.CNFvars + p.sigma i)).not]) none
      with ⟨r1, sat1⟩
    obtain ⟨e1, e2, -, e4, -, e5⟩ := add_spec o sat sat1 _ r1 hadd
    refine ⟨r1, sat1, ?_, e5, e2, e4, ?_⟩
    · rw [e1, clauseConstrs, if_pos hins]
    · cases r1 <;> rfl
  · have hins' : ¬ (iset = none ∨ ∃ set, iset = some set ∧ p.sigma i + 1 ∈ set) := hins
    rw [if_neg hins']
    have hform : (if cl.length = 1 then
          (sat.addUnit o (Lit.mk' (p.CNFvars + p.sigma i)) none).2.addUnit o
            (cl.headD (Lit.mk' 0)) (some (p.sigma i + 1))
        else (sat.addUnit o (Lit.mk' (p.CNFvars + p.sigma i)) none).2.addClause o cl
          (some (p.sigma i + 1)))
        = (sat.add o (Constr.clause [Lit.mk' (p.CNFvars + p.sigma i)] none)).2.add o
          (Constr.clause cl (some (p.sigma i + 1))) := by
      by_cases hl : cl.length = 1
      · rw [if_pos hl]
        obtain ⟨x, rfl⟩ := List.length_eq_one.mp hl
        rfl
      · rw [if_neg hl]
        rfl
    rw [hform]
    rcases hadd0 : sat.add o (Constr.clause [Lit.mk' (p.CNFvars + p.sigma i)] none)
      with ⟨r0, sat0⟩
    rcases hadd : sat0.add o (Constr.clause cl (some (p.sigma i + 1))) with ⟨r1, sat1⟩
    obtain ⟨f1, f2, -, -, -, f5⟩ := add_spec o sat sat0 _ r0 hadd0
    obtain ⟨e1, e2, -, e4, -, e5⟩ := add_spec o sat0 sat1 _ r1 hadd
    refine ⟨r1, sat1, ?_, fun hk => e5 (f5 hk), e2.trans f2, e4, ?_⟩
    · rw [e1, f1, clauseConstrs, if_neg hins]
      simp
    · cases r1 <;> rfl

/-- The clause loop of `get_CNF_Y` installs only constraints of its clauses, and all of them
when it returns `true`. -/
theorem get_CNF_Y_loop_form (o : Collab) (p : Parser) (iset : Option (Finset Nat))
    (cls : List (List Lit)) (i curY0 : Nat) (sat sat' : Solver) (r : Bool)
    (hY : p.haveGroupMap = false → curY0 = i)
    (h : get_CNF_Y_loop o p iset cls i curY0 sat = (r, sat')) :
    (∀ c ∈ sat'.constrs, c ∈ sat.constrs ∨
      ∃ j, j < cls.length ∧ c ∈ clauseConstrs p iset (i + j) (cls.getD j [])) ∧
    (r = true → ∀ j, j < cls.length → ∀ c ∈ clauseConstrs p iset (i + j) (cls.getD j []),
      c ∈ sat'.constrs) := by
  induction cls generalizing i curY0 sat with
  | nil =>
    simp only [get_CNF_Y_loop, Prod.mk.injEq] at h
    obtain ⟨rfl, rfl⟩ := h
    exact ⟨fun c hc => Or.inl hc, fun _ j hj => absurd hj (Nat.not_lt_zero _)⟩
  | cons cl rest ih =>
    obtain ⟨r1, sat1, hc1, -, -, -, hstep⟩ := get_CNF_Y_step o p iset cl rest i curY0 sat hY
    rw [hstep] at h
    have hnext : p.haveGroupMap = false →
        (if p.haveGroupMap then p.sigma i else p.sigma i + 1) = i + 1 := by
      intro hg
      simp [hg, Parser.sigma]
    have hnew : ∀ c ∈ sat1.constrs, c ∈ sat.constrs ∨
        ∃ j, j < (cl :: rest).length ∧ c ∈ clauseConstrs p iset (i + j) ((cl :: rest).getD j [])
        := by
      intro c hc
      rw [hc1] at hc
      rcases List.mem_append.mp hc with hc | hc
      · exact Or.inl hc
      · exact Or.inr ⟨0, by simp, by simpa using hc⟩
    cases r1 with
    | false =>
      simp only [Bool.false_eq_true, if_false, Prod.mk.injEq] at h
      obtain ⟨rfl, rfl⟩ := h
      exact ⟨hnew, fun hr => absurd hr (by decide)⟩
    | true =>
      simp only [if_true] at h
      obtain ⟨h1, h2⟩ := ih (i + 1) _ sat1 hnext h
      refine ⟨?_, ?_⟩
      · intro c hc
        rcases h1 c hc with hc | ⟨j, hj, hc⟩
        · exact hnew c hc
        · refine Or.inr ⟨j + 1, by simpa using hj, ?_⟩
          have e : i + (j + 1) = i + 1 + j := by omega
          rw [e]
          simpa using hc
      · intro hr j hj c hc
        cases j with
        | zero =>
          have hin : c ∈ sat1.constrs := by
            rw [hc1]
            exact List.mem_append_right _ (by simpa using hc)
          exact (get_CNF_Y_loop_spec o p iset rest (i + 1) _ sat1 sat' r hnext h).1 hin
        | succ j =>
          have e : i + (j + 1) = i + 1 + j := by omega
          rw [e] at hc
          exact h2 hr j (by simpa using hj) c (by simpa using hc)

/-- The function `get_CNF_Y` without extra clauses on the y-variables installs only
constraints of the original clauses, and all of them when it returns `true`. -/
theorem get_CNF_Y_form (o : Collab) (p : Parser) (iset : Option (Finset Nat))
    (sat sat' : Solver) (r : Bool) (hy : p.origYClauses = [])
    (h : p.get_CNF_Y o sat iset = (r, sat')) :
    (∀ c ∈ sat'.constrs, c ∈ sat.constrs ∨
      ∃ i, i < p.origCNF.length ∧ c ∈ clauseConstrs p iset i (p.origCNF.getD i [])) ∧
    (r = true → ∀ i, i < p.origCNF.length → ∀ c ∈ clauseConstrs p iset i (p.origCNF.getD i []),
      c ∈ sat'.constrs) := by
  unfold Parser.get_CNF_Y at h
  obtain ⟨n1, -⟩ := newVarsUpTo_constrs (p.CNFvars + p.Yvars) sat
  rcases h1 : get_CNF_Y_loop o p iset p.origCNF 0 0 (newVarsUpTo (p.CNFvars + p.Yvars) sat)
    with ⟨r1, sat1⟩
  rw [h1] at h
  obtain ⟨a1, a2⟩ := get_CNF_Y_loop_form o p iset p.origCNF 0 0 _ sat1 r1 (fun _ => rfl) h1
  simp only [Nat.zero_add, n1] at a1 a2
  cases r1 with
  | false =>
    simp only [Prod.mk.injEq] at h
    obtain ⟨rfl, rfl⟩ := h
    exact ⟨a1, fun hr => absurd hr (by decide)⟩
  | true =>
    simp only [hy, addYClauses, Prod.mk.injEq] at h
    obtain ⟨-, rfl⟩ := h
    exact ⟨a1, fun _ => a2 rfl⟩

/-- The solver set up for a round with core guidance: its constraints are constraints of the
round; a failed setup marks it as refuted, a successful one installs all of them. -/
theorem setupRound_spec (o : Collab) (m : MCSfinder) (bound : Nat) (I : Finset Nat)
    (st : Bool) (sat : Solver) (hy : m.p.origYClauses = []) (hig : m.ignored = [])
    (hnv : m.nvars = m.p.CNFvars) (huc : m.useCores = true)
    (h : m.setupRound o bound I = (st, sat)) :
    OkInv o sat ∧ sat.trail = [] ∧
    (∀ c ∈ sat.constrs,
      RoundForm m.p (some I) m.MCSes (some (Constr.atMost (boundLits m I) bound)) c) ∧
    (st = false → sat.refuted = true) ∧
    (st = true → ∀ c,
      RoundForm m.p (some I) m.MCSes (some (Constr.atMost (boundLits m I) bound)) c →
      c ∈ sat.constrs) := by
  unfold MCSfinder.setupRound at h
  simp only [huc, if_true, hig, addIgnored] at h
  rcases h1 : m.p.get_CNF_Y o Solver.fresh.enableDeriv (some I) with ⟨r1, s1⟩
  rw [h1] at h
  obtain ⟨-, a2, a3, a4, -⟩ := get_CNF_Y_spec o m.p _ _ s1 r1
    (okInv_enableDeriv (okInv_fresh o)) h1
  obtain ⟨f1, f2⟩ := get_CNF_Y_form o m.p _ _ s1 r1 hy h1
  have hcl : ∀ c ∈ s1.constrs,
      ∃ i, i < m.p.origCNF.length ∧ c ∈ clauseConstrs m.p (some I) i (m.p.origCNF.getD i []) := by
    intro c hc
    rcases f1 c hc with hc | hc
    · exact absurd hc (List.not_mem_nil _)
    · exact hc
  cases r1 with
  | false =>
    simp only [Prod.mk.injEq] at h
    obtain ⟨rfl, rfl⟩ := h
    exact ⟨a4, a2, fun c hc => Or.inl (hcl c hc), fun _ => a3 rfl,
      fun hr => absurd hr (by decide)⟩
  | true =>
    simp only at h
    rcases h2 : m.addBlockingClauses o s1 with ⟨r2, s2⟩
    rw [h2] at h
    obtain ⟨b1, b2, -, b4, b5, b6, b7⟩ := addBlockingLoop_spec o m.nvars m.MCSes true s1 s2 r2 h2
    have hcl2 : ∀ c ∈ s2.constrs, RoundForm m.p (some I) m.MCSes
        (some (Constr.atMost (boundLits m I) bound)) c := by
      intro c hc
      rcases b6 c hc with hc | ⟨B, hB, he⟩
      · exact Or.inl (hcl c hc)
      · exact Or.inr (Or.inl ⟨B, hB, hnv ▸ he⟩)
    cases r2 with
    | false =>
      simp only [Prod.mk.injEq] at h
      obtain ⟨rfl, rfl⟩ := h
      exact ⟨b5 a4, b2.trans a2, hcl2, fun _ => b4 rfl rfl, fun hr => absurd hr (by decide)⟩
    | true =>
      simp only at h
      obtain ⟨e1, e2, -, e4, -, e5⟩ := add_spec o s2 sat _ st h
      refine ⟨e5 (b5 a4), e2.trans (b2.trans a2), ?_, e4, ?_⟩
      · intro c hc
        rw [e1] at hc
        rcases List.mem_append.mp hc with hc | hc
        · exact hcl2 c hc
        · rw [List.mem_singleton] at hc
          exact Or.inr (Or.inr (by rw [hc]))
      · intro _ c hc
        rw [e1]
        rcases hc with ⟨i, hi, hc⟩ | ⟨B, hB, he⟩ | hc
        · exact List.mem_append_left _ (b1 (f2 rfl i hi c hc))
        · refine List.mem_append_left _ ?_
          rw [he, ← hnv]
          exact (b7 rfl).2 B hB
        · simp only [Option.some.injEq] at hc
          rw [← hc]
          exact List.mem_append_right _ (List.mem_singleton.mpr rfl)

theorem searchLoop_mono (o : Collab) (n k : Nat) (s : Solver)
    (h : (searchLoop o n s).isSome = true) : (searchLoop o (n + k) s).isSome = true := by
  induction n generalizing s with
  | zero => simp [searchLoop] at h
  | succ n ih =>
    have e : n + 1 + k = (n + k) + 1 := by omega
    rw [e]
    simp only [searchLoop] at h ⊢
    have hsplit : s.search o = ((s.search o).1, (s.search o).2) := rfl
    rw [hsplit] at h ⊢
    cases hres : (s.search o).1 with
    | lUndef =>
      rw [hres] at h
      exact ih _ h
    | lTrue => rfl
    | lFalse => rfl

/-- With a terminating collaborator, a large enough budget gives every search a definite
answer. -/
theorem searchLoop_isSome (o : Collab) (R fuel : Nat)
    (hR : ∀ s, (searchLoop o R s).isSome = true) (hf : R ≤ fuel) (s : Solver) :
    (searchLoop o fuel s).isSome = true := by
  obtain ⟨k, rfl⟩ := Nat.exists_eq_add_of_le hf
  exact searchLoop_mono o R k s (hR s)

/-- The function `checkForMore` without ignored selectors: a `false` answer means that the
instrumented formula with the blocking clauses has no model, a `true` answer that it has
one; and the answer is definite when the searches are. -/
theorem checkForMore_spec (o : Collab) (fuel : Nat) (m : MCSfinder)
    (hy : m.p.origYClauses = []) (hig : m.ignored = []) (hnv : m.nvars = m.p.CNFvars) :
    (m.checkForMore o fuel = some false → o.RefutationsSound →
      ¬ ∃ μ, ∀ c, RoundForm m.p none m.MCSes none c → c.holds μ = true) ∧
    (m.checkForMore o fuel = some true → o.ModelsSound →
      ∃ μ, ∀ c, RoundForm m.p none m.MCSes none c → c.holds μ = true) ∧
    ((∀ s, (searchLoop o fuel s).isSome = true) → (m.checkForMore o fuel).isSome = true) := by
  unfold MCSfinder.checkForMore
  rcases h1 : m.p.get_CNF_Y o Solver.fresh none with ⟨r1, s1⟩
  obtain ⟨-, a2, a3, a4, -⟩ := get_CNF_Y_spec o m.p _ _ s1 r1 (okInv_fresh o) h1
  obtain ⟨f1, f2⟩ := get_CNF_Y_form o m.p _ _ s1 r1 hy h1
  have hcl : ∀ c ∈ s1.constrs, RoundForm m.p none m.MCSes none c := by
    intro c hc
    rcases f1 c hc with hc | hc
    · exact absurd hc (List.not_mem_nil _)
    · exact Or.inl hc
  have unsat_of : ∀ s : Solver, OkInv o s → s.refuted = true →
      (∀ c ∈ s.constrs, RoundForm m.p none m.MCSes none c) → o.RefutationsSound →
      ¬ ∃ μ, ∀ c, RoundForm m.p none m.MCSes none c → c.holds μ = true := by
    intro s hk hr hform hR hex
    obtain ⟨μ, hμ⟩ := hex
    exact hk.2 hR hr ⟨μ, fun c hc => hμ c (hform c hc)⟩
  cases r1 with
  | false =>
    simp only
    exact ⟨fun _ => unsat_of s1 a4 (a3 rfl) hcl, fun h => absurd h (by simp), fun _ => rfl⟩
  | true =>
    simp only
    rcases h2 : m.addBlockingClauses o s1 with ⟨r2, s2⟩
    obtain ⟨b1, b2, -, b4, b5, b6, b7⟩ := addBlockingLoop_spec o m.nvars m.MCSes true s1 s2 r2 h2
    have hcl2 : ∀ c ∈ s2.constrs, RoundForm m.p none m.MCSes none c := by
      intro c hc
      rcases b6 c hc with hc | ⟨B, hB, he⟩
      · exact hcl c hc
      · exact Or.inr (Or.inl ⟨B, hB, hnv ▸ he⟩)
    cases r2 with
    | false =>
      simp only
      exact ⟨fun _ => unsat_of s2 (b5 a4) (b4 rfl rfl) hcl2, fun h => absurd h (by simp),
        fun _ => rfl⟩
    | true =>
      simp only [hig, addIgnored, Solver.solve]
      cases h3 : searchLoop o fuel { s2 with root_level := s2.decisionLevel } with
      | none =>
        refine ⟨fun h => absurd h (by simp), fun h => absurd h (by simp), ?_⟩
        intro hall
        have := hall { s2 with root_level := s2.decisionLevel }
        rw [h3] at this
        exact absurd this (by simp)
      | some res =>
        obtain ⟨st, s3⟩ := res
        simp only [Option.some.injEq, Option.isSome_some, implies_true, and_true]
        obtain ⟨c1, c2, c3, -, c5, -⟩ := searchLoop_spec o fuel _ s3 st h3
        have hk3 : OkInv o s3 := searchLoop_okInv o fuel _ s3 st h3 (b5 a4)
        refine ⟨?_, ?_⟩
        · intro hst
          refine unsat_of s3 hk3 (c5 hst (b2.trans a2)) ?_
          intro c hc
          rw [c1] at hc
          exact hcl2 c hc
        · intro hst ho
          obtain ⟨hm, -⟩ := c3 hst ho
          refine ⟨s3.model, ?_⟩
          intro c hc
          apply hm c
          rw [c1]
          rcases hc with ⟨i, hi, hc⟩ | ⟨B, hB, he⟩ | hc
          · exact b1 (f2 rfl i hi c hc)
          · rw [he, ← hnv]
            exact (b7 rfl).2 B hB
          · exact absurd hc (by simp)

/-! ## Lemmas: the initial core -/

/-- The clause loop of `get_CNF` without exclusions installs each clause with the tag of
its selector. -/
theorem get_CNF_loop_spec (o : Collab) (p : Parser) (cls : List (List Lit)) (i curY0 : Nat)
    (sat sat' : Solver) (r : Bool) (hY : p.haveGroupMap = false → curY0 = i)
    (h : get_CNF_loop o p none cls i curY0 sat = (r, sat')) :
    (OkInv o sat → OkInv o sat') ∧ sat'.trail = sat.trail ∧
    (r = false → sat'.refuted = true) ∧ sat.constrs ⊆ sat'.constrs ∧
    (∀ c ∈ sat'.constrs, c ∈ sat.constrs ∨
      ∃ j, j < cls.length ∧ c = Constr.clause (cls.getD j []) (some (p.sigma (i + j) + 1))) ∧
    (r = true → ∀ j, j < cls.length →
      Constr.clause (cls.getD j []) (some (p.sigma (i + j) + 1)) ∈ sat'.constrs) := by
  induction cls generalizing i curY0 sat with
  | nil =>
    simp only [get_CNF_loop, Prod.mk.injEq] at h
    obtain ⟨rfl, rfl⟩ := h
    exact ⟨fun hk => hk, rfl, fun hr => absurd hr (by decide), fun c hc => hc,
      fun c hc => Or.inl hc, fun _ j hj => absurd hj (Nat.not_lt_zero _)⟩
  | cons cl rest ih =>
    have hnext : p.haveGroupMap = false →
        (if p.haveGroupMap then p.sigma i else p.sigma i + 1) = i + 1 := by
      intro hg
      simp [hg, Parser.sigma]
    simp only [get_CNF_loop, sigma_eq p i curY0 hY, true_or, if_true] at h
    have hform : (if cl.length = 1 then
          sat.addUnit o (cl.headD (Lit.mk' 0)) (some (p.sigma i + 1))
        else sat.addClause o cl (some (p.sigma i + 1)))
        = sat.add o (Constr.clause cl (some (p.sigma i + 1))) := by
      by_cases hl : cl.length = 1
      · rw [if_pos hl]
        obtain ⟨x, rfl⟩ := List.length_eq_one.mp hl
        rfl
      · rw [if_neg hl]
        rfl
    rw [hform] at h
    rcases hadd : sat.add o (Constr.clause cl (some (p.sigma i + 1))) with ⟨r1, sat1⟩
    rw [hadd] at h
    obtain ⟨e1, e2, -, e4, -, e5⟩ := add_spec o sat sat1 _ r1 hadd
    have hsub : sat.constrs ⊆ sat1.constrs := by rw [e1]; exact List.subset_append_left _ _
    have hnew : ∀ c ∈ sat1.constrs, c ∈ sat.constrs ∨ ∃ j, j < (cl :: rest).length ∧
        c = Constr.clause ((cl :: rest).getD j []) (some (p.sigma (i + j) + 1)) := by
      intro c hc
      rw [e1] at hc
      rcases List.mem_append.mp hc with hc | hc
      · exact Or.inl hc
      · rw [List.mem_singleton] at hc
        exact Or.inr ⟨0, by simp, by simpa using hc⟩
    cases r1 with
    | false =>
      simp only [Prod.mk.injEq] at h
      obtain ⟨rfl, rfl⟩ := h
      exact ⟨e5, e2, fun _ => e4 rfl, hsub, hnew, fun hr => absurd hr (by decide)⟩
    | true =>
      simp only at h
      obtain ⟨h1, h2, h3, h4, h5, h6⟩ := ih (i + 1) _ sat1 hnext h
      refine ⟨fun hk => h1 (e5 hk), h2.trans e2, h3, hsub.trans h4, ?_, ?_⟩
      · intro c hc
        rcases h5 c hc with hc | ⟨j, hj, hc⟩
        · exact hnew c hc
        · refine Or.inr ⟨j + 1, by simpa using hj, ?_⟩
          have e : i + (j + 1) = i + 1 + j := by omega
          rw [e]
          simpa using hc
      · intro hr j hj
        cases j with
        | zero =>
          apply h4
          rw [e1]
          simp
        | succ j =>
          have e : i + (j + 1) = i + 1 + j := by omega
          rw [e]
          simpa using h6 hr j (by simpa using hj)

/-- The initial core of an unsatisfiable formula meets every correction set: some clause has
its selector in the correction set and its tag in the core. -/
theorem getCore_spec (o : Collab) (fuel : Nat) (m : MCSfinder) (I0 : Finset Nat)
    (hR : o.RefutationsSound) (hM : o.ModelsSound) (hC : o.CoresValid)
    (hunsat : ¬ m.p.Corr ∅) (h : m.getCore o fuel = some I0) :
    ∀ S, m.p.Corr S → ∃ i, i < m.p.origCNF.length ∧ m.p.sigma i ∈ S ∧ m.p.sigma i + 1 ∈ I0 := by
  -- the solver whose derivation is read: refuted, with tagged clauses only
  have key : ∃ s : Solver, I0 = o.ancestors s ∧ s.refuted = true ∧ OkInv o s ∧
      ∀ c ∈ s.constrs, ∃ j, j < m.p.origCNF.length ∧
        c = Constr.clause (m.p.origCNF.getD j []) (some (m.p.sigma j + 1)) := by
    unfold MCSfinder.getCore Parser.get_CNF at h
    obtain ⟨n1, n2, -⟩ := newVarsUpTo_constrs m.p.CNFvars Solver.fresh.enableDeriv
    rcases h1 : get_CNF_loop o m.p none m.p.origCNF 0 0
      (newVarsUpTo m.p.CNFvars Solver.fresh.enableDeriv) with ⟨r1, s1⟩
    rw [h1] at h
    obtain ⟨a1, a2, a3, -, a5, a6⟩ := get_CNF_loop_spec o m.p _ 0 0 _ s1 r1 (fun _ => rfl) h1
    have hk1 : OkInv o s1 := a1 (okInv_newVarsUpTo (okInv_enableDeriv (okInv_fresh o)))
    have hcl : ∀ c ∈ s1.constrs, ∃ j, j < m.p.origCNF.length ∧
        c = Constr.clause (m.p.origCNF.getD j []) (some (m.p.sigma j + 1)) := by
      intro c hc
      rcases a5 c hc with hc | hc
      · rw [n1] at hc
        exact absurd hc (List.not_mem_nil _)
      · simpa using hc
    cases r1 with
    | false =>
      simp only [Option.some.injEq] at h
      exact ⟨s1, h.symm, a3 rfl, hk1, hcl⟩
    | true =>
      simp only at h
      obtain ⟨d1, d2⟩ := simplifyDB_spec o s1 hk1
      cases hok : (s1.simplifyDB o).ok with
      | false =>
        rw [hok] at h
        simp only [Option.some.injEq] at h
        exact ⟨s1.simplifyDB o, h.symm, d1.1 hok, d1, hcl⟩
      | true =>
        rw [hok] at h
        simp only [Solver.solve] at h
        cases h3 : searchLoop o fuel
            { s1.simplifyDB o with root_level := (s1.simplifyDB o).decisionLevel } with
        | none =>
          rw [h3] at h
          exact absurd h (by simp)
        | some res =>
          obtain ⟨st, s3⟩ := res
          rw [h3] at h
          simp only [Option.some.injEq] at h
          obtain ⟨c1, c2, c3, -, c5, -⟩ := searchLoop_spec o fuel _ s3 st h3
          have hk3 : OkInv o s3 := searchLoop_okInv o fuel _ s3 st h3 d1
          cases st with
          | true =>
            exfalso
            obtain ⟨hm, -⟩ := c3 rfl hM
            apply hunsat
            refine ⟨s3.model, ?_⟩
            intro i hi _
            have hin := a6 rfl i hi
            simp only [Nat.zero_add] at hin
            have := hm _ (by rw [c1]; exact hin)
            simpa [Constr.holds] using this
          | false =>
            refine ⟨s3.cancelUntil0, h.symm, ?_, hk3, ?_⟩
            · exact c5 rfl (by
                show s1.trail = []
                rw [a2, n2]
                rfl)
            · intro c hc
              apply hcl c
              have : c ∈ s3.constrs := hc
              rw [c1] at this
              exact this
  obtain ⟨s, rfl, hr, hk, hform⟩ := key
  intro S hS
  by_contra hno
  push_neg at hno
  obtain ⟨α, hα⟩ := hS
  refine hC s hr (hk.2 hR hr) ⟨α, ?_⟩
  intro c hc
  obtain ⟨hc1, hc2⟩ := List.mem_filter.mp hc
  obtain ⟨j, hj, rfl⟩ := hform c hc1
  simp only [Constr.inCore, decide_eq_true_eq] at hc2
  simp only [Constr.holds]
  exact hα j hj (fun hin => hno j hj hin hc2)

theorem getCore_isSome (o : Collab) (fuel : Nat) (m : MCSfinder)
    (hall : ∀ s, (searchLoop o fuel s).isSome = true) : (m.getCore o fuel).isSome = true := by
  unfold MCSfinder.getCore
  split
  · rfl
  · simp only [Solver.solve]
    rename_i s _
    have := hall { s with root_level := s.decisionLevel }
    cases h3 : searchLoop o fuel { s with root_level := s.decisionLevel } with
    | none =>
      rw [h3] at this
      exact absurd this (by simp)
    | some res => rfl

/-! ## Lemmas: models of the constraints of a round -/

theorem getD_mem_origCNF (p : Parser) (i : Nat) (hi : i < p.origCNF.length) :
    p.origCNF.getD i [] ∈ p.origCNF := by
  rw [List.getD_eq_getElem _ _ hi]
  exact List.getElem_mem _

theorem blockingClause_holds (nv : Nat) (B : List Nat) (μ : Nat → Bool) :
    (blockingClause nv B).holds μ = true ↔ ∃ y ∈ B, μ (y + nv) = true := by
  unfold blockingClause
  simp only [Constr.holds, List.any_eq_true, List.mem_map]
  constructor
  · rintro ⟨l, ⟨y, hy, rfl⟩, hl⟩
    exact ⟨y, hy, by rwa [holds_mk'] at hl⟩
  · rintro ⟨y, hy, hv⟩
    exact ⟨Lit.mk' (y + nv), ⟨y, hy, rfl⟩, by rwa [holds_mk']⟩

/-- An assignment built from a witness `α` of a correction set `S` and a set `Z` of selectors
whose y-variables are made false satisfies the constraints of a round that are kept by `K`,
under the conditions listed. -/
theorem roundForm_holds (p : Parser) (hvb : p.VarsBelow) (iset : Option (Finset Nat))
    (L : List (List Nat)) (bnd : Option Constr) (α : Nat → Bool) (S Z : Finset Nat)
    (K : Constr → Prop)
    (hα : ∀ i, i < p.origCNF.length → p.sigma i ∉ S →
      (p.origCNF.getD i []).any (Lit.holds α) = true)
    (hins : ∀ i, i < p.origCNF.length → p.instr iset i → p.sigma i ∉ Z → p.sigma i ∉ S)
    (hunit : ∀ i, i < p.origCNF.length → ¬ p.instr iset i → p.sigma i ∉ Z)
    (htag : ∀ i, i < p.origCNF.length → ¬ p.instr iset i →
      K (Constr.clause (p.origCNF.getD i []) (some (p.sigma i + 1))) → p.sigma i ∉ S)
    (hblock : ∀ B ∈ L, ∃ y ∈ B, y ∉ Z)
    (hbnd : ∀ c, bnd = some c → c.holds (ymodel p.CNFvars α Z) = true) :
    ∀ c, RoundForm p iset L bnd c → K c → c.holds (ymodel p.CNFvars α Z) = true := by
  intro c hc hK
  have hcl : ∀ i, i < p.origCNF.length → p.sigma i ∉ S →
      (p.origCNF.getD i []).any (Lit.holds (ymodel p.CNFvars α Z)) = true := by
    intro i hi hnot
    rw [ymodel_any _ _ _ _ (hvb _ (getD_mem_origCNF p i hi))]
    exact hα i hi hnot
  rcases hc with ⟨i, hi, hc⟩ | ⟨B, hB, rfl⟩ | hc
  · unfold clauseConstrs at hc
    by_cases hin : p.instr iset i
    · rw [if_pos hin, List.mem_singleton] at hc
      subst hc
      simp only [Constr.holds, List.any_append, List.any_cons, List.any_nil, Bool.or_false,
        holds_not_mk', ymodel_y, Bool.or_eq_true, Bool.not_eq_true', decide_eq_false_iff_not,
        not_not]
      by_cases hz : p.sigma i ∈ Z
      · exact Or.inr hz
      · exact Or.inl (hcl i hi (hins i hi hin hz))
    · rw [if_neg hin] at hc
      simp only [List.mem_cons, List.mem_singleton, List.not_mem_nil, or_false] at hc
      rcases hc with rfl | rfl
      · simp only [Constr.holds, List.any_cons, List.any_nil, Bool.or_false, holds_mk',
          ymodel_y, decide_eq_true_eq]
        exact hunit i hi hin
      · simp only [Constr.holds]
        exact hcl i hi (htag i hi hin hK)
  · obtain ⟨y, hy, hz⟩ := hblock B hB
    rw [blockingClause_holds]
    refine ⟨y, hy, ?_⟩
    rw [Nat.add_comm, ymodel_y]
    simpa using hz
  · exact hbnd c hc

/-- The number of literals of the bound that hold, counted over the selectors. -/
theorem boundLits_filter_length (m : MCSfinder) (I : Finset Nat) (μ : Nat → Bool)
    (huc : m.useCores = true) :
    ((boundLits m I).filter (Lit.holds μ)).length =
      ((List.range m.nYvars).filter
        (fun i => decide (i + 1 ∈ I) && !μ (m.nvars + i))).length := by
  unfold boundLits
  simp only [huc, Bool.not_true, Bool.false_or]
  rw [List.filter_map, List.length_map, List.filter_filter]
  congr 1
  apply List.filter_congr
  intro i _
  simp only [Function.comp_apply, holds_not_mk']
  exact Bool.and_comm _ _

/-- The bound holds under an assignment that makes false at most `k` y-variables. -/
theorem atMost_holds_ymodel (m : MCSfinder) (I : Finset Nat) (α : Nat → Bool) (Z : Finset Nat)
    (k : Nat) (huc : m.useCores = true) (hZ : Z.card ≤ k) :
    (Constr.atMost (boundLits m I) k).holds (ymodel m.nvars α Z) = true := by
  simp only [Constr.holds, decide_eq_true_eq]
  rw [boundLits_filter_length m I _ huc]
  refine le_trans ?_ hZ
  have hnd : ((List.range m.nYvars).filter
      (fun i => decide (i + 1 ∈ I) && !ymodel m.nvars α Z (m.nvars + i))).Nodup :=
    List.Nodup.filter _ (List.nodup_range _)
  rw [← List.toFinset_card_of_nodup hnd]
  apply Finset.card_le_card
  intro y hy
  simp only [List.mem_toFinset, List.mem_filter, ymodel_y, Bool.and_eq_true, decide_eq_true_eq,
    Bool.not_eq_true', decide_eq_false_iff_not, not_not] at hy
  exact hy.2.2

/-- What a model of the constraints of a round says about the set read from it. -/
theorem round_model_props (p : Parser) (m : MCSfinder) (I : Finset Nat) (k : Nat)
    (L : List (List Nat)) (μ : Nat → Bool) (hnv : m.nvars = p.CNFvars)
    (hny : m.nYvars = p.Yvars) (huc : m.useCores = true) (hwf : p.WF)
    (hall : ∀ c, RoundForm p (some I) L (some (Constr.atMost (boundLits m I) k)) c →
      c.holds μ = true) :
    p.Corr (readMCS m.nvars m.nYvars μ).toFinset ∧
    (∀ y ∈ readMCS m.nvars m.nYvars μ, y + 1 ∈ I) ∧
    (readMCS m.nvars m.nYvars μ).length ≤ k ∧
    (∀ B ∈ L, ∃ y ∈ B, y ∉ readMCS m.nvars m.nYvars μ) ∧
    (readMCS m.nvars m.nYvars μ).Nodup ∧ ∀ y ∈ readMCS m.nvars m.nYvars μ, y < p.Yvars := by
  have hinI : ∀ y ∈ readMCS m.nvars m.nYvars μ, y + 1 ∈ I := by
    intro y hy
    obtain ⟨hy1, hy2⟩ := (mem_readMCS _ _ _ _).mp hy
    obtain ⟨i, hi, rfl⟩ := hwf.2 y (hny ▸ hy1)
    by_contra hnot
    have hni : ¬ p.instr (some I) i := by rw [instr_some]; exact hnot
    have := hall (Constr.clause [Lit.mk' (p.CNFvars + p.sigma i)] none)
      (Or.inl ⟨i, hi, by rw [clauseConstrs, if_neg hni]; simp⟩)
    simp only [Constr.holds, List.any_cons, List.any_nil, Bool.or_false, holds_mk'] at this
    rw [hnv, Nat.add_comm, this] at hy2
    exact absurd hy2 (by decide)
  refine ⟨?_, hinI, ?_, ?_, ?_, ?_⟩
  · refine ⟨μ, ?_⟩
    intro i hi hnot
    have hY : μ (p.CNFvars + p.sigma i) = true := by
      by_contra hcon
      apply hnot
      rw [List.mem_toFinset, mem_readMCS]
      refine ⟨hny ▸ hwf.1 i hi, ?_⟩
      rw [hnv, Nat.add_comm]
      simpa using hcon
    by_cases hin : p.instr (some I) i
    · have := hall (Constr.clause
          (p.origCNF.getD i [] ++ [(Lit.mk' (p.CNFvars + p.sigma i)).not]) none)
        (Or.inl ⟨i, hi, by rw [clauseConstrs, if_pos hin]; simp⟩)
      simp only [Constr.holds, List.any_append, List.any_cons, List.any_nil, Bool.or_false,
        holds_not_mk', hY, Bool.not_true] at this
      simpa using this
    · have := hall (Constr.clause (p.origCNF.getD i []) (some (p.sigma i + 1)))
        (Or.inl ⟨i, hi, by rw [clauseConstrs, if_neg hin]; simp⟩)
      simpa [Constr.holds] using this
  · have hb := hall (Constr.atMost (boundLits m I) k) (Or.inr (Or.inr rfl))
    simp only [Constr.holds, decide_eq_true_eq] at hb
    rw [boundLits_filter_length m I μ huc] at hb
    refine le_trans (le_of_eq ?_) hb
    unfold readMCS
    congr 1
    apply List.filter_congr
    intro i hi
    have hi' : i < m.nYvars := List.mem_range.mp hi
    by_cases hv : μ (i + m.nvars) = false
    · have h1 : i + 1 ∈ I := hinI i ((mem_readMCS _ _ _ _).mpr ⟨hi', hv⟩)
      rw [Nat.add_comm] at hv
      simp [hv, h1, Nat.add_comm]
    · have hv1 : μ (i + m.nvars) = true := by simpa using hv
      have hv2 : μ (m.nvars + i) = true := by rw [Nat.add_comm]; exact hv1
      simp [hv1, hv2]
  · intro B hB
    have := hall (blockingClause p.CNFvars B) (Or.inr (Or.inl ⟨B, hB, rfl⟩))
    rw [blockingClause_holds] at this
    obtain ⟨y, hy, hv⟩ := this
    refine ⟨y, hy, ?_⟩
    intro hin
    have := ((mem_readMCS _ _ _ _).mp hin).2
    rw [hnv, hv] at this
    exact absurd this (by decide)
  · exact List.Nodup.filter _ (List.nodup_range _)
  · intro y hy
    exact hny ▸ ((mem_readMCS _ _ _ _).mp hy).1

/-! ## Lemmas: the invariant of the enumeration -/

/-- A set read from a model of the constraints of round `k` is a new MCS with exactly `k`
selectors. -/
theorem round_model_isMCS (p : Parser) (m : MCSfinder) (I : Finset Nat) (k : Nat)
    (L : List (List Nat)) (μ : Nat → Bool) (hnv : m.nvars = p.CNFvars)
    (hny : m.nYvars = p.Yvars) (huc : m.useCores = true) (hwf : p.WF)
    (hF : Found p k I L)
    (hall : ∀ c, RoundForm p (some I) L (some (Constr.atMost (boundLits m I) k)) c →
      c.holds μ = true) :
    p.IsMCS (readMCS m.nvars m.nYvars μ).toFinset ∧ (readMCS m.nvars m.nYvars μ).Nodup ∧
    (readMCS m.nvars m.nYvars μ).length = k ∧
    ∀ B ∈ L, B.toFinset ≠ (readMCS m.nvars m.nYvars μ).toFinset := by
  obtain ⟨h1, -, h3, h4, h5, h6⟩ := round_model_props p m I k L μ hnv hny huc hwf hall
  have hdist : ∀ B ∈ L, ¬ B.toFinset ⊆ (readMCS m.nvars m.nYvars μ).toFinset := by
    intro B hB hsub
    obtain ⟨y, hy, hnot⟩ := h4 B hB
    exact hnot (List.mem_toFinset.mp (hsub (List.mem_toFinset.mpr hy)))
  obtain ⟨S, hS, hmcs⟩ := exists_mcs_subset p _ (fun y hy => h6 y (List.mem_toFinset.mp hy)) h1
  have hcard : (readMCS m.nvars m.nYvars μ).toFinset.card = (readMCS m.nvars m.nYvars μ).length :=
    List.toFinset_card_of_nodup h5
  have hk : k ≤ S.card := by
    by_contra hlt
    obtain ⟨B, hB, he⟩ := hF.complete S hmcs (by omega)
    exact hdist B hB (he ▸ hS)
  have hle : S.card ≤ (readMCS m.nvars m.nYvars μ).toFinset.card := Finset.card_le_card hS
  have heq : S = (readMCS m.nvars m.nYvars μ).toFinset :=
    Finset.eq_of_subset_of_card_le hS (by omega)
  refine ⟨heq ▸ hmcs, h5, by omega, ?_⟩
  intro B hB he
  exact hdist B hB (he ▸ Finset.Subset.refl _)

/-- The invariant is kept when a new MCS with `k` selectors is appended. -/
theorem Found.add {p : Parser} {k : Nat} {I : Finset Nat} {L : List (List Nat)}
    (hF : Found p k I L) (M : List Nat) (h1 : p.IsMCS M.toFinset) (h2 : M.Nodup)
    (h3 : M.length = k) (h4 : ∀ B ∈ L, B.toFinset ≠ M.toFinset) : Found p k I (L ++ [M]) := by
  refine ⟨?_, ?_, ?_, ?_, ?_, ?_⟩
  · intro B hB
    rcases List.mem_append.mp hB with hB | hB
    · exact hF.sound B hB
    · rw [List.mem_singleton] at hB
      rw [hB]
      exact ⟨h1, h2⟩
  · intro S hS hlt
    obtain ⟨B, hB, he⟩ := hF.complete S hS hlt
    exact ⟨B, List.mem_append_left _ hB, he⟩
  · intro S hS hno
    apply hF.core S hS
    rintro ⟨B, hB, he⟩
    exact hno ⟨B, List.mem_append_left _ hB, he⟩
  · intro B hB
    rcases List.mem_append.mp hB with hB | hB
    · exact hF.sized B hB
    · rw [List.mem_singleton] at hB
      rw [hB, h3]
  · rw [List.pairwise_append]
    refine ⟨hF.sorted, List.pairwise_singleton _ _, ?_⟩
    intro a ha b hb
    rw [List.mem_singleton] at hb
    rw [hb, h3]
    exact hF.sized a ha
  · rw [List.map_append, List.nodup_append]
    refine ⟨hF.distinct, by simp, ?_⟩
    intro x hx hx'
    simp only [List.map_cons, List.map_nil, List.mem_singleton] at hx'
    obtain ⟨B, hB, rfl⟩ := List.mem_map.mp hx
    exact h4 B hB hx'

/-- The found sets are distinct subsets of the selectors, so there are at most
`2 ^ Yvars` of them. -/
theorem Found.length_le {p : Parser} {k : Nat} {I : Finset Nat} {L : List (List Nat)}
    (hF : Found p k I L) : L.length ≤ 2 ^ p.Yvars := by
  have h1 : (L.map List.toFinset).toFinset.card = L.length := by
    rw [List.toFinset_card_of_nodup hF.distinct, List.length_map]
  have h2 : (L.map List.toFinset).toFinset ⊆ (Finset.range p.Yvars).powerset := by
    intro S hS
    rw [List.mem_toFinset] at hS
    obtain ⟨B, hB, rfl⟩ := List.mem_map.mp hS
    rw [Finset.mem_powerset]
    intro y hy
    exact Finset.mem_range.mpr ((hF.sound B hB).1.1 y hy)
  have h3 := Finset.card_le_card h2
  rw [h1, Finset.card_powerset, Finset.card_range] at h3
  exact h3

/-- At the start, with the core of the plain formula: nothing is found, and every MCS of an
unsatisfiable formula has a selector in the core. -/
theorem Found.init (p : Parser) (I0 : Finset Nat) (hunsat : ¬ p.Corr ∅)
    (hcore : ∀ S, p.Corr S → ∃ i, i < p.origCNF.length ∧ p.sigma i ∈ S ∧ p.sigma i + 1 ∈ I0) :
    Found p 1 I0 [] := by
  refine ⟨fun M hM => absurd hM (List.not_mem_nil _), ?_, ?_,
    fun M hM => absurd hM (List.not_mem_nil _), List.Pairwise.nil, List.nodup_nil⟩
  · intro S hS hlt
    have : S = ∅ := Finset.card_eq_zero.mp (by omega)
    exact absurd (this ▸ hS.2.1) hunsat
  · intro S hS _
    obtain ⟨i, -, h1, h2⟩ := hcore S hS.2.1
    exact Finset.card_pos.mpr ⟨p.sigma i, Finset.mem_filter.mpr ⟨h1, h2⟩⟩

/-- The end of a round: when the solver of round `k` has reported an inconsistency, every MCS
with at most `k` selectors has been found, and the derivation enlarges the instrument set so
that every other MCS has at least `k + 1` selectors in it. -/
theorem Found.next {p : Parser} {k : Nat} {I : Finset Nat} {L : List (List Nat)}
    (hF : Found p k I L) (o : Collab) (hR : o.RefutationsSound) (hC : o.CoresValid)
    (hvb : p.VarsBelow) (m : MCSfinder) (hnv : m.nvars = p.CNFvars) (huc : m.useCores = true)
    (sat : Solver) (hk : OkInv o sat) (hr : sat.refuted = true)
    (hform : ∀ c ∈ sat.constrs,
      RoundForm p (some I) L (some (Constr.atMost (boundLits m I) k)) c) :
    Found p (k + 1) (I ∪ o.ancestors sat) L := by
  have hunsat : ¬ ∃ μ, Models μ sat.constrs := hk.2 hR hr
  have hblk : ∀ S, p.IsMCS S → (¬ ∃ B ∈ L, B.toFinset = S) → ∀ Z, Z ⊆ S →
      ∀ B ∈ L, ∃ y ∈ B, y ∉ Z := by
    intro S hS hno Z hZ B hB
    by_contra hcon
    push_neg at hcon
    apply hno
    refine ⟨B, hB, hS.eq_of_corr_subset (hF.sound B hB).1.2.1 ?_⟩
    intro y hy
    exact hZ (hcon y (List.mem_toFinset.mp hy))
  have hbound : ∀ (α : Nat → Bool) (Z : Finset Nat), Z.card ≤ k → ∀ c,
      some (Constr.atMost (boundLits m I) k) = some c →
      c.holds (ymodel p.CNFvars α Z) = true := by
    intro α Z hZ c hc
    simp only [Option.some.injEq] at hc
    rw [← hc, ← hnv]
    exact atMost_holds_ymodel m I α Z k huc hZ
  have hcomplete : ∀ S, p.IsMCS S → S.card < k + 1 → ∃ M ∈ L, M.toFinset = S := by
    intro S hS hlt
    by_contra hno
    have h1 := hF.core S hS hno
    have h2 : (S.filter (fun y => y + 1 ∈ I)).card ≤ S.card :=
      Finset.card_le_card (Finset.filter_subset _ _)
    have heq : S.filter (fun y => y + 1 ∈ I) = S :=
      Finset.eq_of_subset_of_card_le (Finset.filter_subset _ _) (by omega)
    have hin : ∀ y ∈ S, y + 1 ∈ I := by
      intro y hy
      rw [← heq] at hy
      exact (Finset.mem_filter.mp hy).2
    obtain ⟨α, hα⟩ := hS.2.1
    apply hunsat
    refine ⟨ymodel p.CNFvars α S, ?_⟩
    intro c hc
    refine roundForm_holds p hvb (some I) L _ α S S (fun _ => True) hα
      (fun i _ _ hz => hz) ?_ ?_ (hblk S hS hno S (Finset.Subset.refl _))
      (hbound α S (by omega)) c (hform c hc) trivial
    · intro i _ hni hin'
      exact hni ((instr_some p I i).mpr (hin _ hin'))
    · intro i _ hni _ hin'
      exact hni ((instr_some p I i).mpr (hin _ hin'))
  refine ⟨hF.sound, hcomplete, ?_, fun M hM => Nat.le_succ_of_le (hF.sized M hM), hF.sorted,
    hF.distinct⟩
  intro S hS hno
  by_contra hlt
  have h1 := hF.core S hS hno
  have hsub : S.filter (fun y => y + 1 ∈ I) ⊆ S.filter (fun y => y + 1 ∈ I ∪ o.ancestors sat) := by
    intro y hy
    obtain ⟨hy1, hy2⟩ := Finset.mem_filter.mp hy
    exact Finset.mem_filter.mpr ⟨hy1, Finset.mem_union_left _ hy2⟩
  have h2 := Finset.card_le_card hsub
  have heq : S.filter (fun y => y + 1 ∈ I) = S.filter (fun y => y + 1 ∈ I ∪ o.ancestors sat) :=
    Finset.eq_of_subset_of_card_le hsub (by omega)
  have hanc : ∀ y ∈ S, y + 1 ∈ o.ancestors sat → y + 1 ∈ I := by
    intro y hy hA
    have : y ∈ S.filter (fun y => y + 1 ∈ I) := by
      rw [heq]
      exact Finset.mem_filter.mpr ⟨hy, Finset.mem_union_right _ hA⟩
    exact (Finset.mem_filter.mp this).2
  obtain ⟨α, hα⟩ := hS.2.1
  apply hC sat hr hunsat
  refine ⟨ymodel p.CNFvars α (S.filter (fun y => y + 1 ∈ I)), ?_⟩
  intro c hc
  obtain ⟨hc1, hc2⟩ := List.mem_filter.mp hc
  refine roundForm_holds p hvb (some I) L _ α S (S.filter (fun y => y + 1 ∈ I))
    (fun c => c.inCore (o.ancestors sat) = true) hα ?_ ?_ ?_
    (hblk S hS hno _ (Finset.filter_subset _ _)) (hbound α _ (by omega)) c (hform c hc1) hc2
  · intro i _ hin hz hS'
    exact hz (Finset.mem_filter.mpr ⟨hS', (instr_some p I i).mp hin⟩)
  · intro i _ hni hz
    exact hni ((instr_some p I i).mpr (Finset.mem_filter.mp hz).2)
  · intro i _ hni hK hS'
    simp only [Constr.inCore, decide_eq_true_eq] at hK
    exact hni ((instr_some p I i).mpr (hanc _ hS' hK))

theorem roundForm_append (p : Parser) (iset : Option (Finset Nat)) (L : List (List Nat))
    (M : List Nat) (bnd : Option Constr) (c : Constr) :
    RoundForm p iset (L ++ [M]) bnd c ↔
      RoundForm p iset L bnd c ∨ c = blockingClause p.CNFvars M := by
  unfold RoundForm
  constructor
  · rintro (h | ⟨B, hB, he⟩ | h)
    · exact Or.inl (Or.inl h)
    · rcases List.mem_append.mp hB with hB | hB
      · exact Or.inl (Or.inr (Or.inl ⟨B, hB, he⟩))
      · rw [List.mem_singleton] at hB
        exact Or.inr (hB ▸ he)
    · exact Or.inl (Or.inr (Or.inr h))
  · rintro ((h | ⟨B, hB, he⟩ | h) | h)
    · exact Or.inl h
    · exact Or.inr (Or.inl ⟨B, List.mem_append_left _ hB, he⟩)
    · exact Or.inr (Or.inr h)
    · exact Or.inr (Or.inl ⟨M, by simp, h⟩)

theorem MCSfinder.SameSetup.default {m m' : MCSfinder} {p : Parser} (h : m.SameSetup m')
    (hd : m.Default p) : m'.Default p := by
  obtain ⟨h1, h2, -, h4, -, h6, -, h8, h9, h10⟩ := h.fields
  unfold MCSfinder.Default at *
  rw [h1, h2, h4, h6, h8, h9, h10]
  exact hd

/-- One round of `solve` at bound `k` under the default options.  The invariant of the
enumeration is kept, every new set has exactly `k` selectors, and unless the round stops at
the first set under `maxSAT`, it ends with a solver that has reported an inconsistency of the
constraints of the round.  With definite searches and enough passes the round returns. -/
theorem solveLoop_round (o : Collab) (hM : o.ModelsSound) (p : Parser) (hwf : p.WF)
    (I : Finset Nat) (k fuel : Nat) (n : Nat) (sat : Solver) (m : MCSfinder) (found : Bool)
    (r : Option Bool) (sat' : Solver) (m' : MCSfinder)
    (hd : m.Default p) (hL : m.MCSes = m.out) (hk : OkInv o sat) (ht : sat.trail = [])
    (hcs : ∀ c, c ∈ sat.constrs ↔
      RoundForm p (some I) m.out (some (Constr.atMost (boundLits m I) k)) c)
    (hF : Found p k I m.out)
    (h : solveLoop o fuel k k n sat m found = (r, sat', m')) :
    m.SameSetup m' ∧ Found p k I m'.out ∧
    (∃ X, m'.out = m.out ++ X ∧ (∀ M ∈ X, M.length = k) ∧
      (m.maxSAT = true → X.length ≤ 1) ∧
      ∀ fa, r = some fa → ((fa = true ↔ found = true ∨ X ≠ []) ∧
        (¬ (m.maxSAT = true ∧ fa = true) → m'.MCSes = m'.out ∧ sat'.refuted = true ∧
          OkInv o sat' ∧ ∀ c ∈ sat'.constrs,
            RoundForm p (some I) m'.out (some (Constr.atMost (boundLits m I) k)) c))) ∧
    ((∀ s, (searchLoop o fuel s).isSome = true) → 2 ^ p.Yvars + 1 ≤ n + m.out.length →
      r ≠ none) := by
  induction n generalizing sat m found with
  | zero =>
    simp only [solveLoop, Prod.mk.injEq] at h
    obtain ⟨rfl, -, rfl⟩ := h
    refine ⟨MCSfinder.SameSetup.refl _, hF, ⟨[], by simp, by simp, by simp, ?_⟩, ?_⟩
    · intro fa hfa
      exact absurd hfa (by simp)
    · intro _ hle
      have := hF.length_le
      omega
  | succ n ih =>
    obtain ⟨hp, hnv, hny, hsz, huc, hbi, hig⟩ := hd
    simp only [solveLoop] at h
    cases hS : searchLoop o fuel sat with
    | none =>
      rw [hS] at h
      simp only [Prod.mk.injEq] at h
      obtain ⟨rfl, -, rfl⟩ := h
      refine ⟨MCSfinder.SameSetup.refl _, hF, ⟨[], by simp, by simp, by simp, ?_⟩, ?_⟩
      · intro fa hfa
        exact absurd hfa (by simp)
      · intro hall _
        have := hall sat
        rw [hS] at this
        exact absurd this (by simp)
    | some res =>
      obtain ⟨b, sat1⟩ := res
      rw [hS] at h
      obtain ⟨s1, s2, s3, -, s5, -⟩ := searchLoop_spec o fuel sat sat1 b hS
      have hk1 : OkInv o sat1 := searchLoop_okInv o fuel sat sat1 b hS hk
      cases b with
      | false =>
        simp only [Prod.mk.injEq] at h
        obtain ⟨rfl, rfl, rfl⟩ := h
        refine ⟨MCSfinder.SameSetup.refl _, hF, ⟨[], by simp, by simp, by simp, ?_⟩, ?_⟩
        · intro fa hfa
          simp only [Option.some.injEq] at hfa
          subst hfa
          refine ⟨by simp, fun _ => ⟨hL, s5 rfl ht, hk1, ?_⟩⟩
          intro c hc
          rw [s1] at hc
          exact (hcs c).mp hc
        · intro _ _
          simp
      | true =>
        simp only [ne_eq, not_true_eq_false, false_and, if_false,
          truncate_zero o m sat1 _ hsz, if_pos hsz, blocking_step_eq] at h
        obtain ⟨hm, -⟩ := s3 rfl hM
        have hall : ∀ c,
            RoundForm p (some I) m.out (some (Constr.atMost (boundLits m I) k)) c →
            c.holds sat1.model = true :=
          fun c hc => hm c (by rw [s1]; exact (hcs c).mpr hc)
        obtain ⟨q1, q2, q3, q4⟩ :=
          round_model_isMCS p m I k m.out sat1.model hnv hny huc hwf hF hall
        have hF' := hF.add _ q1 q2 q3 q4
        generalize readMCS m.nvars m.nYvars sat1.model = M at h q1 q2 q3 q4 hF'
        cases hmx : m.maxSAT with
        | true =>
          simp only [if_pos hmx, Prod.mk.injEq] at h
          obtain ⟨rfl, rfl, rfl⟩ := h
          refine ⟨sameSetup_update m _ _, hF', ⟨[M], rfl, ?_, by simp, ?_⟩, ?_⟩
          · intro M' hM'
            rw [List.mem_singleton] at hM'
            rw [hM', q3]
          · intro fa hfa
            simp only [Option.some.injEq] at hfa
            subst hfa
            exact ⟨by simp, fun hno => absurd ⟨rfl, rfl⟩ hno⟩
          · intro _ _
            simp
        | false =>
          have hmx' : ¬ m.maxSAT = true := by rw [hmx]; decide
          simp only [if_neg hmx'] at h
          rcases hadd : sat1.add o (blockingClause m.nvars M) with ⟨r1, sat4⟩
          rw [hadd] at h
          obtain ⟨e1, e2, -, e4, -, e5⟩ := add_spec o sat1 sat4 _ r1 hadd
          have hcs4 : ∀ c, c ∈ sat4.constrs ↔
              RoundForm p (some I) (m.out ++ [M]) (some (Constr.atMost (boundLits m I) k)) c := by
            intro c
            rw [e1, s1, roundForm_append, List.mem_append, hcs, List.mem_singleton, hnv]
          have hL4 : m.MCSes ++ [M] = m.out ++ [M] := by rw [hL]
          cases r1 with
          | false =>
            simp only [Prod.mk.injEq] at h
            obtain ⟨rfl, rfl, rfl⟩ := h
            refine ⟨sameSetup_update m _ _, hF', ⟨[M], rfl, ?_, by simp, ?_⟩, ?_⟩
            · intro M' hM'
              rw [List.mem_singleton] at hM'
              rw [hM', q3]
            · intro fa hfa
              simp only [Option.some.injEq] at hfa
              subst hfa
              exact ⟨by simp, fun _ => ⟨hL4, e4 rfl, e5 hk1, fun c hc => (hcs4 c).mp hc⟩⟩
            · intro _ _
              simp
          | true =>
            simp only at h
            have hsame := sameSetup_update m (m.MCSes ++ [M]) (m.out ++ [M])
            obtain ⟨i1, i2, ⟨X', i3, i4, -, i6⟩, i7⟩ := ih sat4
              { m with MCSes := m.MCSes ++ [M], out := m.out ++ [M] } true
              (hsame.default ⟨hp, hnv, hny, hsz, huc, hbi, hig⟩) hL4 (e5 hk1)
              (e2.trans (s2.trans ht)) hcs4 hF' h
            refine ⟨hsame.trans i1, i2, ⟨M :: X', ?_, ?_, ?_, ?_⟩, ?_⟩
            · rw [i3]
              simp
            · intro M' hM'
              rcases List.mem_cons.mp hM' with hM' | hM'
              · rw [hM', q3]
              · exact i4 M' hM'
            · intro hcon
              exact absurd hcon (by decide)
            · intro fa hfa
              obtain ⟨j1, j2⟩ := i6 fa hfa
              have hfa' : fa = true := j1.mpr (Or.inl rfl)
              refine ⟨⟨fun _ => Or.inr (by simp), fun _ => hfa'⟩, ?_⟩
              intro _
              exact j2 (fun hcon => hmx' hcon.1)
            · intro hall hle
              apply i7 hall
              simp only [List.length_append, List.length_singleton]
              omega

/-- An MCS that has not been found is not blocked: every found set has a selector outside
each of its subsets. -/
theorem Found.blocked {p : Parser} {k : Nat} {I : Finset Nat} {L : List (List Nat)}
    (hF : Found p k I L) (S : Finset Nat) (hS : p.IsMCS S)
    (hno : ¬ ∃ B ∈ L, B.toFinset = S) (Z : Finset Nat) (hZ : Z ⊆ S) :
    ∀ B ∈ L, ∃ y ∈ B, y ∉ Z := by
  intro B hB
  by_contra hcon
  push_neg at hcon
  apply hno
  refine ⟨B, hB, hS.eq_of_corr_subset (hF.sound B hB).1.2.1 ?_⟩
  intro y hy
  exact hZ (hcon y (List.mem_toFinset.mp hy))

/-- A whole round of `findMCSes` at bound `k` under the default options. -/
theorem round_spec (o : Collab) (hM : o.ModelsSound) (hR : o.RefutationsSound)
    (hC : o.CoresValid) (p : Parser) (hwf : p.WF) (hvb : p.VarsBelow)
    (hy : p.origYClauses = []) (I : Finset Nat) (k fuel : Nat) (hk1 : 1 ≤ k)
    (m : MCSfinder) (hd : m.Default p) (hL : m.MCSes = m.out) (hF : Found p k I m.out)
    (r : Option Bool) (sat : Solver) (m1 : MCSfinder)
    (h : (match m.setupRound o k I with
      | (false, sat) => (some false, sat, m)
      | (true, sat) => m.solve o fuel sat (k - m.boundinc + 1) k) = (r, sat, m1)) :
    m.SameSetup m1 ∧ Found p k I m1.out ∧
    (∃ X, m1.out = m.out ++ X ∧ (∀ M ∈ X, M.length = k) ∧
      (m.maxSAT = true → X.length ≤ 1) ∧
      ∀ fa, r = some fa → ((fa = true ↔ X ≠ []) ∧
        (¬ (m.maxSAT = true ∧ fa = true) → m1.MCSes = m1.out ∧
          Found p (k + 1) (I ∪ o.ancestors sat) m1.out))) ∧
    ((∀ s, (searchLoop o fuel s).isSome = true) → 2 ^ p.Yvars + 1 ≤ fuel → r ≠ none) := by
  obtain ⟨hp, hnv, hny, hsz, huc, hbi, hig⟩ := hd
  rcases hs : m.setupRound o k I with ⟨st, sat0⟩
  rw [hs] at h
  obtain ⟨a1, a2, a3, a4, a5⟩ := setupRound_spec o m k I st sat0 (hp ▸ hy) hig (hp ▸ hnv) huc hs
  rw [hp, hL] at a3 a5
  cases st with
  | false =>
    simp only [Prod.mk.injEq] at h
    obtain ⟨rfl, rfl, rfl⟩ := h
    refine ⟨MCSfinder.SameSetup.refl _, hF, ⟨[], by simp, by simp, by simp, ?_⟩, by simp⟩
    intro fa hfa
    simp only [Option.some.injEq] at hfa
    subst hfa
    exact ⟨by simp, fun _ => ⟨hL, hF.next o hR hC hvb m hnv huc sat0 a1 (a4 rfl) a3⟩⟩
  | true =>
    have hkk : k - m.boundinc + 1 = k := by rw [hbi]; omega
    simp only [MCSfinder.solve, hkk] at h
    obtain ⟨b1, b2, ⟨X, b3, b4, b5, b6⟩, b7⟩ := solveLoop_round o hM p hwf I k fuel fuel
      { sat0 with root_level := sat0.decisionLevel } m false r sat m1
      ⟨hp, hnv, hny, hsz, huc, hbi, hig⟩ hL a1 a2
      (fun c => ⟨fun hc => a3 c hc, fun hc => a5 rfl c hc⟩) hF h
    refine ⟨b1, b2, ⟨X, b3, b4, b5, ?_⟩, fun hall hle => b7 hall (by omega)⟩
    intro fa hfa
    obtain ⟨c1, c2⟩ := b6 fa hfa
    refine ⟨by simpa using c1, ?_⟩
    intro hno
    obtain ⟨d1, d2, d3, d4⟩ := c2 hno
    exact ⟨d1, b2.next o hR hC hvb m hnv huc sat d3 d2 d4⟩

/-- A model of the instrumented formula with the blocking clauses of the found sets shows an
MCS that has not been found. -/
theorem check_model_unfound (p : Parser) (hwf : p.WF) (L : List (List Nat)) (μ : Nat → Bool)
    (hall : ∀ c, RoundForm p none L none c → c.holds μ = true) :
    ∃ S, p.IsMCS S ∧ ¬ ∃ B ∈ L, B.toFinset = S := by
  have hcorr : p.Corr ((Finset.range p.Yvars).filter (fun y => μ (y + p.CNFvars) = false)) := by
    refine ⟨μ, ?_⟩
    intro i hi hnot
    have hY : μ (p.CNFvars + p.sigma i) = true := by
      by_contra hcon
      apply hnot
      rw [Finset.mem_filter, Finset.mem_range]
      refine ⟨hwf.1 i hi, ?_⟩
      rw [Nat.add_comm]
      simpa using hcon
    have := hall (Constr.clause
        (p.origCNF.getD i [] ++ [(Lit.mk' (p.CNFvars + p.sigma i)).not]) none)
      (Or.inl ⟨i, hi, by rw [clauseConstrs, if_pos (instr_none p i)]; simp⟩)
    simp only [Constr.holds, List.any_append, List.any_cons, List.any_nil, Bool.or_false,
      holds_not_mk', hY, Bool.not_true] at this
    simpa using this
  obtain ⟨S, hS, hmcs⟩ := exists_mcs_subset p _
    (fun y hy => Finset.mem_range.mp (Finset.mem_filter.mp hy).1) hcorr
  refine ⟨S, hmcs, ?_⟩
  rintro ⟨B, hB, rfl⟩
  have := hall (blockingClause p.CNFvars B) (Or.inr (Or.inl ⟨B, hB, rfl⟩))
  rw [blockingClause_holds] at this
  obtain ⟨y, hy, hv⟩ := this
  have := (Finset.mem_filter.mp (hS (List.mem_toFinset.mpr hy))).2
  rw [hv] at this
  exact absurd this (by decide)

/-- An MCS that has not been found gives a model of the instrumented formula with the
blocking clauses of the found sets. -/
theorem unfound_check_model (p : Parser) (hvb : p.VarsBelow) (k : Nat) (I : Finset Nat)
    (L : List (List Nat)) (hF : Found p k I L) (S : Finset Nat) (hS : p.IsMCS S)
    (hno : ¬ ∃ B ∈ L, B.toFinset = S) :
    ∃ μ, ∀ c, RoundForm p none L none c → c.holds μ = true := by
  obtain ⟨α, hα⟩ := hS.2.1
  refine ⟨ymodel p.CNFvars α S, ?_⟩
  intro c hc
  exact roundForm_holds p hvb none L none α S S (fun _ => True) hα (fun i _ _ hz => hz)
    (fun i _ hni => absurd (instr_none p i) hni) (fun i _ hni => absurd (instr_none p i) hni)
    (hF.blocked S hS hno S (Finset.Subset.refl _)) (fun c hc => absurd hc (by simp)) c hc
    trivial

/-- One pass of the loop of `findMCSes` under the default options: the round, and what the
loop does with its result. -/
theorem findLoop_step (o : Collab) (hM : o.ModelsSound) (hR : o.RefutationsSound)
    (hC : o.CoresValid) (p : Parser) (hwf : p.WF) (hvb : p.VarsBelow)
    (hy : p.origYClauses = []) (I : Finset Nat) (k fuel : Nat) (hk1 : 1 ≤ k)
    (m : MCSfinder) (hd : m.Default p) (hL : m.MCSes = m.out) (hF : Found p k I m.out)
    (n : Nat) :
    ∃ (r : Option Bool) (sat : Solver) (m1 : MCSfinder),
      (m.SameSetup m1 ∧ Found p k I m1.out ∧
        (∃ X, m1.out = m.out ++ X ∧ (∀ M ∈ X, M.length = k) ∧
          (m.maxSAT = true → X.length ≤ 1) ∧
          ∀ fa, r = some fa → ((fa = true ↔ X ≠ []) ∧
            (¬ (m.maxSAT = true ∧ fa = true) → m1.MCSes = m1.out ∧
              Found p (k + 1) (I ∪ o.ancestors sat) m1.out))) ∧
        ((∀ s, (searchLoop o fuel s).isSome = true) → 2 ^ p.Yvars + 1 ≤ fuel → r ≠ none)) ∧
      findLoop o fuel (n + 1) m k I =
        (match r with
          | none => (Ending.running, m1)
          | some fa =>
            if fa = true ∧ m.maxSAT = true then (Ending.finished, m1)
            else if fa = true ∧ m.reportThreshold > 0 ∧ k ≥ m.reportThreshold then
              (Ending.finished, m1)
            else
              match (if fa = true then m1.checkForMore o fuel else some true) with
              | none => (Ending.running, m1)
              | some false => (Ending.finished, m1)
              | some true => findLoop o fuel n m1 (k + 1) (I ∪ o.ancestors sat)) := by
  simp only [findLoop]
  split
  · rename_i sat m1 heq
    exact ⟨none, sat, m1,
      round_spec o hM hR hC p hwf hvb hy I k fuel hk1 m hd hL hF none sat m1 heq, rfl⟩
  · rename_i fa sat m1 heq
    have hrs := round_spec o hM hR hC p hwf hvb hy I k fuel hk1 m hd hL hF (some fa) sat m1 heq
    refine ⟨some fa, sat, m1, hrs, ?_⟩
    obtain ⟨-, -, -, f4, f5, f6, f7, -, -, -⟩ := hrs.1.fields
    obtain ⟨-, -, -, hsz, huc, hbi, -⟩ := hrs.1.default hd
    have hrm : (if m1.sizeLimit > 0 then m1.removeSubsumed else some m1) = some m1 := by
      rw [hsz]; simp
    simp only [hrm, f5, f7, hbi, huc, if_true]

/-- The loop of `findMCSes` keeps the invariant of the enumeration, for every budget. -/
theorem findLoop_safe (o : Collab) (hM : o.ModelsSound) (hR : o.RefutationsSound)
    (hC : o.CoresValid) (p : Parser) (hwf : p.WF) (hvb : p.VarsBelow)
    (hy : p.origYClauses = []) (fuel n : Nat) (m : MCSfinder) (k : Nat) (I : Finset Nat)
    (hk1 : 1 ≤ k) (hd : m.Default p) (hL : m.MCSes = m.out) (hF : Found p k I m.out) :
    m.SameSetup (findLoop o fuel n m k I).2 ∧
    ∃ k' I', Found p k' I' (findLoop o fuel n m k I).2.out := by
  induction n generalizing m k I with
  | zero => exact ⟨MCSfinder.SameSetup.refl _, k, I, hF⟩
  | succ n ih =>
    obtain ⟨r, sat, m1, ⟨b1, b2, ⟨X, -, -, -, b6⟩, -⟩, heq⟩ :=
      findLoop_step o hM hR hC p hwf hvb hy I k fuel hk1 m hd hL hF n
    rw [heq]
    cases r with
    | none => exact ⟨b1, k, I, b2⟩
    | some fa =>
      simp only
      by_cases h1 : fa = true ∧ m.maxSAT = true
      · rw [if_pos h1]
        exact ⟨b1, k, I, b2⟩
      · rw [if_neg h1]
        by_cases h2 : fa = true ∧ m.reportThreshold > 0 ∧ k ≥ m.reportThreshold
        · rw [if_pos h2]
          exact ⟨b1, k, I, b2⟩
        · rw [if_neg h2]
          cases hck : (if fa = true then m1.checkForMore o fuel else some true) with
          | none => exact ⟨b1, k, I, b2⟩
          | some b =>
            cases b with
            | false => exact ⟨b1, k, I, b2⟩
            | true =>
              simp only
              obtain ⟨d1, d2⟩ := (b6 fa rfl).2 (fun hcon => h1 ⟨hcon.2, hcon.1⟩)
              obtain ⟨e1, e2⟩ := ih m1 (k + 1) (I ∪ o.ancestors sat) (by omega) (b1.default hd)
                d1 d2
              exact ⟨b1.trans e1, e2⟩

theorem Parser.IsMCS.card_le {p : Parser} {S : Finset Nat} (hS : p.IsMCS S) :
    S.card ≤ p.Yvars := by
  have : S ⊆ Finset.range p.Yvars := fun y hy => Finset.mem_range.mpr (hS.1 y hy)
  simpa using Finset.card_le_card this

/-- An unfound MCS keeps the bound of the round at most `Yvars`. -/
theorem Found.bound_le {p : Parser} {k : Nat} {I : Finset Nat} {L : List (List Nat)}
    (hF : Found p k I L) (S : Finset Nat) (hS : p.IsMCS S)
    (hno : ¬ ∃ B ∈ L, B.toFinset = S) : k ≤ p.Yvars := by
  have h1 := hF.core S hS hno
  have h2 : (S.filter (fun y => y + 1 ∈ I)).card ≤ S.card :=
    Finset.card_le_card (Finset.filter_subset _ _)
  have h3 := hS.card_le
  omega

/-- Under the default options without `maxSAT` and report threshold, with definite searches
and enough budget, the loop of `findMCSes` finishes with every MCS found. -/
theorem findLoop_complete (o : Collab) (hM : o.ModelsSound) (hR : o.RefutationsSound)
    (hC : o.CoresValid) (p : Parser) (hwf : p.WF) (hvb : p.VarsBelow)
    (hy : p.origYClauses = []) (fuel : Nat)
    (hT : ∀ s, (searchLoop o fuel s).isSome = true) (hfuel : 2 ^ p.Yvars + 1 ≤ fuel)
    (n : Nat) (m : MCSfinder) (k : Nat) (I : Finset Nat)
    (hk1 : 1 ≤ k) (hd : m.Default p) (hmax : m.maxSAT = false) (hrt : m.reportThreshold = 0)
    (hL : m.MCSes = m.out) (hF : Found p k I m.out)
    (hun : ∃ S, p.IsMCS S ∧ ¬ ∃ M ∈ m.out, M.toFinset = S) (hn : p.Yvars + 1 ≤ n + k) :
    (findLoop o fuel n m k I).1 = Ending.finished ∧
    ∀ S, p.IsMCS S → ∃ M ∈ (findLoop o fuel n m k I).2.out, M.toFinset = S := by
  induction n generalizing m k I with
  | zero =>
    obtain ⟨S, hS, hno⟩ := hun
    have := hF.bound_le S hS hno
    omega
  | succ n ih =>
    obtain ⟨r, sat, m1, ⟨b1, b2, ⟨X, b3, -, -, b6⟩, b7⟩, heq⟩ :=
      findLoop_step o hM hR hC p hwf hvb hy I k fuel hk1 m hd hL hF n
    rw [heq]
    have hd1 := b1.default hd
    obtain ⟨-, -, -, -, f5, -, f7, -, -, -⟩ := b1.fields
    cases r with
    | none => exact absurd rfl (b7 hT hfuel)
    | some fa =>
      simp only
      have h1 : ¬ (fa = true ∧ m.maxSAT = true) := by
        rw [hmax]
        intro hcon
        exact absurd hcon.2 (by decide)
      have h2 : ¬ (fa = true ∧ m.reportThreshold > 0 ∧ k ≥ m.reportThreshold) := by
        rw [hrt]
        intro hcon
        exact absurd hcon.2.1 (by decide)
      rw [if_neg h1, if_neg h2]
      obtain ⟨c1, c2⟩ := b6 fa rfl
      obtain ⟨d1, d2⟩ := c2 (fun hcon => h1 ⟨hcon.2, hcon.1⟩)
      have hrec : (∃ S, p.IsMCS S ∧ ¬ ∃ M ∈ m1.out, M.toFinset = S) →
          (findLoop o fuel n m1 (k + 1) (I ∪ o.ancestors sat)).1 = Ending.finished ∧
          ∀ S, p.IsMCS S →
            ∃ M ∈ (findLoop o fuel n m1 (k + 1) (I ∪ o.ancestors sat)).2.out, M.toFinset = S :=
        fun hun1 => ih m1 (k + 1) (I ∪ o.ancestors sat) (by omega) hd1 (f7.trans hmax)
          (f5.trans hrt) d1 d2 hun1 (by omega)
      cases fa with
      | false =>
        simp only [Bool.false_eq_true, if_false]
        have hX : X = [] := by
          by_contra hne
          exact absurd (c1.mpr hne) (by decide)
        rw [hX, List.append_nil] at b3
        exact hrec (by rw [b3]; exact hun)
      | true =>
        simp only [if_true]
        obtain ⟨hp1, hnv1, -, -, -, -, hig1⟩ := hd1
        obtain ⟨k1, k2, k3⟩ := checkForMore_spec o fuel m1 (hp1 ▸ hy) hig1 (hp1 ▸ hnv1)
        rw [hp1, d1] at k1 k2
        cases hck : m1.checkForMore o fuel with
        | none =>
          have := k3 hT
          rw [hck] at this
          exact absurd this (by simp)
        | some b =>
          cases b with
          | false =>
            refine ⟨rfl, ?_⟩
            intro S hS
            by_contra hno
            exact k1 hck hR (unfound_check_model p hvb (k + 1) _ m1.out d2 S hS hno)
          | true =>
            obtain ⟨μ, hμ⟩ := k2 hck hM
            exact hrec (check_model_unfound p hwf m1.out μ hμ)

theorem exists_mcs (p : Parser) (hwf : p.WF) : ∃ S, p.IsMCS S := by
  obtain ⟨S, -, hS⟩ := exists_mcs_subset p (Finset.range p.Yvars)
    (fun y hy => Finset.mem_range.mp hy)
    ⟨fun _ => false, fun i hi hnot => absurd (Finset.mem_range.mpr (hwf.1 i hi)) hnot⟩
  exact ⟨S, hS⟩

/-- Under the default options with `maxSAT`, with definite searches and enough budget, the
loop of `findMCSes` finishes with exactly one set, an MCS with the fewest selectors. -/
theorem findLoop_maxSAT (o : Collab) (hM : o.ModelsSound) (hR : o.RefutationsSound)
    (hC : o.CoresValid) (p : Parser) (hwf : p.WF) (hvb : p.VarsBelow)
    (hy : p.origYClauses = []) (fuel : Nat)
    (hT : ∀ s, (searchLoop o fuel s).isSome = true) (hfuel : 2 ^ p.Yvars + 1 ≤ fuel)
    (n : Nat) (m : MCSfinder) (k : Nat) (I : Finset Nat)
    (hk1 : 1 ≤ k) (hd : m.Default p) (hmax : m.maxSAT = true) (hout : m.out = [])
    (hL : m.MCSes = m.out) (hF : Found p k I m.out) (hn : p.Yvars + 1 ≤ n + k) :
    (findLoop o fuel n m k I).1 = Ending.finished ∧
    ∃ M, (findLoop o fuel n m k I).2.out = [M] ∧ p.IsMCS M.toFinset ∧ M.Nodup ∧
      ∀ S, p.IsMCS S → M.length ≤ S.card := by
  induction n generalizing m k I with
  | zero =>
    obtain ⟨S, hS⟩ := exists_mcs p hwf
    have := hF.bound_le S hS (by rw [hout]; simp)
    omega
  | succ n ih =>
    obtain ⟨r, sat, m1, ⟨b1, b2, ⟨X, b3, b4, b5, b6⟩, b7⟩, heq⟩ :=
      findLoop_step o hM hR hC p hwf hvb hy I k fuel hk1 m hd hL hF n
    rw [heq]
    have hd1 := b1.default hd
    obtain ⟨-, -, -, -, f5, -, f7, -, -, -⟩ := b1.fields
    cases r with
    | none => exact absurd rfl (b7 hT hfuel)
    | some fa =>
      simp only
      obtain ⟨c1, c2⟩ := b6 fa rfl
      cases fa with
      | true =>
        rw [if_pos ⟨rfl, hmax⟩]
        have hX : X ≠ [] := c1.mp rfl
        have hlen := b5 hmax
        obtain ⟨M, rfl⟩ : ∃ M, X = [M] := by
          cases X with
          | nil => exact absurd rfl hX
          | cons M X' =>
            cases X' with
            | nil => exact ⟨M, rfl⟩
            | cons M' X'' => simp at hlen
        rw [hout, List.nil_append] at b3
        refine ⟨rfl, M, b3, ?_, ?_, ?_⟩
        · exact (b2.sound M (by rw [b3]; simp)).1
        · exact (b2.sound M (by rw [b3]; simp)).2
        · intro S hS
          rw [b4 M (by simp)]
          by_contra hlt
          obtain ⟨B, hB, -⟩ := hF.complete S hS (by omega)
          rw [hout] at hB
          exact absurd hB (List.not_mem_nil _)
      | false =>
        have h1 : ¬ (false = true ∧ m.maxSAT = true) := fun hcon => absurd hcon.1 (by decide)
        have h2 : ¬ (false = true ∧ m.reportThreshold > 0 ∧ k ≥ m.reportThreshold) :=
          fun hcon => absurd hcon.1 (by decide)
        rw [if_neg h1, if_neg h2]
        simp only [Bool.false_eq_true, if_false]
        obtain ⟨d1, d2⟩ := c2 (fun hcon => absurd hcon.2 (by decide))
        have hX : X = [] := by
          by_contra hne
          exact absurd (c1.mpr hne) (by decide)
        rw [hX, List.append_nil] at b3
        exact ih m1 (k + 1) (I ∪ o.ancestors sat) (by omega) hd1 (f7.trans hmax)
          (b3.trans hout) d1 d2 (by omega)

/-! ## Lemmas: the reference collaborator meets the rest of the contract -/

theorem mem_allAssign (n : Nat) (l : List Bool) (h : l.length = n) : l ∈ allAssign n := by
  induction n generalizing l with
  | zero =>
    have : l = [] := List.length_eq_zero.mp h
    rw [this]
    simp [allAssign]
  | succ n ih =>
    cases l with
    | nil => simp at h
    | cons b l' =>
      have hl : l'.length = n := by simpa using h
      simp only [allAssign, List.mem_append, List.mem_map]
      cases b with
      | false => exact Or.inl ⟨l', ih l' hl, rfl⟩
      | true => exact Or.inr ⟨l', ih l' hl, rfl⟩

theorem asModel_map (N : Nat) (μ : Nat → Bool) (v : Nat) (hv : v < N) :
    asModel ((List.range N).map μ) v = μ v := by
  simp [asModel, List.getD_eq_getElem?_getD, List.getElem?_map, List.getElem?_range hv]

theorem lt_litsBound {lits : List Lit} {p : Lit} (h : p ∈ lits) : p.var < litsBound lits := by
  induction lits with
  | nil => exact absurd h (List.not_mem_nil _)
  | cons q qs ih =>
    simp only [litsBound]
    rcases List.mem_cons.mp h with h | h
    · rw [h]
      omega
    · have := ih h
      omega

theorem holds_congr {μ1 μ2 : Nat → Bool} {p : Lit} (h : μ1 p.var = μ2 p.var) :
    p.holds μ1 = p.holds μ2 := by
  simp [Lit.holds, h]

theorem lits_holds_congr {μ1 μ2 : Nat → Bool} {lits : List Lit} {N : Nat}
    (hN : litsBound lits ≤ N) (h : ∀ v, v < N → μ1 v = μ2 v) :
    lits.any (Lit.holds μ1) = lits.any (Lit.holds μ2) ∧
    lits.filter (Lit.holds μ1) = lits.filter (Lit.holds μ2) ∧
    lits.all (Lit.holds μ1) = lits.all (Lit.holds μ2) := by
  have hp : ∀ p ∈ lits, p.holds μ1 = p.holds μ2 :=
    fun p hp => holds_congr (h _ (lt_of_lt_of_le (lt_litsBound hp) hN))
  refine ⟨?_, List.filter_congr hp, ?_⟩
  · induction lits with
    | nil => rfl
    | cons q qs ih =>
      simp only [List.any_cons]
      rw [hp q (List.mem_cons_self _ _), ih (by simp only [litsBound] at hN; omega)
        (fun p hp' => hp p (List.mem_cons_of_mem _ hp'))]
  · induction lits with
    | nil => rfl
    | cons q qs ih =>
      simp only [List.all_cons]
      rw [hp q (List.mem_cons_self _ _), ih (by simp only [litsBound] at hN; omega)
        (fun p hp' => hp p (List.mem_cons_of_mem _ hp'))]

theorem constr_holds_congr {μ1 μ2 : Nat → Bool} {cs : List Constr} {N : Nat}
    (hN : constrsBound cs ≤ N) (h : ∀ v, v < N → μ1 v = μ2 v) :
    ∀ c ∈ cs, c.holds μ1 = c.holds μ2 := by
  induction cs with
  | nil => exact fun c hc => absurd hc (List.not_mem_nil _)
  | cons d ds ih =>
    intro c hc
    cases d with
    | clause lits tag =>
      simp only [constrsBound] at hN
      rcases List.mem_cons.mp hc with hc | hc
      · rw [hc]
        simp only [Constr.holds]
        exact (lits_holds_congr (by omega) h).1
      · exact ih (by omega) c hc
    | atMost ps k =>
      simp only [constrsBound] at hN
      rcases List.mem_cons.mp hc with hc | hc
      · rw [hc]
        simp only [Constr.holds]
        rw [(lits_holds_congr (by omega) h).2.1]
      · exact ih (by omega) c hc

theorem bruteFind_none {s : Solver} (h : bruteFind s = none) : ¬ ∃ μ, s.Sat μ := by
  rintro ⟨μ, hμ1, hμ2⟩
  unfold bruteFind at h
  rw [List.find?_eq_none] at h
  have hmem := mem_allAssign (max (constrsBound s.constrs) (litsBound s.trail))
    ((List.range (max (constrsBound s.constrs) (litsBound s.trail))).map μ) (by simp)
  apply h _ hmem
  have hag : ∀ v, v < max (constrsBound s.constrs) (litsBound s.trail) →
      asModel ((List.range (max (constrsBound s.constrs) (litsBound s.trail))).map μ) v = μ v :=
    fun v hv => asModel_map _ μ v hv
  simp only [Bool.and_eq_true, List.all_eq_true]
  refine ⟨?_, ?_⟩
  · intro c hc
    rw [constr_holds_congr (le_max_left _ _) hag c hc]
    exact hμ1 c hc
  · intro q hq
    rw [holds_congr (hag _ (lt_of_lt_of_le (lt_litsBound hq) (le_max_right _ _)))]
    exact hμ2 q hq

theorem brute_refutationsSound : brute.RefutationsSound := by
  refine ⟨?_, ?_, ?_⟩
  · intro s h
    simp only [brute] at h
    cases hb : bruteFind s with
    | none => exact bruteFind_none hb
    | some l =>
      rw [hb] at h
      exact absurd h (by simp)
  · intro s c h
    rintro ⟨μ, hμ⟩
    have hc := hμ c (by simp)
    cases c with
    | clause lits tag =>
      cases lits with
      | nil => simp [Constr.holds] at hc
      | cons q qs => simp [brute] at h
    | atMost ps k => simp [brute] at h
  · intro s h
    simp [brute] at h

theorem brute_terminates : brute.Terminates := by
  refine ⟨1, ?_⟩
  intro s
  simp only [searchLoop]
  have hsplit : s.search brute = ((s.search brute).1, (s.search brute).2) := rfl
  rw [hsplit]
  have h1 : (s.search brute).1 = (brute.searchRet s).1 := rfl
  cases hres : (s.search brute).1 with
  | lUndef =>
    rw [h1] at hres
    simp only [brute] at hres
    cases hb : bruteFind s <;> rw [hb] at hres <;> simp at hres
  | lTrue => rfl
  | lFalse => rfl

theorem mem_tagsOf {cs : List Constr} {lits : List Lit} {t : Nat}
    (h : Constr.clause lits (some t) ∈ cs) : t ∈ tagsOf cs := by
  induction cs with
  | nil => exact absurd h (List.not_mem_nil _)
  | cons d ds ih =>
    rcases List.mem_cons.mp h with h | h
    · rw [← h]
      simp [tagsOf]
    · have := ih h
      cases d with
      | clause l tag =>
        cases tag with
        | none => simpa [tagsOf] using this
        | some t' =>
          simp only [tagsOf, Finset.mem_insert]
          exact Or.inr this
      | atMost ps k => simpa [tagsOf] using this

theorem brute_coresValid : brute.CoresValid := by
  intro s _ hun
  have : s.constrs.filter (Constr.inCore (brute.ancestors s)) = s.constrs := by
    rw [List.filter_eq_self]
    intro c hc
    cases c with
    | clause lits tag =>
      cases tag with
      | none => rfl
      | some t =>
        simp only [Constr.inCore, decide_eq_true_eq]
        exact mem_tagsOf hc
    | atMost ps k => rfl
  rw [this]
  exact hun

/-! ## Lemmas: the whole enumeration under the default options -/

/-- With core guidance, `findMCSes` is the loop started at the initial bound with the core of
the plain formula, when that core is found. -/
theorem findMCSes_eq (o : Collab) (fuel : Nat) (m : MCSfinder) (I0 : Finset Nat)
    (huc : m.useCores = true) (hcore : m.getCore o fuel = some I0)
    (hsz : (findLoop o fuel fuel m m.initialBound I0).2.sizeLimit = 0) :
    m.findMCSes o fuel = findLoop o fuel fuel m m.initialBound I0 := by
  unfold MCSfinder.findMCSes
  simp only [huc, if_true, hcore]
  have hno : ¬ ((findLoop o fuel fuel m m.initialBound I0).2.sizeLimit > 0 ∧
      (findLoop o fuel fuel m m.initialBound I0).1 = Ending.finished) := by
    rw [hsz]
    intro hcon
    exact absurd hcon.1 (by decide)
  rw [if_neg hno]

theorem findMCSes_none (o : Collab) (fuel : Nat) (m : MCSfinder)
    (huc : m.useCores = true) (hcore : m.getCore o fuel = none) :
    m.findMCSes o fuel = (Ending.running, m) := by
  unfold MCSfinder.findMCSes
  simp only [huc, if_true, hcore]

/-- For every budget, the sets written by `findMCSes` under the default options on an
unsatisfiable formula are MCSes, listed without repetition, in non-decreasing size. -/
theorem findMCSes_found (o : Collab) (hM : o.ModelsSound) (hR : o.RefutationsSound)
    (hC : o.CoresValid) (fuel : Nat) (m : MCSfinder) (hp : m.p.Plain)
    (hun : ¬ m.p.Corr ∅) (hf : m.Fresh) :
    (∀ M ∈ (m.findMCSes o fuel).2.out, m.p.IsMCS M.toFinset ∧ M.Nodup) ∧
    (m.findMCSes o fuel).2.out.Pairwise (fun a b => a.length ≤ b.length) ∧
    ((m.findMCSes o fuel).2.out.map List.toFinset).Nodup := by
  obtain ⟨hd, hib, hL, hout⟩ := hf
  obtain ⟨hwf, hvb, hy⟩ := hp
  cases hcore : m.getCore o fuel with
  | none =>
    rw [findMCSes_none o fuel m hd.2.2.2.2.1 hcore, hout]
    exact ⟨fun M hM => absurd hM (List.not_mem_nil _), List.Pairwise.nil, List.nodup_nil⟩
  | some I0 =>
    have hF : Found m.p 1 I0 m.out := by
      rw [hout]
      exact Found.init m.p I0 hun (getCore_spec o fuel m I0 hR hM hC hun hcore)
    obtain ⟨h1, k', I', h2⟩ := findLoop_safe o hM hR hC m.p hwf hvb hy fuel fuel m 1 I0
      (le_refl 1) hd (by rw [hL, hout]) hF
    rw [← hib] at h1 h2
    rw [findMCSes_eq o fuel m I0 hd.2.2.2.2.1 hcore (h1.fields.2.2.2.1.trans hd.2.2.2.1)]
    exact ⟨h2.sound, h2.sorted, h2.distinct⟩

theorem scenarioS4_plain : scenarioS4.Plain := by
  refine ⟨⟨?_, ?_⟩, ?_, rfl⟩
  · decide
  · decide
  · unfold Parser.VarsBelow
    decide

theorem scenarioS4_unsat : ¬ scenarioS4.Corr ∅ := by
  rintro ⟨α, h⟩
  have h0 := h 0 (by decide) (by simp)
  have h1 := h 1 (by decide) (by simp)
  have h2 := h 2 (by decide) (by simp)
  simp [scenarioS4, cnf, dimacsLit, Lit.holds, Lit.mk', Lit.not] at h0 h1 h2
  rw [h0, h1] at h2
  exact absurd h2 (by decide)

theorem init_fresh (p : Parser) : (MCSfinder.init p).Fresh :=
  ⟨⟨rfl, rfl, rfl, rfl, rfl, rfl, rfl⟩, rfl, rfl, rfl⟩

/-- With definite searches and enough budget the initial core is found, the loop starts from
the invariant, and the run is the loop. -/
theorem findMCSes_start (o : Collab) (hM : o.ModelsSound) (hR : o.RefutationsSound)
    (hC : o.CoresValid) (fuel : Nat) (hT : ∀ s, (searchLoop o fuel s).isSome = true)
    (m : MCSfinder) (hp : m.p.Plain) (hun : ¬ m.p.Corr ∅) (hf : m.Fresh) :
    ∃ I0, Found m.p 1 I0 m.out ∧ m.findMCSes o fuel = findLoop o fuel fuel m 1 I0 := by
  obtain ⟨hd, hib, hL, hout⟩ := hf
  obtain ⟨hwf, hvb, hy⟩ := hp
  cases hcore : m.getCore o fuel with
  | none =>
    have := getCore_isSome o fuel m hT
    rw [hcore] at this
    exact absurd this (by simp)
  | some I0 =>
    have hF : Found m.p 1 I0 m.out := by
      rw [hout]
      exact Found.init m.p I0 hun (getCore_spec o fuel m I0 hR hM hC hun hcore)
    obtain ⟨h1, -⟩ := findLoop_safe o hM hR hC m.p hwf hvb hy fuel fuel m 1 I0
      (le_refl 1) hd (by rw [hL, hout]) hF
    refine ⟨I0, hF, ?_⟩
    rw [← hib] at h1 ⊢
    exact findMCSes_eq o fuel m I0 hd.2.2.2.2.1 hcore (h1.fields.2.2.2.1.trans hd.2.2.2.1)

/-! ## Claims about the enumeration under the default options -/

/-- **C5** (MCS minimality).  With a SAT collaborator that meets its contract (sound models,
sound refutations, valid cores) and the default options (core guidance, bound increment and
initial bound 1, no size limit), on an unsatisfiable formula every set `M` that `findMCSes`
writes is subset-minimal: for every `y` in `M`, the original clauses whose selector is not
in `M` minus `y` are unsatisfiable.  This holds for every budget and with or without
`maxSAT` and a report threshold. -/
theorem findMCSes_emits_minimal (o : Collab) (hM : o.ModelsSound) (hR : o.RefutationsSound)
    (hC : o.CoresValid) (fuel : Nat) (m : MCSfinder) (hp : m.p.Plain)
    (hun : ¬ m.p.Corr ∅) (hf : m.Fresh) :
    ∀ M ∈ (m.findMCSes o fuel).2.out, ∀ y ∈ M, ¬ m.p.Corr (M.toFinset.erase y) := by
  intro M hM' y hy
  exact ((findMCSes_found o hM hR hC fuel m hp hun hf).1 M hM').1.2.2 y
    (List.mem_toFinset.mpr hy)

/-- Witness of **C5**: scenario S4 with the reference collaborator. -/
theorem findMCSes_emits_minimal_witness :
    brute.ModelsSound ∧ brute.RefutationsSound ∧ brute.CoresValid ∧ scenarioS4.Plain ∧
    ¬ scenarioS4.Corr ∅ ∧ (MCSfinder.init scenarioS4).Fresh ∧
    ∀ M ∈ ((MCSfinder.init scenarioS4).findMCSes brute 6).2.out,
      ∀ y ∈ M, ¬ scenarioS4.Corr (M.toFinset.erase y) :=
  ⟨brute_modelsSound, brute_refutationsSound, brute_coresValid, scenarioS4_plain,
    scenarioS4_unsat, init_fresh scenarioS4,
    findMCSes_emits_minimal brute brute_modelsSound brute_refutationsSound brute_coresValid 6
      (MCSfinder.init scenarioS4) scenarioS4_plain scenarioS4_unsat (init_fresh scenarioS4)⟩

/-- **C6** (MCS completeness).  With a SAT collaborator that meets its contract (sound models,
sound refutations, definite answers, valid cores) and the default options (core guidance,
bound increment and initial bound 1, no size limit, no report threshold, no `maxSAT`), on an
unsatisfiable formula every large enough budget makes `findMCSes` finish, and the sets it
has written are exactly the MCSes of the formula. -/
theorem findMCSes_emits_all_MCSes (o : Collab) (hM : o.ModelsSound)
    (hR : o.RefutationsSound) (hT : o.Terminates) (hC : o.CoresValid) (m : MCSfinder)
    (hp : m.p.Plain) (hun : ¬ m.p.Corr ∅) (hf : m.Fresh) (hmax : m.maxSAT = false)
    (hrt : m.reportThreshold = 0) :
    ∃ fuel0, ∀ fuel, fuel0 ≤ fuel →
      (m.findMCSes o fuel).1 = Ending.finished ∧
      ∀ S, m.p.IsMCS S ↔ ∃ M ∈ (m.findMCSes o fuel).2.out, M.toFinset = S := by
  obtain ⟨R, hR0⟩ := hT
  refine ⟨R + 2 ^ m.p.Yvars + 1, ?_⟩
  intro fuel hfuel
  have hlt : m.p.Yvars < 2 ^ m.p.Yvars := Nat.lt_two_pow m.p.Yvars
  have hT' : ∀ s, (searchLoop o fuel s).isSome = true :=
    searchLoop_isSome o R fuel hR0 (by omega)
  have hsound := (findMCSes_found o hM hR hC fuel m hp hun hf).1
  obtain ⟨I0, hF, heq⟩ := findMCSes_start o hM hR hC fuel hT' m hp hun hf
  obtain ⟨S0, hS0⟩ := exists_mcs m.p hp.1
  obtain ⟨h1, h2⟩ := findLoop_complete o hM hR hC m.p hp.1 hp.2.1 hp.2.2 fuel hT' (by omega)
    fuel m 1 I0 (le_refl 1) hf.1 hmax hrt (by rw [hf.2.2.1, hf.2.2.2]) hF
    ⟨S0, hS0, by rw [hf.2.2.2]; simp⟩ (by omega)
  rw [heq]
  refine ⟨h1, fun S => ⟨h2 S, ?_⟩⟩
  rintro ⟨M, hM', rfl⟩
  rw [← heq] at hM'
  exact (hsound M hM').1

/-- Witness of **C6**: scenario S4 with the reference collaborator. -/
theorem findMCSes_emits_all_MCSes_witness :
    brute.ModelsSound ∧ brute.RefutationsSound ∧ brute.Terminates ∧ brute.CoresValid ∧
    scenarioS4.Plain ∧ ¬ scenarioS4.Corr ∅ ∧ (MCSfinder.init scenarioS4).Fresh ∧
    ∃ fuel0, ∀ fuel, fuel0 ≤ fuel →
      ((MCSfinder.init scenarioS4).findMCSes brute fuel).1 = Ending.finished ∧
      ∀ S, scenarioS4.IsMCS S ↔
        ∃ M ∈ ((MCSfinder.init scenarioS4).findMCSes brute fuel).2.out, M.toFinset = S :=
  ⟨brute_modelsSound, brute_refutationsSound, brute_terminates, brute_coresValid,
    scenarioS4_plain, scenarioS4_unsat, init_fresh scenarioS4,
    findMCSes_emits_all_MCSes brute brute_modelsSound brute_refutationsSound brute_terminates
      brute_coresValid (MCSfinder.init scenarioS4) scenarioS4_plain scenarioS4_unsat
      (init_fresh scenarioS4) rfl rfl⟩

/-- **C7** (order of emission).  With a SAT collaborator that meets its contract (sound
models, sound refutations, valid cores) and the default options (core guidance, bound
increment and initial bound 1, no size limit), on an unsatisfiable formula the sets written
by `findMCSes` come in non-decreasing cardinality: no set has fewer selectors than one
written before it.  This holds for every budget. -/
theorem findMCSes_emits_nondecreasing (o : Collab) (hM : o.ModelsSound)
    (hR : o.RefutationsSound) (hC : o.CoresValid) (fuel : Nat) (m : MCSfinder)
    (hp : m.p.Plain) (hun : ¬ m.p.Corr ∅) (hf : m.Fresh) :
    (m.findMCSes o fuel).2.out.Pairwise (fun a b => a.toFinset.card ≤ b.toFinset.card) := by
  obtain ⟨h1, h2, -⟩ := findMCSes_found o hM hR hC fuel m hp hun hf
  have h3 : ∀ a ∈ (m.findMCSes o fuel).2.out, ∀ b ∈ (m.findMCSes o fuel).2.out,
      a.length ≤ b.length → a.toFinset.card ≤ b.toFinset.card := by
    intro a ha b hb hab
    rw [List.toFinset_card_of_nodup (h1 a ha).2, List.toFinset_card_of_nodup (h1 b hb).2]
    exact hab
  exact List.Pairwise.imp_of_mem (fun {a b} ha hb hab => h3 a ha b hb hab) h2

/-- Witness of **C7**: scenario S4 with the reference collaborator. -/
theorem findMCSes_emits_nondecreasing_witness :
    brute.ModelsSound ∧ brute.RefutationsSound ∧ brute.CoresValid ∧ scenarioS4.Plain ∧
    ¬ scenarioS4.Corr ∅ ∧ (MCSfinder.init scenarioS4).Fresh ∧
    (((MCSfinder.init scenarioS4).findMCSes brute 6).2.out).Pairwise
      (fun a b => a.toFinset.card ≤ b.toFinset.card) :=
  ⟨brute_modelsSound, brute_refutationsSound, brute_coresValid, scenarioS4_plain,
    scenarioS4_unsat, init_fresh scenarioS4,
    findMCSes_emits_nondecreasing brute brute_modelsSound brute_refutationsSound
      brute_coresValid 6 (MCSfinder.init scenarioS4) scenarioS4_plain scenarioS4_unsat
      (init_fresh scenarioS4)⟩

/-- Counterexample to **C8** as stated: on scenario S4 (clauses `x1`, `x2`, `¬x1 ∨ ¬x2`) with
`maxSAT` and the reference collaborator, the run finishes with the single set of selector
0 (printed as `1`): it has size 1, not 2. -/
theorem maxSAT_scenarioS4_emits_size_one :
    (({ MCSfinder.init scenarioS4 with maxSAT := true }).findMCSes brute 3).1 =
      Ending.finished ∧
    (({ MCSfinder.init scenarioS4 with maxSAT := true }).findMCSes brute 3).2.out = [[0]] := by
  decide

/-- **C8**, amended.  With `maxSAT` and otherwise default options, and a SAT collaborator that
meets its contract (sound models, sound refutations, definite answers, valid cores), on an
unsatisfiable formula every large enough budget makes `findMCSes` finish having written
exactly one set; that set is an MCS and no MCS of the formula has fewer selectors. -/
theorem findMCSes_maxSAT_emits_minimum (o : Collab) (hM : o.ModelsSound)
    (hR : o.RefutationsSound) (hT : o.Terminates) (hC : o.CoresValid) (m : MCSfinder)
    (hp : m.p.Plain) (hun : ¬ m.p.Corr ∅) (hf : m.Fresh) (hmax : m.maxSAT = true) :
    ∃ fuel0, ∀ fuel, fuel0 ≤ fuel →
      (m.findMCSes o fuel).1 = Ending.finished ∧
      ∃ M, (m.findMCSes o fuel).2.out = [M] ∧ m.p.IsMCS M.toFinset ∧
        ∀ S, m.p.IsMCS S → M.toFinset.card ≤ S.card := by
  obtain ⟨R, hR0⟩ := hT
  refine ⟨R + 2 ^ m.p.Yvars + 1, ?_⟩
  intro fuel hfuel
  have hlt : m.p.Yvars < 2 ^ m.p.Yvars := Nat.lt_two_pow m.p.Yvars
  have hT' : ∀ s, (searchLoop o fuel s).isSome = true :=
    searchLoop_isSome o R fuel hR0 (by omega)
  obtain ⟨I0, hF, heq⟩ := findMCSes_start o hM hR hC fuel hT' m hp hun hf
  obtain ⟨h1, M, h2, h3, h4, h5⟩ := findLoop_maxSAT o hM hR hC m.p hp.1 hp.2.1 hp.2.2 fuel
    hT' (by omega) fuel m 1 I0 (le_refl 1) hf.1 hmax hf.2.2.2 (by rw [hf.2.2.1, hf.2.2.2]) hF
    (by omega)
  rw [heq]
  refine ⟨h1, M, h2, h3, ?_⟩
  intro S hS
  rw [List.toFinset_card_of_nodup h4]
  exact h5 S hS

/-- Witness of the amended **C8**: scenario S4 with the reference collaborator. -/
theorem findMCSes_maxSAT_emits_minimum_witness :
    brute.ModelsSound ∧ brute.RefutationsSound ∧ brute.Terminates ∧ brute.CoresValid ∧
    scenarioS4.Plain ∧ ¬ scenarioS4.Corr ∅ ∧
    ({ MCSfinder.init scenarioS4 with maxSAT := true }).Fresh ∧
    ∃ fuel0, ∀ fuel, fuel0 ≤ fuel →
      (({ MCSfinder.init scenarioS4 with maxSAT := true }).findMCSes brute fuel).1 =
        Ending.finished ∧
      ∃ M, (({ MCSfinder.init scenarioS4 with maxSAT := true }).findMCSes brute fuel).2.out
          = [M] ∧ scenarioS4.IsMCS M.toFinset ∧
        ∀ S, scenarioS4.IsMCS S → M.toFinset.card ≤ S.card :=
  ⟨brute_modelsSound, brute_refutationsSound, brute_terminates, brute_coresValid,
    scenarioS4_plain, scenarioS4_unsat, ⟨⟨rfl, rfl, rfl, rfl, rfl, rfl, rfl⟩, rfl, rfl, rfl⟩,
    findMCSes_maxSAT_emits_minimum brute brute_modelsSound brute_refutationsSound
      brute_terminates brute_coresValid { MCSfinder.init scenarioS4 with maxSAT := true }
      scenarioS4_plain scenarioS4_unsat ⟨⟨rfl, rfl, rfl, rfl, rfl, rfl, rfl⟩, rfl, rfl, rfl⟩
      rfl⟩

/-! ## Lemmas: the lower bound `mis_quick` -/

/-- The first loop of `mis_quick` either leaves `removeMCS` alone, when no cover is shorter
than `minLength`, or selects a cover of the list that is. -/
theorem shortest_spec (covers : List Cover) (minLength : Nat) (r0 : Cover) :
    (shortest covers minLength r0 = r0 ∧ ∀ c ∈ covers, minLength ≤ c.card) ∨
    (shortest covers minLength r0 ∈ covers ∧ (shortest covers minLength r0).card < minLength) := by
  induction covers generalizing minLength r0 with
  | nil => exact Or.inl ⟨rfl, fun c hc => absurd hc (List.not_mem_nil _)⟩
  | cons c rest ih =>
    simp only [shortest]
    by_cases hlt : c.card < minLength
    · rw [if_pos hlt]
      rcases ih c.card c with ⟨h1, _⟩ | ⟨h1, h2⟩
      · refine Or.inr ⟨?_, ?_⟩
        · rw [h1]
          exact List.mem_cons_self _ _
        · rw [h1]
          exact hlt
      · exact Or.inr ⟨List.mem_cons_of_mem _ h1, lt_trans h2 hlt⟩
    · rw [if_neg hlt]
      rcases ih minLength r0 with ⟨h1, h2⟩ | ⟨h1, h2⟩
      · refine Or.inl ⟨h1, ?_⟩
        intro d hd
        rcases List.mem_cons.mp hd with rfl | hd
        · exact not_lt.mp hlt
        · exact h2 d hd
      · exact Or.inr ⟨List.mem_cons_of_mem _ h1, h2⟩

/-- When no cover is selected, a pass of `mis_quick` erases nothing and the loop never
ends. -/
theorem misLoop_stuck (n : Nat) (covers : List Cover) (result : Int) (hne : covers ≠ [])
    (hs : shortest covers (2 ^ 30) ∅ = ∅) : misLoop n covers result = none := by
  induction n generalizing result with
  | zero => simp [misLoop, hne]
  | succ n ih =>
    simp only [misLoop, if_neg hne, hs, Finset.inter_empty, decide_True, List.filter_true]
    exact ih (result + 1)

/-- The count of `mis_quick` is at most the size of any set that intersects every cover. -/
theorem misLoop_bound (n : Nat) (covers : List Cover) (result r : Int) (H : Finset Nat)
    (hH : Hits H covers) (h : misLoop n covers result = some r) : r ≤ result + H.card := by
  induction n generalizing covers result H with
  | zero =>
    simp only [misLoop] at h
    split at h
    · simp only [Option.some.injEq] at h
      rw [← h]
      have : (0 : Int) ≤ H.card := Int.natCast_nonneg _
      omega
    · exact absurd h (by simp)
  | succ n ih =>
    simp only [misLoop] at h
    by_cases hnil : covers = []
    · rw [if_pos hnil] at h
      simp only [Option.some.injEq] at h
      rw [← h]
      have : (0 : Int) ≤ H.card := Int.natCast_nonneg _
      omega
    · rw [if_neg hnil] at h
      rcases shortest_spec covers (2 ^ 30) ∅ with ⟨h1, -⟩ | ⟨h1, -⟩
      · have := misLoop_stuck (n + 1) covers result hnil h1
        simp only [misLoop, if_neg hnil] at this
        rw [this] at h
        exact absurd h (by simp)
      · have hhit := hH _ h1
        have hH' : Hits (H \ shortest covers (2 ^ 30) ∅)
            (covers.filter (fun c => decide (c ∩ shortest covers (2 ^ 30) ∅ = ∅))) := by
          intro c hc
          obtain ⟨hc1, hc2⟩ := List.mem_filter.mp hc
          simp only [decide_eq_true_eq] at hc2
          obtain ⟨x, hx⟩ := hH c hc1
          obtain ⟨hxH, hxc⟩ := Finset.mem_inter.mp hx
          refine ⟨x, Finset.mem_inter.mpr ⟨Finset.mem_sdiff.mpr ⟨hxH, ?_⟩, hxc⟩⟩
          intro hxs
          have : x ∈ c ∩ shortest covers (2 ^ 30) ∅ := Finset.mem_inter.mpr ⟨hxc, hxs⟩
          rw [hc2] at this
          exact absurd this (Finset.not_mem_empty _)
        have hcard : (H \ shortest covers (2 ^ 30) ∅).card < H.card := by
          apply Finset.card_lt_card
          refine Finset.ssubset_iff_subset_ne.mpr ⟨Finset.sdiff_subset, ?_⟩
          intro heq
          obtain ⟨x, hx⟩ := hhit
          obtain ⟨hxH, hxs⟩ := Finset.mem_inter.mp hx
          rw [← heq] at hxH
          exact (Finset.mem_sdiff.mp hxH).2 hxs
        have := ih _ (result + 1) _ hH' h
        have hc' : ((H \ shortest covers (2 ^ 30) ∅).card : Int) < (H.card : Int) :=
          Int.ofNat_lt.mpr hcard
        omega

/-- With covers that are non-empty and shorter than `1<<30`, every pass of `mis_quick`
erases the cover it selected, so the loop ends within `covers.length` passes. -/
theorem misLoop_returns (n : Nat) (covers : List Cover) (result : Int)
    (hne : ∀ c ∈ covers, c ≠ ∅) (hs : ∀ c ∈ covers, c.card < 2 ^ 30)
    (hn : covers.length ≤ n) : ∃ r, misLoop n covers result = some r := by
  induction n generalizing covers result with
  | zero =>
    have : covers = [] := List.length_eq_zero.mp (Nat.le_zero.mp hn)
    exact ⟨result, by simp [misLoop, this]⟩
  | succ n ih =>
    simp only [misLoop]
    by_cases hnil : covers = []
    · exact ⟨result, by rw [if_pos hnil]⟩
    · rw [if_neg hnil]
      have hsel : shortest covers (2 ^ 30) ∅ ∈ covers := by
        rcases shortest_spec covers (2 ^ 30) ∅ with ⟨-, h2⟩ | ⟨h1, -⟩
        · obtain ⟨c, hc⟩ := List.exists_mem_of_ne_nil covers hnil
          exact absurd (hs c hc) (not_lt.mpr (h2 c hc))
        · exact h1
      apply ih
      · intro c hc
        exact hne c (List.mem_filter.mp hc).1
      · intro c hc
        exact hs c (List.mem_filter.mp hc).1
      · have hlt : (covers.filter
            (fun c => decide (c ∩ shortest covers (2 ^ 30) ∅ = ∅))).length < covers.length := by
          apply List.length_filter_lt_length_iff_exists.mpr
          refine ⟨_, hsel, ?_⟩
          simp only [Finset.inter_self, decide_eq_true_eq]
          exact hne _ hsel
        omega

/-! ## Claims about the branch-and-bound bound and the tool pipeline -/

/-- **C12.** For every list of covers and every set `H` that intersects every cover of the
list (so the covers are non-empty), the value returned by `mis_quick` is at most `|H|`; and
when every cover has fewer than `1<<30` elements, `mis_quick` does return a value. -/
theorem mis_quick_le_hitting_set (covers : List Cover) (H : Finset Nat) (hH : Hits H covers) :
    (∀ r, mis_quick covers = some r → r ≤ H.card) ∧
    ((∀ c ∈ covers, c.card < 2 ^ 30) → ∃ r, mis_quick covers = some r ∧ r ≤ H.card) := by
  have hbound : ∀ r, mis_quick covers = some r → r ≤ H.card := by
    intro r hr
    have := misLoop_bound covers.length covers 0 r H hH hr
    omega
  refine ⟨hbound, ?_⟩
  intro hs
  have hne : ∀ c ∈ covers, c ≠ ∅ := by
    intro c hc he
    obtain ⟨x, hx⟩ := hH c hc
    rw [he, Finset.inter_empty] at hx
    exact absurd hx (Finset.not_mem_empty _)
  obtain ⟨r, hr⟩ := misLoop_returns covers.length covers 0 hne hs (le_refl _)
  exact ⟨r, hr, hbound r hr⟩

/-- Witness of **C12**: the covers `{0,1}`, `{0,2}`, `{1,2}` and the hitting set `{0,1}`. -/
theorem mis_quick_le_hitting_set_witness :
    Hits {0, 1} [{0, 1}, {0, 2}, {1, 2}] ∧
    (∀ r, mis_quick [{0, 1}, {0, 2}, {1, 2}] = some r → r ≤ (({0, 1} : Finset Nat)).card) ∧
    ((∀ c ∈ ([{0, 1}, {0, 2}, {1, 2}] : List Cover), c.card < 2 ^ 30) →
      ∃ r, mis_quick [{0, 1}, {0, 2}, {1, 2}] = some r ∧ r ≤ (({0, 1} : Finset Nat)).card) :=
  ⟨by unfold Hits; decide,
    mis_quick_le_hitting_set [{0, 1}, {0, 2}, {1, 2}] {0, 1} (by unfold Hits; decide)⟩

/-! ## Lemmas: soundness of the search with or without branch-and-bound -/

/-- The variant of `tryCovers_inv` in which the child call is only considered for a cover of
the node that contains the chosen position. -/
theorem tryCovers_inv_mem
    {rec : List Cover → ClauseAssign → MUSbuilder → Outcome × MUSbuilder}
    {P : MUSbuilder → Prop} {C : List Cover → ClauseAssign → Prop}
    (hrec : ∀ nc na b, C nc na → P b → P (rec nc na b).2)
    (covers : List Cover) (a1 : ClauseAssign) (cur : Nat)
    (hchild : ∀ c nc na, c ∈ covers → cur ∈ c →
      removeClauseAndCover covers a1 cur c = some (nc, na) → C nc na)
    (todo : List Cover) (htodo : ∀ c ∈ todo, c ∈ covers) (b : MUSbuilder) (hb : P b) :
    P (tryCovers rec covers a1 cur todo b).2 := by
  induction todo generalizing b with
  | nil => exact hb
  | cons c rest ih =>
    have hrest : ∀ d ∈ rest, d ∈ covers := fun d hd => htodo d (List.mem_cons_of_mem _ hd)
    simp only [tryCovers]
    by_cases hc : c = ∅
    · rw [if_pos hc]; exact hb
    · rw [if_neg hc]
      by_cases hcur : cur ∈ c
      · rw [if_pos hcur]
        cases hrcc : removeClauseAndCover covers a1 cur c with
        | none => exact hb
        | some r =>
          obtain ⟨nc, na⟩ := r
          have hP := hrec nc na b
            (hchild c nc na (htodo c (List.mem_cons_self _ _)) hcur hrcc) hb
          simp only
          rcases hres : rec nc na b with ⟨o, b1⟩
          rw [hres] at hP
          cases o with
          | ret sk =>
            cases sk with
            | true => exact hP
            | false => exact ih hrest b1 hP
          | abort => exact hP
          | hang => exact hP
          | fuel => exact hP
      · rw [if_neg hcur]
        exact ih hrest b hb

/-- The variant of `splitLoop_inv` for `tryCovers_inv_mem`. -/
theorem splitLoop_inv_mem
    {rec : List Cover → ClauseAssign → MUSbuilder → Outcome × MUSbuilder}
    {P : MUSbuilder → Prop} {C Q : List Cover → ClauseAssign → Prop} {K : Nat}
    (hrec : ∀ nc na b, C nc na → P b → P (rec nc na b).2)
    (hchild : ∀ covers a cur c nc na, Q covers a → a.get cur = 0 → cur < K → c ∈ covers →
      cur ∈ c →
      removeClauseAndCover covers { a.put cur 1 with numPos := a.numPos + 1 } cur c
        = some (nc, na) → C nc na)
    (hexcl : ∀ covers a cur cs, Q covers a → a.get cur = 0 → cur < K →
      removeClause covers cur = some cs →
      Q cs { a.put cur (-1) with numNeg := a.numNeg + 1 })
    (k cur : Nat) (covers : List Cover) (a : ClauseAssign) (b : MUSbuilder)
    (hk : cur + k = K) (hQ : Q covers a) (hb : P b) :
    P (splitLoop rec k cur covers a b).2 := by
  induction k generalizing cur covers a b with
  | zero => exact hb
  | succ k ih =>
    simp only [splitLoop]
    by_cases h0 : a.get cur = 0
    · rw [if_neg (not_not.mpr h0)]
      have hK : cur < K := by omega
      have hP := tryCovers_inv_mem hrec covers { a.put cur 1 with numPos := a.numPos + 1 } cur
        (fun c nc na hc hcur h => hchild covers a cur c nc na hQ h0 hK hc hcur h) covers
        (fun c hc => hc) b hb
      rcases hres : tryCovers rec covers { a.put cur 1 with numPos := a.numPos + 1 } cur
        covers b with ⟨o, b1⟩
      rw [hres] at hP
      cases o with
      | ret sk =>
        simp only
        cases hrc : removeClause covers cur with
        | none => exact hP
        | some cs => exact ih (cur + 1) cs _ b1 (by omega) (hexcl covers a cur cs hQ h0 hK hrc) hP
      | abort => exact hP
      | hang => exact hP
      | fuel => exact hP
    · rw [if_pos h0]
      exact ih (cur + 1) covers a b (by omega) hQ hb

/-- The variant of `constructMUS_inv` for `splitLoop_inv_mem`. -/
theorem constructMUS_inv_mem {P : MUSbuilder → Prop} {C E Q : List Cover → ClauseAssign → Prop}
    {K : Nat}
    (hlen : ∀ covers a, Q covers a → a.vals.length = K)
    (hprop : ∀ covers a cs a0, C covers a → propagateSingletons covers a = some (cs, a0) →
      E cs a0)
    (hEQ : ∀ covers a, E covers a → Q covers a)
    (hchild : ∀ covers a cur c nc na, Q covers a → a.get cur = 0 → cur < K → c ∈ covers →
      cur ∈ c →
      removeClauseAndCover covers { a.put cur 1 with numPos := a.numPos + 1 } cur c
        = some (nc, na) → C nc na)
    (hexcl : ∀ covers a cur cs, Q covers a → a.get cur = 0 → cur < K →
      removeClause covers cur = some cs →
      Q cs { a.put cur (-1) with numNeg := a.numNeg + 1 })
    (hvisit : ∀ (a0 : ClauseAssign) b, P b → P { b with beenHere := a0.vals :: b.beenHere })
    (hemit : ∀ a0 b, E [] a0 → P b → boundHit b [] a0 = some false → a0.vals ∉ b.beenHere →
      P { b with beenHere := a0.vals :: b.beenHere, out := b.out ++ [a0],
                 bbUpper := a0.numPos })
    (n : Nat) (covers : List Cover) (a : ClauseAssign) (b : MUSbuilder)
    (hC : C covers a) (hb : P b) : P (constructMUS n covers a b).2 := by
  induction n generalizing covers a b with
  | zero => exact hb
  | succ n ih =>
    simp only [constructMUS]
    cases hp : propagateSingletons covers a with
    | none => exact hb
    | some r =>
      obtain ⟨cs, a0⟩ := r
      have hE := hprop covers a cs a0 hC hp
      have hQ := hEQ cs a0 hE
      simp only
      cases hbh : boundHit b cs a0 with
      | none => exact hb
      | some hit =>
        cases hit with
        | true => exact hb
        | false =>
          simp only
          by_cases hvis : a0.vals ∈ b.beenHere
          · rw [if_pos hvis]; exact hb
          · rw [if_neg hvis]
            by_cases hemp : cs = []
            · rw [if_pos hemp]
              subst hemp
              exact hemit a0 b hE hb hbh hvis
            · rw [if_neg hemp]
              exact splitLoop_inv_mem (fun nc na b' hC' hb' => ih nc na b' hC' hb') hchild hexcl
                a0.vals.length 0 cs a0 _ (by rw [hlen cs a0 hQ]; omega) hQ (hvisit a0 b hb)

/-- With or without branch-and-bound, and for every budget, a run from a node of the family
`F` only emits minimal hitting sets of `F`. -/
theorem constructMUS_sound (F : List Cover) (K n : Nat) (covers : List Cover)
    (a : ClauseAssign) (b : MUSbuilder) (hN : Node K covers a) (hR : Rel F covers a)
    (hb : ∀ e ∈ b.out, IsMHS e.pos F) :
    ∀ e ∈ (constructMUS n covers a b).2.out, IsMHS e.pos F := by
  refine constructMUS_inv_mem (P := fun b => ∀ e ∈ b.out, IsMHS e.pos F)
    (C := fun covers a => Node K covers a ∧ Rel F covers a)
    (E := fun covers a => Node K covers a ∧ Rel F covers a)
    (Q := fun covers a => Node K covers a ∧ Rel F covers a) (K := K)
    (fun _ _ h => h.1.len) ?_ (fun _ _ h => h) ?_ ?_ (fun _ _ h => h) ?_ n covers a b
    ⟨hN, hR⟩ hb
  · intro covers a cs a0 hC hp
    obtain ⟨a', h1, h2, h3, -, -⟩ := node_propagate hC.1 hC.2
    rw [h1] at hp
    simp only [Option.some.injEq, Prod.mk.injEq] at hp
    obtain ⟨rfl, rfl⟩ := hp
    exact ⟨h2, h3⟩
  · intro covers a cur c nc na hQ h0 hK hc hcur hr
    obtain ⟨nc', na', h1, h2, h3, -⟩ := node_rcc hQ.1 hQ.2 h0 hK hc hcur
    rw [h1] at hr
    simp only [Option.some.injEq, Prod.mk.injEq] at hr
    obtain ⟨rfl, rfl⟩ := hr
    exact ⟨h2, h3⟩
  · intro covers a cur cs hQ h0 hK hrc
    obtain ⟨h1, h2, -⟩ := node_exclude hQ.1 hQ.2 h0 hK hrc
    exact ⟨h1, h2⟩
  · intro a0 b hE hb _ _ e he
    rcases List.mem_append.mp he with he | he
    · exact hb e he
    · rw [List.mem_singleton] at he
      rw [he]
      exact emit_sound hE.2

/-- Counterexample to **C11** as stated: on the covers `{0,1}`, `{0,2}`, `{1,2}` over
`[0, 3)` the run without branch-and-bound emits three sets and the run with it only the
first of them; `{0,1}` is emitted without branch-and-bound and not with it. -/
theorem bb_emits_fewer_sets :
    emitted (runMUS false [{0, 1}, {0, 2}, {1, 2}] 3) = [{0, 2}, {0, 1}, {1, 2}] ∧
    emitted (runMUS true [{0, 1}, {0, 2}, {1, 2}] 3) = [{0, 2}] ∧
    ({0, 1} : Finset Nat) ∈ emitted (runMUS false [{0, 1}, {0, 2}, {1, 2}] 3) ∧
    ({0, 1} : Finset Nat) ∉ emitted (runMUS true [{0, 1}, {0, 2}, {1, 2}] 3) := by
  decide

/-- **C11**, amended.  For every family of covers over `[0, K)` in which every cover has at
least two elements and no cover is a subset of another, every set emitted by `constructMUS`
with branch-and-bound enabled (any budget) is also emitted by the run with branch-and-bound
disabled: enabling it can only leave sets out. -/
theorem bb_emits_subset (covers : List Cover) (K n k : Nat)
    (h2 : ∀ c ∈ covers, 2 ≤ c.card) (hns : NoSubset covers) (hr : InRange K covers)
    (hn : covers.length < n) :
    ∀ H ∈ emitted (constructMUS k covers (ClauseAssign.zero K) (MUSbuilder.init true)),
      H ∈ emitted (constructMUS n covers (ClauseAssign.zero K) (MUSbuilder.init false)) := by
  have hne := nonempty_of_two_le h2
  obtain ⟨b', hrun, -, hdone⟩ := run_spec covers K n hne hns hr hn
  intro H hH
  unfold emitted at hH ⊢
  rw [List.mem_map] at hH
  obtain ⟨e, he, rfl⟩ := hH
  have hmhs := constructMUS_sound covers K k covers (ClauseAssign.zero K)
    (MUSbuilder.init true) (node_root hne hns hr) (rel_root covers K)
    (fun e he => absurd he (List.not_mem_nil _)) e he
  obtain ⟨e', he', hpos⟩ := hdone e.pos hmhs
  rw [hrun, List.mem_map]
  exact ⟨e', he', hpos⟩

/-- Witness of the amended **C11**: the covers `{0,1}`, `{0,2}`, `{1,2}` over `[0, 3)`. -/
theorem bb_emits_subset_witness :
    (∀ c ∈ ([{0, 1}, {0, 2}, {1, 2}] : List Cover), 2 ≤ c.card) ∧
    NoSubset [{0, 1}, {0, 2}, {1, 2}] ∧ InRange 3 [{0, 1}, {0, 2}, {1, 2}] ∧
    ∀ H ∈ emitted (constructMUS 4 [{0, 1}, {0, 2}, {1, 2}] (ClauseAssign.zero 3)
        (MUSbuilder.init true)),
      H ∈ emitted (constructMUS 4 [{0, 1}, {0, 2}, {1, 2}] (ClauseAssign.zero 3)
        (MUSbuilder.init false)) :=
  ⟨by decide, by unfold NoSubset Incomparable; decide, by unfold InRange; decide,
    bb_emits_subset [{0, 1}, {0, 2}, {1, 2}] 3 4 4 (by decide)
      (by unfold NoSubset Incomparable; decide) (by unfold InRange; decide) (by decide)⟩

/-- **C13** (scenario S5).  On the input lines `1 2`, `1 3`, `2 3` the MUS tool without `-b`
returns after printing exactly the three lines `1 3`, `1 2`, `2 3`, that is the sets `{1,2}`,
`{1,3}`, `{2,3}`, each once; with `-b` the first line printed (the only one) has two
numbers. -/
theorem musMain_scenario_S5 :
    musMain false [[1, 2], [1, 3], [2, 3]] = (.ret false, [[1, 3], [1, 2], [2, 3]]) ∧
    ((musMain false [[1, 2], [1, 3], [2, 3]]).2.map List.toFinset).Perm
      [{1, 2}, {1, 3}, {2, 3}] ∧
    (musMain true [[1, 2], [1, 3], [2, 3]]).1 = .ret false ∧
    ((musMain true [[1, 2], [1, 3], [2, 3]]).2.head?).map List.length = some 2 := by
  decide

/-- **C14** (scenario S6).  On the input lines `5`, `1 2`, `1 3` the MUS tool splits off the
singleton 5 (`parseCovers` returns the covers `{1,2}`, `{1,3}` and the singleton list `[5]`),
prints it first on every line, and returns after printing exactly the two lines `5 2 3` and
`5 1`, that is the sets `{5,2,3}` and `{5,1}`, each once. -/
theorem musMain_scenario_S6 :
    parseCovers [[5], [1, 2], [1, 3]] = ([{1, 2}, {1, 3}], [5]) ∧
    musMain false [[5], [1, 2], [1, 3]] = (.ret false, [[5, 2, 3], [5, 1]]) ∧
    ((musMain false [[5], [1, 2], [1, 3]]).2.map List.toFinset).Perm [{5, 1}, {5, 2, 3}] := by
  decide

/-! ## Lemmas: truncation to a size limit -/

theorem mem_Bag_insert (x y : Nat) (bag : List Nat) : y ∈ Bag.insert x bag ↔ y = x ∨ y ∈ bag := by
  induction bag with
  | nil => simp [Bag.insert]
  | cons z zs ih =>
    simp only [Bag.insert]
    by_cases h1 : x < z
    · rw [if_pos h1]
      simp
    · rw [if_neg h1]
      by_cases h2 : x = z
      · rw [if_pos h2]
        subst h2
        simp
      · rw [if_neg h2]
        simp only [List.mem_cons, ih]
        tauto

theorem mem_Bag_insertAll (xs bag : List Nat) (y : Nat) :
    y ∈ Bag.insertAll xs bag ↔ y ∈ xs ∨ y ∈ bag := by
  unfold Bag.insertAll
  induction xs generalizing bag with
  | nil => simp
  | cons x rest ih =>
    simp only [List.foldl_cons, ih, mem_Bag_insert, List.mem_cons]
    tauto

/-- The loop "just take the first k elements" returns only when it takes no member: the
set is empty or the limit is already reached. -/
theorem takeFirst_some (sizeLimit counter : Nat) (l taken left : List Nat)
    (h : takeFirst sizeLimit counter l = some (taken, left)) :
    taken = [] ∧ left = l ∧ (l = [] ∨ sizeLimit ≤ counter) := by
  cases l with
  | nil =>
    simp only [takeFirst, Option.some.injEq, Prod.mk.injEq] at h
    exact ⟨h.1.symm, h.2.symm, Or.inl rfl⟩
  | cons y ys =>
    simp only [takeFirst] at h
    by_cases hc : counter + 1 > sizeLimit
    · rw [if_pos hc] at h
      simp only [Option.some.injEq, Prod.mk.injEq] at h
      exact ⟨h.1.symm, h.2.symm, Or.inr (by omega)⟩
    · rw [if_neg hc] at h
      cases h

/-- The loop "just take the first k elements" leaves defined behaviour exactly when the set
is not empty and the limit is not yet reached. -/
theorem takeFirst_none (sizeLimit counter : Nat) (l : List Nat) :
    takeFirst sizeLimit counter l = none ↔ l ≠ [] ∧ counter < sizeLimit := by
  cases l with
  | nil => simp [takeFirst]
  | cons y ys =>
    simp only [takeFirst]
    by_cases hc : counter + 1 > sizeLimit
    · rw [if_pos hc]
      simp
      omega
    · rw [if_neg hc]
      simp
      omega

/-- The units that force out ignored selectors are installed. -/
theorem addIgnored_present (o : Collab) (nvars : Nat) (ign : List Nat) (sat : Solver) :
    ∀ y ∈ ign, Constr.clause [(Lit.mk' (y + nvars)).not] none ∈
      (addIgnored o nvars ign sat).constrs := by
  induction ign generalizing sat with
  | nil => exact fun y hy => absurd hy (List.not_mem_nil _)
  | cons z zs ih =>
    intro y hy
    have hform : addIgnored o nvars (z :: zs) sat = addIgnored o nvars zs
        (sat.add o (Constr.clause [(Lit.mk' (z + nvars)).not] none)).2 := rfl
    rw [hform]
    rcases List.mem_cons.mp hy with rfl | hy
    · apply (addIgnored_spec o nvars zs _).1
      simp
    · exact ih _ y hy

/-- The two lists into which the truncation splits the selectors that are not ignored (those
in `cannotIgnore` and the others) have together as many members as there are. -/
theorem filter_split_length (t c : List Nat) :
    (t.filter (fun y => decide (y ∈ c))).length + (t.filter (fun y => decide (y ∉ c))).length
      = t.length := by
  have := List.length_eq_length_filter_add (fun y => decide (y ∈ c)) (l := t)
  rw [this]
  congr 2
  apply List.filter_congr
  intro x _
  simp

/-- What the truncation returns when it applies: the selectors in `cannotIgnore` are kept,
all others are ignored and forced out, and the limit was already reached by the kept ones. -/
theorem truncate_applies (o : Collab) (m : MCSfinder) (sat : Solver) (testMCS0 : List Nat)
    (hL : m.sizeLimit ≠ 0)
    (happ : m.sizeLimit < (testMCS0.filter (fun y => decide (y ∉ m.ignored))).length)
    (newMCS : List Nat) (sat1 : Solver) (m1 : MCSfinder)
    (h : truncate o m sat testMCS0 = some (newMCS, sat1, m1)) :
    newMCS = (testMCS0.filter (fun y => decide (y ∉ m.ignored))).filter
        (fun y => decide (y ∈ m.cannotIgnore)) ∧
    sat1 = addIgnored o m.nvars
      ((testMCS0.filter (fun y => decide (y ∉ m.ignored))).filter
        (fun y => decide (y ∉ m.cannotIgnore))) sat ∧
    m1.ignored = Bag.insertAll
      ((testMCS0.filter (fun y => decide (y ∉ m.ignored))).filter
        (fun y => decide (y ∉ m.cannotIgnore))) m.ignored ∧
    m1.cannotIgnore = Bag.insertAll newMCS m.cannotIgnore ∧
    m.sizeLimit ≤ newMCS.length := by
  unfold truncate at h
  simp only [if_pos hL, if_pos (⟨hL, happ⟩ : m.sizeLimit ≠ 0 ∧ _)] at h
  cases hT : takeFirst m.sizeLimit
      ((testMCS0.filter (fun y => decide (y ∉ m.ignored))).filter
        (fun y => decide (y ∈ m.cannotIgnore))).length
      ((testMCS0.filter (fun y => decide (y ∉ m.ignored))).filter
        (fun y => decide (y ∉ m.cannotIgnore))) with
  | none => rw [hT] at h; cases h
  | some r =>
    obtain ⟨taken, left⟩ := r
    rw [hT] at h
    obtain ⟨rfl, rfl, hcase⟩ := takeFirst_some _ _ _ _ _ hT
    simp only [List.append_nil, Option.some.injEq, Prod.mk.injEq] at h
    obtain ⟨rfl, rfl, rfl⟩ := h
    refine ⟨rfl, rfl, rfl, rfl, ?_⟩
    have hlen := filter_split_length (testMCS0.filter (fun y => decide (y ∉ m.ignored)))
      m.cannotIgnore
    rcases hcase with h0 | h0
    · rw [h0, List.length_nil] at hlen
      omega
    · exact h0

/-- When the truncation returns: always without a limit or when the limit is not exceeded,
and otherwise exactly when the limit is already reached by the selectors in `cannotIgnore`,
so that the loop "just take the first k elements" takes none. -/
theorem truncate_isSome (o : Collab) (m : MCSfinder) (sat : Solver) (testMCS0 : List Nat) :
    (truncate o m sat testMCS0).isSome = true ↔
      ¬ (m.sizeLimit ≠ 0 ∧
        m.sizeLimit < (testMCS0.filter (fun y => decide (y ∉ m.ignored))).length ∧
        ((testMCS0.filter (fun y => decide (y ∉ m.ignored))).filter
          (fun y => decide (y ∈ m.cannotIgnore))).length < m.sizeLimit) := by
  unfold truncate
  by_cases hL : m.sizeLimit ≠ 0
  · simp only [if_pos hL]
    by_cases happ : m.sizeLimit < (testMCS0.filter (fun y => decide (y ∉ m.ignored))).length
    · rw [if_pos ⟨hL, happ⟩]
      have hlen := filter_split_length (testMCS0.filter (fun y => decide (y ∉ m.ignored)))
        m.cannotIgnore
      cases hT : takeFirst m.sizeLimit
          ((testMCS0.filter (fun y => decide (y ∉ m.ignored))).filter
            (fun y => decide (y ∈ m.cannotIgnore))).length
          ((testMCS0.filter (fun y => decide (y ∉ m.ignored))).filter
            (fun y => decide (y ∉ m.cannotIgnore))) with
      | none =>
        have := (takeFirst_none _ _ _).mp hT
        simp only [Option.isSome_none, Bool.false_eq_true, false_iff, not_not]
        exact ⟨hL, happ, this.2⟩
      | some r =>
        obtain ⟨taken, left⟩ := r
        obtain ⟨-, -, hcase⟩ := takeFirst_some _ _ _ _ _ hT
        simp only [Option.isSome_some, true_iff]
        rintro ⟨-, -, hlt⟩
        rcases hcase with h0 | h0
        · rw [h0, List.length_nil] at hlen
          omega
        · omega
    · rw [if_neg (fun h => happ h.2)]
      simp only [Option.isSome_some, true_iff]
      exact fun h => happ h.2.1
  · have hL1 : ¬ (m.sizeLimit ≠ 0 ∧ m.sizeLimit < testMCS0.length) := fun h => hL h.1
    simp only [if_neg hL, if_neg hL1, Option.isSome_some, true_iff]
    exact fun h => hL h.1

/-- What the truncation returns when it does not apply: the selectors that are not ignored,
all added to `cannotIgnore` under a size limit. -/
theorem truncate_below (o : Collab) (m : MCSfinder) (sat : Solver) (testMCS0 : List Nat)
    (hL : m.sizeLimit ≠ 0)
    (happ : ¬ m.sizeLimit < (testMCS0.filter (fun y => decide (y ∉ m.ignored))).length) :
    truncate o m sat testMCS0 = some (testMCS0.filter (fun y => decide (y ∉ m.ignored)), sat,
      { m with cannotIgnore :=
        Bag.insertAll (testMCS0.filter (fun y => decide (y ∉ m.ignored))) m.cannotIgnore }) := by
  unfold truncate
  simp only [if_pos hL, if_neg (fun h : m.sizeLimit ≠ 0 ∧ _ => happ h.2)]

/-- **C15**, amended.  With a size limit `L > 0`, the truncation in `solve` returns unless
the MCS has more than `L` selectors that are not ignored and fewer than `L` of them are in
`cannotIgnore` (then the loop that takes the first elements leaves defined behaviour, see
C16).  Whenever it returns, the set that `solve` keeps of the MCS (and then appends to the
family and blocks) has at most `L` selectors unless more than `L` of the selectors of the MCS
that are not ignored are in `cannotIgnore`; those are always all kept, so in general the size
is at most the larger of `L` and their number. -/
theorem truncate_size_bound (o : Collab) (m : MCSfinder) (sat : Solver) (testMCS0 : List Nat)
    (hL : m.sizeLimit ≠ 0) :
    ((truncate o m sat testMCS0).isSome = true ↔
      ¬ (m.sizeLimit < (testMCS0.filter (fun y => y ∉ m.ignored)).length ∧
        ((testMCS0.filter (fun y => y ∉ m.ignored)).filter
          (fun y => y ∈ m.cannotIgnore)).length < m.sizeLimit)) ∧
    ∀ newMCS sat1 m1, truncate o m sat testMCS0 = some (newMCS, sat1, m1) →
      newMCS.length ≤ max m.sizeLimit
        (((testMCS0.filter (fun y => y ∉ m.ignored)).filter
          (fun y => y ∈ m.cannotIgnore)).length) ∧
      (((testMCS0.filter (fun y => y ∉ m.ignored)).filter
          (fun y => y ∈ m.cannotIgnore)).length ≤ m.sizeLimit →
        newMCS.length ≤ m.sizeLimit) := by
  refine ⟨?_, ?_⟩
  · rw [truncate_isSome]
    constructor
    · exact fun h h1 => h ⟨hL, h1.1, h1.2⟩
    · exact fun h h1 => h ⟨h1.2.1, h1.2.2⟩
  · intro newMCS sat1 m1 h
    by_cases happ : m.sizeLimit < (testMCS0.filter (fun y => decide (y ∉ m.ignored))).length
    · obtain ⟨hnew, -, -, -, hge⟩ := truncate_applies o m sat testMCS0 hL happ _ _ _ h
      rw [← hnew]
      exact ⟨le_max_right _ _, fun hle => hle⟩
    · rw [truncate_below o m sat testMCS0 hL happ] at h
      simp only [Option.some.injEq, Prod.mk.injEq] at h
      rw [← h.1]
      exact ⟨le_trans (not_lt.mp happ) (le_max_left _ _), fun _ => not_lt.mp happ⟩

/-- Witness of the amended **C15**: the state of the run on the CNF `x1`, `¬x1 ∨ x2`, `x2`,
`¬x1`, `¬x2` with limit 2 after the three MCSes of size 2 (`cannotIgnore = {0,2,3,4}`), and
the MCS `{1,2,3}`: the truncation returns and keeps `{2,3}`. -/
theorem truncate_size_bound_witness :
    ({ MCSfinder.init (cnf 2 [[1], [-1, 2], [2], [-1], [-2]]) with
        sizeLimit := 2, cannotIgnore := [0, 2, 3, 4] } : MCSfinder).sizeLimit ≠ 0 ∧
    (truncate brute { MCSfinder.init (cnf 2 [[1], [-1, 2], [2], [-1], [-2]]) with
        sizeLimit := 2, cannotIgnore := [0, 2, 3, 4] } Solver.fresh [1, 2, 3]).map Prod.fst
      = some [2, 3] ∧
    ((truncate brute { MCSfinder.init (cnf 2 [[1], [-1, 2], [2], [-1], [-2]]) with
        sizeLimit := 2, cannotIgnore := [0, 2, 3, 4] } Solver.fresh [1, 2, 3]).isSome = true ↔
      ¬ (2 < (([1, 2, 3] : List Nat).filter (fun y => y ∉ ([] : List Nat))).length ∧
        ((([1, 2, 3] : List Nat).filter (fun y => y ∉ ([] : List Nat))).filter
          (fun y => y ∈ [0, 2, 3, 4])).length < 2)) :=
  ⟨by decide, by decide,
    (truncate_size_bound brute { MCSfinder.init (cnf 2 [[1], [-1, 2], [2], [-1], [-2]]) with
        sizeLimit := 2, cannotIgnore := [0, 2, 3, 4] } Solver.fresh [1, 2, 3] (by decide)).1⟩

set_option maxRecDepth 1000000 in
theorem findMCSes_limit_two_run :
    (({ MCSfinder.init (cnf 3 [[-2, 1], [3], [-3, 1], [2], [-3, -2], [-1]]) with
        sizeLimit := 2 } : MCSfinder).findMCSes brute 7).2.MCSes
      = [[1, 3], [2, 3], [0, 1], [3, 5], [1, 5], [4, 5], [0, 2, 4]] := by
  decide

/-- Counterexample to **C15** as stated: with size limit 1 and the selectors 0 and 1 in
`cannotIgnore`, one pass of `solve` on a model that makes both y-variables false appends the
set `{0,1}` of two selectors to the family.  And in the run from empty sets on the CNF
`¬x2 ∨ x1`, `x3`, `¬x3 ∨ x1`, `x2`, `¬x3 ∨ ¬x2`, `¬x1` with size limit 2, the MCS `{0,2,4}`
found at bound 3 has all its selectors in `cannotIgnore` (from the six MCSes of size 2) and
is appended whole. -/
theorem solve_appends_more_than_limit :
    (solveLoop brute 1 1 1 1 Solver.fresh
      { MCSfinder.init scenarioS4 with
        sizeLimit := 1, cannotIgnore := [0, 1], nvars := 0, nYvars := 2 } false).2.2.MCSes
      = [[0, 1]] ∧
    [0, 2, 4] ∈ (({ MCSfinder.init (cnf 3 [[-2, 1], [3], [-3, 1], [2], [-3, -2], [-1]]) with
        sizeLimit := 2 } : MCSfinder).findMCSes brute 7).2.MCSes := by
  refine ⟨by decide, ?_⟩
  rw [findMCSes_limit_two_run]
  decide

/-- **C16**, evaluation at the failing input.  On the CNF `x1`, `¬x1`, `x1`, `¬x1` with size
limit 1 the first MCS read is `{0,2}`, with no selector in `cannotIgnore`: the loop that
takes the first elements keeps 0 by `testMCS.erase(it)` and then increments the erased
iterator, so the truncation leaves defined behaviour and the run comes to no end, with an
empty family, for a budget with which the same run under limit 2 (never exceeded) finishes
with the MCSes `{0,2}` and `{1,3}`. -/
theorem truncate_undefined_when_taking :
    takeFirst 1 0 [0, 2] = none ∧
    (truncate brute { MCSfinder.init (cnf 1 [[1], [-1], [1], [-1]]) with sizeLimit := 1 }
      Solver.fresh [0, 2]).isSome = false ∧
    (({ MCSfinder.init (cnf 1 [[1], [-1], [1], [-1]]) with sizeLimit := 1 }).findMCSes
      brute 3).1 = Ending.running ∧
    (({ MCSfinder.init (cnf 1 [[1], [-1], [1], [-1]]) with sizeLimit := 1 }).findMCSes
      brute 3).2.MCSes = [] ∧
    (({ MCSfinder.init (cnf 1 [[1], [-1], [1], [-1]]) with sizeLimit := 2 }).findMCSes
      brute 3).1 = Ending.finished ∧
    (({ MCSfinder.init (cnf 1 [[1], [-1], [1], [-1]]) with sizeLimit := 2 }).findMCSes
      brute 3).2.MCSes = [[0, 2], [1, 3]] := by
  decide

/-! ## Lemmas: reading a file of MCSes -/

/-- The loop of `parseMCSes` on lines that each hold a number and no 0: it keeps the lines
up to the first one that is shorter than the last line kept, and stops there. -/
theorem parseMCSesLoop_spec (lines : List (List Nat)) (size : Nat) (ret : List (List Nat))
    (hwf : ∀ line ∈ lines, line ≠ [] ∧ 0 ∉ line) :
    ∃ kept dropped : List (List Nat), lines = kept ++ dropped ∧
      parseMCSesLoop lines size ret
        = some (ret ++ kept.map (fun line => line.map (fun clauseNum => clauseNum - 1))) ∧
      (kept.map List.length).Chain (· ≤ ·) size ∧
      (∀ d ∈ dropped.head?, d.length < (kept.map List.length).getLastD size) := by
  induction lines generalizing size ret with
  | nil => exact ⟨[], [], rfl, by simp [parseMCSesLoop], List.Chain.nil, by simp⟩
  | cons line rest ih =>
    have hline := hwf line (List.mem_cons_self _ _)
    have herr : ¬ (line = [] ∨ 0 ∈ line) := fun h => h.elim hline.1 hline.2
    simp only [parseMCSesLoop, if_neg herr]
    by_cases hlt : line.length < size
    · rw [if_pos hlt]
      exact ⟨[], line :: rest, rfl, by simp, List.Chain.nil, by simpa using hlt⟩
    · rw [if_neg hlt]
      obtain ⟨kept, dropped, h1, h2, h3, h4⟩ := ih line.length
        (ret ++ [line.map (fun clauseNum => clauseNum - 1)])
        (fun l hl => hwf l (List.mem_cons_of_mem _ hl))
      refine ⟨line :: kept, dropped, by rw [h1]; rfl, ?_, ?_, ?_⟩
      · rw [h2]
        simp
      · exact List.Chain.cons (Nat.le_of_not_lt hlt) h3
      · intro d hd
        have hd4 := h4 d hd
        rw [List.map_cons, List.getLastD_cons]
        exact hd4

/-! ## Claims about the input files and options of the MCS tool -/

/-- Counterexample to **C17** as stated: the last line of the file `1 / 1 2 / 2` is dropped
although it is not shorter than every earlier line (the first line is as short); and in the
file `1 2 / 1 / 2 3` the short middle line is dropped together with the line after it. -/
theorem parseMCSes_drops_other_lines :
    parseMCSes [[1], [1, 2], [2]] = some [[0], [0, 1]] ∧
    parseMCSes [[1, 2], [1], [2, 3]] = some [[0, 1]] := by
  decide

/-- **C17**, amended.  On a file whose lines each hold at least one number and no 0,
`parseMCSes` returns the lines in file order, every clause index decremented by one, up to
but excluding the first line that has fewer entries than the line before it: that line and
every line after it are dropped, and the lines kept have non-decreasing lengths. -/
theorem parseMCSes_keeps_nondecreasing_prefix (lines : List (List Nat))
    (hwf : ∀ line ∈ lines, line ≠ [] ∧ 0 ∉ line) :
    ∃ kept dropped : List (List Nat), lines = kept ++ dropped ∧
      parseMCSes lines
        = some (kept.map (fun line => line.map (fun clauseNum => clauseNum - 1))) ∧
      (kept.map List.length).Chain' (· ≤ ·) ∧
      (∀ d ∈ dropped.head?, ∃ l ∈ kept.getLast?, d.length < l.length) := by
  obtain ⟨kept, dropped, h1, h2, h3, h4⟩ := parseMCSesLoop_spec lines 0 [] hwf
  refine ⟨kept, dropped, h1, by simpa [parseMCSes] using h2, ?_, ?_⟩
  · cases hk : kept.map List.length with
    | nil => exact List.chain'_nil
    | cons a as =>
      rw [hk] at h3
      exact (List.chain_cons.mp h3).2
  · intro d hd
    have hlt := h4 d hd
    rcases List.eq_nil_or_concat kept with hk | ⟨init, l, hk⟩
    · subst hk
      simp at hlt
    · subst hk
      refine ⟨l, by simp, ?_⟩
      rw [List.concat_eq_append, List.map_append, List.map_cons, List.map_nil,
        List.getLastD_concat] at hlt
      exact hlt

/-- Witness of the amended **C17**: the file `1 2 / 1 / 2 3`. -/
theorem parseMCSes_keeps_nondecreasing_prefix_witness :
    (∀ line ∈ [[1, 2], [1], [2, 3]], line ≠ [] ∧ 0 ∉ line) ∧
    ∃ kept dropped : List (List Nat), [[1, 2], [1], [2, 3]] = kept ++ dropped ∧
      parseMCSes [[1, 2], [1], [2, 3]]
        = some (kept.map (fun line => line.map (fun clauseNum => clauseNum - 1))) ∧
      (kept.map List.length).Chain' (· ≤ ·) ∧
      (∀ d ∈ dropped.head?, ∃ l ∈ kept.getLast?, d.length < l.length) :=
  ⟨by decide, parseMCSes_keeps_nondecreasing_prefix [[1, 2], [1], [2, 3]] (by decide)⟩

/-- Counterexample to **C20** as stated: `setBoundInc(1)` on a finder with core guidance on
turns it off. -/
theorem setBoundInc_one_disables_cores :
    (MCSfinder.init scenarioS4).useCores = true ∧
    ((MCSfinder.init scenarioS4).setBoundInc 1).useCores = false := by
  decide

/-- **C20**, amended.  The setter `setBoundInc(i)` turns core guidance off for every `i`
(also for `i = 1`), and stores `i`, reduced to an unsigned 32-bit number, as the bound
increment and as the initial bound. -/
theorem setBoundInc_disables_cores (m : MCSfinder) (i : Int) :
    (m.setBoundInc i).useCores = false ∧
    ((m.setBoundInc i).boundinc : Int) = i % 2 ^ 32 ∧
    ((m.setBoundInc i).initialBound : Int) = i % 2 ^ 32 := by
  have h : (0 : Int) ≤ i % 2 ^ 32 := Int.emod_nonneg _ (by norm_num)
  refine ⟨?_, Int.toNat_of_nonneg h, Int.toNat_of_nonneg h⟩
  simp only [MCSfinder.setBoundInc]
  cases m.useCores <;> rfl

/-! ## Lemmas: the identity group file -/

theorem setGroup_range (k : Nat) : setGroup (List.range k) (k + 1) k = List.range (k + 1) := by
  simp [setGroup, List.range_succ]

/-- Reading the lines `k+1`, …, `k+j`, one clause number per line, into a parser that holds
the identity map on the first `k` clauses extends the identity map to the first `k + j`
clauses. -/
theorem parseClauseMap_identity (p : Parser) (k j : Nat) (hc : p.clauseGroupMap = List.range k)
    (hY : p.Yvars = k) :
    p.parseClauseMap ((List.range' k j).map (fun i => [i + 1])) =
      some { p with clauseGroupMap := List.range (k + j), Yvars := k + j, haveGroupMap := true }
    := by
  induction j generalizing p k with
  | zero =>
    simp only [List.range', List.map_nil, Parser.parseClauseMap, Nat.add_zero]
    rw [← hc, ← hY]
  | succ j ih =>
    have hstep : p.parseClauseMap ((List.range' k (j + 1)).map (fun i => [i + 1])) =
        Parser.parseClauseMap
          { p with clauseGroupMap := setGroup p.clauseGroupMap (k + 1) p.Yvars,
                   Yvars := p.Yvars + 1 }
          ((List.range' (k + 1) j).map (fun i => [i + 1])) := by
      simp [List.range', Parser.parseClauseMap, parseClauseMapLine]
    rw [hstep, ih _ (k + 1) (by simp only [hc, hY, setGroup_range]) (by simp only [hY])]
    have e : k + 1 + j = k + (j + 1) := by omega
    rw [e]

theorem range_getD (n j : Nat) (hj : j < n) : (List.range n).getD j 0 = j := by
  simp [List.getD_eq_getElem?_getD, List.getElem?_range hj]

/-- The clause loop of `get_CNF_Y` depends on the parser only through the variable count and
the selectors of the clauses it adds. -/
theorem get_CNF_Y_loop_congr (o : Collab) (p1 p2 : Parser) (iset : Option (Finset Nat))
    (cls : List (List Lit)) (i c1 c2 : Nat) (sat : Solver) (hv : p1.CNFvars = p2.CNFvars)
    (hs : ∀ j, j < cls.length → p1.sigma (i + j) = p2.sigma (i + j))
    (h1 : p1.haveGroupMap = false → c1 = i) (h2 : p2.haveGroupMap = false → c2 = i) :
    get_CNF_Y_loop o p1 iset cls i c1 sat = get_CNF_Y_loop o p2 iset cls i c2 sat := by
  induction cls generalizing i c1 c2 sat with
  | nil => rfl
  | cons cl rest ih =>
    have hs0 : p1.sigma i = p2.sigma i := by simpa using hs 0 (by simp)
    have hn1 : p1.haveGroupMap = false →
        (if p1.haveGroupMap then p2.sigma i else p2.sigma i + 1) = i + 1 := by
      intro hg
      rw [← hs0]
      simp [hg, Parser.sigma]
    have hn2 : p2.haveGroupMap = false →
        (if p2.haveGroupMap then p2.sigma i else p2.sigma i + 1) = i + 1 := by
      intro hg
      simp [hg, Parser.sigma]
    have hrec : ∀ s, get_CNF_Y_loop o p1 iset rest (i + 1)
          (if p1.haveGroupMap then p2.sigma i else p2.sigma i + 1) s =
        get_CNF_Y_loop o p2 iset rest (i + 1)
          (if p2.haveGroupMap then p2.sigma i else p2.sigma i + 1) s := fun s =>
      ih (i + 1) _ _ s (fun j hj => by
        have := hs (j + 1) (by simpa using hj)
        have e : i + (j + 1) = i + 1 + j := by omega
        rwa [e] at this) hn1 hn2
    simp only [get_CNF_Y_loop, sigma_eq p1 i c1 h1, sigma_eq p2 i c2 h2, hs0, hv]
    split
    · split
      · rfl
      · exact hrec _
    · split
      · rfl
      · exact hrec _

/-- The clause loop of `get_CNF` depends on the parser only through the selectors of the
clauses it adds. -/
theorem get_CNF_loop_congr (o : Collab) (p1 p2 : Parser) (exclude : Option (Finset Nat))
    (cls : List (List Lit)) (i c1 c2 : Nat) (sat : Solver)
    (hs : ∀ j, j < cls.length → p1.sigma (i + j) = p2.sigma (i + j))
    (h1 : p1.haveGroupMap = false → c1 = i) (h2 : p2.haveGroupMap = false → c2 = i) :
    get_CNF_loop o p1 exclude cls i c1 sat = get_CNF_loop o p2 exclude cls i c2 sat := by
  induction cls generalizing i c1 c2 sat with
  | nil => rfl
  | cons cl rest ih =>
    have hs0 : p1.sigma i = p2.sigma i := by simpa using hs 0 (by simp)
    have hn1 : p1.haveGroupMap = false →
        (if p1.haveGroupMap then p2.sigma i else p2.sigma i + 1) = i + 1 := by
      intro hg
      rw [← hs0]
      simp [hg, Parser.sigma]
    have hn2 : p2.haveGroupMap = false →
        (if p2.haveGroupMap then p2.sigma i else p2.sigma i + 1) = i + 1 := by
      intro hg
      simp [hg, Parser.sigma]
    have hrec : ∀ s, get_CNF_loop o p1 exclude rest (i + 1)
          (if p1.haveGroupMap then p2.sigma i else p2.sigma i + 1) s =
        get_CNF_loop o p2 exclude rest (i + 1)
          (if p2.haveGroupMap then p2.sigma i else p2.sigma i + 1) s := fun s =>
      ih (i + 1) _ _ s (fun j hj => by
        have := hs (j + 1) (by simpa using hj)
        have e : i + (j + 1) = i + 1 + j := by omega
        rwa [e] at this) hn1 hn2
    simp only [get_CNF_loop, sigma_eq p1 i c1 h1, sigma_eq p2 i c2 h2, hs0]
    split
    · split
      · rfl
      · exact hrec _
    · exact hrec _

/-- The clause loop of `get_CNF` in reverse order depends on the parser only through the
selectors of the clauses it adds. -/
theorem get_CNF_rev_loop_congr (o : Collab) (p1 p2 : Parser) (exclude : Option (Finset Nat))
    (l : List (List Lit)) (c1 c2 : Nat) (sat : Solver)
    (hs : ∀ j, j < l.length → p1.sigma j = p2.sigma j)
    (h1 : p1.haveGroupMap = false → c1 = l.length - 1)
    (h2 : p2.haveGroupMap = false → c2 = l.length - 1) :
    get_CNF_rev_loop o p1 exclude l c1 sat = get_CNF_rev_loop o p2 exclude l c2 sat := by
  induction l generalizing c1 c2 sat with
  | nil => rfl
  | cons cl rest ih =>
    have hs0 : p1.sigma rest.length = p2.sigma rest.length := hs rest.length (by simp)
    have hn1 : p1.haveGroupMap = false →
        (if p1.haveGroupMap then p2.sigma rest.length else p2.sigma rest.length - 1)
          = rest.length - 1 := by
      intro hg
      rw [← hs0]
      simp [hg, Parser.sigma]
    have hn2 : p2.haveGroupMap = false →
        (if p2.haveGroupMap then p2.sigma rest.length else p2.sigma rest.length - 1)
          = rest.length - 1 := by
      intro hg
      simp [hg, Parser.sigma]
    have hrec : ∀ s, get_CNF_rev_loop o p1 exclude rest
          (if p1.haveGroupMap then p2.sigma rest.length else p2.sigma rest.length - 1) s =
        get_CNF_rev_loop o p2 exclude rest
          (if p2.haveGroupMap then p2.sigma rest.length else p2.sigma rest.length - 1) s :=
      fun s => ih _ _ s (fun j hj => hs j (by simp only [List.length_cons]; omega)) hn1 hn2
    have e1 : p1.haveGroupMap = false → c1 = rest.length := fun hg => by
      simpa using h1 hg
    have e2 : p2.haveGroupMap = false → c2 = rest.length := fun hg => by
      simpa using h2 hg
    simp only [get_CNF_rev_loop, sigma_eq p1 rest.length c1 e1, sigma_eq p2 rest.length c2 e2,
      hs0]
    split
    · split
      · rfl
      · exact hrec _
    · exact hrec _

theorem addYClauses_congr (o : Collab) (p1 p2 : Parser) (ycls : List (List Int)) (sat : Solver)
    (hv : p1.CNFvars = p2.CNFvars) : addYClauses o p1 ycls sat = addYClauses o p2 ycls sat := by
  induction ycls generalizing sat with
  | nil => rfl
  | cons cl rest ih =>
    have e : yClauseLits p1 cl = yClauseLits p2 cl := by
      simp only [yClauseLits, hv]
    simp only [addYClauses, e]
    split
    · rfl
    · exact ih _

/-- The function `get_CNF_Y` depends on the parser only through its counts, its clauses and
the selectors of the clauses. -/
theorem get_CNF_Y_congr (o : Collab) (p1 p2 : Parser) (iset : Option (Finset Nat))
    (sat : Solver) (hv : p1.CNFvars = p2.CNFvars) (hY : p1.Yvars = p2.Yvars)
    (hc : p1.origCNF = p2.origCNF) (hy : p1.origYClauses = p2.origYClauses)
    (hs : ∀ j, j < p2.origCNF.length → p1.sigma j = p2.sigma j) :
    p1.get_CNF_Y o sat iset = p2.get_CNF_Y o sat iset := by
  unfold Parser.get_CNF_Y
  rw [hv, hY, hc, hy, get_CNF_Y_loop_congr o p1 p2 iset p2.origCNF 0 0 0 _ hv
    (by simpa using hs) (fun _ => rfl) (fun _ => rfl)]
  split
  · rfl
  · rw [addYClauses_congr o p1 p2 _ _ hv]

/-- The function `get_CNF` depends on the parser only through its variable count, its
clauses and the selectors of the clauses. -/
theorem get_CNF_congr (o : Collab) (p1 p2 : Parser) (exclude : Option (Finset Nat))
    (sat : Solver) (hv : p1.CNFvars = p2.CNFvars) (hc : p1.origCNF = p2.origCNF)
    (hs : ∀ j, j < p2.origCNF.length → p1.sigma j = p2.sigma j) :
    p1.get_CNF o sat exclude = p2.get_CNF o sat exclude ∧
    p1.get_CNF_rev o sat exclude = p2.get_CNF_rev o sat exclude := by
  unfold Parser.get_CNF Parser.get_CNF_rev
  rw [hv, hc, get_CNF_loop_congr o p1 p2 exclude p2.origCNF 0 0 0 _
    (by simpa using hs) (fun _ => rfl) (fun _ => rfl),
    get_CNF_rev_loop_congr o p1 p2 exclude p2.origCNF.reverse (p2.origCNF.length - 1)
      (p2.origCNF.length - 1) _
    (by simpa using hs) (fun _ => by simp) (fun _ => by simp)]
  exact ⟨rfl, rfl⟩

/-- On a file whose literals are within the declared variables, `parseCNF` without group
file gives the parser state `cnf`. -/
theorem parseCNF_new (nv : Nat) (cls : List (List Int))
    (hv : ∀ cl ∈ cls, ∀ x ∈ cl, x.natAbs ≤ nv) :
    Parser.new.parseCNF nv cls.length cls = some (cnf nv cls) := by
  have hall : cls.all (fun cl => cl.all (fun x => decide (x.natAbs ≤ nv))) = true := by
    simpa [List.all_eq_true] using hv
  rw [Parser.parseCNF, if_pos hall]
  rfl

/-- **C19.**  For a CNF file with `n` clauses (header count `n`, literals within the declared
variables), reading the group file whose line `i` holds exactly the clause number `i`
(`i = 1..n`) and then the CNF file gives the same number of selectors as reading the CNF file
alone, and `get_CNF_Y` and `get_CNF` (in file order and in reverse order) then return the
same result and leave the solver in the same state: the same sequence of clauses, selector
literals and tags installed. -/
theorem identity_group_file_same_as_none (nv : Nat) (cls : List (List Int))
    (hv : ∀ cl ∈ cls, ∀ x ∈ cl, x.natAbs ≤ nv) :
    ∃ pg p1 p0 : Parser,
      Parser.new.parseClauseMap ((List.range cls.length).map (fun i => [i + 1])) = some pg ∧
      pg.parseCNF nv cls.length cls = some p1 ∧
      Parser.new.parseCNF nv cls.length cls = some p0 ∧
      p1.Yvars = p0.Yvars ∧
      (∀ o sat iset, p1.get_CNF_Y o sat iset = p0.get_CNF_Y o sat iset) ∧
      (∀ o sat exclude, p1.get_CNF o sat exclude = p0.get_CNF o sat exclude) ∧
      (∀ o sat exclude, p1.get_CNF_rev o sat exclude = p0.get_CNF_rev o sat exclude) := by
  have hall : cls.all (fun cl => cl.all (fun x => decide (x.natAbs ≤ nv))) = true := by
    simpa [List.all_eq_true] using hv
  have hpg := parseClauseMap_identity Parser.new 0 cls.length rfl rfl
  rw [← List.range_eq_range'] at hpg
  obtain ⟨pg, hpgdef⟩ : ∃ pg : Parser, pg = { Parser.new with
      clauseGroupMap := List.range (0 + cls.length), Yvars := 0 + cls.length,
      haveGroupMap := true } := ⟨_, rfl⟩
  rw [← hpgdef] at hpg
  obtain ⟨p1, hp1⟩ : ∃ p1 : Parser, p1 = { pg with
      CNFvars := nv, CNFclauses := cls.length,
      origCNF := pg.origCNF ++ cls.map (fun cl => cl.map dimacsLit),
      Yvars := if pg.Yvars = 0 then cls.length else pg.Yvars } := ⟨_, rfl⟩
  have hparse1 : pg.parseCNF nv cls.length cls = some p1 := by
    rw [Parser.parseCNF, if_pos hall, hp1]
  have hY : p1.Yvars = (cnf nv cls).Yvars := by
    have e : p1.Yvars = if 0 + cls.length = 0 then cls.length else 0 + cls.length := by
      rw [hp1, hpgdef]
    rw [e]
    show _ = cls.length
    split <;> omega
  have hcv : p1.CNFvars = (cnf nv cls).CNFvars := by rw [hp1]; rfl
  have hc : p1.origCNF = (cnf nv cls).origCNF := by rw [hp1, hpgdef]; rfl
  have hy : p1.origYClauses = (cnf nv cls).origYClauses := by rw [hp1, hpgdef]; rfl
  have hs : ∀ j, j < (cnf nv cls).origCNF.length → p1.sigma j = (cnf nv cls).sigma j := by
    intro j hj
    have hj' : j < cls.length := by simpa [cnf] using hj
    have e1 : p1.sigma j = (List.range (0 + cls.length)).getD j 0 := by
      rw [hp1, hpgdef]
      rfl
    rw [e1, Nat.zero_add, range_getD _ _ hj']
    rfl
  exact ⟨pg, p1, cnf nv cls, hpg, hparse1, parseCNF_new nv cls hv, hY,
    fun o sat iset => get_CNF_Y_congr o p1 _ iset sat hcv hY hc hy hs,
    fun o sat exclude => (get_CNF_congr o p1 _ exclude sat hcv hc hs).1,
    fun o sat exclude => (get_CNF_congr o p1 _ exclude sat hcv hc hs).2⟩

/-- Witness of **C19**: the CNF file of scenario S4, three clauses over two variables. -/
theorem identity_group_file_same_as_none_witness :
    (∀ cl ∈ ([[1], [2], [-1, -2]] : List (List Int)), ∀ x ∈ cl, x.natAbs ≤ 2) ∧
    ∃ pg p1 p0 : Parser,
      Parser.new.parseClauseMap [[1], [2], [3]] = some pg ∧
      pg.parseCNF 2 3 [[1], [2], [-1, -2]] = some p1 ∧
      Parser.new.parseCNF 2 3 [[1], [2], [-1, -2]] = some p0 ∧
      p1.Yvars = p0.Yvars ∧
      (∀ o sat iset, p1.get_CNF_Y o sat iset = p0.get_CNF_Y o sat iset) ∧
      (∀ o sat exclude, p1.get_CNF o sat exclude = p0.get_CNF o sat exclude) ∧
      (∀ o sat exclude, p1.get_CNF_rev o sat exclude = p0.get_CNF_rev o sat exclude) :=
  ⟨by decide, identity_group_file_same_as_none 2 [[1], [2], [-1, -2]] (by decide)⟩

/-! ## Lemmas: tags of the constraints installed by `get_CNF_Y` -/

/-- The loop over the extra clauses on the y-variables installs only such clauses, without
tag. -/
theorem addYClauses_form (o : Collab) (p : Parser) (ycls : List (List Int))
    (sat sat' : Solver) (r : Bool) (h : addYClauses o p ycls sat = (r, sat')) :
    ∀ c ∈ sat'.constrs, c ∈ sat.constrs ∨
      ∃ cl ∈ ycls, c = Constr.clause (yClauseLits p cl) none := by
  induction ycls generalizing sat with
  | nil =>
    simp only [addYClauses, Prod.mk.injEq] at h
    obtain ⟨-, rfl⟩ := h
    exact fun c hc => Or.inl hc
  | cons cl rest ih =>
    simp only [addYClauses] at h
    rcases hadd : sat.addClause o (yClauseLits p cl) none with ⟨r1, sat1⟩
    rw [hadd] at h
    obtain ⟨e1, -⟩ := add_spec o sat sat1 _ r1 hadd
    have hnew : ∀ c ∈ sat1.constrs, c ∈ sat.constrs ∨
        ∃ cl' ∈ cl :: rest, c = Constr.clause (yClauseLits p cl') none := by
      intro c hc
      rw [e1] at hc
      rcases List.mem_append.mp hc with hc | hc
      · exact Or.inl hc
      · exact Or.inr ⟨cl, List.mem_cons_self _ _, by simpa using hc⟩
    cases r1 with
    | false =>
      simp only [Prod.mk.injEq] at h
      obtain ⟨-, rfl⟩ := h
      exact hnew
    | true =>
      simp only at h
      intro c hc
      rcases ih sat1 h c hc with hc | ⟨cl', hcl', hc⟩
      · exact hnew c hc
      · exact Or.inr ⟨cl', List.mem_cons_of_mem _ hcl', hc⟩

/-- The function `get_CNF_Y` installs only constraints of the original clauses and untagged
clauses on the y-variables, and all constraints of the original clauses when it returns
`true`. -/
theorem get_CNF_Y_constrs (o : Collab) (p : Parser) (iset : Option (Finset Nat))
    (sat sat' : Solver) (r : Bool) (h : p.get_CNF_Y o sat iset = (r, sat')) :
    (∀ c ∈ sat'.constrs, c ∈ sat.constrs ∨
      (∃ i, i < p.origCNF.length ∧ c ∈ clauseConstrs p iset i (p.origCNF.getD i [])) ∨
      ∃ cl ∈ p.origYClauses, c = Constr.clause (yClauseLits p cl) none) ∧
    (r = true → ∀ i, i < p.origCNF.length → ∀ c ∈ clauseConstrs p iset i (p.origCNF.getD i []),
      c ∈ sat'.constrs) := by
  unfold Parser.get_CNF_Y at h
  obtain ⟨n1, -⟩ := newVarsUpTo_constrs (p.CNFvars + p.Yvars) sat
  rcases h1 : get_CNF_Y_loop o p iset p.origCNF 0 0 (newVarsUpTo (p.CNFvars + p.Yvars) sat)
    with ⟨r1, sat1⟩
  rw [h1] at h
  obtain ⟨a1, a2⟩ := get_CNF_Y_loop_form o p iset p.origCNF 0 0 _ sat1 r1 (fun _ => rfl) h1
  simp only [Nat.zero_add, n1] at a1 a2
  cases r1 with
  | false =>
    simp only [Prod.mk.injEq] at h
    obtain ⟨rfl, rfl⟩ := h
    exact ⟨fun c hc => (a1 c hc).imp id Or.inl, fun hr => absurd hr (by decide)⟩
  | true =>
    simp only at h
    rcases h2 : addYClauses o p p.origYClauses sat1 with ⟨r2, sat2⟩
    rw [h2] at h
    have b1 := addYClauses_form o p _ sat1 sat2 r2 h2
    have b2 := (addYClauses_spec o p _ sat1 sat2 r2 h2).1
    have hc2 : sat'.constrs = sat2.constrs := by
      cases r2 with
      | false =>
        simp only [Prod.mk.injEq] at h
        rw [← h.2]
      | true =>
        simp only [Prod.mk.injEq] at h
        rw [← h.2]
        rfl
    rw [hc2]
    refine ⟨?_, fun _ i hi c hc => b2 (a2 rfl i hi c hc)⟩
    intro c hc
    rcases b1 c hc with hc | hc
    · exact (a1 c hc).imp id Or.inl
    · exact Or.inr (Or.inr hc)

/-! ## Claims about the formula assembly -/

/-- Counterexample to **C18** as stated: on the CNF of scenario S4 (clauses `x1`, `x2`,
`¬x1 ∨ ¬x2`) without instrument set, `get_CNF_Y` returns `true` and has installed exactly the
three clauses `C_i ∨ ¬Y_i`, each without origin tag; the clause `x1 ∨ ¬Y_0` tagged 1 is not
in the solver. -/
theorem get_CNF_Y_scenarioS4_untagged :
    scenarioS4.instr none 0 ∧
    (scenarioS4.get_CNF_Y brute Solver.fresh none).1 = true ∧
    (scenarioS4.get_CNF_Y brute Solver.fresh none).2.constrs =
      [Constr.clause [Lit.mk' 0, (Lit.mk' 2).not] none,
       Constr.clause [Lit.mk' 1, (Lit.mk' 3).not] none,
       Constr.clause [(Lit.mk' 0).not, (Lit.mk' 1).not, (Lit.mk' 4).not] none] ∧
    Constr.clause [Lit.mk' 0, (Lit.mk' 2).not] (some 1) ∉
      (scenarioS4.get_CNF_Y brute Solver.fresh none).2.constrs := by
  decide

/-- **C18**, amended.  When `get_CNF_Y` returns `true`: for every clause `C_i` whose
selector `y` is instrumented, the clause `C_i ∨ ¬Y_y` is in the solver without origin tag;
for every clause whose selector is not instrumented, the unit `Y_y` is in the solver without
tag and the clause `C_i` with the tag `y+1`; and every tagged clause that `get_CNF_Y` has
added is such a clause `C_i` of a selector that is not instrumented, tagged `y+1`. -/
theorem get_CNF_Y_tags (o : Collab) (p : Parser) (iset : Option (Finset Nat))
    (sat sat' : Solver) (h : p.get_CNF_Y o sat iset = (true, sat')) :
    (∀ i, i < p.origCNF.length → p.instr iset i →
      Constr.clause (p.origCNF.getD i [] ++ [(Lit.mk' (p.CNFvars + p.sigma i)).not]) none
        ∈ sat'.constrs) ∧
    (∀ i, i < p.origCNF.length → ¬ p.instr iset i →
      Constr.clause [Lit.mk' (p.CNFvars + p.sigma i)] none ∈ sat'.constrs ∧
      Constr.clause (p.origCNF.getD i []) (some (p.sigma i + 1)) ∈ sat'.constrs) ∧
    (∀ lits t, Constr.clause lits (some t) ∈ sat'.constrs →
      Constr.clause lits (some t) ∈ sat.constrs ∨
      ∃ i, i < p.origCNF.length ∧ ¬ p.instr iset i ∧ lits = p.origCNF.getD i [] ∧
        t = p.sigma i + 1) := by
  obtain ⟨a1, a2⟩ := get_CNF_Y_constrs o p iset sat sat' true h
  refine ⟨?_, ?_, ?_⟩
  · intro i hi hins
    exact a2 rfl i hi _ (by simp [clauseConstrs, hins])
  · intro i hi hins
    exact ⟨a2 rfl i hi _ (by simp [clauseConstrs, hins]),
      a2 rfl i hi _ (by simp [clauseConstrs, hins])⟩
  · intro lits t hc
    rcases a1 _ hc with hc | ⟨i, hi, hc⟩ | ⟨cl, -, hc⟩
    · exact Or.inl hc
    · by_cases hins : p.instr iset i
      · simp [clauseConstrs, hins] at hc
      · simp only [clauseConstrs, if_neg hins, List.mem_cons, Constr.clause.injEq,
          List.mem_singleton, List.not_mem_nil, or_false] at hc
        rcases hc with ⟨-, hc⟩ | ⟨hc1, hc2⟩
        · exact absurd hc (by simp)
        · exact Or.inr ⟨i, hi, hins, hc1, by simpa using hc2⟩
    · simp at hc

/-- Witness of the amended **C18**: the CNF of scenario S4 without instrument set. -/
theorem get_CNF_Y_tags_witness :
    scenarioS4.get_CNF_Y brute Solver.fresh none
      = (true, (scenarioS4.get_CNF_Y brute Solver.fresh none).2) ∧
    (∀ i, i < scenarioS4.origCNF.length → scenarioS4.instr none i →
      Constr.clause (scenarioS4.origCNF.getD i [] ++
          [(Lit.mk' (scenarioS4.CNFvars + scenarioS4.sigma i)).not]) none
        ∈ (scenarioS4.get_CNF_Y brute Solver.fresh none).2.constrs) :=
  ⟨Prod.ext (by decide) rfl,
    (get_CNF_Y_tags brute scenarioS4 none Solver.fresh _ (Prod.ext (by decide) rfl)).1⟩

/-! ## Lemmas: order of the covers left by the helpers -/

/-- The shrinking loop leaves passed covers and images of pending covers, in their order. -/
theorem shrinkLoop_sublist (f : Cover → Cover) (n : Nat) (done todo res : List Cover)
    (hn : todo.length ≤ n) (hr : shrinkLoop f n done todo = some res) :
    ∃ d' t' : List Cover, d'.Sublist done ∧ t'.Sublist todo ∧ res = d' ++ t'.map f := by
  induction n generalizing done todo with
  | zero =>
    have : todo = [] := List.length_eq_zero.mp (Nat.le_zero.mp hn)
    subst this
    simp only [shrinkLoop, List.append_nil, Option.some.injEq] at hr
    exact ⟨done, [], List.Sublist.refl _, List.Sublist.refl _, by simp [hr]⟩
  | succ n ih =>
    cases todo with
    | nil =>
      simp only [shrinkLoop, Option.some.injEq] at hr
      exact ⟨done, [], List.Sublist.refl _, List.Sublist.refl _, by simp [hr]⟩
    | cons c rest =>
      simp only [shrinkLoop] at hr
      simp only [List.length_cons, Nat.add_le_add_iff_right] at hn
      by_cases h1 : f c = c
      · rw [if_neg (not_not.mpr h1)] at hr
        obtain ⟨d1, t1, hd1, ht1, hres⟩ := ih _ _ hn hr
        obtain ⟨x, y, hxy, hx, hy⟩ := List.sublist_append_iff.mp hd1
        rcases List.sublist_singleton.mp hy with rfl | rfl
        · exact ⟨x, t1, hx, ht1.trans (List.sublist_cons_self _ _), by simp [hres, hxy]⟩
        · exact ⟨x, c :: t1, hx, ht1.cons₂ c, by simp [hres, hxy, h1]⟩
      · rw [if_pos h1] at hr
        by_cases h2 : f c = ∅
        · rw [if_pos h2] at hr
          exact absurd hr (by simp)
        · rw [if_neg h2] at hr
          have hlen : (maintainNoSubsets rest (f c)).length ≤ n :=
            (maintainNoSubsets_length _ _).trans hn
          obtain ⟨d1, t1, hd1, ht1, hres⟩ := ih _ _ hlen hr
          have hsubd : (maintainNoSubsets done (f c)).Sublist done := List.filter_sublist _
          have hsubr : (maintainNoSubsets rest (f c)).Sublist rest := List.filter_sublist _
          obtain ⟨x, y, hxy, hx, hy⟩ := List.sublist_append_iff.mp hd1
          rcases List.sublist_singleton.mp hy with rfl | rfl
          · exact ⟨x, t1, hx.trans hsubd,
              (ht1.trans hsubr).trans (List.sublist_cons_self _ _), by simp [hres, hxy]⟩
          · exact ⟨x, c :: t1, hx.trans hsubd, (ht1.trans hsubr).cons₂ c,
              by simp [hres, hxy]⟩

/-- The number of `numNeg++` of the last loop of `removeClauseAndCover` is the number of
undecided positions that are in no surviving cover. -/
theorem countRemoved_eq (covers : List Cover) (i : Nat) (vs : List Int) :
    countRemoved covers i vs =
      ((List.range vs.length).filter
        (fun j => decide (vs.getD j 0 = 0 ∧ remaining covers (i + j) = false))).length := by
  induction vs generalizing i with
  | nil => simp [countRemoved]
  | cons v vs ih =>
    simp only [countRemoved, List.length_cons, List.range_succ_eq_map, List.filter_cons,
      List.filter_map, List.length_map, ih (i + 1)]
    have e : ((fun j => decide ((v :: vs).getD j 0 = 0 ∧ remaining covers (i + j) = false))
          ∘ Nat.succ)
        = (fun j => decide (vs.getD j 0 = 0 ∧ remaining covers (i + 1 + j) = false)) := by
      funext j
      have : i + (j + 1) = i + 1 + j := by omega
      simp [this]
    rw [e]
    by_cases hv : v = 0 ∧ remaining covers i = false
    · simp [hv]
      omega
    · simp [hv]

/-- With `clause` in some pending cover `{clause}`, the loop of `removeClause` returns
`false`. -/
theorem shrinkLoop_erase_singleton (clause : Nat) (n : Nat) (done todo : List Cover)
    (hn : todo.length ≤ n) (hs : ({clause} : Cover) ∈ todo) :
    shrinkLoop (fun c => c.erase clause) n done todo = none := by
  induction n generalizing done todo with
  | zero =>
    have : todo = [] := List.length_eq_zero.mp (Nat.le_zero.mp hn)
    subst this
    exact absurd hs (List.not_mem_nil _)
  | succ n ih =>
    cases todo with
    | nil => exact absurd hs (List.not_mem_nil _)
    | cons c rest =>
      simp only [List.length_cons, Nat.add_le_add_iff_right] at hn
      simp only [shrinkLoop]
      by_cases h1 : c.erase clause = c
      · rw [if_neg (not_not.mpr h1)]
        have hne : ({clause} : Cover) ≠ c := by
          intro he
          rw [← he] at h1
          simp only [Finset.erase_singleton] at h1
          exact Finset.singleton_ne_empty clause h1.symm
        exact ih _ _ hn ((List.mem_cons.mp hs).resolve_left hne)
      · rw [if_pos h1]
        by_cases h2 : c.erase clause = ∅
        · rw [if_pos h2]
        · rw [if_neg h2]
          have hne : ({clause} : Cover) ≠ c := by
            intro he
            rw [← he] at h2
            simp at h2
          have hrest : ({clause} : Cover) ∈ rest := (List.mem_cons.mp hs).resolve_left hne
          refine ih _ _ ((maintainNoSubsets_length _ _).trans hn) ?_
          rw [mem_maintainNoSubsets]
          refine ⟨hrest, fun h => h2 ?_⟩
          have hcard : (c.erase clause).card = 0 := by
            have := h.1
            rw [Finset.card_singleton] at this
            omega
          exact Finset.card_eq_zero.mp hcard

/-- A list without singleton covers is left as it is by `propagateSingletons`. -/
theorem propagateSingletons_stable (covers : List Cover) (a : ClauseAssign)
    (h : ∀ c ∈ covers, c.card ≠ 1) : propagateSingletons covers a = some (covers, a) := by
  induction covers with
  | nil => rfl
  | cons c rest ih =>
    simp only [propagateSingletons, if_neg (h c (List.mem_cons_self _ _)),
      ih (fun d hd => h d (List.mem_cons_of_mem _ hd))]

/-- The counter `numPos` grows by one for every singleton cover. -/
theorem propagateSingletons_numPos (covers cs : List Cover) (a a' : ClauseAssign)
    (h : propagateSingletons covers a = some (cs, a')) :
    a'.numPos = a.numPos + ((covers.filter (fun c => decide (c.card = 1))).length : Int) := by
  induction covers generalizing a cs with
  | nil =>
    simp only [propagateSingletons, Option.some.injEq, Prod.mk.injEq] at h
    obtain ⟨-, rfl⟩ := h
    simp
  | cons c rest ih =>
    simp only [propagateSingletons] at h
    by_cases h1 : c.card = 1
    · rw [if_pos h1] at h
      by_cases h2 : a.get c.first = 0
      · rw [if_pos h2] at h
        rw [ih _ _ h, List.filter_cons_of_pos (by simpa using h1)]
        simp only [List.length_cons, Nat.cast_add, Nat.cast_one]
        omega
      · rw [if_neg h2] at h
        exact absurd h (by simp)
    · rw [if_neg h1] at h
      cases hp : propagateSingletons rest a with
      | none => rw [hp] at h; exact absurd h (by simp)
      | some r =>
        obtain ⟨cs0, a0⟩ := r
        rw [hp] at h
        simp only [Option.some.injEq, Prod.mk.injEq] at h
        obtain ⟨-, rfl⟩ := h
        rw [ih _ _ hp, List.filter_cons_of_neg (by simpa using h1)]

/-- The assertion of `propagateSingletons` holds when no two singleton covers are equal and
the selectors of the singleton covers are undecided. -/
theorem propagateSingletons_returns (covers : List Cover) (a : ClauseAssign)
    (hd : covers.Pairwise (fun c d => c.card = 1 → d.card = 1 → c ≠ d))
    (hz : ∀ c ∈ covers, c.card = 1 → a.get c.first = 0) :
    ∃ r, propagateSingletons covers a = some r := by
  induction covers generalizing a with
  | nil => exact ⟨_, rfl⟩
  | cons c rest ih =>
    rw [List.pairwise_cons] at hd
    simp only [propagateSingletons]
    by_cases h1 : c.card = 1
    · rw [if_pos h1, if_pos (hz c (List.mem_cons_self _ _) h1)]
      apply ih _ hd.2
      intro c' hc' hcard
      have hne : c.first ≠ c'.first := by
        intro he
        apply hd.1 c' hc' h1 hcard
        rw [eq_singleton_first h1, eq_singleton_first hcard, he]
      have := get_put a c.first c'.first 1
      simp only [hne, false_and, if_false] at this
      show ({ a.put c.first 1 with numPos := a.numPos + 1 } : ClauseAssign).get c'.first = 0
      have e : ({ a.put c.first 1 with numPos := a.numPos + 1 } : ClauseAssign).get c'.first
          = (a.put c.first 1).get c'.first := rfl
      rw [e, this]
      exact hz c' (List.mem_cons_of_mem _ hc') hcard
    · rw [if_neg h1]
      obtain ⟨r, hr⟩ := ih a hd.2 (fun c' hc' => hz c' (List.mem_cons_of_mem _ hc'))
      rw [hr]
      exact ⟨_, rfl⟩

/-! ## Claims about the helpers of the hitting-set engine -/

/-- **C24.**  On a list of covers in which no cover is a subset of another, for a cover `M`
of the list and a selector `c` of `M`, `removeClauseAndCover(covers, a, c, M)` returns; no
surviving cover contains `c` or any other element of `M`; and the surviving covers are, in
their original relative order, the covers `C ∖ (M ∖ {c})` of some of the original covers `C`
that did not contain `c`. -/
theorem removeClauseAndCover_covers (covers : List Cover) (a : ClauseAssign) (c : Nat)
    (M : Cover) (hns : NoSubset covers) (hM : M ∈ covers) (hc : c ∈ M) :
    ∃ nc na, removeClauseAndCover covers a c M = some (nc, na) ∧
      (∀ Y ∈ nc, c ∉ Y ∧ ∀ x ∈ M, x ∉ Y) ∧
      ∃ orig : List Cover, orig.Sublist covers ∧ (∀ C ∈ orig, c ∉ C) ∧
        nc = orig.map (fun C => C \ M.erase c) := by
  obtain ⟨⟨nc, na⟩, hr⟩ := removeClauseAndCover_some covers a c M hns hM hc
  obtain ⟨-, hmem, -⟩ := removeClauseAndCover_spec _ _ _ _ _ _ hr
  refine ⟨nc, na, hr, ?_, ?_⟩
  · intro Y hY
    obtain ⟨-, Y0, -, hcY0, rfl⟩ := hmem Y hY
    refine ⟨fun h => hcY0 (Finset.mem_sdiff.mp h).1, fun x hx h => ?_⟩
    have h' := Finset.mem_sdiff.mp h
    by_cases hxc : x = c
    · exact hcY0 (hxc ▸ h'.1)
    · exact h'.2 (Finset.mem_erase.mpr ⟨hxc, hx⟩)
  · unfold removeClauseAndCover at hr
    rw [subtractLoop_eq] at hr
    cases hs : shrinkLoop (fun C => C \ M.erase c) (eraseContaining covers c).length []
        (eraseContaining covers c) with
    | none => rw [hs] at hr; exact absurd hr (by simp)
    | some res =>
      rw [hs] at hr
      simp only at hr
      by_cases hemp : ∅ ∈ res
      · rw [if_pos hemp] at hr; exact absurd hr (by simp)
      · rw [if_neg hemp] at hr
        simp only [Option.some.injEq, Prod.mk.injEq] at hr
        obtain ⟨d', t', hd', ht', hres⟩ := shrinkLoop_sublist _ _ _ _ _ (le_refl _) hs
        have hd0 : d' = [] := List.sublist_nil.mp hd'
        subst hd0
        refine ⟨t', ht'.trans (List.filter_sublist _), ?_, ?_⟩
        · intro C hC
          exact ((mem_eraseContaining _ _ _).mp (ht'.subset hC)).2
        · rw [← hr.1, hres]
          rfl

/-- Witness of **C24**: the covers `{0,1}`, `{0,2}`, `{1,2}`, the selector 0 and the cover
`{0,1}`. -/
theorem removeClauseAndCover_covers_witness :
    NoSubset [{0, 1}, {0, 2}, {1, 2}] ∧
    ∃ nc na, removeClauseAndCover [{0, 1}, {0, 2}, {1, 2}] (ClauseAssign.zero 3) 0 {0, 1}
        = some (nc, na) ∧
      (∀ Y ∈ nc, 0 ∉ Y ∧ ∀ x ∈ ({0, 1} : Cover), x ∉ Y) ∧
      ∃ orig : List Cover, orig.Sublist [{0, 1}, {0, 2}, {1, 2}] ∧ (∀ C ∈ orig, 0 ∉ C) ∧
        nc = orig.map (fun C => C \ ({0, 1} : Cover).erase 0) :=
  ⟨by unfold NoSubset Incomparable; decide,
    removeClauseAndCover_covers [{0, 1}, {0, 2}, {1, 2}] (ClauseAssign.zero 3) 0 {0, 1}
      (by unfold NoSubset Incomparable; decide) (by decide) (by decide)⟩

/-- **C25.**  After `removeClauseAndCover` (which returns on a list free of inclusions, for a
cover of the list and a selector of it): a position that was 0 and is in no surviving cover
is `-1`, and `numNeg` has grown by the number of these positions; a position that was 0 and is
in a surviving cover is still 0; every entry that was not 0 is unchanged, and so are `numPos`
and the length of the assignment. -/
theorem removeClauseAndCover_assignment (covers : List Cover) (a : ClauseAssign) (c : Nat)
    (M : Cover) :
    (NoSubset covers → M ∈ covers → c ∈ M → ∃ r, removeClauseAndCover covers a c M = some r) ∧
    ∀ nc na, removeClauseAndCover covers a c M = some (nc, na) →
      (∀ y, y < a.vals.length → a.get y = 0 → (∀ Y ∈ nc, y ∉ Y) → na.get y = -1) ∧
      (∀ y, a.get y = 0 → (∃ Y ∈ nc, y ∈ Y) → na.get y = 0) ∧
      (∀ y, a.get y ≠ 0 → na.get y = a.get y) ∧
      na.numNeg = a.numNeg + (((List.range a.vals.length).filter
        (fun y => decide (a.get y = 0 ∧ ∀ Y ∈ nc, y ∉ Y))).length : Int) ∧
      na.numPos = a.numPos ∧ na.vals.length = a.vals.length := by
  refine ⟨fun hns hM hc => removeClauseAndCover_some covers a c M hns hM hc, ?_⟩
  intro nc na h
  obtain ⟨-, -, -, -, hlen, hpos, hget⟩ := removeClauseAndCover_spec _ _ _ _ _ _ h
  refine ⟨?_, ?_, ?_, ?_, hpos, hlen⟩
  · intro y hy h0 hno
    rw [hget y, if_pos ⟨h0, hy, hno⟩]
  · intro y h0 ⟨Y, hY, hyY⟩
    rw [hget y, if_neg (fun hh => hh.2.2 Y hY hyY), h0]
  · intro y hne
    rw [hget y, if_neg (fun hh => hne hh.1)]
  · unfold removeClauseAndCover at h
    cases hs : subtractLoop (M.erase c) (eraseContaining covers c).length []
        (eraseContaining covers c) with
    | none => rw [hs] at h; exact absurd h (by simp)
    | some res =>
      rw [hs] at h
      simp only at h
      by_cases hemp : ∅ ∈ res
      · rw [if_pos hemp] at h; exact absurd h (by simp)
      · rw [if_neg hemp] at h
        simp only [Option.some.injEq, Prod.mk.injEq] at h
        obtain ⟨h1, h2⟩ := h
        subst h1
        rw [← h2]
        simp only [countRemoved_eq, Nat.zero_add, remaining_false_iff, ClauseAssign.get]

/-- Witness of **C25**: the covers `{0,1}`, `{0,2}`, `{1,2}`, the selector 0 and the cover
`{0,1}`; position 1 is in no surviving cover and becomes `-1`. -/
theorem removeClauseAndCover_assignment_witness :
    removeClauseAndCover [{0, 1}, {0, 2}, {1, 2}] ((ClauseAssign.zero 3).put 0 1) 0 {0, 1}
      = some ([{2}], { vals := [1, -1, 0], numPos := 0, numNeg := 1 }) ∧
    (∀ y, ((ClauseAssign.zero 3).put 0 1).get y ≠ 0 →
      ({ vals := [1, -1, 0], numPos := 0, numNeg := 1 } : ClauseAssign).get y
        = ((ClauseAssign.zero 3).put 0 1).get y) :=
  ⟨by decide,
    ((removeClauseAndCover_assignment [{0, 1}, {0, 2}, {1, 2}] ((ClauseAssign.zero 3).put 0 1)
      0 {0, 1}).2 [{2}] { vals := [1, -1, 0], numPos := 0, numNeg := 1 } (by decide)).2.2.1⟩

/-- **C26.**  For a list of non-empty covers and a selector `c`: `removeClause(covers, c, a)`
returns `false` if and only if some cover of the list is exactly `{c}`; and when it returns
`true`, every surviving cover is an original cover with `c` removed, so no cover contains
`c`, and no cover is empty.  (The body does not touch the assignment, which is therefore not
a parameter of the model.) -/
theorem removeClause_false_iff_singleton (covers : List Cover) (c : Nat)
    (hne : ∀ d ∈ covers, d ≠ ∅) :
    (removeClause covers c = none ↔ ({c} : Cover) ∈ covers) ∧
    ∀ res, removeClause covers c = some res →
      ∀ r ∈ res, c ∉ r ∧ r ≠ ∅ ∧ ∃ t ∈ covers, r = t.erase c := by
  refine ⟨⟨removeClause_none covers c, fun hs => ?_⟩, ?_⟩
  · unfold removeClause
    rw [removeClauseLoop_eq]
    exact shrinkLoop_erase_singleton c _ _ _ (le_refl _) hs
  · intro res hres r hr
    obtain ⟨h1, -, -, -, h5⟩ := removeClause_spec covers res c hres
    obtain ⟨t, ht, rfl⟩ := h1 r hr
    exact ⟨Finset.not_mem_erase c t, h5 hne _ hr, t, ht, rfl⟩

/-- Witness of **C26**: the covers `{0,1}`, `{0,2}`, `{1,2}`. -/
theorem removeClause_false_iff_singleton_witness :
    (∀ d ∈ ([{0, 1}, {0, 2}, {1, 2}] : List Cover), d ≠ ∅) ∧
    (removeClause [{0, 1}, {0, 2}, {1, 2}] 0 = none ↔
      ({0} : Cover) ∈ ([{0, 1}, {0, 2}, {1, 2}] : List Cover)) :=
  ⟨by decide,
    (removeClause_false_iff_singleton [{0, 1}, {0, 2}, {1, 2}] 0 (by decide)).1⟩

/-- **C27.**  The function `maintainNoSubsets(covers, modified)` removes exactly the covers
that strictly contain `modified` and keeps every other cover, a cover equal to `modified`
included, in the original order. -/
theorem maintainNoSubsets_removes_strict_supersets (covers : List Cover) (modified : Cover) :
    maintainNoSubsets covers modified = covers.filter (fun c => decide (¬ modified ⊂ c)) ∧
    (maintainNoSubsets covers modified).Sublist covers ∧
    (∀ c ∈ covers, c ∈ maintainNoSubsets covers modified ↔ ¬ modified ⊂ c) ∧
    (modified ∈ covers → modified ∈ maintainNoSubsets covers modified) := by
  have hiff : ∀ c : Cover, (modified.card < c.card ∧ modified ⊆ c) ↔ modified ⊂ c := by
    intro c
    constructor
    · rintro ⟨h1, h2⟩
      refine Finset.ssubset_iff_subset_ne.mpr ⟨h2, fun he => ?_⟩
      rw [he] at h1
      exact lt_irrefl _ h1
    · intro h
      exact ⟨Finset.card_lt_card h, h.subset⟩
  have hfilter : maintainNoSubsets covers modified
      = covers.filter (fun c => decide (¬ modified ⊂ c)) := by
    unfold maintainNoSubsets
    apply List.filter_congr
    intro c _
    by_cases h : modified ⊂ c
    · have := (hiff c).mpr h
      simp [h, this.1, this.2]
    · have : ¬ (modified.card < c.card ∧ modified ⊆ c) := fun hh => h ((hiff c).mp hh)
      simp only [h, not_false_eq_true, decide_True]
      simp only [Bool.not_eq_true', Bool.and_eq_false_imp, decide_eq_true_eq,
        decide_eq_false_iff_not]
      exact fun h1 h2 => this ⟨h1, h2⟩
  refine ⟨hfilter, List.filter_sublist _, ?_, ?_⟩
  · intro c hc
    rw [mem_maintainNoSubsets, hiff]
    exact ⟨fun h => h.2, fun h => ⟨hc, h⟩⟩
  · intro hm
    rw [mem_maintainNoSubsets]
    exact ⟨hm, fun h => lt_irrefl _ h.1⟩

/-- **C28.**  For a list of covers with no two equal singleton covers and an assignment in
which the selector of every singleton cover is a position that is undecided, one pass of
`propagateSingletons` returns and reaches a stable state: no cover of size 1 remains (and a
second pass changes nothing), the selector of every removed singleton cover is `+1`,
`numPos` has grown by the number of removed covers, the covers of size other than 1 are
unchanged and in the same order, and the other entries of the assignment and `numNeg` are
unchanged. -/
theorem propagateSingletons_one_pass (covers : List Cover) (a : ClauseAssign)
    (hd : covers.Pairwise (fun c d => c.card = 1 → d.card = 1 → c ≠ d))
    (hz : ∀ c ∈ covers, c.card = 1 → c.first < a.vals.length ∧ a.get c.first = 0) :
    ∃ cs a', propagateSingletons covers a = some (cs, a') ∧
      (∀ c ∈ cs, c.card ≠ 1) ∧
      propagateSingletons cs a' = some (cs, a') ∧
      (∀ c ∈ covers, c.card = 1 → a'.get c.first = 1) ∧
      a'.numPos = a.numPos + ((covers.filter (fun c => decide (c.card = 1))).length : Int) ∧
      cs = covers.filter (fun c => decide (c.card ≠ 1)) ∧
      (∀ i, (∀ c ∈ covers, c.card = 1 → c.first ≠ i) → a'.get i = a.get i) ∧
      a'.numNeg = a.numNeg := by
  obtain ⟨⟨cs, a'⟩, hp⟩ := propagateSingletons_returns covers a hd
    (fun c hc h1 => (hz c hc h1).2)
  obtain ⟨hcs, -, hneg, hget⟩ := propagateSingletons_spec _ _ _ _ hp
  have hno : ∀ c ∈ cs, c.card ≠ 1 := by
    intro c hc
    rw [hcs, List.mem_filter] at hc
    simpa using hc.2
  refine ⟨cs, a', hp, hno, propagateSingletons_stable cs a' hno, ?_,
    propagateSingletons_numPos _ _ _ _ hp, hcs, ?_, hneg⟩
  · intro c hc h1
    rw [hget, if_pos ⟨⟨c, hc, h1, rfl⟩, (hz c hc h1).1⟩]
  · intro i hi
    rw [hget, if_neg]
    rintro ⟨⟨c, hc, h1, rfl⟩, -⟩
    exact hi c hc h1 rfl

/-- Witness of **C28**: the covers `{0}`, `{1,2}`, `{3}` and the all-zero assignment of
length 4. -/
theorem propagateSingletons_one_pass_witness :
    ([{0}, {1, 2}, {3}] : List Cover).Pairwise (fun c d => c.card = 1 → d.card = 1 → c ≠ d) ∧
    ∃ cs a', propagateSingletons [{0}, {1, 2}, {3}] (ClauseAssign.zero 4) = some (cs, a') ∧
      (∀ c ∈ cs, c.card ≠ 1) ∧ cs = [{1, 2}] ∧ a'.numPos = 2 :=
  ⟨by decide,
    (propagateSingletons_one_pass [{0}, {1, 2}, {3}] (ClauseAssign.zero 4) (by decide)
      (by decide)).imp fun _ h => h.imp fun _ h =>
        ⟨h.1, h.2.1, h.2.2.2.2.2.1.trans (by decide),
          h.2.2.2.2.1.trans (by decide)⟩⟩

/-! ## Lemmas: the working covers of the search stay tidy -/

theorem tidy_filter {covers : List Cover} (h : Tidy covers) (q : Cover → Bool) :
    Tidy (covers.filter q) :=
  ⟨List.Pairwise.sublist (List.filter_sublist _) h.1,
    fun c hc => h.2 c (List.mem_of_mem_filter hc)⟩

theorem tidy_append_singleton {t : List (List Cover)} (ht : ∀ x ∈ t, Tidy x) {nc : List Cover}
    (hnc : Tidy nc) : ∀ x ∈ t ++ [nc], Tidy x := by
  intro x hx
  rcases List.mem_append.mp hx with h | h
  · exact ht x h
  · rw [List.mem_singleton] at h
    exact h ▸ hnc

/-- The traced loop over the covers containing `curClause` follows `tryCovers` and records
only tidy lists of covers. -/
theorem tryCoversT_spec
    {rec : List Cover → ClauseAssign → MUSbuilder → Outcome × MUSbuilder}
    {recT : List Cover → ClauseAssign → Traced → Outcome × Traced}
    (hrec : ∀ nc na b t, Tidy nc → (∀ x ∈ t, Tidy x) →
      TracedOf (recT nc na (b, t)) (rec nc na b))
    (covers : List Cover) (a1 : ClauseAssign) (cur : Nat) (hcov : Tidy covers)
    (todo : List Cover) (b : MUSbuilder) (t : List (List Cover)) (ht : ∀ x ∈ t, Tidy x) :
    TracedOf (tryCoversT recT covers a1 cur todo (b, t)) (tryCovers rec covers a1 cur todo b)
    := by
  induction todo generalizing b t with
  | nil => exact ⟨rfl, rfl, ht⟩
  | cons c rest ih =>
    simp only [tryCoversT, tryCovers]
    by_cases hc : c = ∅
    · rw [if_pos hc, if_pos hc]; exact ⟨rfl, rfl, ht⟩
    · rw [if_neg hc, if_neg hc]
      by_cases hcur : cur ∈ c
      · rw [if_pos hcur, if_pos hcur]
        cases hrcc : removeClauseAndCover covers a1 cur c with
        | none => exact ⟨rfl, rfl, ht⟩
        | some r =>
          obtain ⟨nc, na⟩ := r
          obtain ⟨-, hmem, -, hns, -⟩ := removeClauseAndCover_spec _ _ _ _ _ _ hrcc
          have hnc : Tidy nc := ⟨hns hcov.1, fun Y hY => (hmem Y hY).1⟩
          have hT := hrec nc na b (t ++ [nc]) hnc (tidy_append_singleton ht hnc)
          simp only
          rcases hres : rec nc na b with ⟨o, b1⟩
          rcases hresT : recT nc na (b, t ++ [nc]) with ⟨oT, bT, tT⟩
          rw [hres, hresT] at hT
          obtain ⟨e1, e2, e3⟩ := hT
          simp only at e1 e2 e3
          subst e1 e2
          cases oT with
          | ret sk =>
            cases sk with
            | true => exact ⟨rfl, rfl, e3⟩
            | false => exact ih bT tT e3
          | abort => exact ⟨rfl, rfl, e3⟩
          | hang => exact ⟨rfl, rfl, e3⟩
          | fuel => exact ⟨rfl, rfl, e3⟩
      · rw [if_neg hcur, if_neg hcur]
        exact ih b t ht

/-- The traced loop over the selector positions follows `splitLoop` and records only tidy
lists of covers. -/
theorem splitLoopT_spec
    {rec : List Cover → ClauseAssign → MUSbuilder → Outcome × MUSbuilder}
    {recT : List Cover → ClauseAssign → Traced → Outcome × Traced}
    (hrec : ∀ nc na b t, Tidy nc → (∀ x ∈ t, Tidy x) →
      TracedOf (recT nc na (b, t)) (rec nc na b))
    (k cur : Nat) (covers : List Cover) (a : ClauseAssign) (hcov : Tidy covers)
    (b : MUSbuilder) (t : List (List Cover)) (ht : ∀ x ∈ t, Tidy x) :
    TracedOf (splitLoopT recT k cur covers a (b, t)) (splitLoop rec k cur covers a b) := by
  induction k generalizing cur covers a b t with
  | zero => exact ⟨rfl, rfl, ht⟩
  | succ k ih =>
    simp only [splitLoopT, splitLoop]
    by_cases h0 : a.get cur = 0
    · rw [if_neg (not_not.mpr h0), if_neg (not_not.mpr h0)]
      have hT := tryCoversT_spec hrec covers { a.put cur 1 with numPos := a.numPos + 1 } cur
        hcov covers b t ht
      rcases hres : tryCovers rec covers { a.put cur 1 with numPos := a.numPos + 1 } cur
        covers b with ⟨o, b1⟩
      rcases hresT : tryCoversT recT covers { a.put cur 1 with numPos := a.numPos + 1 } cur
        covers (b, t) with ⟨oT, bT, tT⟩
      rw [hres, hresT] at hT
      obtain ⟨e1, e2, e3⟩ := hT
      simp only at e1 e2 e3
      subst e1 e2
      cases oT with
      | ret sk =>
        simp only
        cases hrc : removeClause covers cur with
        | none => exact ⟨rfl, rfl, e3⟩
        | some cs =>
          obtain ⟨-, -, hns, -, hne⟩ := removeClause_spec _ _ _ hrc
          have hcs : Tidy cs := ⟨hns hcov.1, hne hcov.2⟩
          exact ih (cur + 1) cs _ hcs bT (tT ++ [cs]) (tidy_append_singleton e3 hcs)
      | abort => exact ⟨rfl, rfl, e3⟩
      | hang => exact ⟨rfl, rfl, e3⟩
      | fuel => exact ⟨rfl, rfl, e3⟩
    · rw [if_pos h0, if_pos h0]
      exact ih (cur + 1) covers a hcov b t ht

/-- The traced `constructMUS` follows `constructMUS` and records only tidy lists of
covers. -/
theorem constructMUST_eq (n : Nat) (covers : List Cover) (a : ClauseAssign) (b : MUSbuilder)
    (t : List (List Cover)) (hcov : Tidy covers) (ht : ∀ x ∈ t, Tidy x) :
    TracedOf (constructMUST n covers a (b, t)) (constructMUS n covers a b) := by
  induction n generalizing covers a b t with
  | zero => exact ⟨rfl, rfl, ht⟩
  | succ n ih =>
    simp only [constructMUST, constructMUS]
    cases hp : propagateSingletons covers a with
    | none => exact ⟨rfl, rfl, ht⟩
    | some r =>
      obtain ⟨cs, a0⟩ := r
      obtain ⟨hcs, -⟩ := propagateSingletons_spec _ _ _ _ hp
      have htidy : Tidy cs := hcs ▸ tidy_filter hcov _
      simp only
      cases hbh : boundHit b cs a0 with
      | none => exact ⟨rfl, rfl, ht⟩
      | some hit =>
        cases hit with
        | true => exact ⟨rfl, rfl, ht⟩
        | false =>
          simp only
          by_cases hvis : a0.vals ∈ b.beenHere
          · rw [if_pos hvis, if_pos hvis]; exact ⟨rfl, rfl, ht⟩
          · rw [if_neg hvis, if_neg hvis]
            by_cases hemp : cs = []
            · rw [if_pos hemp, if_pos hemp]
              exact ⟨rfl, rfl, ht⟩
            · rw [if_neg hemp, if_neg hemp]
              exact splitLoopT_spec (fun nc na b' t' h1 h2 => ih nc na b' t' h1 h2)
                a0.vals.length 0 cs a0 htidy _ t ht

/-! ## Claim: the invariant of the working covers -/

/-- **C29.**  If the family passed to `constructMUS` has no empty cover and no cover that is
a subset of another, then in the run (whose result is that of `constructMUS`) the covers
passed to every recursive call and the working covers after every `removeClause` that
returns `true` have no empty cover and no cover that is a subset of another; in particular
none strictly contains another. -/
theorem constructMUS_keeps_covers_tidy (n : Nat) (covers : List Cover) (a : ClauseAssign)
    (b : MUSbuilder) (hns : NoSubset covers) (hne : ∀ c ∈ covers, c ≠ ∅) :
    (constructMUST n covers a (b, [])).1 = (constructMUS n covers a b).1 ∧
    (constructMUST n covers a (b, [])).2.1 = (constructMUS n covers a b).2 ∧
    ∀ x ∈ (constructMUST n covers a (b, [])).2.2,
      (∀ c ∈ x, c ≠ ∅) ∧ NoSubset x ∧ ∀ c ∈ x, ∀ d ∈ x, ¬ d ⊂ c := by
  obtain ⟨h1, h2, h3⟩ := constructMUST_eq n covers a b [] ⟨hns, hne⟩
    (fun x hx => absurd hx (List.not_mem_nil _))
  refine ⟨h1, h2, fun x hx => ⟨(h3 x hx).2, (h3 x hx).1, fun c hc d hd hsub => ?_⟩⟩
  have := (h3 x hx).1.eq_of_subset hd hc hsub.subset
  exact (ne_of_lt hsub) this

/-- Witness of **C29**: the covers `{0,1}`, `{0,2}`, `{1,2}` over `[0, 3)`; the record of
the run is not empty. -/
theorem constructMUS_keeps_covers_tidy_witness :
    NoSubset [{0, 1}, {0, 2}, {1, 2}] ∧
    (constructMUST 4 [{0, 1}, {0, 2}, {1, 2}] (ClauseAssign.zero 3)
      (MUSbuilder.init false, [])).2.2 ≠ [] ∧
    ∀ x ∈ (constructMUST 4 [{0, 1}, {0, 2}, {1, 2}] (ClauseAssign.zero 3)
        (MUSbuilder.init false, [])).2.2,
      (∀ c ∈ x, c ≠ ∅) ∧ NoSubset x ∧ ∀ c ∈ x, ∀ d ∈ x, ¬ d ⊂ c :=
  ⟨by unfold NoSubset Incomparable; decide, by decide,
    (constructMUS_keeps_covers_tidy 4 [{0, 1}, {0, 2}, {1, 2}] (ClauseAssign.zero 3)
      (MUSbuilder.init false) (by unfold NoSubset Incomparable; decide) (by decide)).2.2⟩

/-! ## Lemmas: the frequency-sorted mapping -/

theorem foldl_max_bound (covers : List Cover) (b : Nat) :
    b ≤ covers.foldl (fun b c => max b (c.sup id + 1)) b ∧
    ∀ c ∈ covers, c.sup id + 1 ≤ covers.foldl (fun b c => max b (c.sup id + 1)) b := by
  induction covers generalizing b with
  | nil => exact ⟨le_refl _, fun c hc => absurd hc (List.not_mem_nil _)⟩
  | cons d rest ih =>
    simp only [List.foldl_cons]
    obtain ⟨h1, h2⟩ := ih (max b (d.sup id + 1))
    refine ⟨(le_max_left _ _).trans h1, fun c hc => ?_⟩
    rcases List.mem_cons.mp hc with rfl | hc
    · exact (le_max_right _ _).trans h1
    · exact h2 c hc

/-- The keys of `clauseFrequency` are the numbers that occur in some cover. -/
theorem mem_frequencyKeys (covers : List Cover) (x : Nat) :
    x ∈ frequencyKeys covers ↔ ∃ c ∈ covers, x ∈ c := by
  unfold frequencyKeys
  rw [List.mem_filter, List.mem_range, List.any_eq_true]
  constructor
  · rintro ⟨-, c, hc, hx⟩
    exact ⟨c, hc, by simpa using hx⟩
  · rintro ⟨c, hc, hx⟩
    refine ⟨?_, c, hc, by simpa using hx⟩
    have h1 := (foldl_max_bound covers 0).2 c hc
    have h2 : x ≤ c.sup id := Finset.le_sup (f := id) hx
    omega

theorem frequencyKeys_sorted (covers : List Cover) :
    (frequencyKeys covers).Pairwise (· < ·) :=
  List.Pairwise.filter _ (List.pairwise_lt_range _)

theorem mem_foldr_union (covers : List Cover) (x : Nat) :
    x ∈ covers.foldr (fun c s => c ∪ s) ∅ ↔ ∃ c ∈ covers, x ∈ c := by
  induction covers with
  | nil => simp
  | cons d rest ih => simp [ih]

theorem multimapInsert_perm (k v : Nat) (mm : List (Nat × Nat)) :
    (multimapInsert k v mm).Perm ((k, v) :: mm) := by
  induction mm with
  | nil => exact List.Perm.refl _
  | cons e rest ih =>
    simp only [multimapInsert]
    by_cases h : k < e.1
    · rw [if_pos h]
    · rw [if_neg h]
      exact (List.Perm.cons e ih).trans (List.Perm.swap _ _ _)

/-- Inserting an entry whose value is above all values of a multimap sorted by key and, for
equal keys, by value keeps it sorted so. -/
theorem multimapInsert_sorted (k v : Nat) (mm : List (Nat × Nat))
    (hp : mm.Pairwise (fun e f => e.1 < f.1 ∨ (e.1 = f.1 ∧ e.2 < f.2)))
    (hv : ∀ e ∈ mm, e.2 < v) :
    (multimapInsert k v mm).Pairwise (fun e f => e.1 < f.1 ∨ (e.1 = f.1 ∧ e.2 < f.2)) := by
  induction mm with
  | nil => simp [multimapInsert]
  | cons e rest ih =>
    rw [List.pairwise_cons] at hp
    simp only [multimapInsert]
    by_cases h : k < e.1
    · rw [if_pos h]
      refine List.Pairwise.cons ?_ (List.Pairwise.cons hp.1 hp.2)
      intro f hf
      rcases List.mem_cons.mp hf with rfl | hf
      · exact Or.inl h
      · rcases hp.1 f hf with h1 | h1
        · exact Or.inl (h.trans h1)
        · exact Or.inl (h1.1 ▸ h)
    · rw [if_neg h]
      refine List.Pairwise.cons ?_ (ih hp.2 (fun f hf => hv f (List.mem_cons_of_mem _ hf)))
      intro f hf
      rcases List.mem_cons.mp ((multimapInsert_perm k v rest).subset hf) with rfl | hf
      · rcases Nat.lt_or_eq_of_le (Nat.le_of_not_lt h) with h1 | h1
        · exact Or.inl h1
        · exact Or.inr ⟨h1, hv e (List.mem_cons_self _ _)⟩
      · exact hp.1 f hf

/-- The multimap built from ascending numbers `ks` with the keys `g`: it is sorted by key
and, for equal keys, by number; its entries are the pairs `(g x, x)`; and its values are the
values it had before and the numbers of `ks`. -/
theorem foldl_multimapInsert_spec (g : Nat → Nat) (ks : List Nat) (mm : List (Nat × Nat))
    (hs : ks.Pairwise (· < ·)) (hlt : ∀ e ∈ mm, ∀ x ∈ ks, e.2 < x)
    (hp : mm.Pairwise (fun e f => e.1 < f.1 ∨ (e.1 = f.1 ∧ e.2 < f.2)))
    (hg : ∀ e ∈ mm, e.1 = g e.2) :
    (ks.foldl (fun mm x => multimapInsert (g x) x mm) mm).Pairwise
      (fun e f => e.1 < f.1 ∨ (e.1 = f.1 ∧ e.2 < f.2)) ∧
    (∀ e ∈ ks.foldl (fun mm x => multimapInsert (g x) x mm) mm, e.1 = g e.2) ∧
    ((ks.foldl (fun mm x => multimapInsert (g x) x mm) mm).map Prod.snd).Perm
      (mm.map Prod.snd ++ ks) := by
  induction ks generalizing mm with
  | nil => exact ⟨hp, hg, by simp⟩
  | cons x ks ih =>
    rw [List.pairwise_cons] at hs
    simp only [List.foldl_cons]
    have hperm := multimapInsert_perm (g x) x mm
    obtain ⟨h1, h2, h3⟩ := ih (multimapInsert (g x) x mm) hs.2
      (by
        intro e he y hy
        rcases List.mem_cons.mp (hperm.subset he) with rfl | he
        · exact hs.1 y hy
        · exact hlt e he y (List.mem_cons_of_mem _ hy))
      (multimapInsert_sorted (g x) x mm hp (fun e he => hlt e he x (List.mem_cons_self _ _)))
      (by
        intro e he
        rcases List.mem_cons.mp (hperm.subset he) with rfl | he
        · rfl
        · exact hg e he)
    refine ⟨h1, h2, h3.trans ?_⟩
    have := (hperm.map Prod.snd).append_right ks
    refine this.trans ?_
    simp only [List.map_cons, List.cons_append]
    exact List.perm_middle.symm

/-- The access to a map whose keys are the elements of a list and whose values count up
from `s`: the value for an element of the list is `s` plus its index. -/
theorem at_zip_range' (L : List Nat) (s x : Nat) (hx : x ∈ L) :
    ClauseMap.at (L.zip (List.range' s L.length)) x = s + L.indexOf x := by
  induction L generalizing s with
  | nil => exact absurd hx (List.not_mem_nil _)
  | cons y ys ih =>
    by_cases hy : y = x
    · subst hy
      simp [ClauseMap.at, List.range', List.find?]
    · have hx' : x ∈ ys := (List.mem_cons.mp hx).resolve_left (fun h => hy h.symm)
      have := ih (s + 1) hx'
      unfold ClauseMap.at at this ⊢
      simp only [List.length_cons, List.range', List.zip_cons_cons, List.find?, hy,
        decide_False]
      rw [List.indexOf_cons_ne _ hy]
      exact this.trans (by omega)

/-- The access to a map whose keys count up from `s` and whose values are the elements of a
list: the value for `s + i` is the element with index `i`. -/
theorem at_range'_zip (L : List Nat) (s i : Nat) (hi : i < L.length) :
    ClauseMap.at ((List.range' s L.length).zip L) (s + i) = L.getD i 0 := by
  induction L generalizing s i with
  | nil => exact absurd hi (Nat.not_lt_zero _)
  | cons y ys ih =>
    cases i with
    | zero => simp [ClauseMap.at, List.range', List.find?]
    | succ i =>
      have := ih (s + 1) i (by simpa using hi)
      unfold ClauseMap.at at this ⊢
      have hne : ¬ s = s + (i + 1) := by omega
      have e : s + 1 + i = s + (i + 1) := by omega
      rw [e] at this
      simp only [List.length_cons, List.range', List.zip_cons_cons, List.find?, hne,
        decide_False]
      exact this.trans (by simp)

/-- The original numbers in the order of their dense indices: each number that occurs in a
cover once, in ascending order of frequency and, for equal frequency, of number. -/
theorem frequencyToClause_spec (covers : List Cover) :
    ((frequencyToClause covers).map Prod.snd).Nodup ∧
    (∀ x, x ∈ (frequencyToClause covers).map Prod.snd ↔ ∃ c ∈ covers, x ∈ c) ∧
    ((frequencyToClause covers).map Prod.snd).Pairwise (fun x y =>
      clauseFrequency covers x < clauseFrequency covers y ∨
      (clauseFrequency covers x = clauseFrequency covers y ∧ x < y)) := by
  obtain ⟨h1, h2, h3⟩ := foldl_multimapInsert_spec (clauseFrequency covers)
    (frequencyKeys covers) [] (frequencyKeys_sorted covers)
    (fun e he => absurd he (List.not_mem_nil _)) List.Pairwise.nil
    (fun e he => absurd he (List.not_mem_nil _))
  simp only [List.map_nil, List.nil_append] at h3
  have hnd : (frequencyKeys covers).Nodup :=
    (frequencyKeys_sorted covers).imp (fun h => ne_of_lt h)
  refine ⟨h3.nodup_iff.mpr hnd, fun x => ?_, ?_⟩
  · rw [← mem_frequencyKeys]
    exact h3.mem_iff
  · rw [List.pairwise_map]
    refine List.Pairwise.imp_of_mem ?_ h1
    intro e f he hf hr
    have e1 := h2 e he
    have e2 := h2 f hf
    unfold frequencyToClause at e1 e2
    rw [← e1, ← e2]
    exact hr

/-! ## Claim: the frequency-sorted mapping -/

/-- **C23.**  For every list of covers, with `K` the number of distinct selectors that occur
in a cover: `clauseMapping` maps these selectors into `[0, K)` and `clauseMappingRev` maps
`[0, K)` back onto them, each the inverse of the other; a selector that is in strictly fewer
covers gets a strictly lower dense index, and of two selectors in equally many covers the
one with the lower original number gets the lower dense index. -/
theorem generateMappingSorted_bijection (covers : List Cover) :
    (∀ x ∈ covers.foldr (fun c s => c ∪ s) ∅,
      (generateMappingSorted covers).1.at x < (covers.foldr (fun c s => c ∪ s) ∅).card ∧
      (generateMappingSorted covers).2.at ((generateMappingSorted covers).1.at x) = x) ∧
    (∀ i, i < (covers.foldr (fun c s => c ∪ s) ∅).card →
      (generateMappingSorted covers).2.at i ∈ covers.foldr (fun c s => c ∪ s) ∅ ∧
      (generateMappingSorted covers).1.at ((generateMappingSorted covers).2.at i) = i) ∧
    (∀ x ∈ covers.foldr (fun c s => c ∪ s) ∅, ∀ y ∈ covers.foldr (fun c s => c ∪ s) ∅,
      clauseFrequency covers x < clauseFrequency covers y →
      (generateMappingSorted covers).1.at x < (generateMappingSorted covers).1.at y) ∧
    (∀ x ∈ covers.foldr (fun c s => c ∪ s) ∅, ∀ y ∈ covers.foldr (fun c s => c ∪ s) ∅,
      clauseFrequency covers x = clauseFrequency covers y → x < y →
      (generateMappingSorted covers).1.at x < (generateMappingSorted covers).1.at y) := by
  obtain ⟨hnd, hmem, hpw⟩ := frequencyToClause_spec covers
  generalize hL : (frequencyToClause covers).map Prod.snd = L at hnd hmem hpw
  have hP : ∀ x, x ∈ covers.foldr (fun c s => c ∪ s) ∅ ↔ x ∈ L := fun x => by
    rw [mem_foldr_union, hmem]
  have hK : (covers.foldr (fun c s => c ∪ s) ∅).card = L.length := by
    rw [← List.toFinset_card_of_nodup hnd]
    congr 1
    ext x
    rw [hP, List.mem_toFinset]
  have hlen : (frequencyToClause covers).length = L.length := by
    rw [← hL, List.length_map]
  have h1 : (generateMappingSorted covers).1 = L.zip (List.range' 0 L.length) := by
    unfold generateMappingSorted
    simp only [hL, hlen, List.range_eq_range']
  have h2 : (generateMappingSorted covers).2 = (List.range' 0 L.length).zip L := by
    unfold generateMappingSorted
    simp only [hL, hlen, List.range_eq_range']
  have hat : ∀ x ∈ L, (generateMappingSorted covers).1.at x = L.indexOf x := by
    intro x hx
    rw [h1, at_zip_range' L 0 x hx, Nat.zero_add]
  have hrev : ∀ i (hi : i < L.length), (generateMappingSorted covers).2.at i = L[i] := by
    intro i hi
    have := at_range'_zip L 0 i hi
    rw [Nat.zero_add] at this
    rw [h2, this, List.getD_eq_getElem _ _ hi]
  have hord : ∀ x ∈ L, ∀ y ∈ L,
      (clauseFrequency covers x < clauseFrequency covers y ∨
        (clauseFrequency covers x = clauseFrequency covers y ∧ x < y)) →
      L.indexOf x < L.indexOf y := by
    intro x hx y hy hr
    by_contra hge
    have hne : x ≠ y := by
      rintro rfl
      rcases hr with h | h
      · exact lt_irrefl _ h
      · exact lt_irrefl _ h.2
    have hne' : L.indexOf x ≠ L.indexOf y := fun h => hne ((List.indexOf_inj hx hy).mp h)
    have hlt : L.indexOf y < L.indexOf x := by omega
    have hix := List.indexOf_lt_length.mpr hx
    have hiy := List.indexOf_lt_length.mpr hy
    have := List.pairwise_iff_getElem.mp hpw _ _ hiy hix hlt
    rw [List.getElem_indexOf hiy, List.getElem_indexOf hix] at this
    rcases hr with h | h <;> rcases this with h' | h' <;> omega
  refine ⟨?_, ?_, ?_, ?_⟩
  · intro x hx
    have hxL := (hP x).mp hx
    have hi := List.indexOf_lt_length.mpr hxL
    rw [hat x hxL, hK, hrev _ hi, List.getElem_indexOf hi]
    exact ⟨hi, rfl⟩
  · intro i hi
    rw [hK] at hi
    rw [hrev i hi, hP, hat _ (List.getElem_mem _), List.indexOf_getElem hnd i hi]
    exact ⟨List.getElem_mem _, rfl⟩
  · intro x hx y hy hf
    rw [hat x ((hP x).mp hx), hat y ((hP y).mp hy)]
    exact hord x ((hP x).mp hx) y ((hP y).mp hy) (Or.inl hf)
  · intro x hx y hy hf hxy
    rw [hat x ((hP x).mp hx), hat y ((hP y).mp hy)]
    exact hord x ((hP x).mp hx) y ((hP y).mp hy) (Or.inr ⟨hf, hxy⟩)

/-! ## Claims about the report threshold and the partition file -/

/-- **C21**, evaluation at the failing input.  On the CNF `x1`, `¬x1`, `x1`, `¬x1` (all
MCSes have two selectors) with report threshold 2 and otherwise default options, the run
finishes having reported the two MCSes `{0,2}` and `{1,3}`, of size 2, which is not below
the threshold; with report threshold 1 it reports the same two sets. -/
theorem findMCSes_reports_at_threshold :
    (({ MCSfinder.init (cnf 1 [[1], [-1], [1], [-1]]) with reportThreshold := 2 }).findMCSes
      brute 4).1 = Ending.finished ∧
    (({ MCSfinder.init (cnf 1 [[1], [-1], [1], [-1]]) with reportThreshold := 2 }).findMCSes
      brute 4).2.out = [[0, 2], [1, 3]] ∧
    (({ MCSfinder.init (cnf 1 [[1], [-1], [1], [-1]]) with reportThreshold := 1 }).findMCSes
      brute 4).2.out = [[0, 2], [1, 3]] := by
  decide

/-- **C22**, evaluation at the failing input.  For the partition file with the lines `3`
and `5`: without a final newline the selector count is 2, with a final newline it is 3; the
map is the same in both cases (clauses 1..3 to selector 0, clauses 4..5 to selector 1). -/
theorem parsePartition_trailing_newline :
    (Parser.new.parsePartition [3, 5] false).map Parser.Yvars = some 2 ∧
    (Parser.new.parsePartition [3, 5] true).map Parser.Yvars = some 3 ∧
    (Parser.new.parsePartition [3, 5] false).map Parser.clauseGroupMap
      = some [0, 0, 0, 1, 1] ∧
    (Parser.new.parsePartition [3, 5] true).map Parser.clauseGroupMap
      = some [0, 0, 0, 1, 1] := by
  decide

/-! ## Lemmas: the tagged clauses installed by `get_CNF` -/

theorem taggedFrom_append (exclude : Option (Finset Nat)) (l₁ l₂ : List (List Lit)) (i : Nat) :
    taggedFrom exclude (l₁ ++ l₂) i
      = taggedFrom exclude l₁ i ++ taggedFrom exclude l₂ (i + l₁.length) := by
  induction l₁ generalizing i with
  | nil => simp [taggedFrom]
  | cons cl rest ih =>
    have e : i + (cl :: rest).length = i + 1 + rest.length := by
      simp only [List.length_cons]
      omega
    simp only [List.cons_append, taggedFrom, e]
    split <;> simp [ih (i + 1)]

theorem get_CNF_add_form (o : Collab) (sat : Solver) (cl : List Lit) (t : Nat) :
    (if cl.length = 1 then sat.addUnit o (cl.headD (Lit.mk' 0)) (some t)
      else sat.addClause o cl (some t)) = sat.add o (Constr.clause cl (some t)) := by
  by_cases hl : cl.length = 1
  · rw [if_pos hl]
    obtain ⟨x, rfl⟩ := List.length_eq_one.mp hl
    rfl
  · rw [if_neg hl]
    rfl

/-- Without a group map the clause loop of `get_CNF` in file order installs a prefix of the
tagged clauses, and all of them when it runs through. -/
theorem get_CNF_loop_prefix (o : Collab) (p : Parser) (exclude : Option (Finset Nat))
    (hg : p.haveGroupMap = false) (cls : List (List Lit)) (i : Nat) (sat : Solver) :
    ∃ k, (get_CNF_loop o p exclude cls i i sat).2.constrs
        = sat.constrs ++ (taggedFrom exclude cls i).take k ∧
      ((get_CNF_loop o p exclude cls i i sat).1 = true →
        k = (taggedFrom exclude cls i).length) := by
  induction cls generalizing i sat with
  | nil => exact ⟨0, by simp [get_CNF_loop, taggedFrom], fun _ => by simp [taggedFrom]⟩
  | cons cl rest ih =>
    simp only [get_CNF_loop, hg, Bool.false_eq_true, if_false]
    by_cases hk : exclude = none ∨ ∃ set, exclude = some set ∧ i + 1 ∉ set
    · rw [if_pos hk, get_CNF_add_form]
      simp only [taggedFrom, if_pos hk]
      rcases hadd : sat.add o (Constr.clause cl (some (i + 1))) with ⟨r1, sat1⟩
      obtain ⟨e1, -⟩ := add_spec o sat sat1 _ r1 hadd
      cases r1 with
      | false => exact ⟨1, by simp [e1], fun h => absurd h (by simp)⟩
      | true =>
        obtain ⟨k, h1, h2⟩ := ih (i + 1) sat1
        refine ⟨k + 1, ?_, fun h => ?_⟩
        · simp only
          rw [h1, e1]
          simp
        · simp only at h
          rw [h2 h]
          simp
    · rw [if_neg hk]
      simp only [taggedFrom, if_neg hk]
      exact ih (i + 1) sat

/-- Without a group map the clause loop of `get_CNF` in reverse order installs a prefix of
the tagged clauses in reverse sequence, and all of them when it runs through. -/
theorem get_CNF_rev_loop_prefix (o : Collab) (p : Parser) (exclude : Option (Finset Nat))
    (hg : p.haveGroupMap = false) (l : List (List Lit)) (sat : Solver) :
    ∃ k, (get_CNF_rev_loop o p exclude l (l.length - 1) sat).2.constrs
        = sat.constrs ++ (taggedFrom exclude l.reverse 0).reverse.take k ∧
      ((get_CNF_rev_loop o p exclude l (l.length - 1) sat).1 = true →
        k = (taggedFrom exclude l.reverse 0).reverse.length) := by
  induction l generalizing sat with
  | nil => exact ⟨0, by simp [get_CNF_rev_loop, taggedFrom], fun _ => by simp [taggedFrom]⟩
  | cons cl rest ih =>
    have hlen : (cl :: rest).length - 1 = rest.length := by simp
    simp only [get_CNF_rev_loop, hg, Bool.false_eq_true, if_false, hlen, List.reverse_cons,
      taggedFrom_append, List.reverse_append, List.length_reverse, Nat.zero_add]
    by_cases hk : exclude = none ∨ ∃ set, exclude = some set ∧ rest.length + 1 ∉ set
    · rw [if_pos hk, get_CNF_add_form]
      simp only [taggedFrom, if_pos hk]
      rcases hadd : sat.add o (Constr.clause cl (some (rest.length + 1))) with ⟨r1, sat1⟩
      obtain ⟨e1, -⟩ := add_spec o sat sat1 _ r1 hadd
      cases r1 with
      | false => exact ⟨1, by simp [e1], fun h => absurd h (by simp)⟩
      | true =>
        obtain ⟨k, h1, h2⟩ := ih sat1
        refine ⟨k + 1, ?_, fun h => ?_⟩
        · simp only
          rw [h1, e1]
          simp
        · simp only at h
          rw [h2 h]
          simp
    · rw [if_neg hk]
      simp only [taggedFrom, if_neg hk]
      obtain ⟨k, h1, h2⟩ := ih sat
      exact ⟨k, by simpa using h1, fun h => by simpa using h2 h⟩

/-! ## Claim: the tags of `get_CNF` in both directions -/

/-- Counterexample to **C30** as stated: on the CNF with the empty clause followed by the
clause `x1`, without group map and without exclude set, `get_CNF` in file order returns at
the rejected empty clause and has installed only the pair (empty clause, 1), while in reverse
order it has installed the pair (`x1`, 2) as well. -/
theorem get_CNF_directions_differ :
    (cnf 1 [[], [1]]).haveGroupMap = false ∧
    ((cnf 1 [[], [1]]).get_CNF brute Solver.fresh none).2.constrs
      = [Constr.clause [] (some 1)] ∧
    ((cnf 1 [[], [1]]).get_CNF_rev brute Solver.fresh none).2.constrs
      = [Constr.clause [Lit.mk' 0] (some 2), Constr.clause [] (some 1)] := by
  decide

/-- **C30**, amended.  Without a group map, `get_CNF` installs clause `i` with the tag
`i + 1` in both directions and skips exactly the clauses whose tag is in the exclude set:
in file order it installs a prefix of the sequence of these (clause, tag) pairs, in reverse
order a prefix of the reverse sequence, each up to the first addition that the solver
rejects and the whole sequence when the call returns `true`; so when both calls return
`true`, the second has installed exactly the pairs of the first, in reverse sequence. -/
theorem get_CNF_tags_both_ways (o : Collab) (p : Parser) (sat : Solver)
    (exclude : Option (Finset Nat)) (hg : p.haveGroupMap = false) :
    (∃ k, (p.get_CNF o sat exclude).2.constrs
        = sat.constrs ++ (taggedFrom exclude p.origCNF 0).take k ∧
      ((p.get_CNF o sat exclude).1 = true → k = (taggedFrom exclude p.origCNF 0).length)) ∧
    (∃ k, (p.get_CNF_rev o sat exclude).2.constrs
        = sat.constrs ++ (taggedFrom exclude p.origCNF 0).reverse.take k ∧
      ((p.get_CNF_rev o sat exclude).1 = true →
        k = (taggedFrom exclude p.origCNF 0).length)) ∧
    ((p.get_CNF o sat exclude).1 = true → (p.get_CNF_rev o sat exclude).1 = true →
      (p.get_CNF o sat exclude).2.constrs = sat.constrs ++ taggedFrom exclude p.origCNF 0 ∧
      (p.get_CNF_rev o sat exclude).2.constrs
        = sat.constrs ++ (taggedFrom exclude p.origCNF 0).reverse) := by
  obtain ⟨n1, -⟩ := newVarsUpTo_constrs p.CNFvars sat
  have hf : ∃ k, (p.get_CNF o sat exclude).2.constrs
        = sat.constrs ++ (taggedFrom exclude p.origCNF 0).take k ∧
      ((p.get_CNF o sat exclude).1 = true → k = (taggedFrom exclude p.origCNF 0).length) := by
    obtain ⟨k, h1, h2⟩ := get_CNF_loop_prefix o p exclude hg p.origCNF 0
      (newVarsUpTo p.CNFvars sat)
    rw [n1] at h1
    unfold Parser.get_CNF
    rcases hl : get_CNF_loop o p exclude p.origCNF 0 0 (newVarsUpTo p.CNFvars sat)
      with ⟨r, sat1⟩
    rw [hl] at h1 h2
    cases r with
    | false => exact ⟨k, h1, fun h => absurd h (by simp)⟩
    | true => exact ⟨k, h1, fun _ => h2 rfl⟩
  have hr : ∃ k, (p.get_CNF_rev o sat exclude).2.constrs
        = sat.constrs ++ (taggedFrom exclude p.origCNF 0).reverse.take k ∧
      ((p.get_CNF_rev o sat exclude).1 = true →
        k = (taggedFrom exclude p.origCNF 0).length) := by
    obtain ⟨k, h1, h2⟩ := get_CNF_rev_loop_prefix o p exclude hg p.origCNF.reverse
      (newVarsUpTo p.CNFvars sat)
    rw [n1] at h1
    simp only [List.reverse_reverse, List.length_reverse] at h1 h2
    unfold Parser.get_CNF_rev
    rcases hl : get_CNF_rev_loop o p exclude p.origCNF.reverse (p.origCNF.length - 1)
      (newVarsUpTo p.CNFvars sat) with ⟨r, sat1⟩
    rw [hl] at h1 h2
    cases r with
    | false => exact ⟨k, h1, fun h => absurd h (by simp)⟩
    | true => exact ⟨k, h1, fun _ => h2 rfl⟩
  refine ⟨hf, hr, fun h1 h2 => ?_⟩
  obtain ⟨k, e1, e2⟩ := hf
  obtain ⟨k', e1', e2'⟩ := hr
  rw [e1, e1', e2 h1, e2' h2]
  refine ⟨by rw [List.take_length], ?_⟩
  rw [← List.length_reverse, List.take_length]

/-- Witness of the amended **C30**: the CNF of scenario S4 without exclude set. -/
theorem get_CNF_tags_both_ways_witness :
    scenarioS4.haveGroupMap = false ∧
    (scenarioS4.get_CNF brute Solver.fresh none).1 = true ∧
    (scenarioS4.get_CNF_rev brute Solver.fresh none).1 = true ∧
    (scenarioS4.get_CNF brute Solver.fresh none).2.constrs
      = Solver.fresh.constrs ++ taggedFrom none scenarioS4.origCNF 0 ∧
    (scenarioS4.get_CNF_rev brute Solver.fresh none).2.constrs
      = Solver.fresh.constrs ++ (taggedFrom none scenarioS4.origCNF 0).reverse :=
  ⟨by decide, by decide, by decide,
    (get_CNF_tags_both_ways brute scenarioS4 Solver.fresh none (by decide)).2.2
      (by decide) (by decide)⟩

/-! ## Claims about the MCS family: subsumption and the resume file -/

/-- **C32**, evaluation at the failing input.  On the family `{0,1}`, `{0}`, `{0,2}` (in
this order, selectors ascending) `removeSubsumed` returns the family `{0}`, `{0,2}`, in which
`{0,2}` is a strict superset of `{0}`; on the family `[2,1]`, `[1]` (first entry not in
ascending order) it removes nothing; and on the family `{0,1}`, `{0}` it reads the vector
past its end. -/
theorem removeSubsumed_leaves_subsumed :
    (({ MCSfinder.init scenarioS4 with MCSes := [[0, 1], [0], [0, 2]] } : MCSfinder).removeSubsumed.map
      MCSfinder.MCSes) = some [[0], [0, 2]] ∧
    (({ MCSfinder.init scenarioS4 with MCSes := [[2, 1], [1]] } : MCSfinder).removeSubsumed.map
      MCSfinder.MCSes) = some [[2, 1], [1]] ∧
    (({ MCSfinder.init scenarioS4 with MCSes := [[0, 1], [0]] } : MCSfinder).removeSubsumed.map
      MCSfinder.MCSes) = none := by
  decide

/-- The loop of `parseMCSes` on the printed form of MCSes that are non-empty and of
non-decreasing size keeps every line. -/
theorem parseMCSesLoop_printed (F : List (List Nat)) (size : Nat) (ret : List (List Nat))
    (hne : ∀ M ∈ F, M ≠ []) (hsize : (F.map List.length).Chain (· ≤ ·) size) :
    parseMCSesLoop (F.map (fun M => M.map (fun y => y + 1))) size ret = some (ret ++ F) := by
  induction F generalizing size ret with
  | nil => simp [parseMCSesLoop]
  | cons M rest ih =>
    rw [List.map_cons, List.chain_cons] at hsize
    have hM := hne M (List.mem_cons_self _ _)
    have herr : ¬ (M.map (fun y => y + 1) = [] ∨ 0 ∈ M.map (fun y => y + 1)) := by
      rintro (h | h)
      · exact hM (List.map_eq_nil_iff.mp h)
      · rw [List.mem_map] at h
        obtain ⟨y, -, hy⟩ := h
        exact Nat.succ_ne_zero y hy
    have hlen : ¬ (M.map (fun y => y + 1)).length < size := by
      rw [List.length_map]
      exact Nat.not_lt.mpr hsize.1
    have hback : (M.map (fun y => y + 1)).map (fun clauseNum => clauseNum - 1) = M := by
      rw [List.map_map]
      conv_rhs => rw [← List.map_id M]
      apply List.map_congr_left
      intro y _
      simp
    simp only [List.map_cons, parseMCSesLoop]
    rw [if_neg herr, if_neg hlen, hback, List.length_map,
      ih M.length (ret ++ [M]) (fun N hN => hne N (List.mem_cons_of_mem _ hN)) hsize.2]
    simp

/-- **C33.**  Resume round trip: for every family of non-empty MCSes listed in
non-decreasing size, the lines that `solve` prints (every selector as index + 1, one MCS per
line), read back by `parseMCSes`, give exactly the same family, in the same order and with
the same 0-based selectors. -/
theorem parseMCSes_round_trip (F : List (List Nat)) (hne : ∀ M ∈ F, M ≠ [])
    (hsize : (F.map List.length).Chain' (· ≤ ·)) :
    parseMCSes (F.map (fun M => M.map (fun y => y + 1))) = some F := by
  unfold parseMCSes
  have hchain : (F.map List.length).Chain (· ≤ ·) 0 := by
    cases hF : F.map List.length with
    | nil => exact List.Chain.nil
    | cons a as =>
      rw [hF] at hsize
      exact List.Chain.cons (Nat.zero_le _) hsize
  rw [parseMCSesLoop_printed F 0 [] hne hchain]
  simp

/-- Witness of **C33**: the family `{0}`, `{1,2}`, `{0,3}`. -/
theorem parseMCSes_round_trip_witness :
    (∀ M ∈ ([[0], [1, 2], [0, 3]] : List (List Nat)), M ≠ []) ∧
    parseMCSes [[1], [2, 3], [1, 4]] = some [[0], [1, 2], [0, 3]] :=
  ⟨by decide, parseMCSes_round_trip [[0], [1, 2], [0, 3]] (by decide) (by simp)⟩

/-! ## Lemmas: termination of `mis_quick` -/

/-- The cover selected by the first loop of `mis_quick` has at most as many elements as any
cover of the list. -/
theorem shortest_card_le (covers : List Cover) (minLength : Nat) (r0 : Cover)
    (h0 : r0.card ≤ minLength) :
    (shortest covers minLength r0).card ≤ minLength ∧
    ∀ c ∈ covers, (shortest covers minLength r0).card ≤ c.card := by
  induction covers generalizing minLength r0 with
  | nil => exact ⟨h0, fun c hc => absurd hc (List.not_mem_nil _)⟩
  | cons d rest ih =>
    simp only [shortest]
    by_cases hd : d.card < minLength
    · rw [if_pos hd]
      obtain ⟨h1, h2⟩ := ih d.card d (le_refl _)
      refine ⟨h1.trans (Nat.le_of_lt hd), fun c hc => ?_⟩
      rcases List.mem_cons.mp hc with rfl | hc
      · exact h1
      · exact h2 c hc
    · rw [if_neg hd]
      obtain ⟨h1, h2⟩ := ih minLength r0 h0
      refine ⟨h1, fun c hc => ?_⟩
      rcases List.mem_cons.mp hc with rfl | hc
      · exact h1.trans (Nat.le_of_not_lt hd)
      · exact h2 c hc

/-! ## Claim: termination of `mis_quick` -/

/-- Counterexample to **C37** as stated: on the list that holds the single non-empty cover
`{0, …, 2^30 - 1}` the loop of `mis_quick` never ends: no cover has fewer than `1<<30`
elements, so none is selected and none is removed. -/
theorem mis_quick_hangs_on_large_cover :
    Finset.range (2 ^ 30) ≠ ∅ ∧ mis_quick [Finset.range (2 ^ 30)] = none := by
  refine ⟨?_, ?_⟩
  · intro h
    have : (0 : Nat) ∈ Finset.range (2 ^ 30) := Finset.mem_range.mpr (Nat.two_pow_pos 30)
    rw [h] at this
    exact absurd this (Finset.not_mem_empty 0)
  · unfold mis_quick
    apply misLoop_stuck _ _ _ (List.cons_ne_nil _ _)
    have hc : ¬ (Finset.range (2 ^ 30)).card < 2 ^ 30 := by
      rw [Finset.card_range]
      exact Nat.lt_irrefl _
    simp only [shortest, if_neg hc]

/-- **C37**, amended.  On every list of non-empty covers that each have fewer than `2^30`
selectors `mis_quick` returns, and each pass of its outer loop on such a list removes at
least one cover (the shortest one, which it selected); on a list that contains an empty
cover the loop never ends. -/
theorem mis_quick_terminates (covers : List Cover) :
    ((∀ c ∈ covers, c ≠ ∅) → (∀ c ∈ covers, c.card < 2 ^ 30) →
      (∃ r, mis_quick covers = some r) ∧
      (covers ≠ [] →
        (covers.filter (fun c => decide (c ∩ shortest covers (2 ^ 30) ∅ = ∅))).length
          < covers.length)) ∧
    (∅ ∈ covers → mis_quick covers = none) := by
  refine ⟨fun hne hs => ⟨misLoop_returns _ covers 0 hne hs (le_refl _), fun hnil => ?_⟩,
    fun hemp => ?_⟩
  · rcases shortest_spec covers (2 ^ 30) ∅ with ⟨-, h⟩ | ⟨hmem, -⟩
    · obtain ⟨c, hc⟩ := List.exists_mem_of_ne_nil covers hnil
      exact absurd (hs c hc) (Nat.not_lt.mpr (h c hc))
    · apply List.length_filter_lt_length_iff_exists.mpr
      refine ⟨_, hmem, ?_⟩
      have hne' := hne _ hmem
      simpa using hne'
  · unfold mis_quick
    have hne : covers ≠ [] := List.ne_nil_of_mem hemp
    apply misLoop_stuck _ _ _ hne
    have := (shortest_card_le covers (2 ^ 30) ∅ (by simp)).2 ∅ hemp
    rw [Finset.card_empty, Nat.le_zero, Finset.card_eq_zero] at this
    exact this

/-- Witness of the amended **C37**: the covers `{0,1}`, `{0,2}`, `{1,2}`. -/
theorem mis_quick_terminates_witness :
    (∀ c ∈ ([{0, 1}, {0, 2}, {1, 2}] : List Cover), c ≠ ∅) ∧
    (∀ c ∈ ([{0, 1}, {0, 2}, {1, 2}] : List Cover), c.card < 2 ^ 30) ∧
    ∃ r, mis_quick [{0, 1}, {0, 2}, {1, 2}] = some r :=
  ⟨by decide, by decide,
    ((mis_quick_terminates [{0, 1}, {0, 2}, {1, 2}]).1 (by decide) (by decide)).1⟩

/-! ## Claim: the bound of branch-and-bound over a run -/

theorem getLastD_le_of_pairwise (d : Int) (l : List Int)
    (h : (d :: l).Pairwise (fun x y => y < x)) : ∀ x ∈ d :: l, l.getLastD d ≤ x := by
  induction l generalizing d with
  | nil =>
    intro x hx
    rw [List.mem_singleton] at hx
    rw [hx]
    exact le_refl _
  | cons e l ih =>
    rw [List.pairwise_cons] at h
    intro x hx
    rw [List.getLastD_cons]
    rcases List.mem_cons.mp hx with rfl | hx
    · exact (ih e h.2 e (List.mem_cons_self _ _)).trans (le_of_lt (h.1 e (List.mem_cons_self _ _)))
    · exact ih e h.2 x hx

/-- **C40.**  With branch-and-bound enabled, in every run of `constructMUS` that starts with
a fresh builder, the values of `bbUpper` over the run, `INT_MAX` followed by `numPos` of
each emitted MUS in order of emission, are strictly decreasing (every emitted MUS has
strictly fewer selected positions than every MUS emitted before it), and `bbUpper` ends as
the last of them. -/
theorem bbUpper_strictly_decreasing (n : Nat) (covers : List Cover) (a : ClauseAssign) :
    (INT_MAX :: (constructMUS n covers a (MUSbuilder.init true)).2.out.map
      ClauseAssign.numPos).Pairwise (fun x y => y < x) ∧
    (constructMUS n covers a (MUSbuilder.init true)).2.bbUpper =
      ((constructMUS n covers a (MUSbuilder.init true)).2.out.map
        ClauseAssign.numPos).getLastD INT_MAX := by
  have key := constructMUS_inv
    (P := fun b => b.doBB = true ∧
      (INT_MAX :: b.out.map ClauseAssign.numPos).Pairwise (fun x y => y < x) ∧
      b.bbUpper = (b.out.map ClauseAssign.numPos).getLastD INT_MAX)
    (C := fun _ a' => a'.vals.length = a.vals.length)
    (E := fun _ a' => a'.vals.length = a.vals.length)
    (Q := fun _ a' => a'.vals.length = a.vals.length) (K := a.vals.length)
    (fun _ _ h => h)
    (fun covers a1 cs a0 h hp => by
      obtain ⟨-, hl, -⟩ := propagateSingletons_spec _ _ _ _ hp
      exact hl.trans h)
    (fun _ _ h => h)
    (fun covers a1 cur c nc na h _ _ hr => by
      obtain ⟨-, -, -, -, hl, -⟩ := removeClauseAndCover_spec _ _ _ _ _ _ hr
      rw [hl]
      simpa [ClauseAssign.put] using h)
    (fun covers a1 cur cs h _ _ _ => by simpa [ClauseAssign.put] using h)
    (fun a0 b hb => hb)
    (fun a0 b _ hb hbh _ => by
      obtain ⟨h1, h2, h3⟩ := hb
      have hlt : a0.numPos < b.bbUpper := by
        simp only [boundHit, h1, if_true, mis_quick_nil, Option.some.injEq,
          decide_eq_false_iff_not, add_zero, ge_iff_le, not_le] at hbh
        exact hbh
      refine ⟨h1, ?_, ?_⟩
      · simp only [List.map_append, List.map_cons, List.map_nil]
        rw [← List.cons_append, List.pairwise_append]
        refine ⟨h2, List.pairwise_singleton _ _, ?_⟩
        intro x hx y hy
        rw [List.mem_singleton] at hy
        rw [hy]
        have := getLastD_le_of_pairwise _ _ h2 x hx
        rw [← h3] at this
        exact lt_of_lt_of_le hlt this
      · simp only [List.map_append, List.map_cons, List.map_nil, List.getLastD_concat])
    n covers a (MUSbuilder.init true) rfl
    ⟨rfl, by simp [MUSbuilder.init], rfl⟩
  exact key.2

/-! ## Claim: the exits of the outer loop of `findMCSes` -/

theorem brute_searchLoop_isSome (s : Solver) : (searchLoop brute 1 s).isSome = true := by
  simp only [searchLoop]
  have hsplit : s.search brute = ((s.search brute).1, (s.search brute).2) := rfl
  rw [hsplit]
  have h1 : (s.search brute).1 = (brute.searchRet s).1 := rfl
  cases hres : (s.search brute).1 with
  | lUndef =>
    rw [h1] at hres
    simp only [brute] at hres
    cases hb : bruteFind s <;> rw [hb] at hres <;> simp at hres
  | lTrue => rfl
  | lFalse => rfl

/-- When every search reaches a definite answer within the budget, the outer loop of `grow`
returns. -/
theorem growLoop_isSome (o : Collab) (fuel nvars lowbound : Nat)
    (hfuel : ∀ s, (searchLoop o fuel s).isSome = true) (n : Nat) (kept todo : List Nat)
    (sat : Solver) (curSize : Nat) :
    (growLoop o fuel nvars lowbound n kept todo sat curSize).isSome = true := by
  induction n generalizing kept todo sat curSize with
  | zero => rfl
  | succ n ih =>
    cases todo with
    | nil => rfl
    | cons i rest =>
      simp only [growLoop]
      rcases hA : sat.assume o (Lit.mk' (i + nvars)) with ⟨b1, sat1⟩
      cases b1 with
      | false => exact ih _ _ _ _
      | true =>
        simp only
        rcases hP : sat1.propagate o with ⟨b2, sat2⟩
        cases b2 with
        | false => exact ih _ _ _ _
        | true =>
          simp only
          have hI := hfuel { sat2 with root_level := sat2.decisionLevel }
          cases hres : itsolve o fuel sat2 with
          | none =>
            unfold itsolve at hres
            rw [hres] at hI
            exact absurd hI (by simp)
          | some res =>
            obtain ⟨b3, sat3⟩ := res
            cases b3 with
            | false => exact ih _ _ _ _
            | true =>
              simp only
              rcases hG : growCollateral o nvars lowbound rest sat3 (curSize - 1)
                with ⟨rest', sat4, cs'⟩
              simp only
              by_cases hb : lowbound ≠ 0 ∧ cs' = lowbound
              · rw [if_pos hb]
                rfl
              · rw [if_neg hb]
                exact ih _ _ _ _

theorem growCollateral_sublist (o : Collab) (nvars lowbound : Nat) (rest : List Nat)
    (sat : Solver) (curSize : Nat) :
    (growCollateral o nvars lowbound rest sat curSize).1.Sublist rest := by
  induction rest generalizing sat curSize with
  | nil => exact List.Sublist.refl _
  | cons j rest ih =>
    simp only [growCollateral]
    by_cases hm : sat.model (nvars + j) = true
    · rw [if_pos hm]
      by_cases hb : lowbound ≠ 0 ∧ curSize - 1 = lowbound
      · rw [if_pos hb]
        exact List.sublist_cons_self _ _
      · rw [if_neg hb]
        exact (ih _ _).trans (List.sublist_cons_self _ _)
    · rw [if_neg hm]
      exact (ih sat curSize).cons₂ j

/-- The set returned by the outer loop of `grow` is the given one with some members
removed, in the same order. -/
theorem growLoop_sublist (o : Collab) (fuel nvars lowbound : Nat) (n : Nat)
    (kept todo : List Nat) (sat : Solver) (curSize : Nat) (MCS' : List Nat) (sat' : Solver)
    (h : growLoop o fuel nvars lowbound n kept todo sat curSize = some (MCS', sat')) :
    MCS'.Sublist (kept ++ todo) := by
  induction n generalizing kept todo sat curSize with
  | zero =>
    simp only [growLoop, Option.some.injEq, Prod.mk.injEq] at h
    rw [← h.1]
  | succ n ih =>
    cases todo with
    | nil =>
      simp only [growLoop, Option.some.injEq, Prod.mk.injEq] at h
      rw [← h.1]
      simp
    | cons i rest =>
      have keep : ∀ s2 : Solver,
          growLoop o fuel nvars lowbound n (kept ++ [i]) rest s2 curSize = some (MCS', sat') →
          MCS'.Sublist (kept ++ i :: rest) := by
        intro s2 hrun
        have := ih _ _ _ _ hrun
        simpa using this
      simp only [growLoop] at h
      rcases hA : sat.assume o (Lit.mk' (i + nvars)) with ⟨b1, sat1⟩
      rw [hA] at h
      cases b1 with
      | false => exact keep _ h
      | true =>
        simp only at h
        rcases hP : sat1.propagate o with ⟨b2, sat2⟩
        rw [hP] at h
        cases b2 with
        | false => exact keep _ h
        | true =>
          simp only at h
          cases hI : itsolve o fuel sat2 with
          | none => rw [hI] at h; exact absurd h (by simp)
          | some res =>
            obtain ⟨b3, sat3⟩ := res
            rw [hI] at h
            cases b3 with
            | false => exact keep _ h
            | true =>
              simp only at h
              have hsub := growCollateral_sublist o nvars lowbound rest sat3 (curSize - 1)
              rcases hG : growCollateral o nvars lowbound rest sat3 (curSize - 1)
                with ⟨rest', sat4, cs'⟩
              rw [hG] at h hsub
              simp only at h hsub
              have hall : (kept ++ rest').Sublist (kept ++ i :: rest) :=
                List.Sublist.append (List.Sublist.refl _)
                  (hsub.trans (List.sublist_cons_self _ _))
              by_cases hb : lowbound ≠ 0 ∧ cs' = lowbound
              · rw [if_pos hb] at h
                simp only [Option.some.injEq, Prod.mk.injEq] at h
                rw [← h.1]
                exact hall
              · rw [if_neg hb] at h
                exact (ih _ _ _ _ h).trans hall

/-- The flagged loop computes the result of `growLoop`. -/
theorem growLoopJ_eq (o : Collab) (fuel nvars lowbound : Nat) (n : Nat)
    (kept todo : List Nat) (sat : Solver) (curSize : Nat) (jumped : Bool) :
    (growLoopJ o fuel nvars lowbound n kept todo sat curSize jumped).map
        (fun r => (r.1, r.2.1))
      = growLoop o fuel nvars lowbound n kept todo sat curSize := by
  induction n generalizing kept todo sat curSize jumped with
  | zero => rfl
  | succ n ih =>
    cases todo with
    | nil => rfl
    | cons i rest =>
      simp only [growLoopJ, growLoop]
      rcases hA : sat.assume o (Lit.mk' (i + nvars)) with ⟨b1, sat1⟩
      cases b1 with
      | false => exact ih _ _ _ _ _
      | true =>
        simp only
        rcases hP : sat1.propagate o with ⟨b2, sat2⟩
        cases b2 with
        | false => exact ih _ _ _ _ _
        | true =>
          simp only
          cases hres : itsolve o fuel sat2 with
          | none => rfl
          | some res =>
            obtain ⟨b3, sat3⟩ := res
            cases b3 with
            | false => exact ih _ _ _ _ _
            | true =>
              simp only
              rcases hG : growCollateral o nvars lowbound rest sat3 (curSize - 1)
                with ⟨rest', sat4, cs'⟩
              simp only
              by_cases hb : lowbound ≠ 0 ∧ cs' = lowbound
              · rw [if_pos hb, if_pos hb]
                rfl
              · rw [if_neg hb, if_neg hb]
                exact ih _ _ _ _ _

/-- The counter of the collateral loop tracks the set: it is decremented once for each
member removed. -/
theorem growCollateral_counter (o : Collab) (nvars lowbound : Nat) (rest : List Nat)
    (sat : Solver) (curSize : Nat) (hlen : rest.length ≤ curSize) :
    (growCollateral o nvars lowbound rest sat curSize).2.2 + rest.length
      = curSize + (growCollateral o nvars lowbound rest sat curSize).1.length := by
  induction rest generalizing sat curSize with
  | nil => rfl
  | cons j rest ih =>
    simp only [growCollateral]
    simp only [List.length_cons] at hlen
    by_cases hm : sat.model (nvars + j) = true
    · rw [if_pos hm]
      by_cases hb : lowbound ≠ 0 ∧ curSize - 1 = lowbound
      · rw [if_pos hb]
        simp only [List.length_cons]
        omega
      · rw [if_neg hb]
        have := ih ((sat.assume o (Lit.mk' (j + nvars))).2.propagate o).2 (curSize - 1)
          (by omega)
        simp only [List.length_cons]
        omega
    · rw [if_neg hm]
      have := ih sat curSize (by omega)
      rcases hG : growCollateral o nvars lowbound rest sat curSize with ⟨k, s1, c1⟩
      rw [hG] at this
      simp only [List.length_cons] at this ⊢
      omega

/-- The collateral loop entered with the counter above a non-zero `lowbound` stops as soon
as the counter equals `lowbound`: it never takes the counter below it. -/
theorem growCollateral_stops (o : Collab) (nvars lowbound : Nat) (rest : List Nat)
    (sat : Solver) (curSize : Nat) (hl : lowbound ≠ 0) (habove : lowbound < curSize) :
    lowbound ≤ (growCollateral o nvars lowbound rest sat curSize).2.2 := by
  induction rest generalizing sat curSize with
  | nil => exact Nat.le_of_lt habove
  | cons j rest ih =>
    simp only [growCollateral]
    by_cases hm : sat.model (nvars + j) = true
    · rw [if_pos hm]
      by_cases hb : lowbound ≠ 0 ∧ curSize - 1 = lowbound
      · rw [if_pos hb]
        exact Nat.le_of_eq hb.2.symm
      · rw [if_neg hb]
        have hne : curSize - 1 ≠ lowbound := fun h => hb ⟨hl, h⟩
        exact ih _ (curSize - 1) (by omega)
    · rw [if_neg hm]
      have := ih sat curSize habove
      rcases hG : growCollateral o nvars lowbound rest sat curSize with ⟨k, s1, c1⟩
      rw [hG] at this
      exact this

/-- The collateral loop entered with the counter at or below a non-zero `lowbound` is never
left by its test: it removes every member whose y-variable the model makes true. -/
theorem growCollateral_passed (o : Collab) (nvars lowbound : Nat) (rest : List Nat)
    (sat : Solver) (curSize : Nat) (hbelow : curSize ≤ lowbound)
    (hlen : rest.length ≤ curSize) :
    (growCollateral o nvars lowbound rest sat curSize).2.2
        + (rest.filter (fun j => sat.model (nvars + j))).length = curSize := by
  induction rest generalizing sat curSize with
  | nil => rfl
  | cons j rest ih =>
    simp only [growCollateral]
    simp only [List.length_cons] at hlen
    by_cases hm : sat.model (nvars + j) = true
    · rw [if_pos hm]
      have hb : ¬ (lowbound ≠ 0 ∧ curSize - 1 = lowbound) := by
        intro h
        omega
      rw [if_neg hb]
      have := ih ((sat.assume o (Lit.mk' (j + nvars))).2.propagate o).2 (curSize - 1)
        (by omega) (by omega)
      simp only [propagate_model, assume_model] at this
      simp only [List.filter_cons, hm, ↓reduceIte, List.length_cons]
      omega
    · rw [if_neg hm]
      have := ih sat curSize hbelow (by omega)
      rcases hG : growCollateral o nvars lowbound rest sat curSize with ⟨k, s1, c1⟩
      rw [hG] at this
      simp only [List.filter_cons, hm, ↓reduceIte]
      exact this

theorem any_iff_filter_pos (l : List Nat) (p : Nat → Bool) :
    l.any p = true ↔ 0 < (l.filter p).length := by
  rw [List.length_pos, List.any_eq_true]
  constructor
  · rintro ⟨x, hx, hp⟩
    exact List.ne_nil_of_mem (List.mem_filter.mpr ⟨hx, hp⟩)
  · intro h
    obtain ⟨x, hx⟩ := List.exists_mem_of_ne_nil _ h
    exact ⟨x, (List.mem_filter.mp hx).1, (List.mem_filter.mp hx).2⟩

/-- The invariant of the flagged loop for a non-zero `lowbound`: the counter is the size of
the set; while the flag is not set the counter is above `lowbound` at the head of every pass,
and once it is set the counter is below it.  So the set returned has at least `lowbound`
members when the flag is not set and fewer when it is. -/
theorem growLoopJ_bound (o : Collab) (fuel nvars lowbound : Nat) (hl : lowbound ≠ 0) (n : Nat)
    (kept todo : List Nat) (sat : Solver) (curSize : Nat) (jumped : Bool)
    (hcs : curSize = kept.length + todo.length)
    (h0 : jumped = false → lowbound < curSize) (h1 : jumped = true → curSize < lowbound)
    (MCS' : List Nat) (sat' : Solver) (jumped' : Bool)
    (h : growLoopJ o fuel nvars lowbound n kept todo sat curSize jumped
      = some (MCS', sat', jumped')) :
    (jumped' = false → lowbound ≤ MCS'.length) ∧ (jumped' = true → MCS'.length < lowbound)
    := by
  induction n generalizing kept todo sat curSize jumped with
  | zero =>
    simp only [growLoopJ, Option.some.injEq, Prod.mk.injEq] at h
    obtain ⟨rfl, -, rfl⟩ := h
    rw [List.length_append, ← hcs]
    exact ⟨fun hj => Nat.le_of_lt (h0 hj), h1⟩
  | succ n ih =>
    cases todo with
    | nil =>
      simp only [growLoopJ, Option.some.injEq, Prod.mk.injEq] at h
      obtain ⟨rfl, -, rfl⟩ := h
      simp only [List.length_nil, Nat.add_zero] at hcs
      rw [← hcs]
      exact ⟨fun hj => Nat.le_of_lt (h0 hj), h1⟩
    | cons i rest =>
      simp only [List.length_cons] at hcs
      have keep : ∀ s2 : Solver,
          growLoopJ o fuel nvars lowbound n (kept ++ [i]) rest s2 curSize jumped
            = some (MCS', sat', jumped') →
          (jumped' = false → lowbound ≤ MCS'.length) ∧
            (jumped' = true → MCS'.length < lowbound) := by
        intro s2 hrun
        exact ih (kept ++ [i]) rest s2 curSize jumped
          (by simp only [List.length_append, List.length_singleton]; omega) h0 h1 hrun
      simp only [growLoopJ] at h
      rcases hA : sat.assume o (Lit.mk' (i + nvars)) with ⟨b1, sat1⟩
      rw [hA] at h
      cases b1 with
      | false => exact keep _ h
      | true =>
        simp only at h
        rcases hP : sat1.propagate o with ⟨b2, sat2⟩
        rw [hP] at h
        cases b2 with
        | false => exact keep _ h
        | true =>
          simp only at h
          cases hI : itsolve o fuel sat2 with
          | none => rw [hI] at h; exact absurd h (by simp)
          | some res =>
            obtain ⟨b3, sat3⟩ := res
            rw [hI] at h
            cases b3 with
            | false => exact keep _ h
            | true =>
              simp only at h
              have hlen : rest.length ≤ curSize - 1 := by omega
              have hcount := growCollateral_counter o nvars lowbound rest sat3 (curSize - 1)
                hlen
              have hsub := (growCollateral_sublist o nvars lowbound rest sat3
                (curSize - 1)).length_le
              have hstop := growCollateral_stops o nvars lowbound rest sat3 (curSize - 1) hl
              have hpass := growCollateral_passed o nvars lowbound rest sat3 (curSize - 1)
              rcases hG : growCollateral o nvars lowbound rest sat3 (curSize - 1)
                with ⟨rest', sat4, cs'⟩
              rw [hG] at h hcount hsub hstop hpass
              simp only at h hcount hsub hstop hpass
              have hsize : cs' = kept.length + rest'.length := by omega
              by_cases hb : lowbound ≠ 0 ∧ cs' = lowbound
              · rw [if_pos hb] at h
                simp only [Option.some.injEq, Prod.mk.injEq] at h
                obtain ⟨rfl, -, rfl⟩ := h
                rw [List.length_append, ← hsize, hb.2]
                refine ⟨fun _ => le_refl _, fun hj => ?_⟩
                have := h1 hj
                omega
              · rw [if_neg hb] at h
                have hne : cs' ≠ lowbound := fun hh => hb ⟨hl, hh⟩
                refine ih kept rest' sat4 cs' _ hsize ?_ ?_ h
                · intro hj
                  rw [Bool.or_eq_false_iff, Bool.and_eq_false_iff] at hj
                  obtain ⟨hj0, hj1⟩ := hj
                  have hab := h0 hj0
                  by_cases heq : curSize - 1 = lowbound
                  · rcases hj1 with hj1 | hj1
                    · exact absurd hj1 (by simp [hl, heq])
                    · have hp := hpass (Nat.le_of_eq heq) hlen
                      have hnone : (rest.filter (fun j => sat3.model (nvars + j))).length = 0
                          := by
                        by_contra hpos
                        have := (any_iff_filter_pos rest _).mpr (Nat.pos_of_ne_zero hpos)
                        rw [this] at hj1
                        exact absurd hj1 (by decide)
                      omega
                  · have := hstop (by omega)
                    omega
                · intro hj
                  rw [Bool.or_eq_true, Bool.and_eq_true] at hj
                  rcases hj with hj | ⟨hj2, hj3⟩
                  · have := h1 hj
                    omega
                  · have heq : curSize - 1 = lowbound := (of_decide_eq_true hj2).2
                    have hp := hpass (Nat.le_of_eq heq) hlen
                    have := (any_iff_filter_pos rest _).mp hj3
                    omega

/-! ## Claim: the lower bound of `grow` -/

/-- Counterexample to **C31** as stated: with the single constraint `¬Y0 ∨ Y1`, lower bound
1 and the MCS set `{0,1}`, the search after assuming `Y0` returns a model that also makes
`Y1` true; `grow` removes both selectors and returns the empty set, which has fewer than 1
selector. -/
theorem grow_goes_below_lower_bound :
    (grow brute 1 0 (Solver.fresh.addClause brute [(Lit.mk' 0).not, Lit.mk' 1] none).2 []
      [0, 1] 1).map Prod.fst = some [] := by
  decide

/-- **C31**, amended.  For every solver behaviour, `grow` called with a lower bound `l > 0`
on an MCS set with more than `l` selectors stops as soon as its counter equals `l` at one of
its two tests (after a collateral removal, and after the tried selector is erased).  The set
on exit is a part of the MCS set; it has fewer than `l` selectors exactly when the counter
passed `l` between two tests, which happens in one way only: the tried selector brought the
set to `l` selectors and the model of that pass made a further selector of the set true (the
flag of `growJ`, which computes the result of `grow`); in every other run the set on exit
never has fewer than `l` selectors.  The call returns when every search reaches a definite
answer. -/
theorem grow_stops_at_lower_bound (o : Collab) (fuel nvars : Nat) (growsat : Solver)
    (MSS MCS : List Nat) (l : Nat) (hl : 0 < l) (hsize : l < MCS.length) :
    (growJ o fuel nvars growsat MSS MCS l).map (fun r => (r.1, r.2.1))
      = grow o fuel nvars growsat MSS MCS l ∧
    ((∀ s, (searchLoop o fuel s).isSome = true) →
      (growJ o fuel nvars growsat MSS MCS l).isSome = true) ∧
    ∀ MCS' sat' jumped, growJ o fuel nvars growsat MSS MCS l = some (MCS', sat', jumped) →
      MCS'.Sublist MCS ∧
      (jumped = false → l ≤ MCS'.length) ∧ (jumped = true → MCS'.length < l) := by
  have heq := growLoopJ_eq o fuel nvars l MCS.length [] MCS
    (growSeed o nvars MSS growsat.cancelUntil0) MCS.length false
  refine ⟨?_, ?_, ?_⟩
  · unfold growJ grow
    rw [← heq]
    cases growLoopJ o fuel nvars l MCS.length [] MCS
      (growSeed o nvars MSS growsat.cancelUntil0) MCS.length false with
    | none => rfl
    | some r => rfl
  · intro hfuel
    have hsome := growLoop_isSome o fuel nvars l hfuel MCS.length [] MCS
      (growSeed o nvars MSS growsat.cancelUntil0) MCS.length
    rw [← heq] at hsome
    unfold growJ
    cases hL : growLoopJ o fuel nvars l MCS.length [] MCS
      (growSeed o nvars MSS growsat.cancelUntil0) MCS.length false with
    | none => rw [hL] at hsome; exact absurd hsome (by simp)
    | some r => rfl
  · intro MCS' sat' jumped h
    unfold growJ at h
    cases hL : growLoopJ o fuel nvars l MCS.length [] MCS
      (growSeed o nvars MSS growsat.cancelUntil0) MCS.length false with
    | none => rw [hL] at h; exact absurd h (by simp)
    | some r =>
      obtain ⟨M1, s1, j1⟩ := r
      rw [hL] at h heq
      simp only [Option.some.injEq, Prod.mk.injEq] at h
      obtain ⟨rfl, -, rfl⟩ := h
      have hsub := growLoop_sublist o fuel nvars l MCS.length [] MCS _ MCS.length M1 s1
        heq.symm
      rw [List.nil_append] at hsub
      exact ⟨hsub, growLoopJ_bound o fuel nvars l (Nat.pos_iff_ne_zero.mp hl) MCS.length []
        MCS _ MCS.length false (by simp) (fun _ => hsize) (fun hj => absurd hj (by decide))
        M1 s1 j1 hL⟩

/-- Witness of the amended **C31**: the constraint `¬Y0 ∨ ¬Y1`, lower bound 1 and the MCS
set `{0,1}`.  The model found after `Y0` is assumed makes `Y1` false, so the counter is 1 at
the test after selector 0 is erased and `grow` stops there with the set `{1}`; on the
constraint `¬Y0 ∨ Y1` of the counterexample the flag is set. -/
theorem grow_stops_at_lower_bound_witness :
    0 < 1 ∧ 1 < ([0, 1] : List Nat).length ∧
    (growJ brute 1 0 (Solver.fresh.addClause brute [(Lit.mk' 0).not, (Lit.mk' 1).not] none).2
      [] [0, 1] 1).map (fun r => (r.1, r.2.2)) = some ([1], false) ∧
    (growJ brute 1 0 (Solver.fresh.addClause brute [(Lit.mk' 0).not, Lit.mk' 1] none).2
      [] [0, 1] 1).map (fun r => (r.1, r.2.2)) = some ([], true) ∧
    ∀ MCS' sat' jumped,
      growJ brute 1 0 (Solver.fresh.addClause brute [(Lit.mk' 0).not, (Lit.mk' 1).not] none).2
        [] [0, 1] 1 = some (MCS', sat', jumped) →
      MCS'.Sublist [0, 1] ∧
      (jumped = false → 1 ≤ MCS'.length) ∧ (jumped = true → MCS'.length < 1) :=
  ⟨by decide, by decide, by decide, by decide,
    (grow_stops_at_lower_bound brute 1 0
      (Solver.fresh.addClause brute [(Lit.mk' 0).not, (Lit.mk' 1).not] none).2 [] [0, 1] 1
      (by decide) (by decide)).2.2⟩

/-! ## Lemmas: the bookkeeping sets of the truncation -/

theorem readMCS_nodup (nvars nYvars : Nat) (model : Nat → Bool) :
    (readMCS nvars nYvars model).Nodup :=
  List.Nodup.filter _ (List.nodup_range _)

/-- The truncation keeps `ignored` and `cannotIgnore` disjoint. -/
theorem truncate_disjoint (o : Collab) (m : MCSfinder) (sat : Solver) (testMCS0 : List Nat)
    (newMCS : List Nat) (sat1 : Solver) (m1 : MCSfinder)
    (hdis : ∀ y, y ∈ m.ignored → y ∉ m.cannotIgnore)
    (h : truncate o m sat testMCS0 = some (newMCS, sat1, m1)) :
    ∀ y, y ∈ m1.ignored → y ∉ m1.cannotIgnore := by
  by_cases hL : m.sizeLimit ≠ 0
  · by_cases happ : m.sizeLimit < (testMCS0.filter (fun y => decide (y ∉ m.ignored))).length
    · obtain ⟨rfl, -, hig, hci, -⟩ := truncate_applies o m sat testMCS0 hL happ _ _ _ h
      intro y hy hy1
      rw [hig, mem_Bag_insertAll] at hy
      rw [hci, mem_Bag_insertAll] at hy1
      rcases hy with hy | hy
      · -- `y` is left over: it is not in `cannotIgnore` and not kept
        have hnc : y ∉ m.cannotIgnore := by
          have := (List.mem_filter.mp hy).2
          simpa using this
        rcases hy1 with hy1 | hy1
        · have := (List.mem_filter.mp hy1).2
          exact hnc (by simpa using this)
        · exact hnc hy1
      · -- `y` was ignored before: it is not among the selectors kept
        rcases hy1 with hy1 | hy1
        · have := (List.mem_filter.mp (List.mem_filter.mp hy1).1).2
          exact (by simpa using this : y ∉ m.ignored) hy
        · exact hdis y hy hy1
    · rw [truncate_below o m sat testMCS0 hL happ] at h
      simp only [Option.some.injEq, Prod.mk.injEq] at h
      obtain ⟨-, -, rfl⟩ := h
      intro y hy hy1
      simp only at hy hy1
      rw [mem_Bag_insertAll] at hy1
      rcases hy1 with hy1 | hy1
      · have := (List.mem_filter.mp hy1).2
        exact (by simpa using this : y ∉ m.ignored) hy
      · exact hdis y hy hy1
  · rw [truncate_zero o m sat testMCS0 (not_not.mp hL)] at h
    simp only [Option.some.injEq, Prod.mk.injEq] at h
    obtain ⟨-, -, rfl⟩ := h
    exact hdis

/-- The loop of `solve` keeps `ignored` and `cannotIgnore` disjoint, whatever the models. -/
theorem solveLoop_apart (o : Collab) (fuel lowbound highbound : Nat) (n : Nat) (sat : Solver)
    (m : MCSfinder) (found : Bool) (r : Option Bool) (sat' : Solver) (m' : MCSfinder)
    (hm : m.Apart)
    (h : solveLoop o fuel lowbound highbound n sat m found = (r, sat', m')) : m'.Apart := by
  induction n generalizing sat m found with
  | zero =>
    simp only [solveLoop, Prod.mk.injEq] at h
    obtain ⟨-, -, rfl⟩ := h
    exact hm
  | succ n ih =>
    simp only [solveLoop] at h
    cases hS : searchLoop o fuel sat with
    | none =>
      rw [hS] at h
      simp only [Prod.mk.injEq] at h
      obtain ⟨-, -, rfl⟩ := h
      exact hm
    | some res =>
      obtain ⟨b, sat1⟩ := res
      rw [hS] at h
      cases b with
      | false =>
        simp only [Prod.mk.injEq] at h
        obtain ⟨-, -, rfl⟩ := h
        exact hm
      | true =>
        simp only at h
        cases hG : (if lowbound ≠ highbound ∧
              (readMCS m.nvars m.nYvars sat1.model).length ≠ lowbound then
            grow o fuel m.nvars sat1 (readMSS m.nvars m.nYvars sat1.model)
              (readMCS m.nvars m.nYvars sat1.model) lowbound
          else some (readMCS m.nvars m.nYvars sat1.model, sat1)) with
        | none =>
          rw [hG] at h
          simp only [Prod.mk.injEq] at h
          obtain ⟨-, -, rfl⟩ := h
          exact hm
        | some res2 =>
          obtain ⟨testMCS, sat2⟩ := res2
          rw [hG] at h
          simp only at h
          cases hTr : truncate o m sat2 testMCS with
          | none =>
            rw [hTr] at h
            simp only [Prod.mk.injEq] at h
            obtain ⟨-, -, rfl⟩ := h
            exact hm
          | some res3 =>
            obtain ⟨newMCS, sat3, m3⟩ := res3
            have hT : m3.Apart := truncate_disjoint o m sat2 testMCS newMCS sat3 m3 hm hTr
            rw [hTr] at h
            simp only at h
            have hout : (if m.sizeLimit = 0 then { m3 with out := m3.out ++ [newMCS] }
                else m3).Apart := by
              by_cases hz : m.sizeLimit = 0
              · rw [if_pos hz]; exact hT
              · rw [if_neg hz]; exact hT
            have hpush : ({ (if m.sizeLimit = 0 then { m3 with out := m3.out ++ [newMCS] }
                else m3) with MCSes := m3.MCSes ++ [newMCS] } : MCSfinder).Apart := hout
            by_cases hmx : m.maxSAT = true
            · rw [if_pos hmx] at h
              simp only [Prod.mk.injEq] at h
              obtain ⟨-, -, rfl⟩ := h
              exact hout
            · rw [if_neg hmx] at h
              rcases hadd : (if newMCS.length = 1 then
                  sat3.addUnit o (Lit.mk' (newMCS.headD 0 + m.nvars)) none
                else sat3.addClause o (newMCS.map (fun y => Lit.mk' (y + m.nvars))) none)
                with ⟨r1, sat4⟩
              rw [hadd] at h
              cases r1 with
              | false =>
                simp only [Prod.mk.injEq] at h
                obtain ⟨-, -, rfl⟩ := h
                exact hpush
              | true =>
                simp only at h
                exact ih sat4 _ true hpush h

theorem removeSubsumed_apart (m m' : MCSfinder) (hm : m.Apart)
    (h : m.removeSubsumed = some m') : m'.Apart := by
  unfold MCSfinder.removeSubsumed at h
  cases hr : removeSubsumedOuter m.MCSes.length 0 m.MCSes with
  | none => rw [hr] at h; exact absurd h (by simp)
  | some l =>
    rw [hr] at h
    simp only [Option.some.injEq] at h
    rw [← h]
    exact hm

/-- The outer loop of `findMCSes` keeps `ignored` and `cannotIgnore` disjoint. -/
theorem findLoop_apart (o : Collab) (fuel : Nat) (n : Nat) (m : MCSfinder) (bound : Nat)
    (included : Finset Nat) (hm : m.Apart) : (findLoop o fuel n m bound included).2.Apart := by
  induction n generalizing m bound included with
  | zero => exact hm
  | succ n ih =>
    simp only [findLoop]
    have hround : ∀ (r : Option Bool) (sat : Solver) (m1 : MCSfinder),
        (match m.setupRound o bound included with
          | (false, sat) => (some false, sat, m)
          | (true, sat) => m.solve o fuel sat (bound - m.boundinc + 1) bound) = (r, sat, m1) →
        m1.Apart := by
      intro r sat m1 hr
      rcases hs : m.setupRound o bound included with ⟨st, sat0⟩
      rw [hs] at hr
      cases st with
      | false =>
        simp only [Prod.mk.injEq] at hr
        obtain ⟨-, -, rfl⟩ := hr
        exact hm
      | true =>
        simp only [MCSfinder.solve] at hr
        exact solveLoop_apart o fuel _ _ fuel _ m false r sat m1 hm hr
    split
    · rename_i sat m1 heq
      exact hround _ _ _ heq
    · rename_i foundAny sat m1 heq
      have h1 := hround _ _ _ heq
      split
      · exact h1
      · cases hrs : (if m1.sizeLimit > 0 then m1.removeSubsumed else some m1) with
        | none => exact h1
        | some m2 =>
          have h2 : m2.Apart := by
            by_cases hz : m1.sizeLimit > 0
            · rw [if_pos hz] at hrs
              exact removeSubsumed_apart m1 m2 h1 hrs
            · rw [if_neg hz] at hrs
              simp only [Option.some.injEq] at hrs
              rw [← hrs]
              exact h1
          simp only
          split
          · exact h2
          · split
            · exact h2
            · exact h2
            · exact ih m2 _ _ h2

/-! ## Claim: the bookkeeping sets of the truncation stay disjoint -/

/-- **C38.**  Starting from a finder in which no selector is both in `ignored` and in
`cannotIgnore` (in particular from empty sets), after any number of models processed by
`solve`, and after a whole run of `findMCSes`, with or without a size limit and whatever the
solver answers, no selector is in both sets.  (A truncation that leaves defined behaviour
ends the call without a return; the sets are then as the last completed pass left them.) -/
theorem ignored_cannotIgnore_disjoint (o : Collab) (fuel : Nat) (m : MCSfinder)
    (hm : ∀ y, y ∈ m.ignored → y ∉ m.cannotIgnore) :
    (∀ sat lowbound highbound, ∀ y, y ∈ (m.solve o fuel sat lowbound highbound).2.2.ignored →
      y ∉ (m.solve o fuel sat lowbound highbound).2.2.cannotIgnore) ∧
    (∀ y, y ∈ (m.findMCSes o fuel).2.ignored → y ∉ (m.findMCSes o fuel).2.cannotIgnore) := by
  refine ⟨fun sat lowbound highbound => ?_, ?_⟩
  · exact solveLoop_apart o fuel lowbound highbound fuel _ m false _ _ _ hm rfl
  · unfold MCSfinder.findMCSes
    cases hc : (if m.useCores then m.getCore o fuel else some ∅) with
    | none => exact hm
    | some included =>
      simp only
      have h := findLoop_apart o fuel fuel m m.initialBound included hm
      rcases hf : findLoop o fuel fuel m m.initialBound included with ⟨e, m'⟩
      rw [hf] at h
      simp only
      by_cases hz : m'.sizeLimit > 0 ∧ e = Ending.finished
      · rw [if_pos hz]; exact h
      · rw [if_neg hz]; exact h

/-- Witness of **C38**: the run on the CNF `x1`, `¬x1 ∨ x2`, `x2`, `¬x1`, `¬x2` with size
limit 2, from empty sets.  The MCS `{1,2,3}` found at bound 3 is truncated to `{2,3}`, so the
run ends with `ignored = {1}` and `cannotIgnore = {0,2,3,4}`. -/
theorem ignored_cannotIgnore_disjoint_witness :
    (∀ y, y ∈ ({ MCSfinder.init (cnf 2 [[1], [-1, 2], [2], [-1], [-2]]) with
        sizeLimit := 2 } : MCSfinder).ignored →
      y ∉ ({ MCSfinder.init (cnf 2 [[1], [-1, 2], [2], [-1], [-2]]) with
        sizeLimit := 2 } : MCSfinder).cannotIgnore) ∧
    (({ MCSfinder.init (cnf 2 [[1], [-1, 2], [2], [-1], [-2]]) with
        sizeLimit := 2 } : MCSfinder).findMCSes brute 4).1 = Ending.finished ∧
    (({ MCSfinder.init (cnf 2 [[1], [-1, 2], [2], [-1], [-2]]) with
        sizeLimit := 2 } : MCSfinder).findMCSes brute 4).2.ignored = [1] ∧
    (({ MCSfinder.init (cnf 2 [[1], [-1, 2], [2], [-1], [-2]]) with
        sizeLimit := 2 } : MCSfinder).findMCSes brute 4).2.cannotIgnore = [0, 2, 3, 4] ∧
    (∀ y, y ∈ (({ MCSfinder.init (cnf 2 [[1], [-1, 2], [2], [-1], [-2]]) with
        sizeLimit := 2 } : MCSfinder).findMCSes brute 4).2.ignored →
      y ∉ (({ MCSfinder.init (cnf 2 [[1], [-1, 2], [2], [-1], [-2]]) with
        sizeLimit := 2 } : MCSfinder).findMCSes brute 4).2.cannotIgnore) :=
  ⟨fun _ hy => absurd hy (List.not_mem_nil _), by decide, by decide, by decide,
    (ignored_cannotIgnore_disjoint brute 4
      { MCSfinder.init (cnf 2 [[1], [-1, 2], [2], [-1], [-2]]) with sizeLimit := 2 }
      (fun _ hy => absurd hy (List.not_mem_nil _))).2⟩

/-! ## Lemmas: how a call of `constructMUS` ends -/

theorem eraseContaining_length_lt (covers : List Cover) (cur : Nat) (c : Cover)
    (hc : c ∈ covers) (hcur : cur ∈ c) :
    (eraseContaining covers cur).length < covers.length := by
  unfold eraseContaining
  apply List.length_filter_lt_length_iff_exists.mpr
  exact ⟨c, hc, by simp [hcur]⟩

/-- The loop over the covers containing `curClause` ends with an outcome that has `G` when
every recursive call does; the setting of `doBB` is not changed. -/
theorem tryCovers_end {rec : List Cover → ClauseAssign → MUSbuilder → Outcome × MUSbuilder}
    {G : Outcome → Prop} {d : Bool} (hret : ∀ s, G (Outcome.ret s))
    (covers : List Cover) (a1 : ClauseAssign) (cur : Nat)
    (hempty : ∅ ∈ covers → G Outcome.abort)
    (hnone : ∀ c ∈ covers, cur ∈ c → removeClauseAndCover covers a1 cur c = none →
      G Outcome.abort)
    (hsome : ∀ c ∈ covers, cur ∈ c → ∀ nc na,
      removeClauseAndCover covers a1 cur c = some (nc, na) →
      ∀ b, b.doBB = d → G (rec nc na b).1 ∧ (rec nc na b).2.doBB = d)
    (todo : List Cover) (htodo : ∀ c ∈ todo, c ∈ covers) (b : MUSbuilder) (hb : b.doBB = d) :
    G (tryCovers rec covers a1 cur todo b).1 ∧
      (tryCovers rec covers a1 cur todo b).2.doBB = d := by
  induction todo generalizing b with
  | nil => exact ⟨hret false, hb⟩
  | cons c rest ih =>
    have hc' : c ∈ covers := htodo c (List.mem_cons_self _ _)
    have hrest : ∀ x ∈ rest, x ∈ covers := fun x hx => htodo x (List.mem_cons_of_mem _ hx)
    simp only [tryCovers]
    by_cases hc : c = ∅
    · rw [if_pos hc]; exact ⟨hempty (hc ▸ hc'), hb⟩
    · rw [if_neg hc]
      by_cases hcur : cur ∈ c
      · rw [if_pos hcur]
        cases hrcc : removeClauseAndCover covers a1 cur c with
        | none => exact ⟨hnone c hc' hcur hrcc, hb⟩
        | some r =>
          obtain ⟨nc, na⟩ := r
          have hP := hsome c hc' hcur nc na hrcc b hb
          simp only
          rcases hres : rec nc na b with ⟨o, b1⟩
          rw [hres] at hP
          cases o with
          | ret sk =>
            cases sk with
            | true => exact ⟨hret false, hP.2⟩
            | false => exact ih hrest b1 hP.2
          | abort => exact hP
          | hang => exact hP
          | fuel => exact hP
      · rw [if_neg hcur]
        exact ih hrest b hb

/-- The loop over the selector positions ends with an outcome that has `G` when every
recursive call on fewer than `m` covers does. -/
theorem splitLoop_end {rec : List Cover → ClauseAssign → MUSbuilder → Outcome × MUSbuilder}
    {G : Outcome → Prop} {Inv : List Cover → ClauseAssign → Prop} {d : Bool}
    (S : EndSpec G Inv d) (m : Nat)
    (hrec : ∀ nc na b, (G Outcome.fuel ∨ nc.length < m) → Inv nc na → b.doBB = d →
      G (rec nc na b).1 ∧ (rec nc na b).2.doBB = d)
    (k cur : Nat) (covers : List Cover) (a : ClauseAssign) (b : MUSbuilder)
    (hk : cur + k = a.vals.length) (hm : G Outcome.fuel ∨ covers.length ≤ m)
    (hI : Inv covers a) (hb : b.doBB = d) :
    G (splitLoop rec k cur covers a b).1 ∧ (splitLoop rec k cur covers a b).2.doBB = d := by
  induction k generalizing cur covers a b with
  | zero => exact ⟨S.ret false, hb⟩
  | succ k ih =>
    simp only [splitLoop]
    by_cases h0 : a.get cur = 0
    · rw [if_neg (not_not.mpr h0)]
      have hK : cur < a.vals.length := by omega
      have hP := tryCovers_end S.ret covers { a.put cur 1 with numPos := a.numPos + 1 } cur
        (S.empty covers a hI)
        (fun c hc hcur hn => S.rccNone covers a cur c hI h0 hK hc hcur hn)
        (fun c hc hcur nc na hs b' hb' =>
          hrec nc na b'
            (hm.imp id (fun hle =>
              lt_of_lt_of_le
                (lt_of_le_of_lt (removeClauseAndCover_spec _ _ _ _ _ _ hs).1
                  (eraseContaining_length_lt covers cur c hc hcur)) hle))
            (S.rccSome covers a cur c nc na hI h0 hK hc hcur hs) hb')
        covers (fun _ h => h) b hb
      rcases hres : tryCovers rec covers { a.put cur 1 with numPos := a.numPos + 1 } cur
        covers b with ⟨o, b1⟩
      rw [hres] at hP
      cases o with
      | ret sk =>
        simp only
        cases hrc : removeClause covers cur with
        | none => exact ⟨S.ret false, hP.2⟩
        | some cs =>
          exact ih (cur + 1) cs _ b1 (by simp [ClauseAssign.put]; omega)
            (hm.imp id (fun hle => le_trans (removeClause_spec _ _ _ hrc).2.2.2.1 hle))
            (S.excl covers a cur cs hI h0 hK hrc) hP.2
      | abort => exact hP
      | hang => exact hP
      | fuel => exact hP
    · rw [if_pos h0]
      exact ih (cur + 1) covers a b (by omega) hm hI hb

/-- A call of `constructMUS` ends with an outcome that has `G`: the recursion budget is not
used up when it is above the number of covers, since every recursive call receives fewer
covers than its caller. -/
theorem constructMUS_end {G : Outcome → Prop} {Inv : List Cover → ClauseAssign → Prop}
    {d : Bool} (S : EndSpec G Inv d) (n : Nat) (covers : List Cover) (a : ClauseAssign)
    (b : MUSbuilder) (hn : G Outcome.fuel ∨ covers.length < n) (hI : Inv covers a)
    (hb : b.doBB = d) :
    G (constructMUS n covers a b).1 ∧ (constructMUS n covers a b).2.doBB = d := by
  induction n generalizing covers a b with
  | zero =>
    rcases hn with h | h
    · exact ⟨h, hb⟩
    · exact absurd h (Nat.not_lt_zero _)
  | succ n ih =>
    simp only [constructMUS]
    cases hp : propagateSingletons covers a with
    | none => exact ⟨S.propNone covers a hI hp, hb⟩
    | some r =>
      obtain ⟨cs, a0⟩ := r
      have hI0 := S.propSome covers a cs a0 hI hp
      have hlen : cs.length ≤ covers.length := by
        rw [(propagateSingletons_spec covers cs a a0 hp).1]
        exact List.length_filter_le _ _
      simp only
      cases hbh : boundHit b cs a0 with
      | none => exact ⟨S.hang cs a0 b hI0 hb hbh, hb⟩
      | some hit =>
        cases hit with
        | true => exact ⟨S.ret true, hb⟩
        | false =>
          simp only
          by_cases hvis : a0.vals ∈ b.beenHere
          · rw [if_pos hvis]; exact ⟨S.ret false, hb⟩
          · rw [if_neg hvis]
            by_cases hemp : cs = []
            · rw [if_pos hemp]; exact ⟨S.ret false, hb⟩
            · rw [if_neg hemp]
              exact splitLoop_end S n (fun nc na b1 h1 h2 h3 => ih nc na b1 h1 h2 h3)
                a0.vals.length 0 cs a0 _ (by omega)
                (hn.imp id (fun h => by omega)) hI0 hb

/-- Under the node invariant no assertion fails: the instance of `EndSpec` for the outcomes
other than a failed assertion. -/
theorem endSpec_noAbort (F : List Cover) (K : Nat) (d : Bool) :
    EndSpec (fun o => o ≠ Outcome.abort) (fun covers a => Node K covers a ∧ Rel F covers a)
      d := by
  constructor
  · intro s h; cases h
  · intro covers a hI hp
    obtain ⟨a1, h, -⟩ := node_propagate hI.1 hI.2
    rw [hp] at h; cases h
  · intro covers a cs a0 hI hp
    obtain ⟨a1, h, hN, hR, -⟩ := node_propagate hI.1 hI.2
    rw [hp] at h
    simp only [Option.some.injEq, Prod.mk.injEq] at h
    obtain ⟨rfl, rfl⟩ := h
    exact ⟨hN, hR⟩
  · intro _ _ _ _ _ _ h; cases h
  · intro covers a hI he
    exact absurd rfl (hI.1.nonempty ∅ he)
  · intro covers a cur c hI h0 hK hc hcur hn
    obtain ⟨nc, na, h, -⟩ := node_rcc hI.1 hI.2 h0 (hI.1.len ▸ hK) hc hcur
    rw [hn] at h; cases h
  · intro covers a cur c nc na hI h0 hK hc hcur hs
    obtain ⟨nc1, na1, h, hN, hR, -⟩ := node_rcc hI.1 hI.2 h0 (hI.1.len ▸ hK) hc hcur
    rw [hs] at h
    simp only [Option.some.injEq, Prod.mk.injEq] at h
    obtain ⟨rfl, rfl⟩ := h
    exact ⟨hN, hR⟩
  · intro covers a cur cs hI h0 hK hrc
    have h := node_exclude hI.1 hI.2 h0 (hI.1.len ▸ hK) hrc
    exact ⟨h.1, h.2.1⟩

/-- On non-empty covers, and under branch-and-bound covers with fewer than `2^30` selectors,
a call ends by returning or by a failed assertion: the instance of `EndSpec` for
termination. -/
theorem endSpec_terminates (d : Bool) :
    EndSpec (fun o => (∃ s, o = Outcome.ret s) ∨ o = Outcome.abort)
      (fun covers _ => (∀ c ∈ covers, c ≠ ∅) ∧ (d = true → ∀ c ∈ covers, c.card < 2 ^ 30))
      d := by
  constructor
  · intro s; exact Or.inl ⟨s, rfl⟩
  · intro _ _ _ _; exact Or.inr rfl
  · intro covers a cs a0 hI hp
    have hcs := (propagateSingletons_spec covers cs a a0 hp).1
    subst hcs
    exact ⟨fun c hc => hI.1 c (List.mem_of_mem_filter hc),
      fun hd c hc => hI.2 hd c (List.mem_of_mem_filter hc)⟩
  · intro covers a b hI hb h
    exfalso
    unfold boundHit at h
    by_cases hbb : b.doBB = true
    · rw [if_pos hbb] at h
      obtain ⟨r, hr⟩ := misLoop_returns covers.length covers 0 hI.1 (hI.2 (hb ▸ hbb))
        (le_refl _)
      unfold mis_quick at h
      rw [hr] at h
      cases h
    · rw [if_neg hbb] at h
      cases h
  · intro _ _ _ _; exact Or.inr rfl
  · intro _ _ _ _ _ _ _ _ _ _; exact Or.inr rfl
  · intro covers a cur c nc na hI _ _ _ _ hs
    have hmem := (removeClauseAndCover_spec _ _ _ _ _ _ hs).2.1
    refine ⟨fun Y hY => (hmem Y hY).1, fun hd Y hY => ?_⟩
    obtain ⟨-, Y0, hY0, -, rfl⟩ := hmem Y hY
    exact lt_of_le_of_lt (Finset.card_le_card Finset.sdiff_subset) (hI.2 hd Y0 hY0)
  · intro covers a cur cs hI _ _ hrc
    obtain ⟨hmem, -, -, -, hne⟩ := removeClause_spec _ _ _ hrc
    refine ⟨hne hI.1, fun hd r hr => ?_⟩
    obtain ⟨t, ht, rfl⟩ := hmem r hr
    exact lt_of_le_of_lt (Finset.card_le_card (Finset.erase_subset _ _)) (hI.2 hd t ht)

theorem mis_quick_large : mis_quick [Finset.range (2 ^ 30)] = none := by
  unfold mis_quick
  apply misLoop_stuck _ _ _ (List.cons_ne_nil _ _)
  have hc : ¬ (Finset.range (2 ^ 30)).card < 2 ^ 30 := by
    rw [Finset.card_range]
    exact Nat.lt_irrefl _
  simp only [shortest, if_neg hc]

theorem constructMUS_stuck (n : Nat) (c : Cover) (a : ClauseAssign) (hc : ¬ c.card = 1)
    (hm : mis_quick [c] = none) :
    (constructMUS (n + 1) [c] a (MUSbuilder.init true)).1 = Outcome.hang := by
  simp only [constructMUS, propagateSingletons, if_neg hc, boundHit, MUSbuilder.init,
    if_true, hm]

theorem constructMUS_large (n : Nat) (a : ClauseAssign) :
    (constructMUS (n + 1) [Finset.range (2 ^ 30)] a (MUSbuilder.init true)).1
      = Outcome.hang := by
  apply constructMUS_stuck n _ a _ mis_quick_large
  rw [Finset.card_range]
  exact Nat.ne_of_gt (Nat.one_lt_two_pow (by omega))

/-! ## Claims: assertions and termination of `constructMUS` -/

/-- **C35.**  When the family has no empty cover and no cover that is a subset of another,
its selectors index the assignment, and the assignment is all zero, no assertion fails in the
call of `constructMUS` or in any call below it, with or without branch-and-bound and for
every recursion budget: the outcome is never the failure of an assertion (a failure in a
recursive call is passed up to the first call unchanged).  The four assertions are the
emptiness test on each cover iterated, the emptiness test on each cover shrunk and on each
surviving cover in `removeClauseAndCover`, and the test `a[y] = 0` of
`propagateSingletons`. -/
theorem constructMUS_no_assertion_fails (covers : List Cover) (K : Nat)
    (hne : ∀ c ∈ covers, c ≠ ∅) (hns : NoSubset covers) (hr : InRange K covers)
    (n : Nat) (b : MUSbuilder) :
    (constructMUS n covers (ClauseAssign.zero K) b).1 ≠ Outcome.abort :=
  (constructMUS_end (endSpec_noAbort covers K b.doBB) n covers (ClauseAssign.zero K) b
    (Or.inl (by intro h; cases h)) ⟨node_root hne hns hr, rel_root covers K⟩ rfl).1

/-- Witness of **C35**: the covers `{0,1}`, `{0,2}`, `{1,2}` over `[0, 3)`, under
branch-and-bound. -/
theorem constructMUS_no_assertion_fails_witness :
    (∀ c ∈ ([{0, 1}, {0, 2}, {1, 2}] : List Cover), c ≠ ∅) ∧
    NoSubset [{0, 1}, {0, 2}, {1, 2}] ∧ InRange 3 [{0, 1}, {0, 2}, {1, 2}] ∧
    (constructMUS 4 [{0, 1}, {0, 2}, {1, 2}] (ClauseAssign.zero 3) (MUSbuilder.init true)).1
      ≠ Outcome.abort :=
  ⟨by decide, by unfold NoSubset Incomparable; decide, by unfold InRange; decide,
    constructMUS_no_assertion_fails [{0, 1}, {0, 2}, {1, 2}] 3 (by decide)
      (by unfold NoSubset Incomparable; decide) (by unfold InRange; decide) 4
      (MUSbuilder.init true)⟩

/-- Counterexample to **C36** as stated: under branch-and-bound the run on the single
non-empty cover `{0, …, 2^30 - 1}`, from the all-zero assignment of length `2^30`, does not
terminate: the bound test calls `mis_quick`, whose loop never ends on this list. -/
theorem constructMUS_hangs_on_large_cover :
    (∀ c ∈ [Finset.range (2 ^ 30)], c ≠ ∅) ∧
    (ClauseAssign.zero (2 ^ 30)).vals.length = 2 ^ 30 ∧
    (runMUS true [Finset.range (2 ^ 30)] (2 ^ 30)).1 = Outcome.hang := by
  refine ⟨?_, List.length_replicate _ _, constructMUS_large 1 (ClauseAssign.zero (2 ^ 30))⟩
  intro c hc h
  rw [List.mem_singleton] at hc
  subst hc
  have : (0 : Nat) ∈ Finset.range (2 ^ 30) := Finset.mem_range.mpr (Nat.two_pow_pos 30)
  rw [h] at this
  exact absurd this (Finset.not_mem_empty 0)

/-- **C36**, amended.  For every finite list of non-empty covers (each with fewer than
`2^30` selectors when branch-and-bound is on) and every assignment, `constructMUS`
terminates: with a recursion budget above the number of covers the call ends by returning
(or by a failed assertion), never by using up the budget or inside `mis_quick`; every
recursive call receives strictly fewer covers than its caller, and the branching loop runs
over the positions of the assignment, whose number no step changes. -/
theorem constructMUS_terminates (covers : List Cover) (a : ClauseAssign) (b : MUSbuilder)
    (n : Nat) (hne : ∀ c ∈ covers, c ≠ ∅)
    (hs : b.doBB = true → ∀ c ∈ covers, c.card < 2 ^ 30) (hn : covers.length < n) :
    ((∃ s, (constructMUS n covers a b).1 = Outcome.ret s) ∨
      (constructMUS n covers a b).1 = Outcome.abort) ∧
    (∀ c ∈ covers, ∀ cur ∈ c, ∀ a1 nc na,
      removeClauseAndCover covers a1 cur c = some (nc, na) →
      nc.length < covers.length ∧ na.vals.length = a1.vals.length) :=
  ⟨(constructMUS_end (endSpec_terminates b.doBB) n covers a b (Or.inr hn) ⟨hne, hs⟩ rfl).1,
    fun c hc cur hcur _ _ _ h =>
      ⟨lt_of_le_of_lt (removeClauseAndCover_spec _ _ _ _ _ _ h).1
        (eraseContaining_length_lt covers cur c hc hcur),
        (removeClauseAndCover_spec _ _ _ _ _ _ h).2.2.2.2.1⟩⟩

/-- Witness of the amended **C36**: the covers `{0,1}`, `{0,2}`, `{1,2}` over `[0, 3)`,
under branch-and-bound, with budget 4. -/
theorem constructMUS_terminates_witness :
    (∀ c ∈ ([{0, 1}, {0, 2}, {1, 2}] : List Cover), c ≠ ∅) ∧
    (∀ c ∈ ([{0, 1}, {0, 2}, {1, 2}] : List Cover), c.card < 2 ^ 30) ∧
    ((∃ s, (constructMUS 4 [{0, 1}, {0, 2}, {1, 2}] (ClauseAssign.zero 3)
        (MUSbuilder.init true)).1 = Outcome.ret s) ∨
      (constructMUS 4 [{0, 1}, {0, 2}, {1, 2}] (ClauseAssign.zero 3)
        (MUSbuilder.init true)).1 = Outcome.abort) :=
  ⟨by decide, by decide,
    (constructMUS_terminates [{0, 1}, {0, 2}, {1, 2}] (ClauseAssign.zero 3)
      (MUSbuilder.init true) 4 (by decide) (fun _ => by decide) (by decide)).1⟩

/-! ## Lemmas: the cached counters of the assignment -/

theorem count_set_zero (l : List Int) (i : Nat) (v x : Int) (hi : i < l.length)
    (h0 : l.getD i 0 = 0) (hx : x ≠ 0) :
    (l.set i v).count x = l.count x + (if v = x then 1 else 0) := by
  have hget : l[i] = 0 := by
    rw [← h0, List.getD_eq_getElem _ _ hi]
  rw [List.count_set _ _ _ _ hi, hget]
  have : ((0 : Int) == x) = false := by simpa using fun h => hx h.symm
  simp [this]

theorem agrees_put_one {a : ClauseAssign} {i : Nat} (h : a.Agrees) (hi : i < a.vals.length)
    (h0 : a.get i = 0) : ({ a.put i 1 with numPos := a.numPos + 1 } : ClauseAssign).Agrees := by
  unfold ClauseAssign.Agrees
  simp only [ClauseAssign.put]
  rw [count_set_zero _ _ _ _ hi h0 (by decide), count_set_zero _ _ _ _ hi h0 (by decide)]
  refine ⟨?_, ?_⟩
  · rw [h.1]; simp
  · rw [h.2]; simp

theorem agrees_put_neg {a : ClauseAssign} {i : Nat} (h : a.Agrees) (hi : i < a.vals.length)
    (h0 : a.get i = 0) :
    ({ a.put i (-1) with numNeg := a.numNeg + 1 } : ClauseAssign).Agrees := by
  unfold ClauseAssign.Agrees
  simp only [ClauseAssign.put]
  rw [count_set_zero _ _ _ _ hi h0 (by decide), count_set_zero _ _ _ _ hi h0 (by decide)]
  refine ⟨?_, ?_⟩
  · rw [h.1]; simp
  · rw [h.2]; simp

/-- The last loop of `removeClauseAndCover` leaves the number of entries `+1` unchanged and
adds to the number of entries `-1` exactly the number of `numNeg++` it executes. -/
theorem markRemoved_count (covers : List Cover) (i : Nat) (vs : List Int) :
    (markRemoved covers i vs).count 1 = vs.count 1 ∧
    ((markRemoved covers i vs).count (-1) : Int)
      = vs.count (-1) + countRemoved covers i vs := by
  induction vs generalizing i with
  | nil => simp [markRemoved, countRemoved]
  | cons v vs ih =>
    obtain ⟨h1, h2⟩ := ih (i + 1)
    simp only [markRemoved, countRemoved, List.count_cons, h1]
    by_cases hc : v = 0 ∧ remaining covers i = false
    · rw [if_pos hc, if_pos hc]
      obtain ⟨rfl, -⟩ := hc
      refine ⟨by simp, ?_⟩
      push_cast
      rw [h2]
      simp
      ring
    · rw [if_neg hc, if_neg hc]
      refine ⟨rfl, ?_⟩
      push_cast
      rw [h2]
      ring

theorem zero_agrees (K : Nat) : (ClauseAssign.zero K).Agrees := by
  unfold ClauseAssign.Agrees ClauseAssign.zero
  simp [List.count_replicate]

theorem counted_put_one {K : Nat} {covers : List Cover} {a : ClauseAssign} {cur : Nat}
    (h : Counted K covers a) (h0 : a.get cur = 0) (hK : cur < K) :
    Counted K covers { a.put cur 1 with numPos := a.numPos + 1 } :=
  ⟨h.1, by simp [ClauseAssign.put, h.2.1], agrees_put_one h.2.2 (h.2.1 ▸ hK) h0⟩

theorem counted_propagate {K : Nat} {covers cs : List Cover} {a a0 : ClauseAssign}
    (h : Counted K covers a) (hp : propagateSingletons covers a = some (cs, a0)) :
    Counted K cs a0 := by
  induction covers generalizing a cs with
  | nil =>
    simp only [propagateSingletons, Option.some.injEq, Prod.mk.injEq] at hp
    obtain ⟨rfl, rfl⟩ := hp
    exact h
  | cons c rest ih =>
    have hrest : InRange K rest := fun c1 hc1 => h.1 c1 (List.mem_cons_of_mem _ hc1)
    simp only [propagateSingletons] at hp
    by_cases h1 : c.card = 1
    · rw [if_pos h1] at hp
      by_cases h2 : a.get c.first = 0
      · rw [if_pos h2] at hp
        have hmem : c.first ∈ c := by
          have := eq_singleton_first h1
          rw [this, first_singleton]
          exact Finset.mem_singleton_self _
        have hK : c.first < K := h.1 c (List.mem_cons_self _ _) _ hmem
        exact ih (counted_put_one ⟨hrest, h.2.1, h.2.2⟩ h2 hK) hp
      · rw [if_neg h2] at hp
        exact absurd hp (by simp)
    · rw [if_neg h1] at hp
      cases hq : propagateSingletons rest a with
      | none => rw [hq] at hp; exact absurd hp (by simp)
      | some r =>
        obtain ⟨cs1, a1⟩ := r
        rw [hq] at hp
        simp only [Option.some.injEq, Prod.mk.injEq] at hp
        obtain ⟨rfl, rfl⟩ := hp
        obtain ⟨hr1, hl1, hc1⟩ := ih ⟨hrest, h.2.1, h.2.2⟩ hq
        refine ⟨?_, hl1, hc1⟩
        intro c1 hc1
        rcases List.mem_cons.mp hc1 with rfl | hc1
        · exact h.1 _ (List.mem_cons_self _ _)
        · exact hr1 c1 hc1

theorem counted_rcc {K : Nat} {covers nc : List Cover} {a1 na : ClauseAssign} {cur : Nat}
    {c : Cover} (h : Counted K covers a1)
    (hr : removeClauseAndCover covers a1 cur c = some (nc, na)) : Counted K nc na := by
  obtain ⟨-, hmem, -, -, hl, -, -⟩ := removeClauseAndCover_spec _ _ _ _ _ _ hr
  refine ⟨?_, hl.trans h.2.1, ?_⟩
  · intro Y hY x hx
    obtain ⟨-, Y0, hY0, -, rfl⟩ := hmem Y hY
    exact h.1 Y0 hY0 x (Finset.mem_sdiff.mp hx).1
  · unfold removeClauseAndCover at hr
    split at hr
    · cases hr
    · split at hr
      · cases hr
      · simp only [Option.some.injEq, Prod.mk.injEq] at hr
        obtain ⟨rfl, rfl⟩ := hr
        unfold ClauseAssign.Agrees
        simp only
        rw [(markRemoved_count _ 0 a1.vals).1, (markRemoved_count _ 0 a1.vals).2, h.2.2.1,
          h.2.2.2]
        exact ⟨rfl, rfl⟩

theorem counted_exclude {K : Nat} {covers cs : List Cover} {a : ClauseAssign} {cur : Nat}
    (h : Counted K covers a) (h0 : a.get cur = 0) (hK : cur < K)
    (hrc : removeClause covers cur = some cs) :
    Counted K cs { a.put cur (-1) with numNeg := a.numNeg + 1 } := by
  obtain ⟨hmem, -, -, -, -⟩ := removeClause_spec _ _ _ hrc
  refine ⟨?_, by simp [ClauseAssign.put, h.2.1], agrees_put_neg h.2.2 (h.2.1 ▸ hK) h0⟩
  intro Y hY x hx
  obtain ⟨t, ht, rfl⟩ := hmem Y hY
  exact h.1 t ht x (Finset.mem_of_mem_erase hx)

theorem agrees_append_singleton {t : List ClauseAssign} {x : ClauseAssign}
    (ht : ∀ y ∈ t, y.Agrees) (hx : x.Agrees) : ∀ y ∈ t ++ [x], y.Agrees := by
  intro y hy
  rcases List.mem_append.mp hy with h | h
  · exact ht y h
  · rw [List.mem_singleton] at h
    exact h ▸ hx

/-- The logged loop over the covers containing `curClause` follows `tryCovers` and records
only assignments whose counters agree with the vector. -/
theorem tryCoversL_spec
    {rec : List Cover → ClauseAssign → MUSbuilder → Outcome × MUSbuilder}
    {recL : List Cover → ClauseAssign → Logged → Outcome × Logged} {K : Nat}
    (hrec : ∀ nc na b t, Counted K nc na → (∀ x ∈ t, x.Agrees) →
      LoggedOf (recL nc na (b, t)) (rec nc na b))
    (covers : List Cover) (a1 : ClauseAssign) (cur : Nat) (hcov : Counted K covers a1)
    (todo : List Cover) (b : MUSbuilder) (t : List ClauseAssign) (ht : ∀ x ∈ t, x.Agrees) :
    LoggedOf (tryCoversL recL covers a1 cur todo (b, t)) (tryCovers rec covers a1 cur todo b)
    := by
  induction todo generalizing b t with
  | nil => exact ⟨rfl, rfl, ht⟩
  | cons c rest ih =>
    simp only [tryCoversL, tryCovers]
    by_cases hc : c = ∅
    · rw [if_pos hc, if_pos hc]; exact ⟨rfl, rfl, ht⟩
    · rw [if_neg hc, if_neg hc]
      by_cases hcur : cur ∈ c
      · rw [if_pos hcur, if_pos hcur]
        cases hrcc : removeClauseAndCover covers a1 cur c with
        | none => exact ⟨rfl, rfl, ht⟩
        | some r =>
          obtain ⟨nc, na⟩ := r
          have hnc : Counted K nc na := counted_rcc hcov hrcc
          have hT := hrec nc na b (t ++ [na]) hnc (agrees_append_singleton ht hnc.2.2)
          simp only
          rcases hres : rec nc na b with ⟨o, b1⟩
          rcases hresT : recL nc na (b, t ++ [na]) with ⟨oT, bT, tT⟩
          rw [hres, hresT] at hT
          obtain ⟨e1, e2, e3⟩ := hT
          simp only at e1 e2 e3
          subst e1 e2
          cases oT with
          | ret sk =>
            cases sk with
            | true => exact ⟨rfl, rfl, e3⟩
            | false => exact ih bT tT e3
          | abort => exact ⟨rfl, rfl, e3⟩
          | hang => exact ⟨rfl, rfl, e3⟩
          | fuel => exact ⟨rfl, rfl, e3⟩
      · rw [if_neg hcur, if_neg hcur]
        exact ih b t ht

/-- The logged loop over the selector positions follows `splitLoop` and records only
assignments whose counters agree with the vector. -/
theorem splitLoopL_spec
    {rec : List Cover → ClauseAssign → MUSbuilder → Outcome × MUSbuilder}
    {recL : List Cover → ClauseAssign → Logged → Outcome × Logged} {K : Nat}
    (hrec : ∀ nc na b t, Counted K nc na → (∀ x ∈ t, x.Agrees) →
      LoggedOf (recL nc na (b, t)) (rec nc na b))
    (k cur : Nat) (covers : List Cover) (a : ClauseAssign) (hk : cur + k = K)
    (hcov : Counted K covers a)
    (b : MUSbuilder) (t : List ClauseAssign) (ht : ∀ x ∈ t, x.Agrees) :
    LoggedOf (splitLoopL recL k cur covers a (b, t)) (splitLoop rec k cur covers a b) := by
  induction k generalizing cur covers a b t with
  | zero => exact ⟨rfl, rfl, ht⟩
  | succ k ih =>
    simp only [splitLoopL, splitLoop]
    by_cases h0 : a.get cur = 0
    · rw [if_neg (not_not.mpr h0), if_neg (not_not.mpr h0)]
      have hK : cur < K := by omega
      have hone := counted_put_one hcov h0 hK
      have hneg : ({ a.put cur (-1) with numNeg := a.numNeg + 1 } : ClauseAssign).Agrees :=
        agrees_put_neg hcov.2.2 (hcov.2.1 ▸ hK) h0
      have hT := tryCoversL_spec hrec covers { a.put cur 1 with numPos := a.numPos + 1 } cur
        hone covers b (t ++ [{ a.put cur 1 with numPos := a.numPos + 1 }])
        (agrees_append_singleton ht hone.2.2)
      rcases hres : tryCovers rec covers { a.put cur 1 with numPos := a.numPos + 1 } cur
        covers b with ⟨o, b1⟩
      rcases hresT : tryCoversL recL covers { a.put cur 1 with numPos := a.numPos + 1 } cur
        covers (b, t ++ [{ a.put cur 1 with numPos := a.numPos + 1 }]) with ⟨oT, bT, tT⟩
      rw [hresT]
      rw [hres, hresT] at hT
      obtain ⟨e1, e2, e3⟩ := hT
      simp only at e1 e2 e3
      subst e1 e2
      cases oT with
      | ret sk =>
        simp only
        cases hrc : removeClause covers cur with
        | none => exact ⟨rfl, rfl, agrees_append_singleton e3 hneg⟩
        | some cs =>
          exact ih (cur + 1) cs _ (by omega) (counted_exclude hcov h0 hK hrc) bT _
            (agrees_append_singleton e3 hneg)
      | abort => exact ⟨rfl, rfl, e3⟩
      | hang => exact ⟨rfl, rfl, e3⟩
      | fuel => exact ⟨rfl, rfl, e3⟩
    · rw [if_pos h0, if_pos h0]
      exact ih (cur + 1) covers a (by omega) hcov b t ht

/-- The logged `constructMUS` follows `constructMUS` and records only assignments whose
counters agree with the vector. -/
theorem constructMUSL_eq (K n : Nat) (covers : List Cover) (a : ClauseAssign)
    (b : MUSbuilder) (t : List ClauseAssign) (hcov : Counted K covers a)
    (ht : ∀ x ∈ t, x.Agrees) :
    LoggedOf (constructMUSL n covers a (b, t)) (constructMUS n covers a b) := by
  induction n generalizing covers a b t with
  | zero => exact ⟨rfl, rfl, ht⟩
  | succ n ih =>
    simp only [constructMUSL, constructMUS]
    cases hp : propagateSingletons covers a with
    | none => exact ⟨rfl, rfl, ht⟩
    | some r =>
      obtain ⟨cs, a0⟩ := r
      have h0 : Counted K cs a0 := counted_propagate hcov hp
      have ht0 := agrees_append_singleton ht h0.2.2
      simp only
      cases hbh : boundHit b cs a0 with
      | none => exact ⟨rfl, rfl, ht0⟩
      | some hit =>
        cases hit with
        | true => exact ⟨rfl, rfl, ht0⟩
        | false =>
          simp only
          by_cases hvis : a0.vals ∈ b.beenHere
          · rw [if_pos hvis, if_pos hvis]; exact ⟨rfl, rfl, ht0⟩
          · rw [if_neg hvis, if_neg hvis]
            by_cases hemp : cs = []
            · rw [if_pos hemp, if_pos hemp]
              exact ⟨rfl, rfl, ht0⟩
            · rw [if_neg hemp, if_neg hemp]
              exact splitLoopL_spec (fun nc na b1 t1 h1 h2 => ih nc na b1 t1 h1 h2)
                a0.vals.length 0 cs a0 (by rw [h0.2.1]; omega) h0 _ _ ht0

/-! ## Claim: the cached counters agree with the vector -/

/-- **C34.**  In a run of `constructMUS` from the all-zero assignment of length `K` (whose
counters are `0`) on a family over `[0, K)`, in particular one with no empty cover and no
cover that is a subset of another, the cached counters agree with the vector at every point:
for the initial assignment, for the assignment of every call after `propagateSingletons`,
after every inclusion `curAssign[curClause] = 1; numPos++`, for the assignment passed to
every recursive call (as `removeClauseAndCover` leaves it) and after every exclusion
`curAssign[curClause] = -1; numPos--; numNeg++`, `numPos` is the number of entries equal to
`+1` and `numNeg` the number of entries equal to `-1`.  The record is kept by
`constructMUSL`, which computes the result of `constructMUS`; every budget, every builder
state, with or without branch-and-bound. -/
theorem constructMUS_counters_agree (covers : List Cover) (K n : Nat) (b : MUSbuilder)
    (hr : InRange K covers) :
    (constructMUSL n covers (ClauseAssign.zero K) (b, [])).1
      = (constructMUS n covers (ClauseAssign.zero K) b).1 ∧
    (constructMUSL n covers (ClauseAssign.zero K) (b, [])).2.1
      = (constructMUS n covers (ClauseAssign.zero K) b).2 ∧
    ∀ x ∈ ClauseAssign.zero K :: (constructMUSL n covers (ClauseAssign.zero K) (b, [])).2.2,
      x.numPos = x.vals.count 1 ∧ x.numNeg = x.vals.count (-1) := by
  obtain ⟨h1, h2, h3⟩ := constructMUSL_eq K n covers (ClauseAssign.zero K) b []
    ⟨hr, by simp [ClauseAssign.zero], zero_agrees K⟩
    (fun x hx => absurd hx (List.not_mem_nil _))
  refine ⟨h1, h2, fun x hx => ?_⟩
  rcases List.mem_cons.mp hx with rfl | hx
  · exact zero_agrees K
  · exact h3 x hx

/-- Witness of **C34**: the covers `{0,1}`, `{0,2}`, `{1,2}` over `[0, 3)` under
branch-and-bound; the record of the run is not empty. -/
theorem constructMUS_counters_agree_witness :
    InRange 3 [{0, 1}, {0, 2}, {1, 2}] ∧
    (constructMUSL 4 [{0, 1}, {0, 2}, {1, 2}] (ClauseAssign.zero 3)
      (MUSbuilder.init true, [])).2.2 ≠ [] ∧
    ∀ x ∈ ClauseAssign.zero 3 :: (constructMUSL 4 [{0, 1}, {0, 2}, {1, 2}]
        (ClauseAssign.zero 3) (MUSbuilder.init true, [])).2.2,
      x.numPos = x.vals.count 1 ∧ x.numNeg = x.vals.count (-1) :=
  ⟨by unfold InRange; decide, by decide,
    (constructMUS_counters_agree [{0, 1}, {0, 2}, {1, 2}] 3 4 (MUSbuilder.init true)
      (by unfold InRange; decide)).2.2⟩

end Camus
